import Mathlib

/-! Grid layout of control-flow graphs (`GraphGridLayout.cpp`).

A shallow embedding of `GraphGridLayout::topoSort`, `computeBlockPlacement`,
`adjustGraphLayout`, the lane tracker (`isEdgeMarked`, `markEdge`,
`findHorizEdgeIndex`, `findVertEdgeIndex`), `routeEdge` and `CalculateLayout`,
followed by theorems about them.

Conventions of the embedding.

* `ut64` identifiers are `Nat`; C++ `int` values are `Int` (no arithmetic of
  the layout is taken modulo a power of two: signed overflow is undefined in
  the source and none of the statements below relies on it).
* `std::unordered_map<ut64, GraphBlock>` is an association list in iteration
  order; `std::unordered_map<ut64, GridBlock>` is a total function giving the
  value-initialised block on keys never written, together with the list of
  keys that exist.
* The lane tables (`EdgesVector`) and the node occupancy matrix are total
  functions of the cell `(row, col)`; the sizes given by `resize` are kept
  next to them where the source reads them.
* Loops without a bound in the source (`while (true)`, `while (changed)`,
  recursion along `tree_edge`) take a fuel computed from the state; they
  answer `none` when the fuel runs out.
-/

set_option autoImplicit false

namespace GraphGridLayout

/-! ## Data model -/

/-- Pixel point of a polyline (`QPoint`, stored in a `QPolygonF`). -/
abbrev Pixel := Int × Int

/-- Edge of a node as the caller supplies it: `GraphLayout::GraphEdge`. -/
structure GraphEdge where
  target : Nat
  polyline : List Pixel
  deriving DecidableEq, Repr

/-- Node as the caller supplies it: `GraphLayout::GraphBlock`. -/
structure GraphBlock where
  x : Int
  y : Int
  width : Int
  height : Int
  entry : Nat
  edges : List GraphEdge
  deriving DecidableEq, Repr

/-- Modelled from the spec: the value-initialised `GraphBlock` that
`operator[]` of the node map creates for an absent key (the type is declared
in GraphLayout.h, which is not among the sources): all numbers zero, no edge. -/
def GraphBlock.fresh : GraphBlock :=
  { x := 0, y := 0, width := 0, height := 0, entry := 0, edges := [] }

/-- The node map `std::unordered_map<ut64, GraphBlock>`, in iteration order. -/
abbrev Blocks := List (Nat × GraphBlock)

/-- Keys of the node map, in iteration order. -/
def keysOf (blocks : Blocks) : List Nat := blocks.map Prod.fst

/-- Test `blocks.count(k)` of the source. -/
def hasKey (blocks : Blocks) (k : Nat) : Bool := decide (k ∈ keysOf blocks)

/-- Read access `blocks[k]` on the node map (value-initialised block when the
key is absent; the insertion is `ensureKey`). -/
def blockAt (blocks : Blocks) (k : Nat) : GraphBlock :=
  match blocks.lookup k with
  | some b => b
  | none => GraphBlock.fresh

/-- Insertion done by `blocks[k]` when `k` is not a key. -/
def ensureKey (blocks : Blocks) (k : Nat) : Blocks :=
  if hasKey blocks k then blocks else blocks ++ [(k, GraphBlock.fresh)]

/-- Modelled from the spec: `GraphGridLayout::GridBlock`, declared in
GraphGridLayout.h, which is not among the sources. The fields are the ones
the source reads and writes; the numbers start at zero. -/
structure GridBlock where
  id : Nat
  tree_edge : List Nat
  incoming : List Nat
  row_count : Int
  col_count : Int
  col : Int
  row : Int
  deriving DecidableEq, Repr

/-- Modelled from the spec: the value-initialised `GridBlock` (type declared
in GraphGridLayout.h, not among the sources): zero everywhere, no edge. -/
def GridBlock.fresh : GridBlock :=
  { id := 0, tree_edge := [], incoming := [], row_count := 0, col_count := 0,
    col := 0, row := 0 }

/-- The map `grid_blocks`, as a total function. -/
abbrev Grid := Nat → GridBlock

/-- Function `removeFromVec`: erase every occurrence of `elem`. -/
def removeFromVec (vec : List Nat) (elem : Nat) : List Nat :=
  vec.filter (fun x => decide (x ≠ elem))

/-! ## `topoSort` -/

/-- One `push_back` of the loop that populates the incoming lists. -/
def pushIncoming (src : Nat) (g : Grid) (e : GraphEdge) : Grid :=
  Function.update g e.target
    { g e.target with incoming := (g e.target).incoming ++ [src] }

/-- Lines 23-28: populate the incoming lists. -/
def populateIncoming (blocks : Blocks) (g : Grid) : Grid :=
  blocks.foldl (fun g kb => kb.2.edges.foldl (pushIncoming kb.1) g) g

/-- Keys of `grid_blocks` created by the loop that populates the incoming
lists: `pre` extended by every edge target not yet a key. -/
def populateKeys (blocks : Blocks) (pre : List Nat) : List Nat :=
  blocks.foldl
    (fun ks kb => kb.2.edges.foldl
      (fun ks e => if e.target ∈ ks then ks else ks ++ [e.target]) ks) pre

/-- Local state of `topoSort`. -/
structure TopoState where
  grid : Grid
  visited : List Nat
  queue : List Nat
  block_order : List Nat
  changed : Bool

/-- Body of the loop over `block.edges` at lines 45-68; `src` is `block.entry`. -/
def visitEdge (blocks : Blocks) (src : Nat) (s : TopoState) (edgeDescr : GraphEdge) :
    TopoState :=
  let edge := edgeDescr.target
  if edge ∈ s.visited then s
  else if !hasKey blocks edge then s
  else if (s.grid edge).incoming.length = 1 then
    let g1 := Function.update s.grid edge
      { s.grid edge with incoming := removeFromVec (s.grid edge).incoming src }
    let g2 := Function.update g1 src
      { g1 src with tree_edge := (g1 src).tree_edge ++ [edge] }
    { s with grid := g2, queue := s.queue ++ [(blockAt blocks edge).entry],
             visited := edge :: s.visited, changed := true }
  else
    let g1 := Function.update s.grid edge
      { s.grid edge with incoming := removeFromVec (s.grid edge).incoming src }
    { s with grid := g1 }

/-- The loop `while (!queue.empty())` at lines 41-69. -/
def drain (blocks : Blocks) : Nat → TopoState → Option TopoState
  | fuel, s =>
    match s.queue with
    | [] => some s
    | q :: rest =>
      match fuel with
      | 0 => none
      | fuel + 1 =>
        let block := blockAt blocks q
        let s1 := { s with queue := rest, block_order := s.block_order ++ [block.entry] }
        drain blocks fuel (block.edges.foldl (visitEdge blocks block.entry) s1)

/-- The variables `best`, `best_edges`, `best_parent` of the fallback scan
(`best_edges` is read only after `best` was set to a non-zero value). -/
structure Best where
  best : Nat
  best_edges : Int
  best_parent : Nat
  deriving DecidableEq, Repr

/-- Body of the inner loop of the fallback scan, lines 81-97. -/
def scanEdge (blocks : Blocks) (s : TopoState) (src : Nat) (b : Best)
    (edgeDescr : GraphEdge) : Best :=
  let edge := edgeDescr.target
  if edge ∈ s.visited then b
  else if !hasKey blocks edge then b
  else
    let n : Int := ((s.grid edge).incoming.length : Int)
    if b.best = 0 ∨ n < b.best_edges ∨ (n = b.best_edges ∧ edge < b.best) then
      { best := edge, best_edges := n, best_parent := src }
    else b

/-- The fallback scan, lines 72-98. -/
def scanBlocks (blocks : Blocks) (s : TopoState) : Best :=
  blocks.foldl
    (fun b kb =>
      if kb.2.entry ∈ s.visited then kb.2.edges.foldl (scanEdge blocks s kb.2.entry) b
      else b)
    { best := 0, best_edges := 0, best_parent := 0 }

/-- Lines 99-106: adopt the node chosen by the fallback scan. -/
def adoptBest (s : TopoState) (b : Best) : TopoState :=
  if b.best ≠ 0 then
    let g1 := Function.update s.grid b.best
      { s.grid b.best with incoming := removeFromVec (s.grid b.best).incoming b.best_parent }
    let g2 := Function.update g1 b.best_parent
      { g1 b.best_parent with tree_edge := (g1 b.best_parent).tree_edge ++ [b.best] }
    { s with grid := g2, visited := b.best :: s.visited, queue := s.queue ++ [b.best],
             changed := true }
  else s

/-- Number of keys of the node map that are not visited. -/
def unvisitedCount (blocks : Blocks) (visited : List Nat) : Nat :=
  ((keysOf blocks).filter (fun k => decide (k ∉ visited))).length

/-- The loop `while (changed)` at lines 37-107, entered with `changed` true. -/
def mainLoop (blocks : Blocks) : Nat → TopoState → Option TopoState
  | 0, _ => none
  | fuel + 1, s =>
    match drain blocks (s.queue.length + unvisitedCount blocks s.visited)
        { s with changed := false } with
    | none => none
    | some s1 =>
      let s2 := adoptBest s1 (scanBlocks blocks s1)
      if s2.changed then mainLoop blocks fuel s2 else some s2

/-- Result of `topoSort`: the returned order, the node map (which `blocks[entry]`
extends when the entry is not a key) and the grid blocks with their keys. -/
structure TopoResult where
  order : List Nat
  blocks : Blocks
  grid : Grid
  gridKeys : List Nat

/-- Lines 21-36 of `topoSort`: the state in which the loop is entered. -/
def topoInit (blocks : Blocks) (grid : Grid) (entry : Nat) : TopoState :=
  { grid := populateIncoming blocks grid, visited := [entry], queue := [entry],
    block_order := [], changed := true }

/-- Function `GraphGridLayout::topoSort`. -/
def topoSort (blocks : Blocks) (grid : Grid) (gridKeys : List Nat) (entry : Nat) :
    Option TopoResult :=
  let blocks1 := ensureKey blocks entry
  match mainLoop blocks1 (unvisitedCount blocks1 [entry] + 2) (topoInit blocks grid entry) with
  | none => none
  | some s =>
    some { order := s.block_order, blocks := blocks1, grid := s.grid,
           gridKeys := populateKeys blocks gridKeys }

/-- Lines 117-121 of `CalculateLayout`: one grid block per key of the node map. -/
def initGrid (blocks : Blocks) : Grid :=
  blocks.foldl (fun g kb => Function.update g kb.1 { GridBlock.fresh with id := kb.1 })
    (fun _ => GridBlock.fresh)

/-- Node with the given key and edge targets (sizes and positions zero). -/
def mkBlock (k : Nat) (targets : List Nat) : Nat × GraphBlock :=
  (k, { x := 0, y := 0, width := 0, height := 0, entry := k,
        edges := targets.map (fun t => { target := t, polyline := [] }) })

/-! ## `computeBlockPlacement` and `adjustGraphLayout` -/

/-- The three layout types `GraphGridLayout::LayoutType`. -/
inductive LayoutType where
  | Narrow
  | Medium
  | Wide
  deriving DecidableEq, Repr

/-- Run `step` on the elements of a list from left to right, threading the grid
(the `for` loops over `tree_edge`). -/
def forEdges (step : Grid → Nat → Option Grid) : List Nat → Grid → Option Grid
  | [], g => some g
  | e :: es, g =>
    match step g e with
    | none => none
    | some g1 => forEdges step es g1

/-- The two assignments `block.col += col; block.row += row`. -/
def GridBlock.move (block : GridBlock) (col row : Int) : GridBlock :=
  { block with col := block.col + col, row := block.row + row }

/-- Function `GraphGridLayout::adjustGraphLayout`, the block given by its key. -/
def adjustGraphLayout : Nat → Grid → Nat → Int → Int → Option Grid
  | 0, _, _, _, _ => none
  | fuel + 1, g, id, col, row =>
    let g1 := Function.update g id ((g id).move col row)
    forEdges (fun g2 e => adjustGraphLayout fuel g2 e col row) (g1 id).tree_edge g1

/-- The loop at lines 301-307: place every child, keeping `row_count` and
`childColumn`. -/
def placeChildren (place : Nat → Grid → Option Grid) :
    List Nat → Grid → Int → Int → Option (Grid × Int × Int)
  | [], g, row_count, childColumn => some (g, row_count, childColumn)
  | edge :: es, g, row_count, _ =>
    match place edge g with
    | none => none
    | some g1 =>
      placeChildren place es g1 (max ((g1 edge).row_count + 1) row_count) (g1 edge).col

/-- The loop at lines 334-337: children side by side, `col` the running total. -/
def sideBySide (fuel : Nat) : List Nat → Grid → Int → Option (Grid × Int)
  | [], g, col => some (g, col)
  | edge :: es, g, col =>
    match adjustGraphLayout fuel g edge col 1 with
    | none => none
    | some g1 => sideBySide fuel es g1 (col + (g1 edge).col_count)

/-- Lines 327-332: column count and column of a node with two children `l`,
`r` under Narrow or Medium, `col` being the width found for the children. -/
def finishTwo (layoutType : LayoutType) (g : Grid) (blockId l r : Nat)
    (singleChild : Bool) (childColumn col : Int) : Grid :=
  let g1 := Function.update g blockId { g blockId with col_count := max 2 col }
  if layoutType = LayoutType.Medium then
    Function.update g1 blockId
      { g1 blockId with col := Int.tdiv ((g1 l).col + (g1 r).col) 2 }
  else
    Function.update g1 blockId
      { g1 blockId with col := if singleChild then childColumn else Int.tdiv (col - 2) 2 }

/-- Lines 309-332: a node with two children `l`, `r` under Narrow or Medium. -/
def placeTwo (layoutType : LayoutType) (fuel : Nat) (g : Grid) (blockId l r : Nat)
    (singleChild : Bool) (childColumn : Int) : Option Grid :=
  if (g l).tree_edge.length = 0 then
    let g1 := Function.update g l { g l with col := (g r).col - 2 }
    let add : Int := if (g1 l).col < 0 then - (g1 l).col else 0
    match adjustGraphLayout fuel g1 r add 1 with
    | none => none
    | some g2 =>
      match adjustGraphLayout fuel g2 l add 1 with
      | none => none
      | some g3 =>
        some (finishTwo layoutType g3 blockId l r singleChild childColumn
          ((g3 r).col_count + add))
  else if (g r).tree_edge.length = 0 then
    match adjustGraphLayout fuel g l 0 1 with
    | none => none
    | some g2 =>
      match adjustGraphLayout fuel g2 r ((g2 l).col + 2) 1 with
      | none => none
      | some g3 =>
        some (finishTwo layoutType g3 blockId l r singleChild childColumn
          (max (g3 l).col_count ((g3 r).col + 2)))
  else
    match adjustGraphLayout fuel g l 0 1 with
    | none => none
    | some g2 =>
      match adjustGraphLayout fuel g2 r (g2 l).col_count 1 with
      | none => none
      | some g3 =>
        some (finishTwo layoutType g3 blockId l r singleChild childColumn
          ((g3 l).col_count + (g3 r).col_count))

/-- Lines 333-348: the children side by side, then the column and the column
count of the node. -/
def placeRow (fuel : Nat) (g : Grid) (blockId : Nat) (tree_edge : List Nat)
    (singleChild : Bool) (childColumn : Int) : Option Grid :=
  match sideBySide fuel tree_edge g 0 with
  | none => none
  | some (g2, col) =>
    if 2 ≤ col then
      some (Function.update g2 blockId
        { g2 blockId with
          col := if singleChild then childColumn else Int.tdiv (col - 2) 2,
          col_count := col })
    else
      some (Function.update g2 blockId { g2 blockId with col := 0, col_count := 2 })

/-- Function `GraphGridLayout::computeBlockPlacement`. -/
def computeBlockPlacement (layoutType : LayoutType) : Nat → Nat → Grid → Option Grid
  | 0, _, _ => none
  | fuel + 1, blockId, g =>
    let tree_edge := (g blockId).tree_edge
    let singleChild : Bool := decide (tree_edge.length = 1)
    match placeChildren (computeBlockPlacement layoutType fuel) tree_edge g 1 0 with
    | none => none
    | some (g1, row_count, childColumn) =>
      let placed : Option Grid :=
        match decide (layoutType ≠ LayoutType.Wide), tree_edge with
        | true, [l, r] => placeTwo layoutType fuel g1 blockId l r singleChild childColumn
        | _, _ => placeRow fuel g1 blockId tree_edge singleChild childColumn
      match placed with
      | none => none
      | some g3 =>
        some (Function.update g3 blockId { g3 blockId with row := 0, row_count := row_count })

/-! ## Lane tracker -/

/-- The type `EdgesVector`: for every cell `(row, col)` its list of lane flags. -/
abbrev EdgesVector := Int → Int → List Bool

/-- Function `GraphGridLayout::isEdgeMarked`. -/
def isEdgeMarked (edges : EdgesVector) (row col : Int) (index : Nat) : Bool :=
  if index ≥ (edges row col).length then false else (edges row col).getD index false

/-- Lane list after the `while`/assignment of `markEdge`: padded with `false`
up to `index`, then flag `index` set to `used`. -/
def setLane (lanes : List Bool) (index : Nat) (used : Bool) : List Bool :=
  (lanes ++ List.replicate (index + 1 - lanes.length) false).set index used

/-- Function `GraphGridLayout::markEdge`. -/
def markEdge (edges : EdgesVector) (row col : Int) (index : Nat) (used : Bool) :
    EdgesVector :=
  fun r c => if r = row ∧ c = col then setLane (edges r c) index used else edges r c

/-- The integers `lo, lo + 1, ..., hi` (a loop `for (x = lo; x < hi + 1; x++)`). -/
def intRange (lo hi : Int) : List Int :=
  (List.range (hi + 1 - lo).toNat).map (fun (k : Nat) => lo + (k : Int))

/-- The search `while (...) i++`: the first index from `i` on at which `marked`
is false, trying at most `fuel` indices. -/
def firstFree (marked : Nat → Bool) : Nat → Nat → Nat
  | 0, i => i
  | fuel + 1, i => if marked i then firstFree marked fuel (i + 1) else i

/-- Longest lane list among the given cells: no index from there on is marked. -/
def laneBound (edges : EdgesVector) (cells : List (Int × Int)) : Nat :=
  cells.foldl (fun m rc => max m (edges rc.1 rc.2).length) 0

/-- First-fit allocation over a list of cells, the common body of
`findHorizEdgeIndex` and `findVertEdgeIndex`: the first index marked in none
of the cells, then marked in all of them. -/
def findEdgeIndex (edges : EdgesVector) (cells : List (Int × Int)) : Nat × EdgesVector :=
  let i := firstFree (fun i => cells.any (fun rc => isEdgeMarked edges rc.1 rc.2 i))
    (laneBound edges cells) 0
  (i, cells.foldl (fun e rc => markEdge e rc.1 rc.2 i true) edges)

/-- Function `GraphGridLayout::findHorizEdgeIndex`. -/
def findHorizEdgeIndex (edges : EdgesVector) (row min_col max_col : Int) :
    Nat × EdgesVector :=
  findEdgeIndex edges ((intRange min_col max_col).map (fun c => (row, c)))

/-- Function `GraphGridLayout::findVertEdgeIndex`. -/
def findVertEdgeIndex (edges : EdgesVector) (col min_row max_row : Int) :
    Nat × EdgesVector :=
  findEdgeIndex edges ((intRange min_row max_row).map (fun r => (r, col)))

/-! ## `routeEdge` -/

/-- Waypoint of a routed edge: `GraphGridLayout::Point`. -/
structure Point where
  row : Int
  col : Int
  index : Nat
  deriving DecidableEq, Repr

/-- Routed edge: `GraphGridLayout::GridEdge` (without its pixel polyline, which
the source stores in the node map). -/
structure GridEdge where
  dest : Nat
  points : List Point
  start_index : Nat
  deriving DecidableEq, Repr

/-- Modelled from the spec: the value-initialised `GridEdge` that `resize`
creates (type declared in GraphGridLayout.h, not among the sources). -/
def GridEdge.fresh : GridEdge := { dest := 0, points := [], start_index := 0 }

/-- Store lane `index` on waypoint number `k` of a path (`points[k].index = index`). -/
def patchIndex : List Point → Nat → Nat → List Point
  | [], _, _ => []
  | p :: ps, 0, index => { p with index := index } :: ps
  | p :: ps, k + 1, index => p :: patchIndex ps k index

/-- Modelled from the spec: `GridEdge::addPoint(row, col, index = 0)`, declared
in GraphGridLayout.h, which is not among the sources. The waypoint `(row, col)`
is appended with lane 0 and `index`, the lane of the segment that arrives at
it, is stored on the waypoint before it: the geometry compiler reads the lane
of a segment from the waypoint it leaves, and `routeEdge` patches the lane of
the last waypoint itself. -/
def GridEdge.addPoint (e : GridEdge) (row col : Int) (index : Nat) : GridEdge :=
  let pts := e.points ++ [{ row := row, col := col, index := 0 }]
  { e with points := if 1 < pts.length then patchIndex pts (pts.length - 2) index else pts }

/-- The matrix `edge_valid`: its cells and the common size of its rows. -/
structure Matrix where
  ncols : Int
  cell : Int → Int → Bool

/-- The lambda `checkColumn` of `routeEdge`. -/
def checkColumn (edge_valid : Matrix) (min_row max_row : Int) (column : Int) : Bool :=
  if column < 0 ∨ column ≥ edge_valid.ncols then false
  else (intRange min_row (max_row - 1)).all (fun row => edge_valid.cell row column)

/-- The loop `while (true)` at lines 422-434, from offset `ofs` on. -/
def probeColumn (check : Int → Bool) (c0 : Int) : Nat → Int → Option Int
  | 0, _ => none
  | fuel + 1, ofs =>
    if check (c0 - ofs) then some (c0 - ofs)
    else if check (c0 + ofs) then some (c0 + ofs)
    else probeColumn check c0 fuel (ofs + 1)

/-- Lines 404-437: the column of the vertical segment. The probe is given as
many steps as there are offsets at which a column can pass `checkColumn`. -/
def chooseColumn (edge_valid : Matrix) (start end_ : GridBlock) (min_row max_row : Int) :
    Option Int :=
  let col := start.col + 1
  if min_row ≠ max_row then
    if !checkColumn edge_valid min_row max_row col then
      if checkColumn edge_valid min_row max_row (end_.col + 1) then some (end_.col + 1)
      else
        probeColumn (checkColumn edge_valid min_row max_row) (start.col + 1)
          ((max (start.col + 1) (edge_valid.ncols - (start.col + 1))).toNat + 1) 0
    else some col
  else some col

/-- The lane tables `horiz_edges` and `vert_edges`. -/
structure Lanes where
  horiz_edges : EdgesVector
  vert_edges : EdgesVector

/-- State of `routeEdge` between its steps: the path so far, the lane tables
and the flag `horiz`. -/
structure Route where
  edge : GridEdge
  lanes : Lanes
  horiz : Bool

/-- Index `i` of lines 386-389: the first lane of the cell below `start` that
is not marked in `vert_edges`. -/
def stubIndex (t : Lanes) (start : GridBlock) : Nat :=
  firstFree (fun i => isEdgeMarked t.vert_edges (start.row + 1) (start.col + 1) i)
    (t.vert_edges (start.row + 1) (start.col + 1)).length 0

/-- Lines 382-393 of `routeEdge`: the initial outgoing stub. -/
def routeStart (t : Lanes) (start end_ : GridBlock) : Route :=
  let i := stubIndex t start
  let edge0 : GridEdge := { GridEdge.fresh with dest := end_.id }
  { edge := { edge0.addPoint (start.row + 1) (start.col + 1) 0 with start_index := i },
    lanes := { t with
      vert_edges := markEdge t.vert_edges (start.row + 1) (start.col + 1) i true },
    horiz := false }

/-- Lines 439-452 of `routeEdge`: move to the chosen column. -/
def routeToColumn (start : GridBlock) (col : Int) (r : Route) : Route :=
  if col ≠ start.col + 1 then
    let min_col := if col < start.col + 1 then col else start.col + 1
    let max_col := if col < start.col + 1 then start.col + 1 else col
    let f := findHorizEdgeIndex r.lanes.horiz_edges (start.row + 1) min_col max_col
    { edge := r.edge.addPoint (start.row + 1) col f.1,
      lanes := { r.lanes with horiz_edges := f.2 },
      horiz := true }
  else r

/-- Lines 454-463 of `routeEdge`: move to the row of `end`; `i` is the lane of
the initial stub. -/
def routeToRow (start end_ : GridBlock) (col min_row max_row : Int) (i : Nat)
    (r : Route) : Route :=
  if end_.row ≠ start.row + 1 then
    let vert2 :=
      if col = start.col + 1 then
        markEdge r.lanes.vert_edges (start.row + 1) (start.col + 1) i false
      else r.lanes.vert_edges
    let f := findVertEdgeIndex vert2 col min_row max_row
    let e : GridEdge :=
      if col = start.col + 1 then { r.edge with start_index := f.1 } else r.edge
    { edge := e.addPoint end_.row col f.1,
      lanes := { r.lanes with vert_edges := f.2 },
      horiz := false }
  else r

/-- Lines 465-478 of `routeEdge`: move to the column of `end`. -/
def routeToEnd (end_ : GridBlock) (col : Int) (r : Route) : Route :=
  if col ≠ end_.col + 1 then
    let min_col := if col < end_.col + 1 then col else end_.col + 1
    let max_col := if col < end_.col + 1 then end_.col + 1 else col
    let f := findHorizEdgeIndex r.lanes.horiz_edges end_.row min_col max_col
    { edge := r.edge.addPoint end_.row (end_.col + 1) f.1,
      lanes := { r.lanes with horiz_edges := f.2 },
      horiz := true }
  else r

/-- Lines 480-484 of `routeEdge`: the lane of the incoming stub. -/
def routeFinish (end_ : GridBlock) (r : Route) : GridEdge × Lanes :=
  if r.horiz then
    let f := findVertEdgeIndex r.lanes.vert_edges (end_.col + 1) end_.row end_.row
    ({ r.edge with points := patchIndex r.edge.points (r.edge.points.length - 1) f.1 },
     { r.lanes with vert_edges := f.2 })
  else (r.edge, r.lanes)

/-- Function `GraphGridLayout::routeEdge`; `none` when the probe for a free
column never ends. -/
def routeEdge (t : Lanes) (edge_valid : Matrix) (start end_ : GridBlock) :
    Option (GridEdge × Lanes) :=
  let min_row := if end_.row < start.row + 1 then end_.row else start.row + 1
  let max_row := if end_.row < start.row + 1 then start.row + 1 else end_.row
  match chooseColumn edge_valid start end_ min_row max_row with
  | none => none
  | some col =>
    some (routeFinish end_
      (routeToEnd end_ col
        (routeToRow start end_ col min_row max_row (stubIndex t start)
          (routeToColumn start col (routeStart t start end_)))))

/-! ## `CalculateLayout` -/

/-- The margins `layoutConfig` of the layout. -/
structure LayoutConfig where
  block_horizontal_margin : Int
  block_vertical_margin : Int

/-- The map `layoutState.edge`: the routed edges of every node. -/
abbrev EdgeMap := Nat → List GridEdge

/-- Lines 126-128: one slot per edge of every node of the map. -/
def initEdges (blocks : Blocks) : EdgeMap :=
  blocks.foldl
    (fun m kb => Function.update m kb.1 (List.replicate kb.2.edges.length GridEdge.fresh))
    (fun _ => [])

/-- Lines 135-146: the node occupancy matrix, every cell `true` except the
cell `(row, col + 1)` of each grid block. -/
def nodeCells (g : Grid) (gridKeys : List Nat) (ncols : Int) : Matrix :=
  gridKeys.foldl
    (fun m k =>
      { m with cell := fun r c =>
          if r = (g k).row ∧ c = (g k).col + 1 then false else m.cell r c })
    { ncols := ncols, cell := fun _ _ => true }

/-- The inner loop at lines 153-156: route the edges of one node in turn. -/
def routeEdges (g : Grid) (edge_valid : Matrix) (start : GridBlock) :
    List GraphEdge → Lanes → Option (List GridEdge × Lanes)
  | [], t => some ([], t)
  | e :: es, t =>
    match routeEdge t edge_valid start (g e.target) with
    | none => none
    | some (ge, t1) =>
      match routeEdges g edge_valid start es t1 with
      | none => none
      | some (ges, t2) => some (ge :: ges, t2)

/-- The loop at lines 149-157: route the edges of the nodes of `block_order`. -/
def routeAll (blocks : Blocks) (g : Grid) (edge_valid : Matrix) :
    List Nat → EdgeMap → Lanes → Option (EdgeMap × Lanes)
  | [], m, t => some (m, t)
  | blockId :: rest, m, t =>
    match routeEdges g edge_valid (g blockId) (blockAt blocks blockId).edges t with
    | none => none
    | some (ges, t1) =>
      routeAll blocks g edge_valid rest
        (if ges = [] then m else Function.update m blockId ges) t1

/-- An assignment `if (v > a[i]) a[i] = v`. -/
def raiseAt (a : Int → Int) (i v : Int) : Int → Int :=
  if v > a i then Function.update a i v else a

/-- Lines 160-170: the entry `row_edge_count[row]`. -/
def rowEdgeCount (t : Lanes) (col_count : Int) (row : Int) : Int :=
  (intRange 0 col_count).foldl (fun m c => max m ((t.horiz_edges row c).length : Int)) 0

/-- Lines 160-170: the entry `col_edge_count[col]`. -/
def colEdgeCount (t : Lanes) (row_count : Int) (col : Int) : Int :=
  (intRange 0 row_count).foldl (fun m r => max m ((t.vert_edges r col).length : Int)) 0

/-- Lines 174-186: the vectors `col_width` and `row_height`. -/
def blockSizes (blocks : Blocks) (g : Grid) : (Int → Int) × (Int → Int) :=
  blocks.foldl
    (fun wh kb =>
      let gb := g kb.1
      let w1 := raiseAt wh.1 gb.col (Int.tdiv kb.2.width 2)
      let w2 := raiseAt w1 (gb.col + 1) (Int.tdiv kb.2.width 2)
      (w2, raiseAt wh.2 gb.row kb.2.height))
    (fun _ => 0, fun _ => 0)

/-- The running value and the two vectors of one of the loops at lines
194-211: `(x, col_edge_x, col_x)` or `(y, row_edge_y, row_y)`. -/
structure Bands where
  pos : Int
  edge_pos : Int → Int
  node_pos : Int → Int

/-- The loops at lines 194-211 over `i = 0 .. n - 1`, then the assignment of
line 212 or 213; `count` is the lane count of a band (for rows already raised
to 1 when it is 0) and `size` the node size of a band. -/
def bands (margin : Int) (count size : Int → Int) (n : Int) : Bands :=
  let b := (List.range n.toNat).foldl
    (fun (b : Bands) (k : Nat) =>
      let i : Int := (k : Int)
      let e := Function.update b.edge_pos i b.pos
      let p := b.pos + margin * count i
      { pos := p + size i, edge_pos := e, node_pos := Function.update b.node_pos i p })
    { pos := margin * 2, edge_pos := fun _ => 0, node_pos := fun _ => 0 }
  { b with edge_pos := Function.update b.edge_pos n b.pos }

/-- Pixel geometry of the grid computed at lines 159-217. -/
structure Geometry where
  col_edge_count : Int → Int
  col_width : Int → Int
  col_x : Int → Int
  row_y : Int → Int
  col_edge_x : Int → Int
  row_edge_y : Int → Int
  width : Int
  height : Int

/-- Lines 159-217 of `CalculateLayout`. -/
def geometry (cfg : LayoutConfig) (blocks : Blocks) (g : Grid) (t : Lanes)
    (row_count col_count : Int) : Geometry :=
  let cec := colEdgeCount t row_count
  let rec0 := rowEdgeCount t col_count
  let wh := blockSizes blocks g
  let cols := bands cfg.block_horizontal_margin cec wh.1 col_count
  let rec1 : Int → Int := fun i =>
    if 0 ≤ i ∧ i < row_count ∧ rec0 i = 0 then 1 else rec0 i
  let rows := bands cfg.block_vertical_margin rec1 wh.2 row_count
  { col_edge_count := cec, col_width := wh.1,
    col_x := cols.node_pos, row_y := rows.node_pos,
    col_edge_x := cols.edge_pos, row_edge_y := rows.edge_pos,
    width := cols.pos + cfg.block_horizontal_margin * 2
      + cfg.block_horizontal_margin * cec col_count,
    height := rows.pos + cfg.block_vertical_margin * 2
      + cfg.block_vertical_margin * rec1 row_count }

/-- Body of the loop at lines 220-236: the pixel position of one node. -/
def placeNode (cfg : LayoutConfig) (geo : Geometry) (g : Grid) (k : Nat)
    (block : GraphBlock) : GraphBlock :=
  let column := (g k).col
  let row := (g k).row
  let right := geo.col_x column + geo.col_width column + geo.col_width (column + 1)
    + cfg.block_horizontal_margin * geo.col_edge_count (column + 1)
  let x0 := geo.col_x column + geo.col_width column
    + Int.tdiv cfg.block_horizontal_margin 2 * geo.col_edge_count (column + 1)
    - Int.tdiv block.width 2
  { block with x := if x0 + block.width > right then right - block.width else x0,
               y := geo.row_y row }

/-- The loop at lines 260-277: the pixel points of the waypoints. -/
def tracePoints (cfg : LayoutConfig) (geo : Geometry) :
    List Point → Int → Pixel → List Pixel
  | [], _, _ => []
  | p :: ps, start_col, last_pt =>
    let new_pt : Pixel :=
      if start_col = p.col then
        (last_pt.1, geo.row_edge_y p.row + cfg.block_vertical_margin * (p.index : Int)
          + Int.tdiv cfg.block_vertical_margin 2)
      else
        (geo.col_edge_x p.col + cfg.block_horizontal_margin * (p.index : Int)
          + Int.tdiv cfg.block_horizontal_margin 2, last_pt.2)
    new_pt :: tracePoints cfg geo ps p.col new_pt

/-- Lines 249-281: the polyline of a routed edge with waypoints `p0 :: ps`;
`target_y` is `blocks[edge.dest].y`. -/
def polylineOf (cfg : LayoutConfig) (geo : Geometry) (block : GraphBlock)
    (edge : GridEdge) (p0 : Point) (ps : List Point) (target_y : Int) : List Pixel :=
  let first_pt : Pixel :=
    (geo.col_edge_x p0.col + cfg.block_horizontal_margin * (edge.start_index : Int)
      + Int.tdiv cfg.block_horizontal_margin 2, block.y + block.height)
  let pts := first_pt :: tracePoints cfg geo (p0 :: ps) p0.col first_pt
  pts ++ [((pts.getLast?.getD first_pt).1, target_y - 1)]

/-- The assignment `block.edges[index].polyline = pts`. -/
def setPolyline : List GraphEdge → Nat → List Pixel → List GraphEdge
  | [], _, _ => []
  | e :: es, 0, pts => { e with polyline := pts } :: es
  | e :: es, index + 1, pts => e :: setPolyline es index pts

/-- Replace the block stored under key `k`. -/
def setBlock (blocks : Blocks) (k : Nat) (b : GraphBlock) : Blocks :=
  blocks.map (fun kb => if kb.1 = k then (kb.1, b) else kb)

/-- The loop at lines 244-284 for the node stored under key `k`: the node map
and the counter `index` after the routed edges `ges`. -/
def compileEdges (cfg : LayoutConfig) (geo : Geometry) (k : Nat) :
    List GridEdge → Blocks → Nat → Blocks
  | [], blocks, _ => blocks
  | edge :: ges, blocks, index =>
    match edge.points with
    | [] => compileEdges cfg geo k ges blocks index
    | p0 :: ps =>
      let block := blockAt blocks k
      let blocks1 := ensureKey blocks edge.dest
      let pts := polylineOf cfg geo block edge p0 ps (blockAt blocks1 edge.dest).y
      let block1 := { block with edges := setPolyline block.edges index pts }
      compileEdges cfg geo k ges (setBlock blocks1 k block1) (index + 1)

/-- What `CalculateLayout` hands back: the node map and the canvas size. -/
structure LayoutResult where
  blocks : Blocks
  width : Int
  height : Int
  deriving DecidableEq, Repr

/-- The grid stage of `CalculateLayout`, lines 114-124: `topoSort`, then
`computeBlockPlacement` on the entry. -/
def gridStage (layoutType : LayoutType) (blocks : Blocks) (entry : Nat) :
    Option TopoResult :=
  match topoSort blocks (initGrid blocks) (keysOf blocks) entry with
  | none => none
  | some r =>
    let ks := if entry ∈ r.gridKeys then r.gridKeys else r.gridKeys ++ [entry]
    match computeBlockPlacement layoutType (ks.length + 1) entry r.grid with
    | none => none
    | some g => some { r with grid := g, gridKeys := ks }

/-- The routing stage of `CalculateLayout`, lines 126-157. -/
def routeStage (r : TopoResult) (entry : Nat) : Option (EdgeMap × Lanes) :=
  let edge_valid := nodeCells r.grid r.gridKeys ((r.grid entry).col_count + 1)
  routeAll r.blocks r.grid edge_valid r.order (initEdges r.blocks)
    { horiz_edges := fun _ _ => [], vert_edges := fun _ _ => [] }

/-- Function `GraphGridLayout::CalculateLayout`; `none` when one of its loops
does not end. -/
def CalculateLayout (cfg : LayoutConfig) (layoutType : LayoutType) (blocks : Blocks)
    (entry : Nat) : Option LayoutResult :=
  match gridStage layoutType blocks entry with
  | none => none
  | some r =>
    match routeStage r entry with
    | none => none
    | some (edges, t) =>
      let geo := geometry cfg r.blocks r.grid t (r.grid entry).row_count
        (r.grid entry).col_count
      let placed : Blocks := r.blocks.map (fun kb => (kb.1, placeNode cfg geo r.grid kb.1 kb.2))
      some
        { blocks := placed.foldl
            (fun bs kb => compileEdges cfg geo kb.1 (edges (blockAt bs kb.1).entry) bs 0)
            placed,
          width := geo.width, height := geo.height }

/-! ## Notions used by the statements -/

/-- Edge `u -> v` of the node map whose target `v` is a key of the map. -/
def EdgeTo (blocks : Blocks) (u v : Nat) : Prop :=
  hasKey blocks v = true ∧ ∃ e ∈ (blockAt blocks u).edges, e.target = v

/-- Node `v` is reachable from `entry` along edges whose targets are keys. -/
def Reachable (blocks : Blocks) (entry v : Nat) : Prop :=
  Relation.ReflTransGen (EdgeTo blocks) entry v

/-- The state of `topoSort` when its work queue empties for the first time. -/
def afterFirstDrain (blocks : Blocks) (entry : Nat) : Option TopoState :=
  let s := topoInit blocks (initGrid blocks) entry
  drain blocks (s.queue.length + unvisitedCount blocks s.visited) { s with changed := false }

/-- Node of given key, size and edge targets, placed at pixel `(100, 100)`, each
edge with the one-point polyline `[(7, 7)]`. -/
def sampleBlock (k : Nat) (w h : Int) (targets : List Nat) : Nat × GraphBlock :=
  (k, { x := 100, y := 100, width := w, height := h, entry := k,
        edges := targets.map (fun t => { target := t, polyline := [(7, 7)] }) })

/-- Margins of 10 pixels in both directions. -/
def sampleConfig : LayoutConfig :=
  { block_horizontal_margin := 10, block_vertical_margin := 10 }

/-- Grid cells `(row, col)` of the waypoints of a path, lanes dropped. -/
def cellsOf (pts : List Point) : List (Int × Int) := pts.map (fun p => (p.row, p.col))

/-- Two consecutive waypoints differ in exactly one of row and column. -/
def OneAxisStep (p q : Point) : Prop :=
  (p.row = q.row ∧ p.col ≠ q.col) ∨ (p.row ≠ q.row ∧ p.col = q.col)

/-- Lane `k` at cell `(row, col)` is marked: in `horiz_edges` when `horizontal`
is true, in `vert_edges` otherwise. -/
def Lanes.marked (t : Lanes) (horizontal : Bool) (row col : Int) (k : Nat) : Bool :=
  if horizontal then isEdgeMarked t.horiz_edges row col k
  else isEdgeMarked t.vert_edges row col k

/-- The lanes an edge reserves: those unmarked in the tables `before` its
`routeEdge` call and marked in the tables `after` it. -/
def Reserved (before after : Lanes) (horizontal : Bool) (row col : Int) (k : Nat) : Prop :=
  before.marked horizontal row col k = false ∧ after.marked horizontal row col k = true

/-- The calls `routeEdge(..., start, end)` made by the loop at lines 149-157,
in the order in which it makes them. -/
def routeJobs (blocks : Blocks) (g : Grid) (order : List Nat) : List (GridBlock × GridBlock) :=
  order.flatMap (fun blockId =>
    (blockAt blocks blockId).edges.map (fun e => (g blockId, g e.target)))

/-- The lane tables after a sequence of `routeEdge` calls. -/
def routeSeq (edge_valid : Matrix) : List (GridBlock × GridBlock) → Lanes → Option Lanes
  | [], t => some t
  | job :: jobs, t =>
    match routeEdge t edge_valid job.1 job.2 with
    | none => none
    | some (_, t1) => routeSeq edge_valid jobs t1

/-- Grid blocks of a two-node example: every block in column 0, block 2 on
row 1 and all others on row 0. -/
def sampleGrid : Grid :=
  fun k => { GridBlock.fresh with id := k, row := if k = 2 then 1 else 0 }

/-- Lane tables with no mark at all. -/
def noLanes : Lanes := { horiz_edges := fun _ _ => [], vert_edges := fun _ _ => [] }

/-- The nodes `topoSort` has met so far, in the order in which they are (or
will be) appended to `block_order`: the order built so far, then the queue. -/
def TopoState.seq (s : TopoState) : List Nat := s.block_order ++ s.queue

/-- Tree children of the nodes of a list: their `tree_edge` lists, joined. -/
def treeChildren (g : Grid) (l : List Nat) : List Nat :=
  l.flatMap (fun p => (g p).tree_edge)

/-- Invariant of the loops of `topoSort`. -/
structure TopoInv (blocks : Blocks) (entry : Nat) (s : TopoState) : Prop where
  nodup : s.seq.Nodup
  visited_iff : ∀ x, x ∈ s.visited ↔ x ∈ s.seq
  keys : ∀ x ∈ s.seq, x ∈ keysOf blocks
  perm : List.Perm (entry :: treeChildren s.grid s.seq) s.seq
  edge : ∀ p c, c ∈ (s.grid p).tree_edge →
    p ∈ s.seq ∧ c ∈ s.seq ∧ (∃ e ∈ (blockAt blocks p).edges, e.target = c) ∧
      s.seq.indexOf p < s.seq.indexOf c
  reach : ∀ x ∈ s.seq, Reachable blocks entry x

/-- Well-formed node map: no key twice, and every block stored under its own
`entry`. -/
def WellFormed (blocks : Blocks) : Prop :=
  (keysOf blocks).Nodup ∧ ∀ kb ∈ blocks, kb.2.entry = kb.1

instance (blocks : Blocks) : Decidable (WellFormed blocks) := by
  unfold WellFormed
  infer_instance

/-- The diamond `1 -> 2, 1 -> 3, 2 -> 4, 3 -> 4`. -/
def diamondMap : Blocks := [mkBlock 1 [2, 3], mkBlock 2 [4], mkBlock 3 [4], mkBlock 4 []]

/-- Node `c` is a tree child of node `p`. -/
def TreeChild (g : Grid) (p c : Nat) : Prop := c ∈ (g p).tree_edge

/-- Node `d` is in the tree-subtree of node `n` (`n` included). -/
def InSubtree (g : Grid) (n d : Nat) : Prop := Relation.ReflTransGen (TreeChild g) n d

/-- The nodes of the tree-subtree of `n` down to depth `fuel`, parent first. -/
def subtree (g : Grid) : Nat → Nat → List Nat
  | 0, _ => []
  | fuel + 1, n => n :: (g n).tree_edge.flatMap (subtree g fuel)

/-- The tree-subtree of `n` is shallow enough: the recursion along `tree_edge` from `n` ends within `fuel` calls. -/
def fits (g : Grid) : Nat → Nat → Bool
  | 0, _ => false
  | fuel + 1, n => (g n).tree_edge.all (fits g fuel)

/-- The `tree_edge` lists below `n` form a tree: the recursion from `n` ends
within `fuel` calls and meets no node twice. -/
def IsTree (g : Grid) (fuel n : Nat) : Prop :=
  fits g fuel n = true ∧ (subtree g fuel n).Nodup

instance (g : Grid) (fuel n : Nat) : Decidable (IsTree g fuel n) := by
  unfold IsTree
  infer_instance

/-- Grid after `col` and `row` were added to the column and the row of every
block whose key is in `nodes`. -/
def shiftOn (nodes : List Nat) (col row : Int) (g : Grid) : Grid :=
  fun k => if k ∈ nodes then (g k).move col row else g k

/-- Node `n` and its subtree are placed within the span of `n`: the bounds of
a block placement relative to the root `n`. -/
def Placed (g : Grid) (n : Nat) : Prop :=
  (g n).row = 0 ∧ 2 ≤ (g n).col_count ∧ 1 ≤ (g n).row_count ∧
  ∀ d, InSubtree g n d →
    0 ≤ (g d).col ∧ (g d).col + 2 ≤ (g n).col_count ∧
    0 ≤ (g d).row ∧ (g d).row < (g n).row_count

/-- Every node of the subtree of `a` lies at least two columns to the left of
every node of the subtree of `b`: the column range of the first subtree (from
its smallest column to its largest column + 2) ends before the range of the
second begins. -/
def ColsBefore (g : Grid) (a b : Nat) : Prop :=
  ∀ d1 d2, InSubtree g a d1 → InSubtree g b d2 → (g d1).col + 2 ≤ (g d2).col

/-- Node `p` is laid out by the leaf rule of lines 312-321: the layout type is
not Wide and `p` has two tree children of which exactly one is a leaf. -/
def Tucked (layoutType : LayoutType) (g : Grid) (p : Nat) : Prop :=
  layoutType ≠ LayoutType.Wide ∧
  ∃ l r, (g p).tree_edge = [l, r] ∧ ((g l).tree_edge = [] ↔ (g r).tree_edge ≠ [])

/-- Sibling subtrees below `n` are separated: at every node of the subtree
that is not laid out by the leaf rule the subtrees of the children occupy
column ranges that follow each other from left to right; at a node laid out
by the leaf rule the two children sit on one row, two columns apart. -/
def Separated (layoutType : LayoutType) (g : Grid) (n : Nat) : Prop :=
  ∀ p, InSubtree g n p →
    (¬ Tucked layoutType g p → (g p).tree_edge.Pairwise (ColsBefore g)) ∧
    (Tucked layoutType g p → ∀ l r, (g p).tree_edge = [l, r] →
      (g l).col + 2 = (g r).col ∧ (g l).row = (g r).row)

/-- What `computeBlockPlacement(n)` achieves, from grid `g` to grid `g1`: the
`tree_edge` lists are untouched, blocks outside the subtree of `n` are
untouched, the subtree is placed within the span of `n`, a leaf gets column 0
and two columns, and sibling subtrees are separated. -/
def PlacementOK (layoutType : LayoutType) (fuel : Nat) (g : Grid) (n : Nat) (g1 : Grid) :
    Prop :=
  (∀ k, (g1 k).tree_edge = (g k).tree_edge) ∧
  (∀ k, k ∉ subtree g fuel n → g1 k = g k) ∧
  Placed g1 n ∧
  ((g n).tree_edge = [] → (g1 n).col = 0 ∧ (g1 n).col_count = 2) ∧
  Separated layoutType g1 n

/-- Grid blocks with the tree `1 -> [2, 3]`, `3 -> [4, 5, 6]`: node 2 is a leaf
next to a sibling with three children. -/
def sampleTree : Grid :=
  fun k =>
    { GridBlock.fresh with
      id := k,
      tree_edge := if k = 1 then [2, 3] else if k = 3 then [4, 5, 6] else [] }

/-- Grid `g1` has the same identifiers, positions and spans as grid `g`: only
the `incoming` and `tree_edge` lists may differ. -/
def SameCoords (g g1 : Grid) : Prop :=
  ∀ k, (g1 k).id = (g k).id ∧ (g1 k).row = (g k).row ∧ (g1 k).col = (g k).col ∧
    (g1 k).row_count = (g k).row_count ∧ (g1 k).col_count = (g k).col_count

/-- What the grid stage of `CalculateLayout` achieves on a well-formed node
map whose entry is a key. -/
structure GridStageOK (layoutType : LayoutType) (blocks : Blocks) (entry : Nat)
    (r : TopoResult) : Prop where
  blocks_eq : r.blocks = blocks
  order_nodup : r.order.Nodup
  order_keys : ∀ x ∈ r.order, x ∈ keysOf blocks
  order_reach : ∀ x ∈ r.order, Reachable blocks entry x
  order_tree : ∀ x, x ∈ r.order ↔ InSubtree r.grid entry x
  tree : IsTree r.grid r.order.length entry
  tree_edges : ∀ p c, c ∈ (r.grid p).tree_edge → ∃ e ∈ (blockAt blocks p).edges, e.target = c
  placed : Placed r.grid entry
  separated : Separated layoutType r.grid entry
  outside : ∀ k, k ∉ r.order → (r.grid k).row = 0 ∧ (r.grid k).col = 0

/-- Node map with node 1 (no edge) and node 2 (one edge to node 1), both at
pixel `(100, 100)`: node 2 is not reachable from node 1. -/
def strayMap : Blocks := [sampleBlock 1 20 10 [], sampleBlock 2 30 30 [1]]

/-- Lines 159-285 of `CalculateLayout`, the geometry compiler, for the grid
stage result `r` and the routed edges `edges` with lane tables `t`. -/
def compileStage (cfg : LayoutConfig) (r : TopoResult) (entry : Nat) (edges : EdgeMap)
    (t : Lanes) : LayoutResult :=
  let geo := geometry cfg r.blocks r.grid t (r.grid entry).row_count (r.grid entry).col_count
  let placed : Blocks := r.blocks.map (fun kb => (kb.1, placeNode cfg geo r.grid kb.1 kb.2))
  { blocks := placed.foldl
      (fun bs kb => compileEdges cfg geo kb.1 (edges (blockAt bs kb.1).entry) bs 0)
      placed,
    width := geo.width, height := geo.height }

/-- The polyline that the loop at lines 244-284 stores for the routed edge
`ge` of the node `block`; `target_y d` is `blocks[d].y`. -/
def edgePolyline (cfg : LayoutConfig) (geo : Geometry) (block : GraphBlock)
    (target_y : Nat → Int) (ge : GridEdge) : List Pixel :=
  match ge.points with
  | [] => []
  | p0 :: ps => polylineOf cfg geo block ge p0 ps (target_y ge.dest)

/-- The edges of a node after the loop at lines 244-284 went through its
routed edges `ges`, the counter standing at `index`: an edge without waypoints
is passed over, every other one stores its polyline at `index`. -/
def paintEdges (cfg : LayoutConfig) (geo : Geometry) (block : GraphBlock)
    (target_y : Nat → Int) : List GridEdge → List GraphEdge → Nat → List GraphEdge
  | [], es, _ => es
  | ge :: ges, es, index =>
    match ge.points with
    | [] => paintEdges cfg geo block target_y ges es index
    | _ :: _ =>
      paintEdges cfg geo block target_y ges
        (setPolyline es index (edgePolyline cfg geo block target_y ge)) (index + 1)

/-- A polyline is orthogonal: two consecutive points have equal x or equal y. -/
def Orthogonal (pts : List Pixel) : Prop :=
  List.Chain' (fun a b : Pixel => a.1 = b.1 ∨ a.2 = b.2) pts

/-- The pixel geometry that `CalculateLayout` computes at lines 159-217 from
the grid stage result `r` and the lane tables `t`. -/
def stageGeometry (cfg : LayoutConfig) (r : TopoResult) (entry : Nat) (t : Lanes) : Geometry :=
  geometry cfg r.blocks r.grid t (r.grid entry).row_count (r.grid entry).col_count

/-- The node map after the loop at lines 220-236: every node at its pixel
position, the polylines still as they were. -/
def placedBlocks (cfg : LayoutConfig) (r : TopoResult) (entry : Nat) (t : Lanes) : Blocks :=
  r.blocks.map (fun kb => (kb.1, placeNode cfg (stageGeometry cfg r entry t) r.grid kb.1 kb.2))

/-- Node 1 with two edges to node 2, both nodes 20 wide and 10 high. -/
def twinEdgeMap : Blocks := [sampleBlock 1 20 10 [2, 2], sampleBlock 2 20 10 []]

/-- Node map with the single node 1 (20 wide, 10 high) and one edge `1 -> 2`,
node 2 absent. -/
def danglingMap : Blocks := [sampleBlock 1 20 10 [2]]

/-- The node map `danglingMap` as one call of `CalculateLayout` with entry 1
and margins 10 and 10 leaves it. -/
def danglingMapAfter : Blocks :=
  [(1, { x := 35, y := 30, width := 20, height := 10, entry := 1,
         edges := [{ target := 2,
                     polyline := [(45, 40), (45, 45), (25, 45), (25, 25), (45, 25), (45, -1)] }] }),
   (0, { x := 0, y := 0, width := 0, height := 0, entry := 0, edges := [] })]

/-- The x at which the geometry compiler draws lane `v` of the column band
`c` (lines 253 and 272). -/
def laneX (cfg : LayoutConfig) (geo : Geometry) (c : Int) (v : Nat) : Int :=
  geo.col_edge_x c + cfg.block_horizontal_margin * (v : Int)
    + Int.tdiv cfg.block_horizontal_margin 2

/-- The y at which the geometry compiler draws lane `h` of the row band `r`
(line 268). -/
def laneY (cfg : LayoutConfig) (geo : Geometry) (r : Int) (h : Nat) : Int :=
  geo.row_edge_y r + cfg.block_vertical_margin * (h : Int)
    + Int.tdiv cfg.block_vertical_margin 2

/-- The polyline `px` draws the routed edge `ge` on the lanes that its
`routeEdge` call, from the lane tables `before` to the lane tables `after`,
reserved for it. The polyline has one point per waypoint, one before and one
after them. The outgoing stub holds lane `start_index` of the cell of the
first waypoint and is drawn at the x of that lane. Of two consecutive
waypoints `p`, `q`, the first carries the lane of the segment between them:
when they share the row, the lane is reserved in `horiz_edges` in every cell
between them and both ends of the segment are drawn at the y of that lane;
when they share the column, the lane is reserved in `vert_edges` in every cell
between them and both ends are drawn at the x of that lane. After a last
horizontal segment, the incoming stub holds the lane of the last waypoint in
its cell and is drawn at the x of that lane. -/
def Drawn (cfg : LayoutConfig) (geo : Geometry) (before after : Lanes) (ge : GridEdge)
    (px : List Pixel) : Prop :=
  px.length = ge.points.length + 2 ∧
  (∃ p0, ge.points.head? = some p0 ∧
    Reserved before after false p0.row p0.col ge.start_index ∧
    px[0]?.map Prod.fst = some (laneX cfg geo p0.col ge.start_index) ∧
    px[1]?.map Prod.fst = some (laneX cfg geo p0.col ge.start_index)) ∧
  (∀ k p q, ge.points[k]? = some p → ge.points[k + 1]? = some q →
    (p.row = q.row →
      (∀ c, min p.col q.col ≤ c → c ≤ max p.col q.col →
        Reserved before after true p.row c p.index) ∧
      px[k + 1]?.map Prod.snd = some (laneY cfg geo p.row p.index) ∧
      px[k + 2]?.map Prod.snd = some (laneY cfg geo p.row p.index)) ∧
    (p.col = q.col →
      (∀ r, min p.row q.row ≤ r → r ≤ max p.row q.row →
        Reserved before after false r p.col p.index) ∧
      px[k + 1]?.map Prod.fst = some (laneX cfg geo p.col p.index) ∧
      px[k + 2]?.map Prod.fst = some (laneX cfg geo p.col p.index))) ∧
  (∀ k p q, ge.points[k]? = some p → ge.points[k + 1]? = some q →
    ge.points.length = k + 2 → p.row = q.row →
      Reserved before after false q.row q.col q.index ∧
      px[k + 2]?.map Prod.fst = some (laneX cfg geo q.col q.index) ∧
      px[k + 3]?.map Prod.fst = some (laneX cfg geo q.col q.index))


/-- Grid blocks with the tree `1 -> [2, 3, 4]`: a node with three leaf
children. -/
def fanTree : Grid :=
  fun k => { GridBlock.fresh with id := k, tree_edge := if k = 1 then [2, 3, 4] else [] }

/-- The fan-out `1 -> 2, 1 -> 3, 1 -> 4`. -/
def fanMap : Blocks := [mkBlock 1 [2, 3, 4], mkBlock 2 [], mkBlock 3 [], mkBlock 4 []]

/-- Row and column of the grid blocks of the given keys. -/
def cellsAt (g : Grid) (ks : List Nat) : List (Int × Int) := ks.map (fun k => ((g k).row, (g k).col))


/-- Targets of the edges of node `a`, in the order of its edge list. -/
def targetsOf (blocks : Blocks) (a : Nat) : List Nat :=
  (blockAt blocks a).edges.map GraphEdge.target

/-- Sources of the edges into `c`, in the order in which the loop at lines
23-28 meets them. -/
def sourcesOf (blocks : Blocks) (c : Nat) : List Nat :=
  blocks.flatMap (fun kb => (kb.2.edges.filter (fun e => decide (e.target = c))).map (fun _ => kb.1))

/-- The node map is the chain `ns`: it is well-formed, its keys are the nodes
of `ns`, no node is listed twice, the only edge of each node of `ns` goes to
the next one and the last node has no edge. The order of the map is free. -/
def IsChainMap (blocks : Blocks) (ns : List Nat) : Prop :=
  WellFormed blocks ∧ ns.Nodup ∧ (∀ k ∈ keysOf blocks, k ∈ ns) ∧ (∀ k ∈ ns, k ∈ keysOf blocks) ∧
  ∀ i (hi : i < ns.length), targetsOf blocks ns[i] = (ns[i + 1]?).toList

instance (blocks : Blocks) (ns : List Nat) : Decidable (IsChainMap blocks ns) := by
  unfold IsChainMap
  infer_instance

/-- Every key that is not visited has exactly one entry in its incoming list. -/
def OneIncoming (blocks : Blocks) (s : TopoState) : Prop :=
  ∀ c ∈ keysOf blocks, c ∉ s.visited → (s.grid c).incoming.length = 1

/-- Every edge of a node of the order that leads to a key leads to a visited
node. -/
def EdgesMet (blocks : Blocks) (s : TopoState) : Prop :=
  ∀ p ∈ s.block_order, ∀ e ∈ (blockAt blocks p).edges,
    e.target ∈ keysOf blocks → e.target ∈ s.visited

/-- The chain `7 -> 3 -> 0 -> 5`, the blocks listed in another order. -/
def chainMap : Blocks := [mkBlock 3 [0], mkBlock 5 [], mkBlock 7 [3], mkBlock 0 [5]]


/-- Below node `n` every tree child sits on the row after the row of its
parent. -/
def Levelled (g : Grid) (n : Nat) : Prop :=
  ∀ p, InSubtree g n p → ∀ c ∈ (g p).tree_edge, (g c).row = (g p).row + 1


/-- The node map has no cycle of edges between its keys. -/
def Acyclic (blocks : Blocks) : Prop := ∀ v, ¬ Relation.TransGen (EdgeTo blocks) v v

/-- Invariant of the first run of the queue loop of `topoSort` (lines 41-69),
while the edges of `src` are examined and `pending` are the targets of those
still to come (`pending = []` between two nodes): the incoming list of an
unvisited key holds, once each, the nodes with an edge to it that are not in
the order yet (or are `src` with that edge still to come); it is not empty if
the key is the target of an edge at all; and every node met so far, the entry
apart, has all the sources of its incoming edges in the order, before it. -/
structure KahnInv (blocks : Blocks) (entry : Nat) (s : TopoState) (src : Nat)
    (pending : List Nat) : Prop where
  inc : ∀ v ∈ keysOf blocks, v ∉ s.visited → ∀ p,
    (p ∈ (s.grid v).incoming ↔
      v ∈ targetsOf blocks p ∧ (p ∉ s.block_order ∨ (p = src ∧ v ∈ pending)))
  inc_nodup : ∀ v ∈ keysOf blocks, v ∉ s.visited → (s.grid v).incoming.Nodup
  inc_ne : ∀ v ∈ keysOf blocks, v ∉ s.visited → (∃ p, v ∈ targetsOf blocks p) →
    (s.grid v).incoming ≠ []
  before : ∀ v ∈ s.seq, v ≠ entry → ∀ p, v ∈ targetsOf blocks p →
    p ∈ s.block_order ∧ s.seq.indexOf p < s.seq.indexOf v


/-! ## Indexes into the tables of `CalculateLayout` -/

/-- The tables of `CalculateLayout` and `routeEdge` that are sized from the
`row_count` and the `col_count` of the entry. -/
inductive Table where
  | horiz_edges
  | vert_edges
  | edge_valid
  | col_edge_count
  | row_edge_count
  | col_width
  | row_height
  | col_x
  | row_y
  | col_edge_x
  | row_edge_y
  deriving DecidableEq, Repr

/-- One index expression of the source: `table[i]`, or `table[i][j]` when `j`
is given. -/
structure Access where
  table : Table
  i : Int
  j : Option Int
  deriving DecidableEq, Repr

/-- Length of a table, as sized at lines 133-136, 161-163, 175-176 and
189-193. -/
def Table.size (tb : Table) (row_count col_count : Int) : Int :=
  match tb with
  | Table.horiz_edges => row_count + 1
  | Table.vert_edges => row_count + 1
  | Table.edge_valid => row_count + 1
  | Table.col_edge_count => col_count + 1
  | Table.row_edge_count => row_count + 1
  | Table.col_width => col_count + 1
  | Table.row_height => row_count + 1
  | Table.col_x => col_count
  | Table.row_y => row_count
  | Table.col_edge_x => col_count + 1
  | Table.row_edge_y => row_count + 1

/-- Length of every row of a table of rows, as sized at lines 138-140; 0 for the
plain vectors, which have no second index. -/
def Table.rowSize (tb : Table) (col_count : Int) : Int :=
  match tb with
  | Table.horiz_edges => col_count + 1
  | Table.vert_edges => col_count + 1
  | Table.edge_valid => col_count + 1
  | _ => 0

/-- The index expression lies within the table. -/
def Access.InBounds (a : Access) (row_count col_count : Int) : Prop :=
  0 ≤ a.i ∧ a.i < a.table.size row_count col_count ∧
  ∀ j ∈ a.j, 0 ≤ j ∧ j < a.table.rowSize col_count

/-- The index `edges[row][col]` of `isEdgeMarked` and `markEdge`, for each of
the given cells. -/
def cellAccesses (tb : Table) (cells : List (Int × Int)) : List Access :=
  cells.map (fun rc => { table := tb, i := rc.1, j := some rc.2 })

/-- Indexes used by one call of the lambda `checkColumn`: `edge_valid[min_row]`
for the size (not evaluated when `column < 0`), then, for a column in range,
`edge_valid[row][column]` for the rows of the loop (all of them: the loop may
return before the last). -/
def checkColumnAccesses (edge_valid : Matrix) (min_row max_row column : Int) : List Access :=
  if column < 0 then []
  else
    { table := Table.edge_valid, i := min_row, j := none } ::
      (if column ≥ edge_valid.ncols then []
       else cellAccesses Table.edge_valid
         ((intRange min_row (max_row - 1)).map (fun row => (row, column))))

/-- Indexes used by the loop `while (true)` at lines 422-434, from offset
`ofs` on. -/
def probeAccesses (edge_valid : Matrix) (min_row max_row c0 : Int) : Nat → Int → List Access
  | 0, _ => []
  | fuel + 1, ofs =>
    checkColumnAccesses edge_valid min_row max_row (c0 - ofs) ++
      (if checkColumn edge_valid min_row max_row (c0 - ofs) then []
       else
         checkColumnAccesses edge_valid min_row max_row (c0 + ofs) ++
           (if checkColumn edge_valid min_row max_row (c0 + ofs) then []
            else probeAccesses edge_valid min_row max_row c0 fuel (ofs + 1)))

/-- Indexes used by lines 404-437 of `routeEdge`, the choice of the column. -/
def chooseColumnAccesses (edge_valid : Matrix) (start end_ : GridBlock)
    (min_row max_row : Int) : List Access :=
  if min_row ≠ max_row then
    checkColumnAccesses edge_valid min_row max_row (start.col + 1) ++
      (if !checkColumn edge_valid min_row max_row (start.col + 1) then
         checkColumnAccesses edge_valid min_row max_row (end_.col + 1) ++
           (if checkColumn edge_valid min_row max_row (end_.col + 1) then []
            else
              probeAccesses edge_valid min_row max_row (start.col + 1)
                ((max (start.col + 1) (edge_valid.ncols - (start.col + 1))).toNat + 1) 0)
       else [])
  else []

/-- Indexes used by `routeEdge` into `vert_edges`, `edge_valid` and
`horiz_edges`, step by step (when the probe for a column does not end within
its fuel: those of the initial stub and of the probe). -/
def routeEdgeAccesses (edge_valid : Matrix) (start end_ : GridBlock) : List Access :=
  let min_row := if end_.row < start.row + 1 then end_.row else start.row + 1
  let max_row := if end_.row < start.row + 1 then start.row + 1 else end_.row
  let stub := cellAccesses Table.vert_edges [(start.row + 1, start.col + 1)]
  let probe := chooseColumnAccesses edge_valid start end_ min_row max_row
  match chooseColumn edge_valid start end_ min_row max_row with
  | none => stub ++ probe
  | some col =>
    let toColumn :=
      if col ≠ start.col + 1 then
        cellAccesses Table.horiz_edges
          ((intRange (if col < start.col + 1 then col else start.col + 1)
            (if col < start.col + 1 then start.col + 1 else col)).map
            (fun c => (start.row + 1, c)))
      else []
    let toRow :=
      if end_.row ≠ start.row + 1 then
        (if col = start.col + 1 then
          cellAccesses Table.vert_edges [(start.row + 1, start.col + 1)] else []) ++
          cellAccesses Table.vert_edges ((intRange min_row max_row).map (fun r => (r, col)))
      else []
    let toEnd :=
      if col ≠ end_.col + 1 then
        cellAccesses Table.horiz_edges
          ((intRange (if col < end_.col + 1 then col else end_.col + 1)
            (if col < end_.col + 1 then end_.col + 1 else col)).map
            (fun c => (end_.row, c)))
      else []
    let horiz : Bool :=
      if col ≠ end_.col + 1 then true
      else if end_.row ≠ start.row + 1 then false
      else decide (col ≠ start.col + 1)
    let finish :=
      if horiz then
        cellAccesses Table.vert_edges
          ((intRange end_.row end_.row).map (fun r => (r, end_.col + 1)))
      else []
    stub ++ probe ++ toColumn ++ toRow ++ toEnd ++ finish

/-- Indexes used by lines 137-146: the rows that are resized, then the cell of
every grid block in `edge_valid`. -/
def prepareAccesses (g : Grid) (gridKeys : List Nat) (row_count : Int) : List Access :=
  (intRange 0 row_count).flatMap
    (fun row =>
      [{ table := Table.horiz_edges, i := row, j := none },
       { table := Table.vert_edges, i := row, j := none },
       { table := Table.edge_valid, i := row, j := none }]) ++
  gridKeys.map
    (fun k => { table := Table.edge_valid, i := (g k).row, j := some ((g k).col + 1) })

/-- Indexes used by the routing loop at lines 149-157. -/
def routingAccesses (blocks : Blocks) (g : Grid) (edge_valid : Matrix) (order : List Nat) :
    List Access :=
  (routeJobs blocks g order).flatMap (fun job => routeEdgeAccesses edge_valid job.1 job.2)

/-- Indexes used by lines 164-171, the lane counts. -/
def countAccesses (row_count col_count : Int) : List Access :=
  (intRange 0 row_count).flatMap
    (fun row =>
      (intRange 0 col_count).flatMap
        (fun col =>
          [{ table := Table.horiz_edges, i := row, j := some col },
           { table := Table.row_edge_count, i := row, j := none },
           { table := Table.vert_edges, i := row, j := some col },
           { table := Table.col_edge_count, i := col, j := none }]))

/-- Indexes used by lines 177-186, the sizes of the rows and columns. -/
def sizeAccesses (blocks : Blocks) (g : Grid) : List Access :=
  blocks.flatMap
    (fun kb =>
      [{ table := Table.col_width, i := (g kb.1).col, j := none },
       { table := Table.col_width, i := (g kb.1).col + 1, j := none },
       { table := Table.row_height, i := (g kb.1).row, j := none }])

/-- Indexes used by lines 194-215, the positions of the rows and columns. -/
def bandAccesses (row_count col_count : Int) : List Access :=
  (intRange 0 (col_count - 1)).flatMap
    (fun i =>
      [{ table := Table.col_edge_x, i := i, j := none },
       { table := Table.col_edge_count, i := i, j := none },
       { table := Table.col_x, i := i, j := none },
       { table := Table.col_width, i := i, j := none }]) ++
  (intRange 0 (row_count - 1)).flatMap
    (fun i =>
      [{ table := Table.row_edge_y, i := i, j := none },
       { table := Table.row_edge_count, i := i, j := none },
       { table := Table.row_y, i := i, j := none },
       { table := Table.row_height, i := i, j := none }]) ++
  [{ table := Table.col_edge_x, i := col_count, j := none },
   { table := Table.row_edge_y, i := row_count, j := none },
   { table := Table.col_edge_count, i := col_count, j := none },
   { table := Table.row_edge_count, i := row_count, j := none }]

/-- Indexes used by lines 219-236, the positions of the nodes. -/
def nodeAccesses (blocks : Blocks) (g : Grid) : List Access :=
  blocks.flatMap
    (fun kb =>
      [{ table := Table.col_x, i := (g kb.1).col, j := none },
       { table := Table.col_width, i := (g kb.1).col, j := none },
       { table := Table.col_edge_count, i := (g kb.1).col + 1, j := none },
       { table := Table.col_width, i := (g kb.1).col + 1, j := none },
       { table := Table.row_y, i := (g kb.1).row, j := none }])

/-- Indexes used by the loop at lines 260-277 over the waypoints. -/
def traceAccesses : List Point → Int → List Access
  | [], _ => []
  | p :: ps, start_col =>
    (if start_col = p.col then { table := Table.row_edge_y, i := p.row, j := none }
     else { table := Table.col_edge_x, i := p.col, j := none }) :: traceAccesses ps p.col

/-- Indexes used by lines 245-277 for one routed edge (none when it has no
waypoint). -/
def polylineAccesses (edge : GridEdge) : List Access :=
  match edge.points with
  | [] => []
  | p0 :: ps =>
    { table := Table.col_edge_x, i := p0.col, j := none } :: traceAccesses (p0 :: ps) p0.col

/-- Indexes used by the loop at lines 239-284. -/
def compileAccesses (blocks : Blocks) (edges : EdgeMap) : List Access :=
  blocks.flatMap (fun kb => (edges kb.2.entry).flatMap polylineAccesses)

/-- Every index `CalculateLayout` and its `routeEdge` calls use into the tables
sized from the `row_count` and `col_count` of the entry, in the order of the
source; `none` when one of the loops does not end. -/
def layoutAccesses (layoutType : LayoutType) (blocks : Blocks) (entry : Nat) :
    Option (List Access) :=
  match gridStage layoutType blocks entry with
  | none => none
  | some r =>
    match routeStage r entry with
    | none => none
    | some (edges, _) =>
      let row_count := (r.grid entry).row_count
      let col_count := (r.grid entry).col_count
      some
        (prepareAccesses r.grid r.gridKeys row_count ++
          routingAccesses r.blocks r.grid (nodeCells r.grid r.gridKeys (col_count + 1)) r.order ++
          countAccesses row_count col_count ++
          sizeAccesses r.blocks r.grid ++
          bandAccesses row_count col_count ++
          nodeAccesses r.blocks r.grid ++
          compileAccesses r.blocks edges)

/-- The `routeEdge` calls that the loop at lines 149-157 has made when it comes
to edge number `i` of the node `k`: the calls for every node that precedes `k`
in `block_order`, then the calls for the first `i` edges of `k`. -/
def jobsBefore (blocks : Blocks) (g : Grid) (order : List Nat) (k i : Nat) :
    List (GridBlock × GridBlock) :=
  routeJobs blocks g (order.takeWhile (fun x => decide (x ≠ k)))
    ++ ((blockAt blocks k).edges.take i).map (fun e => (g k, g e.target))

/-- The routed edge `ge` holds lane `n` at cell `(row, col)`, in `horiz_edges`
when `horizontal` is true and in `vert_edges` otherwise, as the geometry
compiler reads the lanes off the routed edge (lines 249-280). The outgoing
stub holds lane `start_index` of `vert_edges` in the cell of the first
waypoint. Of two consecutive waypoints `p`, `q`, the first carries the lane of
the segment between them: when they share the row, the segment holds lane
`p.index` of `horiz_edges` in every cell of that row between them; when they
share the column, it holds lane `p.index` of `vert_edges` in every cell of
that column between them. After a last horizontal segment, the incoming stub
holds the lane of the last waypoint in `vert_edges` in its cell. -/
def Holds (ge : GridEdge) (horizontal : Bool) (row col : Int) (n : Nat) : Prop :=
  (horizontal = false ∧ ∃ p0, ge.points.head? = some p0 ∧ row = p0.row ∧ col = p0.col ∧
    n = ge.start_index) ∨
  (∃ k p q, ge.points[k]? = some p ∧ ge.points[k + 1]? = some q ∧ n = p.index ∧
    ((horizontal = true ∧ p.row = q.row ∧ row = p.row ∧
        min p.col q.col ≤ col ∧ col ≤ max p.col q.col) ∨
     (horizontal = false ∧ p.col = q.col ∧ col = p.col ∧
        min p.row q.row ≤ row ∧ row ≤ max p.row q.row))) ∨
  (horizontal = false ∧ ∃ k p q, ge.points[k]? = some p ∧ ge.points[k + 1]? = some q ∧
    ge.points.length = k + 2 ∧ p.row = q.row ∧ row = q.row ∧ col = q.col ∧ n = q.index)

/-! # Theorems -/

/-! ## `topoSort`: the sentinel `best == 0` -/

/-- C1 (evaluation at the failing input). In the node map `1 -> 0, 1 -> 0`
with entry 1, node 0 is a key of the map and reachable from the entry, yet
`topoSort` returns the order `[1]`: the fallback scan uses `best == 0` for
"nothing found", so it never adopts the node with identifier 0. -/
theorem topoSort_skips_reachable_node_zero :
    Reachable [mkBlock 1 [0, 0], mkBlock 0 []] 1 0 ∧
    0 ∈ keysOf [mkBlock 1 [0, 0], mkBlock 0 []] ∧
    (topoSort [mkBlock 1 [0, 0], mkBlock 0 []] (initGrid [mkBlock 1 [0, 0], mkBlock 0 []])
      (keysOf [mkBlock 1 [0, 0], mkBlock 0 []]) 1).map (fun r => r.order) = some [1] := by
  refine ⟨Relation.ReflTransGen.single ⟨by decide, ?_⟩, by decide, by decide⟩
  exact ⟨⟨0, []⟩, by decide, rfl⟩

/-- C3 (evaluation at the failing input). In the node map
`1 -> 2, 1 -> 7, 1 -> 7, 2 -> 0, 2 -> 0` with entry 1 the queue empties with 1
and 2 visited and the unvisited keys 7 and 0 both targets of visited nodes,
both with residual incoming count 0. Scanning the map in the order 1, 2, 7, 0
the fallback scan ends with `best = 0` and adopts nothing (the visited set is
unchanged); scanning it in the reverse order it selects 7, not the smallest
identifier 0. -/
theorem fallback_scan_fails_on_node_zero :
    (afterFirstDrain [mkBlock 1 [2, 7, 7], mkBlock 2 [0, 0], mkBlock 7 [], mkBlock 0 []] 1).map
      (fun s => (s.queue, s.visited, (s.grid 7).incoming.length, (s.grid 0).incoming.length))
      = some ([], [2, 1], 0, 0) ∧
    (afterFirstDrain [mkBlock 1 [2, 7, 7], mkBlock 2 [0, 0], mkBlock 7 [], mkBlock 0 []] 1).map
      (fun s =>
        scanBlocks [mkBlock 1 [2, 7, 7], mkBlock 2 [0, 0], mkBlock 7 [], mkBlock 0 []] s)
      = some { best := 0, best_edges := 0, best_parent := 2 } ∧
    (afterFirstDrain [mkBlock 1 [2, 7, 7], mkBlock 2 [0, 0], mkBlock 7 [], mkBlock 0 []] 1).map
      (fun s => (adoptBest s (scanBlocks
        [mkBlock 1 [2, 7, 7], mkBlock 2 [0, 0], mkBlock 7 [], mkBlock 0 []] s)).visited)
      = some [2, 1] ∧
    (afterFirstDrain [mkBlock 1 [2, 7, 7], mkBlock 2 [0, 0], mkBlock 7 [], mkBlock 0 []] 1).map
      (fun s =>
        scanBlocks [mkBlock 0 [], mkBlock 7 [], mkBlock 2 [0, 0], mkBlock 1 [2, 7, 7]] s)
      = some { best := 7, best_edges := 0, best_parent := 1 } := by
  refine ⟨by decide, by decide, by decide, by decide⟩

/-! ## Lane tracker -/

theorem isEdgeMarked_eq_getD (edges : EdgesVector) (row col : Int) (index : Nat) :
    isEdgeMarked edges row col index = (edges row col).getD index false := by
  unfold isEdgeMarked
  split_ifs with h
  · rw [List.getD_eq_default _ _ h]
  · rfl

theorem getD_setLane (lanes : List Bool) (index : Nat) (used : Bool) (k : Nat) :
    (setLane lanes index used).getD k false
      = if k = index then used else lanes.getD k false := by
  unfold setLane
  simp only [List.getD_eq_getElem?_getD, List.getElem?_set]
  by_cases hk : k = index
  · subst hk
    have hlen : k < (lanes ++ List.replicate (k + 1 - lanes.length) false).length := by
      simp only [List.length_append, List.length_replicate]; omega
    have hlen2 : k < lanes.length + (k + 1 - lanes.length) := by omega
    simp [hlen2]
  · have hk2 : ¬ index = k := fun h => hk h.symm
    simp only [hk2, hk, if_false]
    by_cases hl : k < lanes.length
    · rw [List.getElem?_append_left hl]
    · rw [List.getElem?_append_right (by omega)]
      rw [List.getElem?_eq_none (by omega : lanes.length ≤ k)]
      by_cases h2 : k - lanes.length < (List.replicate (index + 1 - lanes.length) false).length
      · rw [List.getElem?_eq_getElem h2]; simp
      · rw [List.getElem?_eq_none (by omega)]

theorem isEdgeMarked_markEdge (edges : EdgesVector) (row col : Int) (index : Nat)
    (used : Bool) (r c : Int) (k : Nat) :
    isEdgeMarked (markEdge edges row col index used) r c k
      = if r = row ∧ c = col ∧ k = index then used else isEdgeMarked edges r c k := by
  simp only [isEdgeMarked_eq_getD, markEdge]
  by_cases h : r = row ∧ c = col
  · rw [if_pos h, getD_setLane]
    by_cases hk : k = index
    · simp [h, hk]
    · simp [hk]
  · rw [if_neg h]
    have : ¬ (r = row ∧ c = col ∧ k = index) := fun h2 => h ⟨h2.1, h2.2.1⟩
    rw [if_neg this]

theorem isEdgeMarked_markAll (cells : List (Int × Int)) (i : Nat) (edges : EdgesVector)
    (r c : Int) (k : Nat) :
    isEdgeMarked (cells.foldl (fun e rc => markEdge e rc.1 rc.2 i true) edges) r c k
      = if (r, c) ∈ cells ∧ k = i then true else isEdgeMarked edges r c k := by
  induction cells generalizing edges with
  | nil => simp
  | cons rc cells ih =>
    rw [List.foldl_cons, ih, isEdgeMarked_markEdge]
    by_cases hk : k = i
    · by_cases h1 : (r, c) ∈ cells
      · simp [h1, hk]
      · by_cases h2 : (r, c) = rc
        · subst h2; simp [hk]
        · have h3 : ¬ (r = rc.1 ∧ c = rc.2) := fun h => h2 (Prod.ext h.1 h.2)
          simp [h1, h2, hk, h3]
    · simp [hk]

theorem firstFree_spec (marked : Nat → Bool) (fuel i : Nat) :
    (∀ j, i ≤ j → j < firstFree marked fuel i → marked j = true) ∧
    i ≤ firstFree marked fuel i ∧
    (marked (firstFree marked fuel i) = false ∨ firstFree marked fuel i = i + fuel) := by
  induction fuel generalizing i with
  | zero =>
    simp only [firstFree]
    exact ⟨fun j h1 h2 => absurd h1 (by omega), le_refl _, Or.inr rfl⟩
  | succ fuel ih =>
    unfold firstFree
    by_cases h : marked i = true
    · rw [if_pos h]
      obtain ⟨h1, h2, h3⟩ := ih (i + 1)
      refine ⟨fun j hj hlt => ?_, by omega, ?_⟩
      · by_cases hji : j = i
        · subst hji; exact h
        · exact h1 j (by omega) hlt
      · rcases h3 with h3 | h3
        · exact Or.inl h3
        · exact Or.inr (by omega)
    · rw [if_neg h]
      refine ⟨fun j hj hlt => by omega, le_refl _, Or.inl ?_⟩
      simpa using h

theorem le_laneBound_aux (edges : EdgesVector) (cells : List (Int × Int)) (m : Nat) :
    m ≤ cells.foldl (fun m rc => max m (edges rc.1 rc.2).length) m ∧
    ∀ rc ∈ cells,
      (edges rc.1 rc.2).length ≤ cells.foldl (fun m rc => max m (edges rc.1 rc.2).length) m := by
  induction cells generalizing m with
  | nil => simp
  | cons x cells ih =>
    rw [List.foldl_cons]
    obtain ⟨h1, h2⟩ := ih (max m (edges x.1 x.2).length)
    refine ⟨le_trans (le_max_left _ _) h1, fun rc hrc => ?_⟩
    rcases List.mem_cons.1 hrc with h | h
    · subst h; exact le_trans (le_max_right _ _) h1
    · exact h2 rc h

theorem not_marked_at_laneBound (edges : EdgesVector) (cells : List (Int × Int)) :
    cells.any (fun rc => isEdgeMarked edges rc.1 rc.2 (laneBound edges cells)) = false := by
  rw [List.any_eq_false]
  intro rc hrc
  have h : (edges rc.1 rc.2).length ≤ laneBound edges cells :=
    (le_laneBound_aux edges cells 0).2 rc hrc
  simp only [isEdgeMarked_eq_getD]
  rw [List.getD_eq_default _ _ h]
  simp

/-- First-fit allocation over any list of cells: the index returned is the
smallest one marked in none of the cells, and afterwards exactly the marks of
that index in those cells have been added. -/
theorem findEdgeIndex_spec (edges : EdgesVector) (cells : List (Int × Int)) :
    (∀ rc ∈ cells, isEdgeMarked edges rc.1 rc.2 (findEdgeIndex edges cells).1 = false) ∧
    (∀ j, j < (findEdgeIndex edges cells).1 →
      ∃ rc ∈ cells, isEdgeMarked edges rc.1 rc.2 j = true) ∧
    (∀ r c k, isEdgeMarked (findEdgeIndex edges cells).2 r c k
      = if (r, c) ∈ cells ∧ k = (findEdgeIndex edges cells).1 then true
        else isEdgeMarked edges r c k) := by
  have hs := firstFree_spec (fun i => cells.any (fun rc => isEdgeMarked edges rc.1 rc.2 i))
    (laneBound edges cells) 0
  obtain ⟨h1, _, h3⟩ := hs
  have hfree : cells.any (fun rc => isEdgeMarked edges rc.1 rc.2 (findEdgeIndex edges cells).1)
      = false := by
    rcases h3 with h3 | h3
    · exact h3
    · have := not_marked_at_laneBound edges cells
      simp only [findEdgeIndex]
      rw [h3, Nat.zero_add]
      exact this
  refine ⟨?_, ?_, ?_⟩
  · intro rc hrc
    rw [List.any_eq_false] at hfree
    simpa using hfree rc hrc
  · intro j hj
    have := h1 j (Nat.zero_le _) hj
    rw [List.any_eq_true] at this
    exact this
  · intro r c k
    exact isEdgeMarked_markAll cells _ edges r c k

theorem mem_intRange (lo hi x : Int) : x ∈ intRange lo hi ↔ lo ≤ x ∧ x ≤ hi := by
  unfold intRange
  constructor
  · intro h
    obtain ⟨k, hk, hx⟩ := List.exists_of_mem_map h
    rw [List.mem_range] at hk
    omega
  · rintro ⟨h1, h2⟩
    refine List.mem_map.2 ⟨(x - lo).toNat, ?_, ?_⟩
    · rw [List.mem_range]; omega
    · omega

/-- C9. `findHorizEdgeIndex(edges, a, lo, hi)` with `lo <= hi` returns the
smallest index that was marked in none of the cells `(a, c)`, `lo <= c <= hi`;
afterwards that index is marked in each of these cells and no other mark
(cell, index) has changed. `findVertEdgeIndex(edges, a, lo, hi)` does the same
over the cells `(r, a)`, `lo <= r <= hi`. -/
theorem findEdgeIndex_first_fit (edges : EdgesVector) (a lo hi : Int) (h : lo ≤ hi) :
    ((∀ c, lo ≤ c → c ≤ hi →
        isEdgeMarked edges a c (findHorizEdgeIndex edges a lo hi).1 = false) ∧
     (∀ j, j < (findHorizEdgeIndex edges a lo hi).1 →
        ∃ c, lo ≤ c ∧ c ≤ hi ∧ isEdgeMarked edges a c j = true) ∧
     (∀ c, lo ≤ c → c ≤ hi →
        isEdgeMarked (findHorizEdgeIndex edges a lo hi).2 a c
          (findHorizEdgeIndex edges a lo hi).1 = true) ∧
     (∀ r c k, ¬ (r = a ∧ lo ≤ c ∧ c ≤ hi ∧ k = (findHorizEdgeIndex edges a lo hi).1) →
        isEdgeMarked (findHorizEdgeIndex edges a lo hi).2 r c k = isEdgeMarked edges r c k)) ∧
    ((∀ r, lo ≤ r → r ≤ hi →
        isEdgeMarked edges r a (findVertEdgeIndex edges a lo hi).1 = false) ∧
     (∀ j, j < (findVertEdgeIndex edges a lo hi).1 →
        ∃ r, lo ≤ r ∧ r ≤ hi ∧ isEdgeMarked edges r a j = true) ∧
     (∀ r, lo ≤ r → r ≤ hi →
        isEdgeMarked (findVertEdgeIndex edges a lo hi).2 r a
          (findVertEdgeIndex edges a lo hi).1 = true) ∧
     (∀ r c k, ¬ (c = a ∧ lo ≤ r ∧ r ≤ hi ∧ k = (findVertEdgeIndex edges a lo hi).1) →
        isEdgeMarked (findVertEdgeIndex edges a lo hi).2 r c k = isEdgeMarked edges r c k)) := by
  have _ := h
  have memH : ∀ r c : Int, (r, c) ∈ (intRange lo hi).map (fun c => (a, c))
      ↔ r = a ∧ lo ≤ c ∧ c ≤ hi := by
    intro r c
    rw [List.mem_map]
    constructor
    · rintro ⟨x, hx, hxe⟩
      rw [mem_intRange] at hx
      cases hxe
      exact ⟨rfl, hx.1, hx.2⟩
    · rintro ⟨rfl, h1, h2⟩
      exact ⟨c, (mem_intRange _ _ _).2 ⟨h1, h2⟩, rfl⟩
  have memV : ∀ r c : Int, (r, c) ∈ (intRange lo hi).map (fun r => (r, a))
      ↔ c = a ∧ lo ≤ r ∧ r ≤ hi := by
    intro r c
    rw [List.mem_map]
    constructor
    · rintro ⟨x, hx, hxe⟩
      rw [mem_intRange] at hx
      cases hxe
      exact ⟨rfl, hx.1, hx.2⟩
    · rintro ⟨rfl, h1, h2⟩
      exact ⟨r, (mem_intRange _ _ _).2 ⟨h1, h2⟩, rfl⟩
  obtain ⟨h1, h2, h3⟩ := findEdgeIndex_spec edges ((intRange lo hi).map (fun c => (a, c)))
  obtain ⟨v1, v2, v3⟩ := findEdgeIndex_spec edges ((intRange lo hi).map (fun r => (r, a)))
  refine ⟨⟨?_, ?_, ?_, ?_⟩, ⟨?_, ?_, ?_, ?_⟩⟩
  · intro c hc1 hc2
    exact h1 (a, c) ((memH a c).2 ⟨rfl, hc1, hc2⟩)
  · intro j hj
    obtain ⟨rc, hrc, hm⟩ := h2 j hj
    obtain ⟨hr, hc1, hc2⟩ := (memH rc.1 rc.2).1 hrc
    exact ⟨rc.2, hc1, hc2, by rw [← hr]; exact hm⟩
  · intro c hc1 hc2
    unfold findHorizEdgeIndex
    rw [h3, if_pos ⟨(memH a c).2 ⟨rfl, hc1, hc2⟩, rfl⟩]
  · intro r c k hn
    unfold findHorizEdgeIndex at hn ⊢
    rw [h3, if_neg]
    rintro ⟨hm, hk⟩
    obtain ⟨hr, hc1, hc2⟩ := (memH r c).1 hm
    exact hn ⟨hr, hc1, hc2, hk⟩
  · intro r hr1 hr2
    exact v1 (r, a) ((memV r a).2 ⟨rfl, hr1, hr2⟩)
  · intro j hj
    obtain ⟨rc, hrc, hm⟩ := v2 j hj
    obtain ⟨hc, hr1, hr2⟩ := (memV rc.1 rc.2).1 hrc
    exact ⟨rc.1, hr1, hr2, by rw [← hc]; exact hm⟩
  · intro r hr1 hr2
    unfold findVertEdgeIndex
    rw [v3, if_pos ⟨(memV r a).2 ⟨rfl, hr1, hr2⟩, rfl⟩]
  · intro r c k hn
    unfold findVertEdgeIndex at hn ⊢
    rw [v3, if_neg]
    rintro ⟨hm, hk⟩
    obtain ⟨hc, hr1, hr2⟩ := (memV r c).1 hm
    exact hn ⟨hc, hr1, hr2, hk⟩

/-- Witness of C9: on a table with lane 0 marked at cell `(0, 1)` only, over
the span of columns 0 to 1 of row 0, the index returned is marked at cell
`(0, 0)` afterwards. -/
theorem findEdgeIndex_first_fit_witness :
    (0 : Int) ≤ 1 ∧
    isEdgeMarked (findHorizEdgeIndex (fun r c => if r = 0 ∧ c = 1 then [true] else []) 0 0 1).2
      0 0 (findHorizEdgeIndex (fun r c => if r = 0 ∧ c = 1 then [true] else []) 0 0 1).1
      = true :=
  ⟨by decide,
   (findEdgeIndex_first_fit (fun r c => if r = 0 ∧ c = 1 then [true] else []) 0 0 1
      (by decide)).1.2.2.1 0 (by decide) (by decide)⟩

/-! ## `routeEdge`: shape of the path -/

theorem cellsOf_patchIndex (pts : List Point) (k index : Nat) :
    cellsOf (patchIndex pts k index) = cellsOf pts := by
  induction pts generalizing k with
  | nil => rfl
  | cons p ps ih =>
    cases k with
    | zero => simp [patchIndex, cellsOf]
    | succ k =>
      have := ih k
      simp only [cellsOf, patchIndex, List.map_cons] at this ⊢
      rw [this]

theorem cellsOf_addPoint (e : GridEdge) (row col : Int) (index : Nat) :
    cellsOf (e.addPoint row col index).points = cellsOf e.points ++ [(row, col)] := by
  unfold GridEdge.addPoint
  simp only
  split_ifs
  · rw [cellsOf_patchIndex]; simp [cellsOf]
  · simp [cellsOf]

theorem dest_addPoint (e : GridEdge) (row col : Int) (index : Nat) :
    (e.addPoint row col index).dest = e.dest := rfl

theorem chooseColumn_same_row (edge_valid : Matrix) (start end_ : GridBlock)
    (min_row max_row col : Int) (hrow : min_row = max_row)
    (h : chooseColumn edge_valid start end_ min_row max_row = some col) :
    col = start.col + 1 := by
  unfold chooseColumn at h
  simp only [hrow, ne_eq, not_true_eq_false, if_false] at h
  exact (Option.some.inj h).symm

theorem routeStart_cells (t : Lanes) (start end_ : GridBlock) :
    cellsOf (routeStart t start end_).edge.points = [(start.row + 1, start.col + 1)] ∧
    (routeStart t start end_).edge.dest = end_.id := by
  unfold routeStart
  simp only [cellsOf_addPoint, dest_addPoint]
  exact ⟨rfl, trivial⟩

theorem routeToColumn_cells (start : GridBlock) (col : Int) (r : Route) :
    cellsOf (routeToColumn start col r).edge.points
      = cellsOf r.edge.points ++ (if col ≠ start.col + 1 then [(start.row + 1, col)] else []) ∧
    (routeToColumn start col r).edge.dest = r.edge.dest := by
  unfold routeToColumn
  by_cases h : col ≠ start.col + 1
  · simp only [if_pos h, cellsOf_addPoint, dest_addPoint, and_self]
  · simp only [if_neg h, List.append_nil, and_self]

theorem routeToRow_cells (start end_ : GridBlock) (col min_row max_row : Int) (i : Nat)
    (r : Route) :
    cellsOf (routeToRow start end_ col min_row max_row i r).edge.points
      = cellsOf r.edge.points ++ (if end_.row ≠ start.row + 1 then [(end_.row, col)] else []) ∧
    (routeToRow start end_ col min_row max_row i r).edge.dest = r.edge.dest := by
  unfold routeToRow
  by_cases h : end_.row ≠ start.row + 1
  · simp only [if_pos h, cellsOf_addPoint, dest_addPoint]
    by_cases h2 : col = start.col + 1
    · simp only [if_pos h2, and_self]
    · simp only [if_neg h2, and_self]
  · simp only [if_neg h, List.append_nil, and_self]

theorem routeToEnd_cells (end_ : GridBlock) (col : Int) (r : Route) :
    cellsOf (routeToEnd end_ col r).edge.points
      = cellsOf r.edge.points ++ (if col ≠ end_.col + 1 then [(end_.row, end_.col + 1)] else []) ∧
    (routeToEnd end_ col r).edge.dest = r.edge.dest := by
  unfold routeToEnd
  by_cases h : col ≠ end_.col + 1
  · simp only [if_pos h, cellsOf_addPoint, dest_addPoint, and_self]
  · simp only [if_neg h, List.append_nil, and_self]

theorem routeFinish_cells (end_ : GridBlock) (r : Route) :
    cellsOf (routeFinish end_ r).1.points = cellsOf r.edge.points ∧
    (routeFinish end_ r).1.dest = r.edge.dest := by
  unfold routeFinish
  by_cases h : r.horiz = true
  · simp only [if_pos h, cellsOf_patchIndex, and_self]
  · simp only [if_neg h, and_self]

/-- The cells of the path of `routeEdge`, step by step. -/
theorem routeEdge_cells (t : Lanes) (edge_valid : Matrix) (start end_ : GridBlock)
    (e : GridEdge) (t1 : Lanes) (h : routeEdge t edge_valid start end_ = some (e, t1)) :
    e.dest = end_.id ∧
    ∃ col : Int, (end_.row = start.row + 1 → col = start.col + 1) ∧
      cellsOf e.points =
        [(start.row + 1, start.col + 1)]
          ++ (if col ≠ start.col + 1 then [(start.row + 1, col)] else [])
          ++ (if end_.row ≠ start.row + 1 then [(end_.row, col)] else [])
          ++ (if col ≠ end_.col + 1 then [(end_.row, end_.col + 1)] else []) := by
  unfold routeEdge at h
  simp only at h
  cases hc : chooseColumn edge_valid start end_
      (if end_.row < start.row + 1 then end_.row else start.row + 1)
      (if end_.row < start.row + 1 then start.row + 1 else end_.row) with
  | none => rw [hc] at h; cases h
  | some col =>
    rw [hc] at h
    have h := Option.some.inj h
    have hcol : end_.row = start.row + 1 → col = start.col + 1 := by
      intro hr
      refine chooseColumn_same_row edge_valid start end_ _ _ col ?_ hc
      rw [hr]
    have h1 : e = (routeFinish end_ (routeToEnd end_ col (routeToRow start end_ col
        (if end_.row < start.row + 1 then end_.row else start.row + 1)
        (if end_.row < start.row + 1 then start.row + 1 else end_.row) (stubIndex t start)
        (routeToColumn start col (routeStart t start end_))))).1 := by rw [h]
    subst h1
    refine ⟨?_, col, hcol, ?_⟩
    · rw [(routeFinish_cells _ _).2, (routeToEnd_cells _ _ _).2, (routeToRow_cells _ _ _ _ _ _ _).2,
        (routeToColumn_cells _ _ _).2, (routeStart_cells _ _ _).2]
    · rw [(routeFinish_cells _ _).1, (routeToEnd_cells _ _ _).1, (routeToRow_cells _ _ _ _ _ _ _).1,
        (routeToColumn_cells _ _ _).1, (routeStart_cells _ _ _).1]

theorem length_cellsOf (pts : List Point) : (cellsOf pts).length = pts.length := by
  simp [cellsOf]

theorem chain_of_cells (pts : List Point)
    (h : List.Chain' (fun a b : Int × Int => (a.1 = b.1 ∧ a.2 ≠ b.2) ∨ (a.1 ≠ b.1 ∧ a.2 = b.2))
      (cellsOf pts)) :
    List.Chain' OneAxisStep pts := by
  unfold cellsOf at h
  rw [List.chain'_map] at h
  exact h

/-- C10. Whenever `routeEdge` returns, the path has between 1 and 4 waypoints,
starts at `(start.row + 1, start.col + 1)`, ends at `(end.row, end.col + 1)`,
has `dest = end.id`, and each waypoint differs from the one before it in
exactly one of row and column. -/
theorem routeEdge_path_shape (t : Lanes) (edge_valid : Matrix) (start end_ : GridBlock)
    (e : GridEdge) (t1 : Lanes) (h : routeEdge t edge_valid start end_ = some (e, t1)) :
    1 ≤ e.points.length ∧ e.points.length ≤ 4 ∧
    (cellsOf e.points).head? = some (start.row + 1, start.col + 1) ∧
    (cellsOf e.points).getLast? = some (end_.row, end_.col + 1) ∧
    e.dest = end_.id ∧
    List.Chain' OneAxisStep e.points := by
  obtain ⟨hd, col, hcol, hcells⟩ := routeEdge_cells t edge_valid start end_ e t1 h
  have hlen := length_cellsOf e.points
  by_cases h1 : col ≠ start.col + 1 <;> by_cases h2 : end_.row ≠ start.row + 1 <;>
    by_cases h3 : col ≠ end_.col + 1
  all_goals
    first | rw [if_pos h1] at hcells | rw [if_neg h1] at hcells
  all_goals
    first | rw [if_pos h2] at hcells | rw [if_neg h2] at hcells
  all_goals
    first | rw [if_pos h3] at hcells | rw [if_neg h3] at hcells
  all_goals
    rw [hcells] at hlen
    simp only [List.append_nil, List.singleton_append, List.cons_append, List.nil_append,
      List.length_cons, List.length_nil] at hlen hcells
    refine ⟨by omega, by omega, ?_, ?_, hd, chain_of_cells _ ?_⟩
  all_goals rw [hcells]
  all_goals
    simp only [List.head?_cons, List.getLast?_cons_cons, List.getLast?_singleton,
      List.chain'_cons, List.chain'_singleton, and_true, ne_eq, not_true_eq_false,
      not_false_eq_true, true_and, and_false, or_false, false_or, false_and]
  all_goals
    try simp only [Option.some.injEq, Prod.mk.injEq, true_and]
  all_goals
    try simp only [ne_eq, not_not] at h1 h2 h3
  all_goals
    omega

/-- Witness of C10: with empty lane tables and no cell occupied, the edge from
the block at row 0, column 0 to the block at row 1, column 2 is routed. -/
theorem routeEdge_path_shape_witness :
    routeEdge { horiz_edges := fun _ _ => [], vert_edges := fun _ _ => [] }
        { ncols := 5, cell := fun _ _ => true }
        { GridBlock.fresh with id := 1 } { GridBlock.fresh with id := 2, row := 1, col := 2 }
      = some ({ dest := 2, points := [⟨1, 1, 0⟩, ⟨1, 3, 0⟩], start_index := 0 },
          (routeFinish { GridBlock.fresh with id := 2, row := 1, col := 2 }
            (routeToEnd { GridBlock.fresh with id := 2, row := 1, col := 2 } 1
              (routeStart { horiz_edges := fun _ _ => [], vert_edges := fun _ _ => [] }
                { GridBlock.fresh with id := 1 }
                { GridBlock.fresh with id := 2, row := 1, col := 2 }))).2) ∧
    (1 ≤ [(⟨1, 1, 0⟩ : Point), ⟨1, 3, 0⟩].length ∧ [(⟨1, 1, 0⟩ : Point), ⟨1, 3, 0⟩].length ≤ 4 ∧
      (cellsOf [⟨1, 1, 0⟩, ⟨1, 3, 0⟩]).head? = some (0 + 1, 0 + 1) ∧
      (cellsOf [⟨1, 1, 0⟩, ⟨1, 3, 0⟩]).getLast? = some (1, 2 + 1) ∧
      2 = 2 ∧
      List.Chain' OneAxisStep [⟨1, 1, 0⟩, ⟨1, 3, 0⟩]) :=
  ⟨rfl,
   routeEdge_path_shape { horiz_edges := fun _ _ => [], vert_edges := fun _ _ => [] }
     { ncols := 5, cell := fun _ _ => true }
     { GridBlock.fresh with id := 1 } { GridBlock.fresh with id := 2, row := 1, col := 2 }
     _ _ rfl⟩

/-! ## `routeEdge`: lanes are never taken from another edge -/

theorem stubIndex_free (t : Lanes) (start : GridBlock) :
    isEdgeMarked t.vert_edges (start.row + 1) (start.col + 1) (stubIndex t start) = false := by
  obtain ⟨_, _, h3⟩ := firstFree_spec
    (fun i => isEdgeMarked t.vert_edges (start.row + 1) (start.col + 1) i)
    (t.vert_edges (start.row + 1) (start.col + 1)).length 0
  rcases h3 with h3 | h3
  · exact h3
  · unfold stubIndex
    rw [h3, Nat.zero_add, isEdgeMarked_eq_getD, List.getD_eq_default _ _ (le_refl _)]

theorem findEdgeIndex_mono (edges : EdgesVector) (cells : List (Int × Int)) (r c : Int)
    (k : Nat) (h : isEdgeMarked edges r c k = true) :
    isEdgeMarked (findEdgeIndex edges cells).2 r c k = true := by
  rw [(findEdgeIndex_spec edges cells).2.2]
  split_ifs
  · rfl
  · exact h

theorem routeToColumn_mono (start : GridBlock) (col : Int) (rt : Route) (r c : Int) (k : Nat) :
    (routeToColumn start col rt).lanes.vert_edges = rt.lanes.vert_edges ∧
    (isEdgeMarked rt.lanes.horiz_edges r c k = true →
      isEdgeMarked (routeToColumn start col rt).lanes.horiz_edges r c k = true) := by
  unfold routeToColumn
  by_cases h : col ≠ start.col + 1
  · rw [if_pos h]
    exact ⟨rfl, fun hm => findEdgeIndex_mono _ _ r c k hm⟩
  · rw [if_neg h]
    exact ⟨rfl, fun hm => hm⟩

theorem routeToEnd_mono (end_ : GridBlock) (col : Int) (rt : Route) (r c : Int) (k : Nat) :
    (routeToEnd end_ col rt).lanes.vert_edges = rt.lanes.vert_edges ∧
    (isEdgeMarked rt.lanes.horiz_edges r c k = true →
      isEdgeMarked (routeToEnd end_ col rt).lanes.horiz_edges r c k = true) := by
  unfold routeToEnd
  by_cases h : col ≠ end_.col + 1
  · rw [if_pos h]
    exact ⟨rfl, fun hm => findEdgeIndex_mono _ _ r c k hm⟩
  · rw [if_neg h]
    exact ⟨rfl, fun hm => hm⟩

theorem routeFinish_mono (end_ : GridBlock) (rt : Route) (r c : Int) (k : Nat) :
    (routeFinish end_ rt).2.horiz_edges = rt.lanes.horiz_edges ∧
    (isEdgeMarked rt.lanes.vert_edges r c k = true →
      isEdgeMarked (routeFinish end_ rt).2.vert_edges r c k = true) := by
  unfold routeFinish
  by_cases h : rt.horiz = true
  · rw [if_pos h]
    exact ⟨rfl, fun hm => findEdgeIndex_mono _ _ r c k hm⟩
  · rw [if_neg h]
    exact ⟨rfl, fun hm => hm⟩

/-- The only mark that `routeEdge` clears is the one of its own initial stub:
a mark present before the stub was set is still there after the move to the
row of `end`. -/
theorem routeToRow_mono (t : Lanes) (start end_ : GridBlock) (col min_row max_row : Int)
    (rt : Route)
    (hv : rt.lanes.vert_edges
      = markEdge t.vert_edges (start.row + 1) (start.col + 1) (stubIndex t start) true)
    (r c : Int) (k : Nat) :
    (routeToRow start end_ col min_row max_row (stubIndex t start) rt).lanes.horiz_edges
      = rt.lanes.horiz_edges ∧
    (isEdgeMarked t.vert_edges r c k = true →
      isEdgeMarked
        (routeToRow start end_ col min_row max_row (stubIndex t start) rt).lanes.vert_edges
        r c k = true) := by
  have hfree := stubIndex_free t start
  have hne : isEdgeMarked t.vert_edges r c k = true →
      ¬ (r = start.row + 1 ∧ c = start.col + 1 ∧ k = stubIndex t start) := by
    rintro hm ⟨rfl, rfl, rfl⟩
    rw [hfree] at hm
    cases hm
  unfold routeToRow
  by_cases h : end_.row ≠ start.row + 1
  · rw [if_pos h]
    refine ⟨rfl, fun hm => ?_⟩
    simp only
    apply findEdgeIndex_mono
    by_cases h2 : col = start.col + 1
    · rw [if_pos h2, hv, isEdgeMarked_markEdge, if_neg (hne hm), isEdgeMarked_markEdge,
        if_neg (hne hm)]
      exact hm
    · rw [if_neg h2, hv, isEdgeMarked_markEdge, if_neg (hne hm)]
      exact hm
  · rw [if_neg h]
    refine ⟨rfl, fun hm => ?_⟩
    rw [hv, isEdgeMarked_markEdge, if_neg (hne hm)]
    exact hm

/-- Every mark present before a `routeEdge` call is present after it. -/
theorem routeEdge_mono (t : Lanes) (edge_valid : Matrix) (start end_ : GridBlock)
    (e : GridEdge) (t1 : Lanes) (h : routeEdge t edge_valid start end_ = some (e, t1))
    (o : Bool) (r c : Int) (k : Nat) (hm : t.marked o r c k = true) :
    t1.marked o r c k = true := by
  unfold routeEdge at h
  simp only at h
  cases hc : chooseColumn edge_valid start end_
      (if end_.row < start.row + 1 then end_.row else start.row + 1)
      (if end_.row < start.row + 1 then start.row + 1 else end_.row) with
  | none => rw [hc] at h; cases h
  | some col =>
    rw [hc] at h
    have h := Option.some.inj h
    have h1 : t1 = (routeFinish end_ (routeToEnd end_ col (routeToRow start end_ col
        (if end_.row < start.row + 1 then end_.row else start.row + 1)
        (if end_.row < start.row + 1 then start.row + 1 else end_.row) (stubIndex t start)
        (routeToColumn start col (routeStart t start end_))))).2 := by rw [h]
    subst h1
    have hA := routeToColumn_mono start col (routeStart t start end_) r c k
    have hB := routeToRow_mono t start end_ col
        (if end_.row < start.row + 1 then end_.row else start.row + 1)
        (if end_.row < start.row + 1 then start.row + 1 else end_.row)
        (routeToColumn start col (routeStart t start end_)) (by rw [hA.1]; rfl) r c k
    have hC := routeToEnd_mono end_ col (routeToRow start end_ col
        (if end_.row < start.row + 1 then end_.row else start.row + 1)
        (if end_.row < start.row + 1 then start.row + 1 else end_.row) (stubIndex t start)
        (routeToColumn start col (routeStart t start end_))) r c k
    have hD := routeFinish_mono end_ (routeToEnd end_ col (routeToRow start end_ col
        (if end_.row < start.row + 1 then end_.row else start.row + 1)
        (if end_.row < start.row + 1 then start.row + 1 else end_.row) (stubIndex t start)
        (routeToColumn start col (routeStart t start end_)))) r c k
    unfold Lanes.marked at hm ⊢
    cases o with
    | true =>
      simp only [if_true] at hm ⊢
      rw [hD.1]
      apply hC.2
      rw [hB.1]
      apply hA.2
      exact hm
    | false =>
      simp only [Bool.false_eq_true, if_false] at hm ⊢
      apply hD.2
      rw [hC.1]
      exact hB.2 hm

theorem routeSeq_cons (edge_valid : Matrix) (job : GridBlock × GridBlock)
    (jobs : List (GridBlock × GridBlock)) (t : Lanes) :
    routeSeq edge_valid (job :: jobs) t
      = match routeEdge t edge_valid job.1 job.2 with
        | none => none
        | some (_, t1) => routeSeq edge_valid jobs t1 := rfl

theorem routeSeq_mono (edge_valid : Matrix) (jobs : List (GridBlock × GridBlock))
    (t t1 : Lanes) (h : routeSeq edge_valid jobs t = some t1)
    (o : Bool) (r c : Int) (k : Nat) (hm : t.marked o r c k = true) :
    t1.marked o r c k = true := by
  induction jobs generalizing t with
  | nil =>
    simp only [routeSeq, Option.some.injEq] at h
    subst h; exact hm
  | cons job jobs ih =>
    rw [routeSeq_cons] at h
    cases hr : routeEdge t edge_valid job.1 job.2 with
    | none => rw [hr] at h; cases h
    | some p =>
      obtain ⟨e, t2⟩ := p
      rw [hr] at h
      exact ih t2 h (routeEdge_mono t edge_valid job.1 job.2 e t2 hr o r c k hm)

theorem routeSeq_append (edge_valid : Matrix) (xs ys : List (GridBlock × GridBlock))
    (t t2 : Lanes) (h : routeSeq edge_valid (xs ++ ys) t = some t2) :
    ∃ t1, routeSeq edge_valid xs t = some t1 ∧ routeSeq edge_valid ys t1 = some t2 := by
  induction xs generalizing t with
  | nil => exact ⟨t, rfl, h⟩
  | cons job xs ih =>
    rw [List.cons_append, routeSeq_cons] at h
    rw [routeSeq_cons]
    cases hr : routeEdge t edge_valid job.1 job.2 with
    | none => rw [hr] at h; cases h
    | some p =>
      obtain ⟨e, t3⟩ := p
      rw [hr] at h
      exact ih t3 h

theorem routeEdges_routeSeq (g : Grid) (edge_valid : Matrix) (start : GridBlock)
    (edges : List GraphEdge) (t t1 : Lanes) (ges : List GridEdge)
    (h : routeEdges g edge_valid start edges t = some (ges, t1)) :
    routeSeq edge_valid (edges.map (fun e => (start, g e.target))) t = some t1 := by
  induction edges generalizing t ges with
  | nil =>
    simp only [routeEdges, Option.some.injEq, Prod.mk.injEq] at h
    rw [← h.2]; rfl
  | cons e es ih =>
    unfold routeEdges at h
    rw [List.map_cons, routeSeq_cons]
    cases hr : routeEdge t edge_valid start (g e.target) with
    | none => rw [hr] at h; cases h
    | some p =>
      obtain ⟨ge, t2⟩ := p
      rw [hr] at h
      simp only at h ⊢
      cases hr2 : routeEdges g edge_valid start es t2 with
      | none => rw [hr2] at h; cases h
      | some q =>
        obtain ⟨ges2, t3⟩ := q
        rw [hr2] at h
        simp only [Option.some.injEq, Prod.mk.injEq] at h
        obtain ⟨_, h2⟩ := h
        subst h2
        exact ih t2 ges2 hr2

theorem routeSeq_append_intro (edge_valid : Matrix) (xs ys : List (GridBlock × GridBlock))
    (t t1 t2 : Lanes) (h1 : routeSeq edge_valid xs t = some t1)
    (h2 : routeSeq edge_valid ys t1 = some t2) :
    routeSeq edge_valid (xs ++ ys) t = some t2 := by
  induction xs generalizing t with
  | nil =>
    simp only [routeSeq, Option.some.injEq] at h1
    subst h1; exact h2
  | cons job xs ih =>
    rw [List.cons_append, routeSeq_cons]
    rw [routeSeq_cons] at h1
    cases hr : routeEdge t edge_valid job.1 job.2 with
    | none => rw [hr] at h1; cases h1
    | some p =>
      obtain ⟨e, t3⟩ := p
      rw [hr] at h1
      exact ih t3 h1

/-- The routing loop of `CalculateLayout` is the sequence of `routeEdge` calls
listed by `routeJobs`. -/
theorem routeAll_routeSeq (blocks : Blocks) (g : Grid) (edge_valid : Matrix)
    (order : List Nat) (m m1 : EdgeMap) (t t1 : Lanes)
    (h : routeAll blocks g edge_valid order m t = some (m1, t1)) :
    routeSeq edge_valid (routeJobs blocks g order) t = some t1 := by
  induction order generalizing m t with
  | nil =>
    simp only [routeAll, Option.some.injEq, Prod.mk.injEq] at h
    rw [← h.2]; rfl
  | cons blockId rest ih =>
    unfold routeAll at h
    cases hr : routeEdges g edge_valid (g blockId) (blockAt blocks blockId).edges t with
    | none => rw [hr] at h; cases h
    | some p =>
      obtain ⟨ges, t2⟩ := p
      rw [hr] at h
      simp only at h
      have h1 := routeEdges_routeSeq g edge_valid (g blockId) _ t t2 ges hr
      have h2 := ih _ t2 h
      unfold routeJobs
      rw [List.flatMap_cons]
      exact routeSeq_append_intro edge_valid _ _ t t2 t1 h1 h2

theorem routeSeq_cons_some (edge_valid : Matrix) (job : GridBlock × GridBlock)
    (jobs : List (GridBlock × GridBlock)) (t t2 : Lanes)
    (h : routeSeq edge_valid (job :: jobs) t = some t2) :
    ∃ e t1, routeEdge t edge_valid job.1 job.2 = some (e, t1) ∧
      routeSeq edge_valid jobs t1 = some t2 := by
  rw [routeSeq_cons] at h
  cases hr : routeEdge t edge_valid job.1 job.2 with
  | none => rw [hr] at h; cases h
  | some p =>
    obtain ⟨e, t1⟩ := p
    rw [hr] at h
    exact ⟨e, t1, rfl, h⟩

/-! ## `CalculateLayout`: an edge to an absent target -/

/-- C5 (evaluation at the failing input). Node map with the single node 1 and
one edge `1 -> 2`, node 2 absent, entry 1, under each layout type. The routing
loop does call `routeEdge` for the edge and gets four waypoints; the layout
stores a polyline of six points for it (replacing the polyline `[(7, 7)]` it
had); and the node map gains the key 0, the `id` of the grid block that
`grid_blocks[edge.target]` created for the absent target. -/
theorem dangling_edge_is_routed :
    (∀ layoutType : LayoutType,
      ((gridStage layoutType [sampleBlock 1 20 10 [2]] 1).bind
          (fun r => (routeStage r 1).map (fun p => p.1 1)))
        = some [{ dest := 0,
                  points := [⟨1, 1, 0⟩, ⟨1, 0, 0⟩, ⟨0, 0, 0⟩, ⟨0, 1, 0⟩],
                  start_index := 0 }]) ∧
    (∀ layoutType : LayoutType,
      CalculateLayout sampleConfig layoutType [sampleBlock 1 20 10 [2]] 1
        = some
            { blocks :=
                [(1, { x := 35, y := 30, width := 20, height := 10, entry := 1,
                       edges := [{ target := 2,
                                   polyline := [(45, 40), (45, 45), (25, 45), (25, 25),
                                                (45, 25), (45, -1)] }] }),
                 (0, GraphBlock.fresh)],
              width := 80, height := 70 }) := by
  refine ⟨fun layoutType => ?_, fun layoutType => ?_⟩ <;> cases layoutType <;> decide

/-! ## `topoSort`: the spanning tree -/

theorem flatMap_update_perm (f f1 : Nat → List Nat) (src c : Nat) (l : List Nat)
    (hl : l.Nodup) (hsrc : src ∈ l)
    (hf : ∀ p, f1 p = if p = src then f src ++ [c] else f p) :
    List.Perm (l.flatMap f1) (c :: l.flatMap f) := by
  induction l with
  | nil => cases hsrc
  | cons x xs ih =>
    rw [List.nodup_cons] at hl
    rw [List.flatMap_cons, List.flatMap_cons]
    by_cases hx : x = src
    · subst hx
      have hcongr : xs.flatMap f1 = xs.flatMap f := by
        apply List.flatMap_congr
        intro p hp
        rw [hf p, if_neg]
        rintro rfl
        exact hl.1 hp
      rw [hcongr, hf x, if_pos rfl, List.append_assoc]
      exact List.perm_middle
    · have hmem : src ∈ xs := by
        rcases List.mem_cons.1 hsrc with h | h
        · exact absurd h.symm hx
        · exact h
      rw [hf x, if_neg hx]
      exact (List.Perm.append_left (f x) (ih hl.2 hmem)).trans List.perm_middle

theorem lookup_of_mem (blocks : Blocks) (hk : (keysOf blocks).Nodup) (kb : Nat × GraphBlock)
    (h : kb ∈ blocks) : blocks.lookup kb.1 = some kb.2 := by
  induction blocks with
  | nil => cases h
  | cons x xs ih =>
    unfold keysOf at hk
    rw [List.map_cons, List.nodup_cons] at hk
    rcases List.mem_cons.1 h with h1 | h1
    · subst h1
      simp [List.lookup]
    · have hne : kb.1 ≠ x.1 := by
        intro he
        apply hk.1
        rw [← he]
        exact List.mem_map_of_mem Prod.fst h1
      have : (kb.1 == x.1) = false := by simpa using hne
      obtain ⟨a, b⟩ := x
      simp only [List.lookup, this]
      exact ih hk.2 h1

theorem blockAt_of_mem (blocks : Blocks) (hk : (keysOf blocks).Nodup) (kb : Nat × GraphBlock)
    (h : kb ∈ blocks) : blockAt blocks kb.1 = kb.2 := by
  unfold blockAt
  rw [lookup_of_mem blocks hk kb h]

theorem blockAt_entry (blocks : Blocks) (hw : WellFormed blocks) (k : Nat)
    (hk : k ∈ keysOf blocks) : (blockAt blocks k).entry = k := by
  unfold keysOf at hk
  obtain ⟨kb, hkb, rfl⟩ := List.mem_map.1 hk
  rw [blockAt_of_mem blocks hw.1 kb hkb]
  exact hw.2 kb hkb

theorem hasKey_iff (blocks : Blocks) (k : Nat) : hasKey blocks k = true ↔ k ∈ keysOf blocks := by
  simp [hasKey]

theorem ensureKey_of_mem (blocks : Blocks) (k : Nat) (h : k ∈ keysOf blocks) :
    ensureKey blocks k = blocks := by
  unfold ensureKey
  rw [if_pos ((hasKey_iff blocks k).2 h)]

theorem tree_edge_update_incoming (g : Grid) (k : Nat) (inc : List Nat) (p : Nat) :
    ((Function.update g k { g k with incoming := inc }) p).tree_edge = (g p).tree_edge := by
  rw [Function.update_apply]
  split_ifs with h
  · subst h; rfl
  · rfl

theorem tree_edge_update_tree (g : Grid) (k : Nat) (te : List Nat) (p : Nat) :
    ((Function.update g k { g k with tree_edge := te }) p).tree_edge
      = if p = k then te else (g p).tree_edge := by
  rw [Function.update_apply]
  split_ifs with h <;> rfl

/-- What one pass of the body of the edge loop does to the state. -/
theorem visitEdge_spec (blocks : Blocks) (src : Nat) (s : TopoState) (e : GraphEdge) :
    (visitEdge blocks src s e).block_order = s.block_order ∧
    (((visitEdge blocks src s e).queue = s.queue ∧
      (visitEdge blocks src s e).visited = s.visited ∧
      (visitEdge blocks src s e).changed = s.changed ∧
      ∀ p, ((visitEdge blocks src s e).grid p).tree_edge = (s.grid p).tree_edge) ∨
     (e.target ∉ s.visited ∧ e.target ∈ keysOf blocks ∧
      (visitEdge blocks src s e).queue = s.queue ++ [(blockAt blocks e.target).entry] ∧
      (visitEdge blocks src s e).visited = e.target :: s.visited ∧
      (visitEdge blocks src s e).changed = true ∧
      ∀ p, ((visitEdge blocks src s e).grid p).tree_edge
        = if p = src then (s.grid src).tree_edge ++ [e.target] else (s.grid p).tree_edge)) := by
  unfold visitEdge
  simp only
  by_cases h1 : e.target ∈ s.visited
  · rw [if_pos h1]
    exact ⟨rfl, Or.inl ⟨rfl, rfl, rfl, fun _ => rfl⟩⟩
  · rw [if_neg h1]
    by_cases h2 : (!hasKey blocks e.target) = true
    · rw [if_pos h2]
      exact ⟨rfl, Or.inl ⟨rfl, rfl, rfl, fun _ => rfl⟩⟩
    · rw [if_neg h2]
      have hkey : e.target ∈ keysOf blocks := by
        rw [← hasKey_iff]
        simpa using h2
      by_cases h3 : (s.grid e.target).incoming.length = 1
      · rw [if_pos h3]
        refine ⟨rfl, Or.inr ⟨h1, hkey, rfl, rfl, rfl, fun p => ?_⟩⟩
        simp only [tree_edge_update_tree, tree_edge_update_incoming]
      · rw [if_neg h3]
        refine ⟨rfl, Or.inl ⟨rfl, rfl, rfl, fun p => ?_⟩⟩
        simp only [tree_edge_update_incoming]

/-- What adopting the node chosen by the fallback scan does to the state. -/
theorem adoptBest_spec (s : TopoState) (b : Best) (hb : b.best ≠ 0) :
    (adoptBest s b).block_order = s.block_order ∧
    (adoptBest s b).queue = s.queue ++ [b.best] ∧
    (adoptBest s b).visited = b.best :: s.visited ∧
    (adoptBest s b).changed = true ∧
    ∀ p, ((adoptBest s b).grid p).tree_edge
      = if p = b.best_parent then (s.grid b.best_parent).tree_edge ++ [b.best]
        else (s.grid p).tree_edge := by
  unfold adoptBest
  rw [if_pos hb]
  refine ⟨rfl, rfl, rfl, rfl, fun p => ?_⟩
  simp only [tree_edge_update_tree, tree_edge_update_incoming]

theorem treeChildren_congr (g g1 : Grid) (l : List Nat)
    (h : ∀ p, (g1 p).tree_edge = (g p).tree_edge) : treeChildren g1 l = treeChildren g l := by
  unfold treeChildren
  exact List.flatMap_congr (fun p _ => h p)

/-- The invariant only reads the order, the queue, the visited set and the
`tree_edge` lists. -/
theorem TopoInv.same {blocks : Blocks} {entry : Nat} {s s1 : TopoState}
    (h : TopoInv blocks entry s) (ho : s1.block_order = s.block_order)
    (hq : s1.queue = s.queue) (hv : s1.visited = s.visited)
    (ht : ∀ p, (s1.grid p).tree_edge = (s.grid p).tree_edge) : TopoInv blocks entry s1 := by
  have hseq : s1.seq = s.seq := by unfold TopoState.seq; rw [ho, hq]
  refine ⟨?_, ?_, ?_, ?_, ?_, ?_⟩
  · rw [hseq]; exact h.nodup
  · intro x; rw [hseq, hv]; exact h.visited_iff x
  · rw [hseq]; exact h.keys
  · rw [hseq, treeChildren_congr s.grid s1.grid _ ht]; exact h.perm
  · intro p c hc
    rw [ht p] at hc
    rw [hseq]
    exact h.edge p c hc
  · rw [hseq]; exact h.reach

/-- Taking the front of the queue into the order keeps the invariant. -/
theorem TopoInv.pop {blocks : Blocks} {entry : Nat} {s s1 : TopoState}
    (h : TopoInv blocks entry s) (q : Nat) (rest : List Nat) (hq : s.queue = q :: rest)
    (ho1 : s1.block_order = s.block_order ++ [q]) (hq1 : s1.queue = rest)
    (hv : s1.visited = s.visited)
    (ht : ∀ p, (s1.grid p).tree_edge = (s.grid p).tree_edge) : TopoInv blocks entry s1 := by
  have hseq : s1.seq = s.seq := by
    unfold TopoState.seq
    rw [ho1, hq1, hq, List.append_assoc, List.singleton_append]
  refine ⟨?_, ?_, ?_, ?_, ?_, ?_⟩
  · rw [hseq]; exact h.nodup
  · intro x; rw [hseq, hv]; exact h.visited_iff x
  · rw [hseq]; exact h.keys
  · rw [hseq, treeChildren_congr s.grid s1.grid _ ht]; exact h.perm
  · intro p c hc
    rw [ht p] at hc
    rw [hseq]
    exact h.edge p c hc
  · rw [hseq]; exact h.reach

/-- Making the unvisited key `c` a tree child of the met node `src`, which has
an edge to it, and queueing it keeps the invariant. -/
theorem TopoInv.add_child {blocks : Blocks} {entry : Nat} {s s1 : TopoState}
    (h : TopoInv blocks entry s) (src c : Nat) (hsrc : src ∈ s.seq)
    (hc1 : c ∉ s.visited) (hc2 : c ∈ keysOf blocks)
    (hedge : ∃ e ∈ (blockAt blocks src).edges, e.target = c)
    (ho : s1.block_order = s.block_order) (hq : s1.queue = s.queue ++ [c])
    (hv : s1.visited = c :: s.visited)
    (ht : ∀ p, (s1.grid p).tree_edge
      = if p = src then (s.grid src).tree_edge ++ [c] else (s.grid p).tree_edge) :
    TopoInv blocks entry s1 := by
  have hseq : s1.seq = s.seq ++ [c] := by
    unfold TopoState.seq
    rw [ho, hq, List.append_assoc]
  have hcseq : c ∉ s.seq := fun hm => hc1 ((h.visited_iff c).2 hm)
  have hne : c ≠ src := fun he => hcseq (he ▸ hsrc)
  have hleaf : (s.grid c).tree_edge = [] := by
    rw [List.eq_nil_iff_forall_not_mem]
    intro x hx
    exact hcseq (h.edge c x hx).1
  refine ⟨?_, ?_, ?_, ?_, ?_, ?_⟩
  · rw [hseq]
    refine List.Nodup.append h.nodup (List.nodup_singleton c) ?_
    intro x hx hx2
    rw [List.mem_singleton] at hx2
    subst hx2
    exact hcseq hx
  · intro x
    rw [hseq, hv, List.mem_cons, List.mem_append, List.mem_singleton, h.visited_iff x]
    exact or_comm
  · intro x hx
    rw [hseq, List.mem_append, List.mem_singleton] at hx
    rcases hx with hx | hx
    · exact h.keys x hx
    · rw [hx]; exact hc2
  · rw [hseq]
    unfold treeChildren
    rw [List.flatMap_append, List.flatMap_singleton, ht c, if_neg hne, hleaf, List.append_nil]
    have hp := flatMap_update_perm (fun p => (s.grid p).tree_edge)
      (fun p => (s1.grid p).tree_edge) src c s.seq h.nodup hsrc ht
    have h1 : List.Perm (entry :: s.seq.flatMap (fun p => (s1.grid p).tree_edge))
        (c :: entry :: treeChildren s.grid s.seq) :=
      (List.Perm.cons entry hp).trans (List.Perm.swap c entry _)
    have h2 : List.Perm (c :: entry :: treeChildren s.grid s.seq) (c :: s.seq) :=
      List.Perm.cons c h.perm
    exact (h1.trans h2).trans (List.perm_append_singleton c s.seq).symm
  · intro p x hx
    rw [hseq]
    rw [ht p] at hx
    have hold : x ∈ (s.grid p).tree_edge →
        p ∈ s.seq ++ [c] ∧ x ∈ s.seq ++ [c] ∧ (∃ e ∈ (blockAt blocks p).edges, e.target = x) ∧
          (s.seq ++ [c]).indexOf p < (s.seq ++ [c]).indexOf x := by
      intro hx0
      obtain ⟨a1, a2, a3, a4⟩ := h.edge p x hx0
      refine ⟨List.mem_append_left _ a1, List.mem_append_left _ a2, a3, ?_⟩
      rw [List.indexOf_append_of_mem a1, List.indexOf_append_of_mem a2]
      exact a4
    by_cases hp : p = src
    · rw [if_pos hp, List.mem_append, List.mem_singleton] at hx
      rcases hx with hx | hx
      · exact hold (hp ▸ hx)
      · subst hx
        subst hp
        refine ⟨List.mem_append_left _ hsrc, List.mem_append_right _ (List.mem_singleton_self _),
          hedge, ?_⟩
        rw [List.indexOf_append_of_mem hsrc, List.indexOf_append_of_not_mem hcseq]
        have := List.indexOf_lt_length.2 hsrc
        omega
    · rw [if_neg hp] at hx
      exact hold hx
  · intro x hx
    rw [hseq, List.mem_append, List.mem_singleton] at hx
    rcases hx with hx | hx
    · exact h.reach x hx
    · subst hx
      exact Relation.ReflTransGen.tail (h.reach src hsrc) ⟨(hasKey_iff blocks x).2 hc2, hedge⟩

theorem unvisited_filter_cons (keys v : List Nat) (c : Nat) :
    (keys.filter (fun k => decide (k ∉ c :: v))).length
        ≤ (keys.filter (fun k => decide (k ∉ v))).length ∧
    (c ∈ keys → c ∉ v →
      (keys.filter (fun k => decide (k ∉ c :: v))).length
        < (keys.filter (fun k => decide (k ∉ v))).length) := by
  induction keys with
  | nil => exact ⟨le_refl _, fun h => absurd h (List.not_mem_nil c)⟩
  | cons x xs ih =>
    obtain ⟨ih1, ih2⟩ := ih
    simp only [List.filter_cons]
    by_cases hxv : x ∈ v
    · have e1 : decide (x ∉ c :: v) = false := by simp [hxv]
      have e2 : decide (x ∉ v) = false := by simp [hxv]
      rw [e1, e2]
      simp only [Bool.false_eq_true, if_false]
      refine ⟨ih1, fun hc hcv => ih2 ?_ hcv⟩
      rcases List.mem_cons.1 hc with h | h
      · exact absurd (h ▸ hxv) hcv
      · exact h
    · have e2 : decide (x ∉ v) = true := by simp [hxv]
      rw [e2]
      simp only [if_true, List.length_cons]
      by_cases hxc : x = c
      · have e1 : decide (x ∉ c :: v) = false := by simp [hxc]
        rw [e1]
        simp only [Bool.false_eq_true, if_false]
        exact ⟨by omega, fun _ _ => by omega⟩
      · have e1 : decide (x ∉ c :: v) = true := by simp [hxc, hxv]
        rw [e1]
        simp only [if_true, List.length_cons]
        refine ⟨by omega, fun hc hcv => ?_⟩
        have : c ∈ xs := by
          rcases List.mem_cons.1 hc with h | h
          · exact absurd h.symm hxc
          · exact h
        have := ih2 this hcv
        omega

theorem unvisitedCount_cons_lt (blocks : Blocks) (v : List Nat) (c : Nat)
    (hc : c ∈ keysOf blocks) (hv : c ∉ v) :
    unvisitedCount blocks (c :: v) < unvisitedCount blocks v :=
  (unvisited_filter_cons (keysOf blocks) v c).2 hc hv

/-- One pass of the body of the edge loop: the invariant is kept, the sum of
queue length and unvisited keys does not grow, and `changed` is only set when
a key is newly visited. -/
theorem visitEdge_inv (blocks : Blocks) (hw : WellFormed blocks) (entry src : Nat)
    (s : TopoState) (e : GraphEdge) (h : TopoInv blocks entry s) (hsrc : src ∈ s.seq)
    (he : e ∈ (blockAt blocks src).edges) :
    TopoInv blocks entry (visitEdge blocks src s e) ∧
    src ∈ (visitEdge blocks src s e).seq ∧
    (visitEdge blocks src s e).queue.length
        + unvisitedCount blocks (visitEdge blocks src s e).visited
      ≤ s.queue.length + unvisitedCount blocks s.visited ∧
    unvisitedCount blocks (visitEdge blocks src s e).visited
      ≤ unvisitedCount blocks s.visited ∧
    ((visitEdge blocks src s e).changed = true →
      s.changed = true ∨
        unvisitedCount blocks (visitEdge blocks src s e).visited
          < unvisitedCount blocks s.visited) := by
  obtain ⟨ho, hcase⟩ := visitEdge_spec blocks src s e
  rcases hcase with ⟨hq, hv, hch, ht⟩ | ⟨hn, hk, hq, hv, hch, ht⟩
  · refine ⟨h.same ho hq hv ht, ?_, ?_, ?_, ?_⟩
    · unfold TopoState.seq at hsrc ⊢
      rw [ho, hq]; exact hsrc
    · rw [hq, hv]
    · rw [hv]
    · intro hc
      rw [hch] at hc
      exact Or.inl hc
  · rw [blockAt_entry blocks hw e.target hk] at hq
    have hlt := unvisitedCount_cons_lt blocks s.visited e.target hk hn
    refine ⟨h.add_child src e.target hsrc hn hk ⟨e, he, rfl⟩ ho hq hv ht, ?_, ?_, ?_, ?_⟩
    · unfold TopoState.seq at hsrc ⊢
      rw [ho, hq, ← List.append_assoc]
      exact List.mem_append_left _ hsrc
    · rw [hq, hv, List.length_append, List.length_singleton]
      omega
    · rw [hv]; omega
    · intro _
      rw [hv]
      exact Or.inr hlt

theorem visitEdges_inv (blocks : Blocks) (hw : WellFormed blocks) (entry src : Nat)
    (es : List GraphEdge) (s : TopoState) (h : TopoInv blocks entry s) (hsrc : src ∈ s.seq)
    (he : ∀ e ∈ es, e ∈ (blockAt blocks src).edges) :
    TopoInv blocks entry (es.foldl (visitEdge blocks src) s) ∧
    (es.foldl (visitEdge blocks src) s).queue.length
        + unvisitedCount blocks (es.foldl (visitEdge blocks src) s).visited
      ≤ s.queue.length + unvisitedCount blocks s.visited ∧
    unvisitedCount blocks (es.foldl (visitEdge blocks src) s).visited
      ≤ unvisitedCount blocks s.visited ∧
    ((es.foldl (visitEdge blocks src) s).changed = true →
      s.changed = true ∨
        unvisitedCount blocks (es.foldl (visitEdge blocks src) s).visited
          < unvisitedCount blocks s.visited) := by
  induction es generalizing s with
  | nil => exact ⟨h, le_refl _, le_refl _, fun hc => Or.inl hc⟩
  | cons e es ih =>
    rw [List.foldl_cons]
    obtain ⟨a1, a2, a3, a4, a5⟩ :=
      visitEdge_inv blocks hw entry src s e h hsrc (he e (List.mem_cons_self _ _))
    obtain ⟨b1, b2, b3, b4⟩ :=
      ih (visitEdge blocks src s e) a1 a2 (fun x hx => he x (List.mem_cons_of_mem _ hx))
    refine ⟨b1, by omega, by omega, fun hc => ?_⟩
    rcases b4 hc with h1 | h1
    · rcases a5 h1 with h2 | h2
      · exact Or.inl h2
      · exact Or.inr (by omega)
    · exact Or.inr (by omega)

/-- The loop that empties the queue ends with the fuel it is given, keeps the
invariant, and sets `changed` only when a key is newly visited. -/
theorem drain_inv (blocks : Blocks) (hw : WellFormed blocks) (entry : Nat) (fuel : Nat)
    (s : TopoState) (h : TopoInv blocks entry s)
    (hf : s.queue.length + unvisitedCount blocks s.visited ≤ fuel) :
    ∃ s1, drain blocks fuel s = some s1 ∧ TopoInv blocks entry s1 ∧ s1.queue = [] ∧
      unvisitedCount blocks s1.visited ≤ unvisitedCount blocks s.visited ∧
      (s1.changed = true →
        s.changed = true ∨ unvisitedCount blocks s1.visited < unvisitedCount blocks s.visited) := by
  induction fuel generalizing s with
  | zero =>
    have hq : s.queue = [] := List.eq_nil_of_length_eq_zero (by omega)
    refine ⟨s, ?_, h, hq, le_refl _, fun hc => Or.inl hc⟩
    unfold drain
    rw [hq]
  | succ fuel ih =>
    cases hq : s.queue with
    | nil =>
      refine ⟨s, ?_, h, hq, le_refl _, fun hc => Or.inl hc⟩
      unfold drain
      rw [hq]
    | cons q rest =>
      have hqseq : q ∈ s.seq := by
        unfold TopoState.seq
        rw [hq]
        exact List.mem_append_right _ (List.mem_cons_self _ _)
      have hqk : q ∈ keysOf blocks := h.keys q hqseq
      have hent : (blockAt blocks q).entry = q := blockAt_entry blocks hw q hqk
      have hpop : TopoInv blocks entry
          { s with queue := rest, block_order := s.block_order ++ [(blockAt blocks q).entry] } :=
        h.pop q rest hq (by rw [hent]) rfl rfl (fun _ => rfl)
      have hsrc : (blockAt blocks q).entry ∈
          ({ s with queue := rest,
                    block_order := s.block_order ++ [(blockAt blocks q).entry] } : TopoState).seq := by
        unfold TopoState.seq
        exact List.mem_append_left _ (List.mem_append_right _ (List.mem_singleton_self _))
      obtain ⟨a1, a2, a3, a4⟩ := visitEdges_inv blocks hw entry (blockAt blocks q).entry
        (blockAt blocks q).edges _ hpop hsrc (by rw [hent]; exact fun e he => he)
      rw [hq, List.length_cons] at hf
      obtain ⟨s1, b1, b2, b3, b4, b5⟩ := ih _ a1 (by simp only at a2; omega)
      refine ⟨s1, ?_, b2, b3, by simp only at a3; omega, fun hc => ?_⟩
      · unfold drain
        rw [hq]
        exact b1
      · simp only at a3 a4
        rcases b5 hc with h1 | h1
        · rcases a4 h1 with h2 | h2
          · exact Or.inl h2
          · exact Or.inr (by omega)
        · exact Or.inr (by omega)

/-- A node adopted by the fallback scan is an unvisited key and the target of
an edge of the visited node recorded as its parent. -/
theorem scanEdge_spec (blocks : Blocks) (s : TopoState) (src : Nat) (b : Best) (e : GraphEdge)
    (hsrc : src ∈ s.visited) (he : e ∈ (blockAt blocks src).edges)
    (hb : b.best ≠ 0 → b.best ∉ s.visited ∧ b.best ∈ keysOf blocks ∧
      b.best_parent ∈ s.visited ∧ ∃ e ∈ (blockAt blocks b.best_parent).edges, e.target = b.best) :
    (scanEdge blocks s src b e).best ≠ 0 →
      (scanEdge blocks s src b e).best ∉ s.visited ∧
      (scanEdge blocks s src b e).best ∈ keysOf blocks ∧
      (scanEdge blocks s src b e).best_parent ∈ s.visited ∧
      ∃ e1 ∈ (blockAt blocks (scanEdge blocks s src b e).best_parent).edges,
        e1.target = (scanEdge blocks s src b e).best := by
  unfold scanEdge
  simp only
  by_cases h1 : e.target ∈ s.visited
  · rw [if_pos h1]; exact hb
  · rw [if_neg h1]
    by_cases h2 : (!hasKey blocks e.target) = true
    · rw [if_pos h2]; exact hb
    · rw [if_neg h2]
      have hkey : e.target ∈ keysOf blocks := by
        rw [← hasKey_iff]
        simpa using h2
      split_ifs
      · intro _
        exact ⟨h1, hkey, hsrc, e, he, rfl⟩
      · exact hb

theorem scanEdges_spec (blocks : Blocks) (s : TopoState) (src : Nat) (es : List GraphEdge)
    (b : Best) (hsrc : src ∈ s.visited) (he : ∀ e ∈ es, e ∈ (blockAt blocks src).edges)
    (hb : b.best ≠ 0 → b.best ∉ s.visited ∧ b.best ∈ keysOf blocks ∧
      b.best_parent ∈ s.visited ∧ ∃ e ∈ (blockAt blocks b.best_parent).edges, e.target = b.best) :
    (es.foldl (scanEdge blocks s src) b).best ≠ 0 →
      (es.foldl (scanEdge blocks s src) b).best ∉ s.visited ∧
      (es.foldl (scanEdge blocks s src) b).best ∈ keysOf blocks ∧
      (es.foldl (scanEdge blocks s src) b).best_parent ∈ s.visited ∧
      ∃ e1 ∈ (blockAt blocks (es.foldl (scanEdge blocks s src) b).best_parent).edges,
        e1.target = (es.foldl (scanEdge blocks s src) b).best := by
  induction es generalizing b with
  | nil => exact hb
  | cons e es ih =>
    rw [List.foldl_cons]
    exact ih _ (fun x hx => he x (List.mem_cons_of_mem _ hx))
      (scanEdge_spec blocks s src b e hsrc (he e (List.mem_cons_self _ _)) hb)

theorem scanBlocks_spec (blocks : Blocks) (hw : WellFormed blocks) (s : TopoState) :
    (scanBlocks blocks s).best ≠ 0 →
      (scanBlocks blocks s).best ∉ s.visited ∧
      (scanBlocks blocks s).best ∈ keysOf blocks ∧
      (scanBlocks blocks s).best_parent ∈ s.visited ∧
      ∃ e1 ∈ (blockAt blocks (scanBlocks blocks s).best_parent).edges,
        e1.target = (scanBlocks blocks s).best := by
  have key : ∀ (l : List (Nat × GraphBlock)) (b : Best), (∀ kb ∈ l, kb ∈ blocks) →
      (b.best ≠ 0 → b.best ∉ s.visited ∧ b.best ∈ keysOf blocks ∧
        b.best_parent ∈ s.visited ∧
        ∃ e ∈ (blockAt blocks b.best_parent).edges, e.target = b.best) →
      let r := l.foldl
        (fun b kb =>
          if kb.2.entry ∈ s.visited then kb.2.edges.foldl (scanEdge blocks s kb.2.entry) b
          else b) b
      (r.best ≠ 0 → r.best ∉ s.visited ∧ r.best ∈ keysOf blocks ∧
        r.best_parent ∈ s.visited ∧
        ∃ e ∈ (blockAt blocks r.best_parent).edges, e.target = r.best) := by
    intro l
    induction l with
    | nil => intro b _ hb; exact hb
    | cons kb l ih =>
      intro b hl hb
      rw [List.foldl_cons]
      apply ih _ (fun x hx => hl x (List.mem_cons_of_mem _ hx))
      have hkb := hl kb (List.mem_cons_self _ _)
      by_cases hv : kb.2.entry ∈ s.visited
      · rw [if_pos hv]
        refine scanEdges_spec blocks s kb.2.entry kb.2.edges b hv ?_ hb
        rw [hw.2 kb hkb, blockAt_of_mem blocks hw.1 kb hkb]
        exact fun e he => he
      · rw [if_neg hv]; exact hb
  exact key blocks _ (fun _ h => h) (fun h => absurd rfl h)

/-- The loop `while (changed)` ends with the fuel it is given and keeps the
invariant; when it ends the queue is empty. -/
theorem mainLoop_inv (blocks : Blocks) (hw : WellFormed blocks) (entry : Nat) (fuel : Nat)
    (s : TopoState) (h : TopoInv blocks entry s)
    (hf : unvisitedCount blocks s.visited + 1 ≤ fuel) :
    ∃ s1, mainLoop blocks fuel s = some s1 ∧ TopoInv blocks entry s1 ∧ s1.queue = [] := by
  induction fuel generalizing s with
  | zero => omega
  | succ fuel ih =>
    have h0 : TopoInv blocks entry { s with changed := false } :=
      h.same rfl rfl rfl (fun _ => rfl)
    obtain ⟨s1, d1, d2, d3, d4, d5⟩ := drain_inv blocks hw entry
      (s.queue.length + unvisitedCount blocks s.visited) { s with changed := false } h0
      (le_refl _)
    simp only at d4 d5
    unfold mainLoop
    rw [d1]
    simp only
    by_cases hb : (scanBlocks blocks s1).best ≠ 0
    · obtain ⟨c1, c2, c3, c4⟩ := scanBlocks_spec blocks hw s1 hb
      obtain ⟨a1, a2, a3, a4, a5⟩ := adoptBest_spec s1 (scanBlocks blocks s1) hb
      have hinv : TopoInv blocks entry (adoptBest s1 (scanBlocks blocks s1)) :=
        d2.add_child _ _ ((d2.visited_iff _).1 c3) c1 c2 c4 a1 a2 a3 a5
      have hlt := unvisitedCount_cons_lt blocks s1.visited _ c2 c1
      rw [if_pos a4]
      exact ih _ hinv (by rw [a3]; omega)
    · have hb0 : (scanBlocks blocks s1).best = 0 := by
        by_contra hne
        exact hb hne
      have hsame : adoptBest s1 (scanBlocks blocks s1) = s1 := by
        unfold adoptBest
        rw [if_neg (by simpa using hb0)]
      rw [hsame]
      by_cases hc : s1.changed = true
      · rw [if_pos hc]
        rcases d5 hc with h1 | h1
        · cases h1
        · exact ih s1 d2 (by omega)
      · rw [if_neg hc]
        exact ⟨s1, rfl, d2, d3⟩

theorem populateIncoming_tree_edge (blocks : Blocks) (g : Grid) (p : Nat) :
    ((populateIncoming blocks g) p).tree_edge = (g p).tree_edge := by
  unfold populateIncoming
  have inner : ∀ (es : List GraphEdge) (k : Nat) (g : Grid),
      ((es.foldl (pushIncoming k) g) p).tree_edge = (g p).tree_edge := by
    intro es k
    induction es with
    | nil => intro g; rfl
    | cons e es ih =>
      intro g
      rw [List.foldl_cons, ih]
      unfold pushIncoming
      exact tree_edge_update_incoming g e.target _ p
  induction blocks generalizing g with
  | nil => rfl
  | cons kb blocks ih =>
    rw [List.foldl_cons, ih, inner]

theorem topoInit_inv (blocks : Blocks) (grid : Grid) (entry : Nat)
    (hin : entry ∈ keysOf blocks) (hg : ∀ k, (grid k).tree_edge = []) :
    TopoInv blocks entry (topoInit blocks grid entry) := by
  have hte : ∀ p, ((topoInit blocks grid entry).grid p).tree_edge = [] := by
    intro p
    unfold topoInit
    simp only
    rw [populateIncoming_tree_edge, hg]
  have hseq : (topoInit blocks grid entry).seq = [entry] := rfl
  refine ⟨?_, ?_, ?_, ?_, ?_, ?_⟩
  · rw [hseq]; exact List.nodup_singleton _
  · intro x; rw [hseq]; exact Iff.rfl
  · intro x hx
    rw [hseq, List.mem_singleton] at hx
    rw [hx]; exact hin
  · rw [hseq]
    unfold treeChildren
    rw [List.flatMap_singleton, hte]
  · intro p c hc
    rw [hte p] at hc
    cases hc
  · intro x hx
    rw [hseq, List.mem_singleton] at hx
    rw [hx]
    exact Relation.ReflTransGen.refl

theorem initGrid_tree_edge (blocks : Blocks) (k : Nat) : (initGrid blocks k).tree_edge = [] := by
  unfold initGrid
  have key : ∀ (l : Blocks) (g : Grid), (∀ k, (g k).tree_edge = []) →
      ∀ k, ((l.foldl (fun g kb => Function.update g kb.1 { GridBlock.fresh with id := kb.1 }) g)
        k).tree_edge = [] := by
    intro l
    induction l with
    | nil => intro g hg k; exact hg k
    | cons kb l ih =>
      intro g hg k
      rw [List.foldl_cons]
      apply ih
      intro j
      rw [Function.update_apply]
      split_ifs
      · rfl
      · exact hg j
  exact key blocks _ (fun _ => rfl) k

theorem transGen_index_lt (g : Grid) (order : List Nat)
    (h : ∀ p c, c ∈ (g p).tree_edge → order.indexOf p < order.indexOf c) (a b : Nat)
    (hab : Relation.TransGen (fun x y => y ∈ (g x).tree_edge) a b) :
    order.indexOf a < order.indexOf b := by
  induction hab with
  | single h1 => exact h _ _ h1
  | tail _ h2 ih => exact lt_trans ih (h _ _ h2)

/-- C2. On a well-formed node map whose entry is a key, starting from grid
blocks without tree edges, `topoSort` returns, and its `tree_edge` lists form
a tree rooted at the entry over exactly the nodes of the returned order: the
order has no repetition and contains the entry; the entry is nobody's tree
child; every other node of the order is a tree child of exactly one node (and
occurs once in that node's list); every tree child is the target of an edge of
its parent, parent and child are in the order and the parent comes first;
there are `|order| - 1` tree edges; and no chain of tree edges is a cycle. -/
theorem topoSort_tree (blocks : Blocks) (grid : Grid) (gridKeys : List Nat) (entry : Nat)
    (hw : WellFormed blocks) (hin : entry ∈ keysOf blocks)
    (hg : ∀ k, (grid k).tree_edge = []) :
    ∃ r, topoSort blocks grid gridKeys entry = some r ∧
      r.order.Nodup ∧ entry ∈ r.order ∧
      (∀ p, entry ∉ (r.grid p).tree_edge) ∧
      (∀ c ∈ r.order, c ≠ entry → ∃! p, c ∈ (r.grid p).tree_edge) ∧
      (∀ p, (r.grid p).tree_edge.Nodup) ∧
      (∀ p c, c ∈ (r.grid p).tree_edge →
        p ∈ r.order ∧ c ∈ r.order ∧ (∃ e ∈ (blockAt blocks p).edges, e.target = c) ∧
          r.order.indexOf p < r.order.indexOf c) ∧
      (r.order.map (fun p => (r.grid p).tree_edge.length)).sum + 1 = r.order.length ∧
      (∀ p, ¬ Relation.TransGen (fun a b => b ∈ (r.grid a).tree_edge) p p) := by
  obtain ⟨s, hs, hinv, hq⟩ := mainLoop_inv blocks hw entry
    (unvisitedCount blocks [entry] + 2) (topoInit blocks grid entry)
    (topoInit_inv blocks grid entry hin hg) (by
      show unvisitedCount blocks [entry] + 1 ≤ unvisitedCount blocks [entry] + 2
      omega)
  have hseq : s.seq = s.block_order := by
    unfold TopoState.seq
    rw [hq, List.append_nil]
  have hnd := hinv.nodup
  have hperm := hinv.perm
  have hedge := hinv.edge
  rw [hseq] at hnd hperm hedge
  have hnd2 : (entry :: treeChildren s.grid s.block_order).Nodup := hperm.nodup_iff.2 hnd
  rw [List.nodup_cons] at hnd2
  obtain ⟨hentry, htc⟩ := hnd2
  have htc2 := htc
  unfold treeChildren at htc2
  rw [List.nodup_flatMap] at htc2
  refine ⟨{ order := s.block_order, blocks := blocks, grid := s.grid,
            gridKeys := populateKeys blocks gridKeys }, ?_, hnd, ?_, ?_, ?_, ?_, ?_, ?_, ?_⟩
  · unfold topoSort
    simp only
    rw [ensureKey_of_mem blocks entry hin, hs]
  · exact hperm.mem_iff.1 (List.mem_cons_self _ _)
  · intro p hp
    apply hentry
    unfold treeChildren
    exact List.mem_flatMap.2 ⟨p, (hedge p entry hp).1, hp⟩
  · intro c hc hne
    have hc2 : c ∈ entry :: treeChildren s.grid s.block_order := hperm.mem_iff.2 hc
    rcases List.mem_cons.1 hc2 with h1 | h1
    · exact absurd h1 hne
    · unfold treeChildren at h1
      obtain ⟨p, hp, hcp⟩ := List.mem_flatMap.1 h1
      refine ⟨p, hcp, fun p1 hcp1 => ?_⟩
      by_contra hpp
      have hp1 : p1 ∈ s.block_order := (hedge p1 c hcp1).1
      have hdis := htc2.2.forall (fun a b hab => hab.symm) hp1 hp hpp
      exact hdis hcp1 hcp
  · intro p
    by_cases hp : p ∈ s.block_order
    · exact htc2.1 p hp
    · have : (s.grid p).tree_edge = [] := by
        rw [List.eq_nil_iff_forall_not_mem]
        intro x hx
        exact hp (hedge p x hx).1
      rw [this]
      exact List.nodup_nil
  · exact hedge
  · have hlen := hperm.length_eq
    unfold treeChildren at hlen
    rw [List.length_cons, List.length_flatMap] at hlen
    exact hlen
  · intro p hp
    have := transGen_index_lt s.grid s.block_order (fun a b hab => (hedge a b hab).2.2.2) p p hp
    omega

/-- Witness of C2: the diamond with entry 1, as `CalculateLayout` calls
`topoSort` on it. -/
theorem topoSort_tree_witness :
    WellFormed diamondMap ∧ 1 ∈ keysOf diamondMap ∧
    (∀ k, (initGrid diamondMap k).tree_edge = []) ∧
    ∃ r, topoSort diamondMap (initGrid diamondMap) (keysOf diamondMap) 1 = some r ∧
      r.order.Nodup ∧ 1 ∈ r.order ∧
      (∀ p, 1 ∉ (r.grid p).tree_edge) ∧
      (∀ c ∈ r.order, c ≠ 1 → ∃! p, c ∈ (r.grid p).tree_edge) ∧
      (∀ p, (r.grid p).tree_edge.Nodup) ∧
      (∀ p c, c ∈ (r.grid p).tree_edge →
        p ∈ r.order ∧ c ∈ r.order ∧ (∃ e ∈ (blockAt diamondMap p).edges, e.target = c) ∧
          r.order.indexOf p < r.order.indexOf c) ∧
      (r.order.map (fun p => (r.grid p).tree_edge.length)).sum + 1 = r.order.length ∧
      (∀ p, ¬ Relation.TransGen (fun a b => b ∈ (r.grid a).tree_edge) p p) :=
  ⟨by decide, by decide, initGrid_tree_edge diamondMap,
   topoSort_tree diamondMap (initGrid diamondMap) (keysOf diamondMap) 1 (by decide) (by decide)
     (initGrid_tree_edge diamondMap)⟩

/-! ## `adjustGraphLayout` and `computeBlockPlacement` -/

theorem subtree_congr (g g1 : Grid) (h : ∀ k, (g1 k).tree_edge = (g k).tree_edge)
    (fuel n : Nat) : subtree g1 fuel n = subtree g fuel n := by
  induction fuel generalizing n with
  | zero => rfl
  | succ fuel ih =>
    simp only [subtree]
    rw [h n]
    congr 1
    exact List.flatMap_congr (fun c _ => ih c)

theorem fits_congr (g g1 : Grid) (h : ∀ k, (g1 k).tree_edge = (g k).tree_edge)
    (fuel n : Nat) : fits g1 fuel n = fits g fuel n := by
  induction fuel generalizing n with
  | zero => rfl
  | succ fuel ih =>
    simp only [fits]
    rw [h n]
    congr 1
    funext c
    exact ih c

theorem inSubtree_congr (g g1 : Grid) (h : ∀ k, (g1 k).tree_edge = (g k).tree_edge)
    (n d : Nat) : InSubtree g1 n d ↔ InSubtree g n d := by
  have e : TreeChild g1 = TreeChild g := by
    funext p c
    unfold TreeChild
    rw [h p]
  unfold InSubtree
  rw [e]

/-- With enough fuel the list `subtree` holds exactly the nodes of the
tree-subtree. -/
theorem mem_subtree_iff (g : Grid) (fuel n d : Nat) (hf : fits g fuel n = true) :
    d ∈ subtree g fuel n ↔ InSubtree g n d := by
  induction fuel generalizing n with
  | zero => cases hf
  | succ fuel ih =>
    simp only [fits, List.all_eq_true] at hf
    simp only [subtree, List.mem_cons, List.mem_flatMap]
    constructor
    · rintro (h | ⟨c, hc, hd⟩)
      · rw [h]; exact Relation.ReflTransGen.refl
      · exact Relation.ReflTransGen.head hc ((ih c (hf c hc)).1 hd)
    · intro h
      rcases Relation.ReflTransGen.cases_head h with h1 | ⟨c, hc, hd⟩
      · exact Or.inl h1.symm
      · exact Or.inr ⟨c, hc, (ih c (hf c hc)).2 hd⟩

theorem shiftOn_tree_edge (nodes : List Nat) (col row : Int) (g : Grid) (k : Nat) :
    (shiftOn nodes col row g k).tree_edge = (g k).tree_edge := by
  unfold shiftOn
  split_ifs <;> rfl

theorem shiftOn_append (xs ys : List Nat) (col row : Int) (g : Grid)
    (hdis : ∀ k, k ∈ xs → k ∉ ys) :
    shiftOn ys col row (shiftOn xs col row g) = shiftOn (xs ++ ys) col row g := by
  funext k
  unfold shiftOn
  by_cases h2 : k ∈ xs
  · have h3 : k ∉ ys := hdis k h2
    simp only [List.mem_append, h2, h3, if_true, if_false, true_or]
  · by_cases h3 : k ∈ ys
    · simp only [List.mem_append, h2, h3, if_true, if_false, or_true]
    · simp only [List.mem_append, h2, h3, if_false, or_false]

theorem shiftOn_cons (n : Nat) (ys : List Nat) (col row : Int) (g : Grid) (hn : n ∉ ys) :
    shiftOn ys col row (Function.update g n ((g n).move col row))
      = shiftOn (n :: ys) col row g := by
  funext k
  unfold shiftOn
  by_cases hk : k = n
  · subst hk
    simp only [List.mem_cons, hn, if_false, true_or, if_true, Function.update_same]
  · by_cases h3 : k ∈ ys
    · simp only [List.mem_cons, h3, if_true, hk, false_or, Function.update_noteq hk]
    · simp only [List.mem_cons, h3, if_false, hk, false_or, Function.update_noteq hk]

theorem forEdges_cons (step : Grid → Nat → Option Grid) (e : Nat) (es : List Nat) (g : Grid) :
    forEdges step (e :: es) g
      = match step g e with
        | none => none
        | some g1 => forEdges step es g1 := rfl

/-- Function `adjustGraphLayout` on a tree: it ends, and adds `col` and `row`
to the column and the row of exactly the nodes of the subtree. -/
theorem adjustGraphLayout_spec (fuel : Nat) (g : Grid) (n : Nat) (col row : Int)
    (ht : IsTree g fuel n) :
    adjustGraphLayout fuel g n col row = some (shiftOn (subtree g fuel n) col row g) := by
  induction fuel generalizing g n with
  | zero => cases ht.1
  | succ fuel ih =>
    obtain ⟨hf, hnd⟩ := ht
    simp only [fits, List.all_eq_true] at hf
    simp only [subtree, List.nodup_cons] at hnd
    obtain ⟨hn, hnd⟩ := hnd
    unfold adjustGraphLayout
    simp only
    have hte : ∀ k, ((Function.update g n ((g n).move col row)) k).tree_edge
          = (g k).tree_edge := by
      intro k
      rw [Function.update_apply]
      split_ifs with hk
      · subst hk; rfl
      · rfl
    rw [hte n]
    -- the loop over the children
    have loop : ∀ (cs : List Nat) (g1 : Grid), (∀ k, (g1 k).tree_edge = (g k).tree_edge) →
        (∀ c ∈ cs, fits g fuel c = true) → (cs.flatMap (subtree g fuel)).Nodup →
        forEdges (fun g2 e => adjustGraphLayout fuel g2 e col row) cs g1
          = some (shiftOn (cs.flatMap (subtree g fuel)) col row g1) := by
      intro cs
      induction cs with
      | nil =>
        intro g1 _ _ _
        simp only [forEdges, List.flatMap_nil]
        congr 1
      | cons c cs ihc =>
        intro g1 h1 hfit hnd1
        rw [List.flatMap_cons] at hnd1
        rw [forEdges_cons]
        have hc : IsTree g1 fuel c := by
          refine ⟨?_, ?_⟩
          · rw [fits_congr g g1 h1]; exact hfit c (List.mem_cons_self _ _)
          · rw [subtree_congr g g1 h1]; exact (List.nodup_append.1 hnd1).1
        rw [ih g1 c hc]
        simp only
        rw [subtree_congr g g1 h1]
        rw [ihc _ (fun k => by rw [shiftOn_tree_edge]; exact h1 k)
          (fun x hx => hfit x (List.mem_cons_of_mem _ hx)) (List.nodup_append.1 hnd1).2.1]
        rw [shiftOn_append _ _ _ _ _ (fun k h2 h3 => (List.nodup_append.1 hnd1).2.2 h2 h3),
          List.flatMap_cons]
    rw [loop (g n).tree_edge _ hte hf hnd, shiftOn_cons n _ col row g hn]
    rfl

@[simp] theorem move_col (b : GridBlock) (c r : Int) : (b.move c r).col = b.col + c := rfl

@[simp] theorem move_row (b : GridBlock) (c r : Int) : (b.move c r).row = b.row + r := rfl

@[simp] theorem move_col_count (b : GridBlock) (c r : Int) :
    (b.move c r).col_count = b.col_count := rfl

@[simp] theorem move_row_count (b : GridBlock) (c r : Int) :
    (b.move c r).row_count = b.row_count := rfl

@[simp] theorem move_tree_edge (b : GridBlock) (c r : Int) :
    (b.move c r).tree_edge = b.tree_edge := rfl

theorem inSubtree_cases (g : Grid) (n d : Nat) (h : InSubtree g n d) :
    d = n ∨ ∃ c ∈ (g n).tree_edge, InSubtree g c d := by
  rcases Relation.ReflTransGen.cases_head h with h1 | ⟨c, hc, hd⟩
  · exact Or.inl h1.symm
  · exact Or.inr ⟨c, hc, hd⟩

theorem inSubtree_child (g : Grid) (n c d : Nat) (hc : c ∈ (g n).tree_edge)
    (h : InSubtree g c d) : InSubtree g n d :=
  Relation.ReflTransGen.head hc h

theorem inSubtree_trans (g : Grid) (a b c : Nat) (h1 : InSubtree g a b)
    (h2 : InSubtree g b c) : InSubtree g a c :=
  Relation.ReflTransGen.trans h1 h2

theorem tucked_congr (layoutType : LayoutType) (g g1 : Grid)
    (h : ∀ k, (g1 k).tree_edge = (g k).tree_edge) (p : Nat) :
    Tucked layoutType g1 p ↔ Tucked layoutType g p := by
  unfold Tucked
  simp only [h]

/-- The bounds of a placement only read the blocks of the subtree. -/
theorem Placed.agree {g g1 : Grid} {n : Nat} (hp : Placed g n)
    (hte : ∀ k, (g1 k).tree_edge = (g k).tree_edge)
    (hag : ∀ d, InSubtree g n d → g1 d = g d) : Placed g1 n := by
  obtain ⟨h1, h2, h3, h4⟩ := hp
  have hn : g1 n = g n := hag n Relation.ReflTransGen.refl
  refine ⟨by rw [hn]; exact h1, by rw [hn]; exact h2, by rw [hn]; exact h3, ?_⟩
  intro d hd
  rw [inSubtree_congr g g1 hte] at hd
  rw [hag d hd, hn]
  exact h4 d hd

/-- Moving a whole subtree keeps its sibling subtrees separated. -/
theorem Separated.sep_moved {layoutType : LayoutType} {g g1 : Grid} {n : Nat}
    (hs : Separated layoutType g n) (col row : Int)
    (hte : ∀ k, (g1 k).tree_edge = (g k).tree_edge)
    (hmv : ∀ d, InSubtree g n d → g1 d = (g d).move col row) : Separated layoutType g1 n := by
  intro p hp
  rw [inSubtree_congr g g1 hte] at hp
  obtain ⟨a1, a2⟩ := hs p hp
  rw [tucked_congr layoutType g g1 hte, hte p]
  refine ⟨fun hnt => ?_, fun ht l r hlr => ?_⟩
  · refine List.Pairwise.imp_of_mem ?_ (a1 hnt)
    intro a b ha hb hab d1 d2 hd1 hd2
    rw [inSubtree_congr g g1 hte] at hd1 hd2
    have e1 := hmv d1 (inSubtree_trans g n a d1 (inSubtree_trans g n p a hp
      (Relation.ReflTransGen.single ha)) hd1)
    have e2 := hmv d2 (inSubtree_trans g n b d2 (inSubtree_trans g n p b hp
      (Relation.ReflTransGen.single hb)) hd2)
    have := hab d1 d2 hd1 hd2
    rw [e1, e2, move_col, move_col]
    omega
  · obtain ⟨b1, b2⟩ := a2 ht l r hlr
    have hl : l ∈ (g p).tree_edge := by rw [hlr]; exact List.mem_cons_self _ _
    have hr : r ∈ (g p).tree_edge := by
      rw [hlr]; exact List.mem_cons_of_mem _ (List.mem_cons_self _ _)
    have e1 := hmv l (inSubtree_trans g n p l hp (Relation.ReflTransGen.single hl))
    have e2 := hmv r (inSubtree_trans g n p r hp (Relation.ReflTransGen.single hr))
    rw [e1, e2, move_col, move_col, move_row, move_row]
    exact ⟨by omega, by omega⟩

/-- Separation only reads the blocks of the subtree. -/
theorem Separated.sep_agree {layoutType : LayoutType} {g g1 : Grid} {n : Nat}
    (hs : Separated layoutType g n) (hte : ∀ k, (g1 k).tree_edge = (g k).tree_edge)
    (hag : ∀ d, InSubtree g n d → g1 d = g d) : Separated layoutType g1 n := by
  refine hs.sep_moved 0 0 hte (fun d hd => ?_)
  rw [hag d hd]
  unfold GridBlock.move
  simp

/-- The bounds of a placed subtree after it has been moved. -/
theorem Placed.moved {g g1 : Grid} {n : Nat} (hp : Placed g n) (col row : Int)
    (hte : ∀ k, (g1 k).tree_edge = (g k).tree_edge)
    (hmv : ∀ d, InSubtree g n d → g1 d = (g d).move col row) :
    (g1 n).col_count = (g n).col_count ∧ (g1 n).row_count = (g n).row_count ∧
    (g1 n).col = (g n).col + col ∧ (g1 n).row = row ∧
    ∀ d, InSubtree g1 n d →
      col ≤ (g1 d).col ∧ (g1 d).col + 2 ≤ col + (g n).col_count ∧
      row ≤ (g1 d).row ∧ (g1 d).row < row + (g n).row_count := by
  obtain ⟨h1, h2, h3, h4⟩ := hp
  have hn := hmv n Relation.ReflTransGen.refl
  refine ⟨by rw [hn]; rfl, by rw [hn]; rfl, by rw [hn]; rfl, by rw [hn, move_row, h1]; omega, ?_⟩
  intro d hd
  rw [inSubtree_congr g g1 hte] at hd
  rw [hmv d hd, move_col, move_row]
  have := h4 d hd
  omega

theorem placeChildren_cons (place : Nat → Grid → Option Grid) (edge : Nat) (es : List Nat)
    (g : Grid) (row_count childColumn : Int) :
    placeChildren place (edge :: es) g row_count childColumn
      = match place edge g with
        | none => none
        | some g1 =>
          placeChildren place es g1 (max ((g1 edge).row_count + 1) row_count) (g1 edge).col :=
  rfl

/-- The loop that places the children, given that each recursive call does
its job: every child ends up placed, later calls leave earlier subtrees alone,
`row_count` is above every child's, `childColumn` is the last child's column. -/
theorem placeChildren_spec (layoutType : LayoutType) (fuel : Nat)
    (ih : ∀ n g, IsTree g fuel n →
      ∃ g1, computeBlockPlacement layoutType fuel n g = some g1 ∧
        PlacementOK layoutType fuel g n g1)
    (cs : List Nat) (g : Grid) (rc0 cc0 : Int)
    (hfit : ∀ c ∈ cs, fits g fuel c = true) (hnd : (cs.flatMap (subtree g fuel)).Nodup) :
    ∃ g1 rc cc,
      placeChildren (computeBlockPlacement layoutType fuel) cs g rc0 cc0 = some (g1, rc, cc) ∧
      (∀ k, (g1 k).tree_edge = (g k).tree_edge) ∧
      (∀ k, k ∉ cs.flatMap (subtree g fuel) → g1 k = g k) ∧
      (∀ c ∈ cs, Placed g1 c ∧
        ((g c).tree_edge = [] → (g1 c).col = 0 ∧ (g1 c).col_count = 2) ∧
        Separated layoutType g1 c) ∧
      rc0 ≤ rc ∧ (∀ c ∈ cs, (g1 c).row_count + 1 ≤ rc) ∧
      (∀ c, cs.getLast? = some c → cc = (g1 c).col) := by
  induction cs generalizing g rc0 cc0 with
  | nil =>
    refine ⟨g, rc0, cc0, rfl, fun _ => rfl, fun _ _ => rfl, ?_, le_refl _, ?_, ?_⟩
    · intro c hc; cases hc
    · intro c hc; cases hc
    · intro c hc; cases hc
  | cons c cs ihc =>
    rw [List.flatMap_cons] at hnd
    obtain ⟨hndc, hndr, hdis⟩ := List.nodup_append.1 hnd
    have hfc := hfit c (List.mem_cons_self _ _)
    obtain ⟨gc, hrun, f1, f2, pl, lf, sp⟩ := ih c g ⟨hfc, hndc⟩
    obtain ⟨g1, rc, cc, hrun1, t1, t2, t3, t4, t5, t6⟩ :=
      ihc gc (max ((gc c).row_count + 1) rc0) (gc c).col
        (fun x hx => by rw [fits_congr g gc f1]; exact hfit x (List.mem_cons_of_mem _ hx))
        (by
          have : cs.flatMap (subtree gc fuel) = cs.flatMap (subtree g fuel) :=
            List.flatMap_congr (fun x _ => subtree_congr g gc f1 fuel x)
          rw [this]; exact hndr)
    have hsub : cs.flatMap (subtree gc fuel) = cs.flatMap (subtree g fuel) :=
      List.flatMap_congr (fun x _ => subtree_congr g gc f1 fuel x)
    rw [hsub] at t2
    -- the later calls leave the subtree of `c` alone
    have hkeep : ∀ d, InSubtree gc c d → g1 d = gc d := by
      intro d hd
      apply t2
      intro hmem
      rw [inSubtree_congr g gc f1, ← mem_subtree_iff g fuel c d hfc] at hd
      exact hdis hd hmem
    have hc1 : g1 c = gc c := hkeep c Relation.ReflTransGen.refl
    refine ⟨g1, rc, cc, ?_, ?_, ?_, ?_, ?_, ?_, ?_⟩
    · rw [placeChildren_cons, hrun]
      exact hrun1
    · intro k; rw [t1 k, f1 k]
    · intro k hk
      rw [List.flatMap_cons, List.mem_append, not_or] at hk
      rw [t2 k hk.2, f2 k hk.1]
    · intro x hx
      rcases List.mem_cons.1 hx with h | h
      · subst h
        refine ⟨pl.agree t1 hkeep, ?_, sp.sep_agree t1 hkeep⟩
        intro hl
        rw [hc1]; exact lf hl
      · obtain ⟨u1, u2, u3⟩ := t3 x h
        refine ⟨u1, ?_, u3⟩
        intro hl
        apply u2
        rw [f1 x]; exact hl
    · exact le_trans (le_max_right _ _) t4
    · intro x hx
      rcases List.mem_cons.1 hx with h | h
      · subst h
        rw [hc1]
        exact le_trans (le_max_left _ _) t4
      · exact t5 x h
    · intro x hx
      cases cs with
      | nil =>
        simp only [List.getLast?_singleton, Option.some.injEq] at hx
        subst hx
        simp only [placeChildren, Option.some.injEq, Prod.mk.injEq] at hrun1
        obtain ⟨e1, _, e3⟩ := hrun1
        rw [← e3, ← e1]
      | cons y ys =>
        rw [List.getLast?_cons_cons] at hx
        exact t6 x hx

theorem shiftOn_col_count (nodes : List Nat) (col row : Int) (g : Grid) (k : Nat) :
    (shiftOn nodes col row g k).col_count = (g k).col_count := by
  unfold shiftOn
  split_ifs <;> rfl

theorem shiftOn_row_count (nodes : List Nat) (col row : Int) (g : Grid) (k : Nat) :
    (shiftOn nodes col row g k).row_count = (g k).row_count := by
  unfold shiftOn
  split_ifs <;> rfl

theorem shiftOn_of_mem (nodes : List Nat) (col row : Int) (g : Grid) (k : Nat)
    (h : k ∈ nodes) : shiftOn nodes col row g k = (g k).move col row := by
  unfold shiftOn
  rw [if_pos h]

theorem shiftOn_of_not_mem (nodes : List Nat) (col row : Int) (g : Grid) (k : Nat)
    (h : k ∉ nodes) : shiftOn nodes col row g k = g k := by
  unfold shiftOn
  rw [if_neg h]

theorem sideBySide_cons (fuel : Nat) (edge : Nat) (es : List Nat) (g : Grid) (col : Int) :
    sideBySide fuel (edge :: es) g col
      = match adjustGraphLayout fuel g edge col 1 with
        | none => none
        | some g1 => sideBySide fuel es g1 (col + (g1 edge).col_count) := rfl

/-- The loop that lays the children out side by side: the subtree of each
child is moved one row down and right by `col` plus the column counts of the
children before it; the total is `col` plus all the column counts. -/
theorem sideBySide_spec (fuel : Nat) (cs : List Nat) (g : Grid) (col0 : Int)
    (hfit : ∀ c ∈ cs, fits g fuel c = true) (hnd : (cs.flatMap (subtree g fuel)).Nodup) :
    ∃ g2,
      sideBySide fuel cs g col0
        = some (g2, col0 + (cs.map (fun c => (g c).col_count)).sum) ∧
      (∀ k, (g2 k).tree_edge = (g k).tree_edge) ∧
      (∀ k, k ∉ cs.flatMap (subtree g fuel) → g2 k = g k) ∧
      (∀ pre c post, cs = pre ++ c :: post → ∀ d ∈ subtree g fuel c,
        g2 d = (g d).move (col0 + (pre.map (fun c => (g c).col_count)).sum) 1) := by
  induction cs generalizing g col0 with
  | nil =>
    refine ⟨g, ?_, fun _ => rfl, fun _ _ => rfl, ?_⟩
    · simp [sideBySide]
    · intro pre c post h
      cases pre <;> cases h
  | cons c cs ih =>
    rw [List.flatMap_cons] at hnd
    obtain ⟨hndc, hndr, hdis⟩ := List.nodup_append.1 hnd
    have hfc := hfit c (List.mem_cons_self _ _)
    have hadj := adjustGraphLayout_spec fuel g c col0 1 ⟨hfc, hndc⟩
    have hte : ∀ k, (shiftOn (subtree g fuel c) col0 1 g k).tree_edge = (g k).tree_edge :=
      shiftOn_tree_edge _ _ _ g
    have hsub : cs.flatMap (subtree (shiftOn (subtree g fuel c) col0 1 g) fuel)
        = cs.flatMap (subtree g fuel) :=
      List.flatMap_congr (fun x _ => subtree_congr g _ hte fuel x)
    obtain ⟨g2, hrun, t1, t2, t3⟩ := ih (shiftOn (subtree g fuel c) col0 1 g)
      (col0 + (shiftOn (subtree g fuel c) col0 1 g c).col_count)
      (fun x hx => by rw [fits_congr g _ hte]; exact hfit x (List.mem_cons_of_mem _ hx))
      (by rw [hsub]; exact hndr)
    rw [hsub] at t2
    have hcc : (cs.map (fun x => (shiftOn (subtree g fuel c) col0 1 g x).col_count))
        = cs.map (fun x => (g x).col_count) :=
      List.map_congr_left (fun x _ => shiftOn_col_count _ _ _ g x)
    refine ⟨g2, ?_, ?_, ?_, ?_⟩
    · rw [sideBySide_cons, hadj]
      simp only
      rw [hrun, hcc, shiftOn_col_count, List.map_cons, List.sum_cons, add_assoc]
    · intro k; rw [t1 k, hte k]
    · intro k hk
      rw [List.flatMap_cons, List.mem_append, not_or] at hk
      rw [t2 k hk.2, shiftOn_of_not_mem _ _ _ _ _ hk.1]
    · intro pre x post hsplit d hd
      cases pre with
      | nil =>
        rw [List.nil_append, List.cons.injEq] at hsplit
        obtain ⟨h1, _⟩ := hsplit
        subst h1
        rw [t2 d (fun hm => hdis hd hm), shiftOn_of_mem _ _ _ _ _ hd]
        simp
      | cons y pre1 =>
        rw [List.cons_append, List.cons.injEq] at hsplit
        obtain ⟨h1, h2⟩ := hsplit
        subst h1
        have hmem : d ∈ cs.flatMap (subtree g fuel) := by
          rw [h2]
          exact List.mem_flatMap.2 ⟨x, List.mem_append_right _ (List.mem_cons_self _ _), hd⟩
        have hd2 : d ∈ subtree (shiftOn (subtree g fuel c) col0 1 g) fuel x := by
          rw [subtree_congr g _ hte]; exact hd
        rw [t3 pre1 x post h2 d hd2,
          shiftOn_of_not_mem _ _ _ _ _ (fun hm => hdis hm hmem), shiftOn_col_count]
        have : (pre1.map (fun x => (shiftOn (subtree g fuel c) col0 1 g x).col_count))
            = pre1.map (fun x => (g x).col_count) :=
          List.map_congr_left (fun x _ => shiftOn_col_count _ _ _ g x)
        rw [this, List.map_cons, List.sum_cons, add_assoc]

theorem pairwise_of_splits {α : Type} (R : α → α → Prop) (l : List α)
    (h : ∀ pre a mid b post, l = pre ++ a :: (mid ++ b :: post) → R a b) : l.Pairwise R := by
  induction l with
  | nil => exact List.Pairwise.nil
  | cons x xs ih =>
    rw [List.pairwise_cons]
    refine ⟨fun b hb => ?_, ih (fun pre a mid b post hs => ?_)⟩
    · obtain ⟨mid, post, hs⟩ := List.append_of_mem hb
      exact h [] x mid b post (by rw [hs]; rfl)
    · exact h (x :: pre) a mid b post (by rw [hs]; rfl)

theorem isTree_children (g : Grid) (fuel n : Nat) (h : IsTree g (fuel + 1) n) :
    (∀ c ∈ (g n).tree_edge, fits g fuel c = true) ∧
    n ∉ (g n).tree_edge.flatMap (subtree g fuel) ∧
    ((g n).tree_edge.flatMap (subtree g fuel)).Nodup := by
  obtain ⟨hf, hnd⟩ := h
  simp only [fits, List.all_eq_true] at hf
  simp only [subtree, List.nodup_cons] at hnd
  exact ⟨hf, hnd.1, hnd.2⟩

theorem isTree_child (g : Grid) (fuel n c : Nat) (h : IsTree g (fuel + 1) n)
    (hc : c ∈ (g n).tree_edge) : IsTree g fuel c := by
  obtain ⟨h1, _, h3⟩ := isTree_children g fuel n h
  refine ⟨h1 c hc, ?_⟩
  obtain ⟨pre, post, hs⟩ := List.append_of_mem hc
  rw [hs, List.flatMap_append, List.flatMap_cons] at h3
  exact (List.nodup_append.1 (List.nodup_append.1 h3).2.1).1

theorem self_mem_subtree (g : Grid) (fuel n : Nat) (h : fits g fuel n = true) :
    n ∈ subtree g fuel n :=
  (mem_subtree_iff g fuel n n h).2 Relation.ReflTransGen.refl

/-- Putting a node together from its placed children: when the subtree of
each child has been moved one row down and right by an offset that depends on
the children before it, the offsets keep the children inside the column count
of the parent and in order from left to right, and the parent itself sits on
row 0 inside its column count, the placement of the parent is as required. -/
theorem assemble (layoutType : LayoutType) (fuel : Nat) (g g1 g2 : Grid) (n : Nat)
    (off : List Nat → Int) (rc : Int)
    (htree : IsTree g (fuel + 1) n)
    (h1te : ∀ k, (g1 k).tree_edge = (g k).tree_edge)
    (hch : ∀ c ∈ (g n).tree_edge, Placed g1 c ∧ Separated layoutType g1 c)
    (h2te : ∀ k, (g2 k).tree_edge = (g k).tree_edge)
    (hframe : ∀ k, k ∉ subtree g (fuel + 1) n → g2 k = g k)
    (hmv : ∀ pre c post, (g n).tree_edge = pre ++ c :: post →
      ∀ d ∈ subtree g fuel c, g2 d = (g1 d).move (off pre) 1)
    (hrow : (g2 n).row = 0) (hrc : (g2 n).row_count = rc) (hrc1 : 1 ≤ rc)
    (hrcc : ∀ c ∈ (g n).tree_edge, (g1 c).row_count + 1 ≤ rc)
    (hcc : 2 ≤ (g2 n).col_count)
    (hcol : 0 ≤ (g2 n).col ∧ (g2 n).col + 2 ≤ (g2 n).col_count)
    (hoff : ∀ pre c post, (g n).tree_edge = pre ++ c :: post →
      0 ≤ off pre ∧ off pre + (g1 c).col_count ≤ (g2 n).col_count)
    (hsep : ¬ Tucked layoutType g n → ∀ pre a mid b post,
      (g n).tree_edge = pre ++ a :: (mid ++ b :: post) →
        off pre + (g1 a).col_count ≤ off (pre ++ a :: mid))
    (htuck : Tucked layoutType g n → ∀ l r, (g n).tree_edge = [l, r] →
      (g1 l).col + off [] + 2 = (g1 r).col + off [l])
    (hleaf : (g n).tree_edge = [] → (g2 n).col = 0 ∧ (g2 n).col_count = 2) :
    PlacementOK layoutType (fuel + 1) g n g2 := by
  obtain ⟨hfit, hnot, hnd⟩ := isTree_children g fuel n htree
  have h21 : ∀ k, (g2 k).tree_edge = (g1 k).tree_edge := fun k => by rw [h2te, h1te]
  -- each child's subtree, seen in `g1`, is moved as a whole
  have hmv1 : ∀ pre c post, (g n).tree_edge = pre ++ c :: post →
      ∀ d, InSubtree g1 c d → g2 d = (g1 d).move (off pre) 1 := by
    intro pre c post hs d hd
    have hc : c ∈ (g n).tree_edge := by rw [hs]; exact List.mem_append_right _ (List.mem_cons_self _ _)
    rw [inSubtree_congr g g1 h1te, ← mem_subtree_iff g fuel c d (hfit c hc)] at hd
    exact hmv pre c post hs d hd
  refine ⟨h2te, hframe, ⟨hrow, hcc, by rw [hrc]; exact hrc1, ?_⟩, hleaf, ?_⟩
  · intro d hd
    rcases inSubtree_cases g2 n d hd with h | ⟨c, hc, hdc⟩
    · subst h
      rw [hrow, hrc]
      exact ⟨hcol.1, hcol.2, le_refl _, by omega⟩
    · rw [h2te n] at hc
      obtain ⟨pre, post, hs⟩ := List.append_of_mem hc
      obtain ⟨_, _, _, _, hb⟩ := (hch c hc).1.moved (off pre) 1 h21 (hmv1 pre c post hs)
      have := hb d hdc
      have := hoff pre c post hs
      have := hrcc c hc
      rw [hrc]
      omega
  · intro p hp
    rcases inSubtree_cases g2 n p hp with h | ⟨c, hc, hpc⟩
    · subst h
      rw [tucked_congr layoutType g g2 h2te, h2te p]
      refine ⟨fun hnt => ?_, fun ht l r hlr => ?_⟩
      · apply pairwise_of_splits
        intro pre a mid b post hs d1 d2 hd1 hd2
        have ha : a ∈ (g p).tree_edge := by
          rw [hs]; exact List.mem_append_right _ (List.mem_cons_self _ _)
        have hs2 : (g p).tree_edge = (pre ++ a :: mid) ++ b :: post := by
          rw [hs]; simp
        have hb : b ∈ (g p).tree_edge := by
          rw [hs2]; exact List.mem_append_right _ (List.mem_cons_self _ _)
        obtain ⟨_, _, _, _, ba⟩ := (hch a ha).1.moved (off pre) 1 h21 (hmv1 pre a _ hs)
        obtain ⟨_, _, _, _, bb⟩ := (hch b hb).1.moved (off (pre ++ a :: mid)) 1 h21
          (hmv1 (pre ++ a :: mid) b post hs2)
        have := ba d1 hd1
        have := bb d2 hd2
        have := hsep hnt pre a mid b post hs
        omega
      · have hl : l ∈ (g p).tree_edge := by rw [hlr]; exact List.mem_cons_self _ _
        have hr : r ∈ (g p).tree_edge := by
          rw [hlr]; exact List.mem_cons_of_mem _ (List.mem_cons_self _ _)
        have el := hmv1 [] l [r] (by rw [hlr]; rfl) l Relation.ReflTransGen.refl
        have er := hmv1 [l] r [] (by rw [hlr]; rfl) r Relation.ReflTransGen.refl
        have := htuck ht l r hlr
        have r1 := (hch l hl).1.1
        have r2 := (hch r hr).1.1
        rw [el, er, move_col, move_col, move_row, move_row]
        exact ⟨by omega, by omega⟩
    · rw [h2te n] at hc
      obtain ⟨pre, post, hs⟩ := List.append_of_mem hc
      exact ((hch c hc).2.sep_moved (off pre) 1 h21 (hmv1 pre c post hs)) p hpc

theorem split_pair {α : Type} (l r c : α) (pre post : List α) (h : [l, r] = pre ++ c :: post) :
    (pre = [] ∧ c = l ∧ post = [r]) ∨ (pre = [l] ∧ c = r ∧ post = []) := by
  cases pre with
  | nil =>
    simp only [List.nil_append, List.cons.injEq] at h
    exact Or.inl ⟨rfl, h.1.symm, h.2.symm⟩
  | cons x pre =>
    cases pre with
    | nil =>
      simp only [List.cons_append, List.nil_append, List.cons.injEq] at h
      obtain ⟨h1, h2, h3⟩ := h
      subst h1
      exact Or.inr ⟨rfl, h2.symm, h3.symm⟩
    | cons y pre =>
      simp only [List.cons_append, List.cons.injEq] at h
      obtain ⟨_, _, h3⟩ := h
      cases pre <;> cases h3

theorem split_pair_two {α : Type} (l r a b : α) (pre mid post : List α)
    (h : [l, r] = pre ++ a :: (mid ++ b :: post)) :
    pre = [] ∧ a = l ∧ mid = [] ∧ b = r := by
  rcases split_pair l r a pre _ h with ⟨h1, h2, h3⟩ | ⟨_, _, h3⟩
  · cases mid with
    | nil =>
      simp only [List.nil_append, List.cons.injEq] at h3
      exact ⟨h1, h2, rfl, h3.1⟩
    | cons x mid =>
      simp only [List.cons_append, List.cons.injEq] at h3
      obtain ⟨_, h4⟩ := h3
      cases mid <;> cases h4
  · cases mid <;> cases h3

theorem finishTwo_of_ne (layoutType : LayoutType) (g : Grid) (n l r : Nat) (sc : Bool)
    (cc col : Int) (k : Nat) (hk : k ≠ n) :
    finishTwo layoutType g n l r sc cc col k = g k := by
  unfold finishTwo
  simp only
  split_ifs <;> simp [Function.update_noteq hk]

theorem finishTwo_tree_edge (layoutType : LayoutType) (g : Grid) (n l r : Nat) (sc : Bool)
    (cc col : Int) (k : Nat) :
    (finishTwo layoutType g n l r sc cc col k).tree_edge = (g k).tree_edge := by
  by_cases hk : k = n
  · subst hk
    unfold finishTwo
    simp only
    split_ifs <;> simp [Function.update_same]
  · rw [finishTwo_of_ne _ _ _ _ _ _ _ _ _ hk]

theorem finishTwo_self (layoutType : LayoutType) (g : Grid) (n l r : Nat) (cc col : Int)
    (hl : l ≠ n) (hr : r ≠ n) :
    (finishTwo layoutType g n l r false cc col n).col_count = max 2 col ∧
    (finishTwo layoutType g n l r false cc col n).col
      = if layoutType = LayoutType.Medium then Int.tdiv ((g l).col + (g r).col) 2
        else Int.tdiv (col - 2) 2 := by
  unfold finishTwo
  simp only [Bool.false_eq_true, if_false]
  split_ifs <;> simp [Function.update_same, Function.update_noteq hl, Function.update_noteq hr]

theorem tdiv_two_bounds (a : Int) (h : 0 ≤ a) : 0 ≤ Int.tdiv a 2 ∧ 2 * Int.tdiv a 2 ≤ a := by
  rw [Int.tdiv_eq_ediv h (by decide)]
  omega

/-- The end of the two-children rule: when the subtree of the left child was
moved by `(offL, 1)` and the one of the right child by `(offR, 1)`, both fit
in `col` columns, and they are in order (or two columns apart under the leaf
rule), then the parent is placed as required. -/
theorem two_assemble (layoutType : LayoutType) (fuel : Nat) (g g1 g3 : Grid) (n l r : Nat)
    (rc cc col offL offR : Int)
    (htree : IsTree g (fuel + 1) n) (hcs : (g n).tree_edge = [l, r])
    (h1te : ∀ k, (g1 k).tree_edge = (g k).tree_edge)
    (h1frame : ∀ k, k ∉ (g n).tree_edge.flatMap (subtree g fuel) → g1 k = g k)
    (hch : ∀ c ∈ (g n).tree_edge, Placed g1 c ∧ Separated layoutType g1 c)
    (hrc1 : 1 ≤ rc) (hrcc : ∀ c ∈ (g n).tree_edge, (g1 c).row_count + 1 ≤ rc)
    (h3te : ∀ k, (g3 k).tree_edge = (g1 k).tree_edge)
    (h3frame : ∀ k, k ∉ subtree g fuel l → k ∉ subtree g fuel r → g3 k = g1 k)
    (hl : ∀ d ∈ subtree g fuel l, g3 d = (g1 d).move offL 1)
    (hr : ∀ d ∈ subtree g fuel r, g3 d = (g1 d).move offR 1)
    (hcol : 2 ≤ col) (hoL : 0 ≤ offL) (hoL2 : offL + (g1 l).col_count ≤ col)
    (hoR : 0 ≤ offR) (hoR2 : offR + (g1 r).col_count ≤ col)
    (hsep : ¬ Tucked layoutType g n → offL + (g1 l).col_count ≤ offR)
    (htuck : Tucked layoutType g n → (g1 l).col + offL + 2 = (g1 r).col + offR) :
    PlacementOK layoutType (fuel + 1) g n
      (Function.update (finishTwo layoutType g3 n l r false cc col) n
        { (finishTwo layoutType g3 n l r false cc col) n with row := 0, row_count := rc }) := by
  obtain ⟨hfit, hnot, hnd⟩ := isTree_children g fuel n htree
  rw [hcs] at hfit hnot hnd
  simp only [List.flatMap_cons, List.flatMap_nil, List.append_nil, List.mem_append,
    not_or] at hnot
  have hlm : l ∈ (g n).tree_edge := by rw [hcs]; exact List.mem_cons_self _ _
  have hrm : r ∈ (g n).tree_edge := by
    rw [hcs]; exact List.mem_cons_of_mem _ (List.mem_cons_self _ _)
  have hfl := hfit l (List.mem_cons_self _ _)
  have hfr := hfit r (List.mem_cons_of_mem _ (List.mem_cons_self _ _))
  have hln : l ≠ n := fun h => hnot.1 (h ▸ self_mem_subtree g fuel l hfl)
  have hrn : r ≠ n := fun h => hnot.2 (h ▸ self_mem_subtree g fuel r hfr)
  obtain ⟨e1, e2⟩ := finishTwo_self layoutType g3 n l r cc col hln hrn
  have hG : ∀ k, k ≠ n →
      (Function.update (finishTwo layoutType g3 n l r false cc col) n
        { (finishTwo layoutType g3 n l r false cc col) n with row := 0, row_count := rc }) k
        = g3 k := by
    intro k hk
    rw [Function.update_noteq hk, finishTwo_of_ne _ _ _ _ _ _ _ _ _ hk]
  have pl := (hch l hlm).1
  have pr := (hch r hrm).1
  have gl := hl l (self_mem_subtree g fuel l hfl)
  have gr := hr r (self_mem_subtree g fuel r hfr)
  have bl := pl.2.2.2 l Relation.ReflTransGen.refl
  have br := pr.2.2.2 r Relation.ReflTransGen.refl
  have hmax : max 2 col = col := max_eq_right hcol
  refine assemble layoutType fuel g g1 _ n (fun pre => if pre = [] then offL else offR) rc
    htree h1te hch ?_ ?_ ?_ ?_ ?_ hrc1 hrcc ?_ ?_ ?_ ?_ ?_ ?_
  · intro k
    by_cases hk : k = n
    · subst hk
      rw [Function.update_same]
      show (finishTwo layoutType g3 k l r false cc col k).tree_edge = _
      rw [finishTwo_tree_edge, h3te, h1te]
    · rw [hG k hk, h3te, h1te]
  · intro k hk
    simp only [subtree, hcs, List.flatMap_cons, List.flatMap_nil, List.append_nil,
      List.mem_cons, List.mem_append, not_or] at hk
    rw [hG k hk.1, h3frame k hk.2.1 hk.2.2]
    apply h1frame
    rw [hcs]
    simp only [List.flatMap_cons, List.flatMap_nil, List.append_nil, List.mem_append, not_or]
    exact hk.2
  · intro pre c post hs d hd
    rw [hcs] at hs
    have hdn : d ≠ n := by
      rintro rfl
      rcases split_pair l r c pre post hs with ⟨_, h2, _⟩ | ⟨_, h2, _⟩
      · subst h2; exact hnot.1 hd
      · subst h2; exact hnot.2 hd
    rw [hG d hdn]
    rcases split_pair l r c pre post hs with ⟨h1, h2, _⟩ | ⟨h1, h2, _⟩
    · subst h1; subst h2
      simp only [if_true]
      exact hl d hd
    · subst h1; subst h2
      simp only [List.cons_ne_nil, if_false]
      exact hr d hd
  · rw [Function.update_same]
  · rw [Function.update_same]
  · rw [Function.update_same]
    show 2 ≤ (finishTwo layoutType g3 n l r false cc col n).col_count
    rw [e1, hmax]; exact hcol
  · rw [Function.update_same]
    show 0 ≤ (finishTwo layoutType g3 n l r false cc col n).col ∧
      (finishTwo layoutType g3 n l r false cc col n).col + 2
        ≤ (finishTwo layoutType g3 n l r false cc col n).col_count
    rw [e1, e2, hmax, gl, gr, move_col, move_col]
    split_ifs
    · have := tdiv_two_bounds ((g1 l).col + offL + ((g1 r).col + offR)) (by omega)
      omega
    · have := tdiv_two_bounds (col - 2) (by omega)
      omega
  · intro pre c post hs
    rw [Function.update_same]
    show 0 ≤ (if pre = [] then offL else offR) ∧
      (if pre = [] then offL else offR) + (g1 c).col_count
        ≤ (finishTwo layoutType g3 n l r false cc col n).col_count
    rw [e1, hmax]
    rw [hcs] at hs
    rcases split_pair l r c pre post hs with ⟨h1, h2, _⟩ | ⟨h1, h2, _⟩
    · subst h1; subst h2
      simp only [if_true]
      exact ⟨hoL, hoL2⟩
    · subst h1; subst h2
      simp only [List.cons_ne_nil, if_false]
      exact ⟨hoR, hoR2⟩
  · intro hnt pre a mid b post hs
    rw [hcs] at hs
    obtain ⟨h1, h2, h3, h4⟩ := split_pair_two l r a b pre mid post hs
    subst h1; subst h2; subst h3
    simp only [List.nil_append, List.cons_ne_nil, if_true, if_false]
    exact hsep hnt
  · intro ht l1 r1 hlr
    rw [hcs] at hlr
    simp only [List.cons.injEq, and_true] at hlr
    obtain ⟨h1, h2⟩ := hlr
    subst h1; subst h2
    simp only [List.cons_ne_nil, if_true, if_false]
    exact htuck ht
  · intro h
    rw [hcs] at h
    cases h

theorem subtree_leaf (g : Grid) (fuel n : Nat) (hf : fits g fuel n = true)
    (hl : (g n).tree_edge = []) : subtree g fuel n = [n] := by
  cases fuel with
  | zero => cases hf
  | succ fuel => simp [subtree, hl]

theorem isTree_congr (g g1 : Grid) (h : ∀ k, (g1 k).tree_edge = (g k).tree_edge)
    (fuel n : Nat) (ht : IsTree g fuel n) : IsTree g1 fuel n := by
  unfold IsTree
  rw [fits_congr g g1 h, subtree_congr g g1 h]
  exact ht

theorem tucked_pair (layoutType : LayoutType) (g : Grid) (n l r : Nat)
    (hlt : layoutType ≠ LayoutType.Wide) (hcs : (g n).tree_edge = [l, r]) :
    Tucked layoutType g n ↔ ((g l).tree_edge = [] ↔ (g r).tree_edge ≠ []) := by
  unfold Tucked
  constructor
  · rintro ⟨_, l1, r1, h1, h2⟩
    rw [hcs] at h1
    simp only [List.cons.injEq, and_true] at h1
    obtain ⟨e1, e2⟩ := h1
    subst e1; subst e2
    exact h2
  · intro h
    exact ⟨hlt, l, r, hcs, h⟩

/-- The two-children rule of `computeBlockPlacement` (lines 309-332) returns
and places the parent as required, given its children placed. -/
theorem placeTwo_ok (layoutType : LayoutType) (fuel : Nat) (g g1 : Grid) (n l r : Nat)
    (rc cc : Int) (hlt : layoutType ≠ LayoutType.Wide)
    (htree : IsTree g (fuel + 1) n) (hcs : (g n).tree_edge = [l, r])
    (h1te : ∀ k, (g1 k).tree_edge = (g k).tree_edge)
    (h1frame : ∀ k, k ∉ (g n).tree_edge.flatMap (subtree g fuel) → g1 k = g k)
    (hch : ∀ c ∈ (g n).tree_edge, Placed g1 c ∧
      ((g c).tree_edge = [] → (g1 c).col = 0 ∧ (g1 c).col_count = 2) ∧
      Separated layoutType g1 c)
    (hrc1 : 1 ≤ rc) (hrcc : ∀ c ∈ (g n).tree_edge, (g1 c).row_count + 1 ≤ rc) :
    ∃ g4, placeTwo layoutType fuel g1 n l r false cc = some g4 ∧
      PlacementOK layoutType (fuel + 1) g n
        (Function.update g4 n { g4 n with row := 0, row_count := rc }) := by
  obtain ⟨hfit, hnot, hnd⟩ := isTree_children g fuel n htree
  have hlm : l ∈ (g n).tree_edge := by rw [hcs]; exact List.mem_cons_self _ _
  have hrm : r ∈ (g n).tree_edge := by
    rw [hcs]; exact List.mem_cons_of_mem _ (List.mem_cons_self _ _)
  have tl : IsTree g fuel l := isTree_child g fuel n l htree hlm
  have tr : IsTree g fuel r := isTree_child g fuel n r htree hrm
  rw [hcs] at hnd
  simp only [List.flatMap_cons, List.flatMap_nil, List.append_nil] at hnd
  have hdis : ∀ k, k ∈ subtree g fuel l → k ∉ subtree g fuel r :=
    fun k h1 h2 => (List.nodup_append.1 hnd).2.2 h1 h2
  have sl := self_mem_subtree g fuel l tl.1
  have sr := self_mem_subtree g fuel r tr.1
  have hlr : l ∉ subtree g fuel r := hdis l sl
  have hrl : r ∉ subtree g fuel l := fun h => hdis r h sr
  have hch2 : ∀ c ∈ (g n).tree_edge, Placed g1 c ∧ Separated layoutType g1 c :=
    fun c hc => ⟨(hch c hc).1, (hch c hc).2.2⟩
  obtain ⟨pl, ll, _⟩ := hch l hlm
  obtain ⟨pr, lr, _⟩ := hch r hrm
  have bl := pl.2.2.2 l Relation.ReflTransGen.refl
  have br := pr.2.2.2 r Relation.ReflTransGen.refl
  have cl := pl.2.1
  have cr := pr.2.1
  have htk := tucked_pair layoutType g n l r hlt hcs
  unfold placeTwo
  by_cases hll : (g1 l).tree_edge.length = 0
  · -- the left child is a leaf
    rw [if_pos hll]
    have hleafl : (g l).tree_edge = [] := by
      rw [← h1te l]; exact List.eq_nil_of_length_eq_zero hll
    obtain ⟨l0, l2⟩ := ll hleafl
    have hsl : subtree g fuel l = [l] := subtree_leaf g fuel l tl.1 hleafl
    have hteA : ∀ k, ((Function.update g1 l { g1 l with col := (g1 r).col - 2 }) k).tree_edge
        = (g k).tree_edge := by
      intro k
      rw [← h1te k, Function.update_apply]
      split_ifs with hk
      · subst hk; rfl
      · rfl
    have hA1 := adjustGraphLayout_spec fuel
      (Function.update g1 l { g1 l with col := (g1 r).col - 2 }) r
      (if (Function.update g1 l { g1 l with col := (g1 r).col - 2 } l).col < 0
        then - (Function.update g1 l { g1 l with col := (g1 r).col - 2 } l).col else 0) 1
      (isTree_congr g _ hteA fuel r tr)
    rw [subtree_congr g _ hteA] at hA1
    have hteB : ∀ k, (shiftOn (subtree g fuel r)
        (if (Function.update g1 l { g1 l with col := (g1 r).col - 2 } l).col < 0
          then - (Function.update g1 l { g1 l with col := (g1 r).col - 2 } l).col else 0) 1
        (Function.update g1 l { g1 l with col := (g1 r).col - 2 }) k).tree_edge
          = (g k).tree_edge := fun k => by rw [shiftOn_tree_edge, hteA]
    have hA2 := adjustGraphLayout_spec fuel _ l
      (if (Function.update g1 l { g1 l with col := (g1 r).col - 2 } l).col < 0
        then - (Function.update g1 l { g1 l with col := (g1 r).col - 2 } l).col else 0) 1
      (isTree_congr g _ hteB fuel l tl)
    rw [subtree_congr g _ hteB] at hA2
    simp only [hA1, hA2]
    rw [Function.update_same] at *
    generalize hadd : (if (g1 r).col - 2 < 0 then - ((g1 r).col - 2) else (0 : Int)) = add
      at hA1 hA2 hteB ⊢
    have hadd2 : (0 ≤ (g1 r).col - 2 ∧ add = 0) ∨ ((g1 r).col - 2 < 0 ∧ add = 2 - (g1 r).col) := by
      rw [← hadd]
      split_ifs with h
      · exact Or.inr ⟨h, by omega⟩
      · exact Or.inl ⟨by omega, rfl⟩
    refine ⟨_, rfl, ?_⟩
    have hcolr : (shiftOn (subtree g fuel l) add 1 (shiftOn (subtree g fuel r) add 1
        (Function.update g1 l { g1 l with col := (g1 r).col - 2 })) r).col_count
          = (g1 r).col_count := by
      have hrl2 : r ≠ l := by
        intro h
        apply hlr
        rw [← h]; exact sr
      rw [shiftOn_col_count, shiftOn_col_count, Function.update_noteq hrl2]
    rw [hcolr]
    refine two_assemble layoutType fuel g g1 _ n l r rc cc ((g1 r).col_count + add)
      ((g1 r).col - 2 + add) add htree hcs h1te h1frame hch2 hrc1 hrcc ?_ ?_ ?_ ?_ ?_ ?_ ?_
      ?_ ?_ ?_ ?_
    · intro k; rw [shiftOn_tree_edge, hteB, h1te]
    · intro k hk1 hk2
      have hkl : k ≠ l := by
        intro h
        apply hk1
        rw [h]; exact sl
      rw [shiftOn_of_not_mem _ _ _ _ _ hk1, shiftOn_of_not_mem _ _ _ _ _ hk2,
        Function.update_noteq hkl]
    · intro d hd
      rw [hsl, List.mem_singleton] at hd
      subst hd
      rw [shiftOn_of_mem _ _ _ _ _ sl, shiftOn_of_not_mem _ _ _ _ _ hlr, Function.update_same]
      unfold GridBlock.move
      simp only [l0, zero_add]
    · intro d hd
      have hdl : d ∉ subtree g fuel l := fun h => hdis d h hd
      have hdl2 : d ≠ l := by
        intro h
        apply hdl
        rw [h]; exact sl
      rw [shiftOn_of_not_mem _ _ _ _ _ hdl, shiftOn_of_mem _ _ _ _ _ hd,
        Function.update_noteq hdl2]
    · omega
    · omega
    · omega
    · omega
    · omega
    · intro hnt
      rw [htk] at hnt
      have hleafr : (g r).tree_edge = [] := by
        by_contra h
        exact hnt ⟨fun _ => h, fun _ => hleafl⟩
      obtain ⟨r0, r2⟩ := lr hleafr
      omega
    · intro _
      omega
  · rw [if_neg hll]
    have hnl : (g l).tree_edge ≠ [] := by
      intro h
      apply hll
      rw [h1te l, h]; rfl
    have hB1 := adjustGraphLayout_spec fuel g1 l 0 1 (isTree_congr g g1 h1te fuel l tl)
    rw [subtree_congr g g1 h1te] at hB1
    have hteB : ∀ k, (shiftOn (subtree g fuel l) 0 1 g1 k).tree_edge = (g k).tree_edge :=
      fun k => by rw [shiftOn_tree_edge, h1te]
    have hl2 : (shiftOn (subtree g fuel l) 0 1 g1 l) = (g1 l).move 0 1 :=
      shiftOn_of_mem _ _ _ _ _ sl
    by_cases hrr : (g1 r).tree_edge.length = 0
    · -- the right child is a leaf, the left one is not
      rw [if_pos hrr]
      have hleafr : (g r).tree_edge = [] := by
        rw [← h1te r]; exact List.eq_nil_of_length_eq_zero hrr
      obtain ⟨r0, r2⟩ := lr hleafr
      have hB2 := adjustGraphLayout_spec fuel (shiftOn (subtree g fuel l) 0 1 g1) r
        ((shiftOn (subtree g fuel l) 0 1 g1 l).col + 2) 1 (isTree_congr g _ hteB fuel r tr)
      rw [subtree_congr g _ hteB] at hB2
      simp only [hB1, hB2]
      refine ⟨_, rfl, ?_⟩
      have e1 : (shiftOn (subtree g fuel r) ((shiftOn (subtree g fuel l) 0 1 g1 l).col + 2) 1
          (shiftOn (subtree g fuel l) 0 1 g1) l).col_count = (g1 l).col_count := by
        rw [shiftOn_col_count, shiftOn_col_count]
      have e2 : (shiftOn (subtree g fuel r) ((shiftOn (subtree g fuel l) 0 1 g1 l).col + 2) 1
          (shiftOn (subtree g fuel l) 0 1 g1) r).col = (g1 l).col + 2 := by
        rw [shiftOn_of_mem _ _ _ _ _ sr, shiftOn_of_not_mem _ _ _ _ _ hrl, move_col, hl2,
          move_col, r0]
        omega
      rw [e1, e2, hl2, move_col]
      refine two_assemble layoutType fuel g g1 _ n l r rc cc
        (max (g1 l).col_count ((g1 l).col + 2 + 2)) 0 ((g1 l).col + 0 + 2) htree hcs h1te h1frame
        hch2 hrc1 hrcc ?_ ?_ ?_ ?_ ?_ ?_ ?_ ?_ ?_ ?_ ?_
      · intro k; rw [shiftOn_tree_edge, hteB, h1te]
      · intro k hk1 hk2
        rw [shiftOn_of_not_mem _ _ _ _ _ hk2, shiftOn_of_not_mem _ _ _ _ _ hk1]
      · intro d hd
        have hdr : d ∉ subtree g fuel r := hdis d hd
        rw [shiftOn_of_not_mem _ _ _ _ _ hdr, shiftOn_of_mem _ _ _ _ _ hd]
      · intro d hd
        have hdl : d ∉ subtree g fuel l := fun h => hdis d h hd
        rw [shiftOn_of_mem _ _ _ _ _ hd, shiftOn_of_not_mem _ _ _ _ _ hdl]
      · exact le_trans cl (le_max_left _ _)
      · exact le_refl _
      · have := le_max_left (g1 l).col_count ((g1 l).col + 2 + 2); omega
      · omega
      · have := le_max_right (g1 l).col_count ((g1 l).col + 2 + 2); omega
      · intro hnt
        rw [htk] at hnt
        exact absurd ⟨fun h => absurd h hnl, fun h => absurd hleafr h⟩ hnt
      · intro _
        omega
    · -- neither child is a leaf
      rw [if_neg hrr]
      have hnr : (g r).tree_edge ≠ [] := by
        intro h
        apply hrr
        rw [h1te r, h]; rfl
      have hB2 := adjustGraphLayout_spec fuel (shiftOn (subtree g fuel l) 0 1 g1) r
        (shiftOn (subtree g fuel l) 0 1 g1 l).col_count 1 (isTree_congr g _ hteB fuel r tr)
      rw [subtree_congr g _ hteB] at hB2
      simp only [hB1, hB2]
      refine ⟨_, rfl, ?_⟩
      have e1 : (shiftOn (subtree g fuel r) (shiftOn (subtree g fuel l) 0 1 g1 l).col_count 1
          (shiftOn (subtree g fuel l) 0 1 g1) l).col_count = (g1 l).col_count := by
        rw [shiftOn_col_count, shiftOn_col_count]
      have e2 : (shiftOn (subtree g fuel r) (shiftOn (subtree g fuel l) 0 1 g1 l).col_count 1
          (shiftOn (subtree g fuel l) 0 1 g1) r).col_count = (g1 r).col_count := by
        rw [shiftOn_col_count, shiftOn_col_count]
      rw [e1, e2, shiftOn_col_count]
      refine two_assemble layoutType fuel g g1 _ n l r rc cc
        ((g1 l).col_count + (g1 r).col_count) 0 (g1 l).col_count htree hcs h1te h1frame
        hch2 hrc1 hrcc ?_ ?_ ?_ ?_ ?_ ?_ ?_ ?_ ?_ ?_ ?_
      · intro k; rw [shiftOn_tree_edge, hteB, h1te]
      · intro k hk1 hk2
        rw [shiftOn_of_not_mem _ _ _ _ _ hk2, shiftOn_of_not_mem _ _ _ _ _ hk1]
      · intro d hd
        have hdr : d ∉ subtree g fuel r := hdis d hd
        rw [shiftOn_of_not_mem _ _ _ _ _ hdr, shiftOn_of_mem _ _ _ _ _ hd]
      · intro d hd
        have hdl : d ∉ subtree g fuel l := fun h => hdis d h hd
        rw [shiftOn_of_mem _ _ _ _ _ hd, shiftOn_of_not_mem _ _ _ _ _ hdl]
      · omega
      · exact le_refl _
      · omega
      · omega
      · omega
      · intro _
        omega
      · intro ht
        rw [htk] at ht
        exact absurd (ht.2 hnr) hnl

theorem sum_col_count_nonneg (g : Grid) (l : List Nat)
    (h : ∀ c ∈ l, 2 ≤ (g c).col_count) : 0 ≤ (l.map (fun c => (g c).col_count)).sum := by
  apply List.sum_nonneg
  intro x hx
  obtain ⟨c, hc, rfl⟩ := List.mem_map.1 hx
  have := h c hc
  omega

/-- The side-by-side rule of `computeBlockPlacement` (lines 333-348) returns
and places the parent as required, given its children placed. -/
theorem placeRow_ok (layoutType : LayoutType) (fuel : Nat) (g g1 : Grid) (n : Nat)
    (rc cc : Int) (htree : IsTree g (fuel + 1) n)
    (h1te : ∀ k, (g1 k).tree_edge = (g k).tree_edge)
    (h1frame : ∀ k, k ∉ (g n).tree_edge.flatMap (subtree g fuel) → g1 k = g k)
    (hch : ∀ c ∈ (g n).tree_edge, Placed g1 c ∧ Separated layoutType g1 c)
    (hrc1 : 1 ≤ rc) (hrcc : ∀ c ∈ (g n).tree_edge, (g1 c).row_count + 1 ≤ rc)
    (hlast : ∀ c, (g n).tree_edge.getLast? = some c → cc = (g1 c).col)
    (hnt : ¬ Tucked layoutType g n) :
    ∃ g3, placeRow fuel g1 n (g n).tree_edge (decide ((g n).tree_edge.length = 1)) cc = some g3 ∧
      PlacementOK layoutType (fuel + 1) g n
        (Function.update g3 n { g3 n with row := 0, row_count := rc }) := by
  obtain ⟨hfit, hnot, hnd⟩ := isTree_children g fuel n htree
  have hsub : (g n).tree_edge.flatMap (subtree g1 fuel) = (g n).tree_edge.flatMap (subtree g fuel) :=
    List.flatMap_congr (fun x _ => subtree_congr g g1 h1te fuel x)
  obtain ⟨g2, hrun, t1, t2, t3⟩ := sideBySide_spec fuel (g n).tree_edge g1 0
    (fun c hc => by rw [fits_congr g g1 h1te]; exact hfit c hc) (by rw [hsub]; exact hnd)
  rw [hsub] at t2
  have hcc2 : ∀ c ∈ (g n).tree_edge, 2 ≤ (g1 c).col_count := fun c hc => (hch c hc).1.2.1
  have hsplit : ∀ pre c post, (g n).tree_edge = pre ++ c :: post →
      0 ≤ (pre.map (fun c => (g1 c).col_count)).sum ∧ 2 ≤ (g1 c).col_count ∧
      0 ≤ (post.map (fun c => (g1 c).col_count)).sum ∧
      ((g n).tree_edge.map (fun c => (g1 c).col_count)).sum
        = (pre.map (fun c => (g1 c).col_count)).sum + (g1 c).col_count
          + (post.map (fun c => (g1 c).col_count)).sum := by
    intro pre c post hs
    refine ⟨sum_col_count_nonneg g1 pre (fun x hx => hcc2 x ?_), hcc2 c ?_,
      sum_col_count_nonneg g1 post (fun x hx => hcc2 x ?_), ?_⟩
    · rw [hs]; exact List.mem_append_left _ hx
    · rw [hs]; exact List.mem_append_right _ (List.mem_cons_self _ _)
    · rw [hs]; exact List.mem_append_right _ (List.mem_cons_of_mem _ hx)
    · rw [hs, List.map_append, List.sum_append, List.map_cons, List.sum_cons]
      omega
  -- the common part of the two outcomes
  have common : ∀ (gn : GridBlock), gn.tree_edge = (g2 n).tree_edge →
      0 ≤ gn.col ∧ gn.col + 2 ≤ gn.col_count → 2 ≤ gn.col_count →
      (∀ pre c post, (g n).tree_edge = pre ++ c :: post →
        (pre.map (fun c => (g1 c).col_count)).sum + (g1 c).col_count ≤ gn.col_count) →
      ((g n).tree_edge = [] → gn.col = 0 ∧ gn.col_count = 2) →
      PlacementOK layoutType (fuel + 1) g n
        (Function.update (Function.update g2 n gn) n
          { Function.update g2 n gn n with row := 0, row_count := rc }) := by
    intro gn hgte hgcol hgcc hgoff hgleaf
    have hG : ∀ k, k ≠ n → (Function.update (Function.update g2 n gn) n
        { Function.update g2 n gn n with row := 0, row_count := rc }) k = g2 k := by
      intro k hk
      rw [Function.update_noteq hk, Function.update_noteq hk]
    refine assemble layoutType fuel g g1 _ n
      (fun pre => 0 + (pre.map (fun c => (g1 c).col_count)).sum) rc
      htree h1te hch ?_ ?_ ?_ ?_ ?_ hrc1 hrcc ?_ ?_ ?_ ?_ ?_ ?_
    · intro k
      by_cases hk : k = n
      · subst hk
        rw [Function.update_same, Function.update_same]
        show gn.tree_edge = _
        rw [hgte, t1, h1te]
      · rw [hG k hk, t1, h1te]
    · intro k hk
      simp only [subtree, List.mem_cons, not_or] at hk
      rw [hG k hk.1, t2 k hk.2]
      exact h1frame k hk.2
    · intro pre c post hs d hd
      have hc : c ∈ (g n).tree_edge := by
        rw [hs]; exact List.mem_append_right _ (List.mem_cons_self _ _)
      have hdn : d ≠ n := by
        rintro rfl
        exact hnot (List.mem_flatMap.2 ⟨c, hc, hd⟩)
      rw [hG d hdn]
      exact t3 pre c post hs d (by rw [subtree_congr g g1 h1te]; exact hd)
    · rw [Function.update_same]
    · rw [Function.update_same]
    · rw [Function.update_same, Function.update_same]
      exact hgcc
    · rw [Function.update_same, Function.update_same]
      exact hgcol
    · intro pre c post hs
      rw [Function.update_same, Function.update_same]
      have := hsplit pre c post hs
      have := hgoff pre c post hs
      show 0 ≤ 0 + (pre.map (fun c => (g1 c).col_count)).sum ∧
        0 + (pre.map (fun c => (g1 c).col_count)).sum + (g1 c).col_count ≤ gn.col_count
      omega
    · intro _ pre a mid b post hs
      have hs2 : (g n).tree_edge = (pre ++ a :: mid) ++ b :: post := by
        rw [hs]; simp
      have h2 := hsplit (pre ++ a :: mid) b post hs2
      have h3 : ((pre ++ a :: mid).map (fun c => (g1 c).col_count)).sum
          = (pre.map (fun c => (g1 c).col_count)).sum + (g1 a).col_count
            + (mid.map (fun c => (g1 c).col_count)).sum := by
        rw [List.map_append, List.sum_append, List.map_cons, List.sum_cons]
        omega
      have h4 : 0 ≤ (mid.map (fun c => (g1 c).col_count)).sum := by
        refine sum_col_count_nonneg g1 mid (fun x hx => hcc2 x ?_)
        rw [hs]
        exact List.mem_append_right _ (List.mem_cons_of_mem _ (List.mem_append_left _ hx))
      show 0 + (pre.map (fun c => (g1 c).col_count)).sum + (g1 a).col_count
        ≤ 0 + ((pre ++ a :: mid).map (fun c => (g1 c).col_count)).sum
      omega
    · intro ht
      exact absurd ht hnt
    · intro hl
      rw [Function.update_same, Function.update_same]
      exact hgleaf hl
  unfold placeRow
  rw [hrun]
  simp only
  by_cases h2 : 2 ≤ 0 + ((g n).tree_edge.map (fun c => (g1 c).col_count)).sum
  · rw [if_pos h2]
    refine ⟨_, rfl, ?_⟩
    refine common _ rfl ?_ h2 ?_ ?_
    · simp only
      by_cases hs1 : (g n).tree_edge.length = 1
      · obtain ⟨c, hc⟩ := List.length_eq_one.1 hs1
        have hcc := hlast c (by rw [hc]; rfl)
        have hcm : c ∈ (g n).tree_edge := by rw [hc]; exact List.mem_singleton_self _
        have hb := (hch c hcm).1.2.2.2 c Relation.ReflTransGen.refl
        simp only [hs1, decide_True, if_true]
        rw [hcc, hc]
        simp only [List.map_cons, List.map_nil, List.sum_cons, List.sum_nil]
        omega
      · simp only [hs1, decide_False, Bool.false_eq_true, if_false]
        have := tdiv_two_bounds
          (0 + ((g n).tree_edge.map (fun c => (g1 c).col_count)).sum - 2) (by omega)
        omega
    · intro pre c post hs
      have := hsplit pre c post hs
      simp only
      omega
    · intro hl
      rw [hl] at h2
      simp at h2
  · rw [if_neg h2]
    refine ⟨_, rfl, ?_⟩
    have hnil : (g n).tree_edge = [] := by
      cases hcs : (g n).tree_edge with
      | nil => rfl
      | cons c cs =>
        exfalso
        have := hsplit [] c cs (by rw [hcs]; rfl)
        simp only [List.map_nil, List.sum_nil] at this
        omega
    refine common _ rfl ?_ ?_ ?_ ?_
    · simp
    · simp
    · intro pre c post hs
      rw [hnil] at hs
      cases pre <;> cases hs
    · intro _
      exact ⟨rfl, rfl⟩

/-- Function `computeBlockPlacement` on a tree: it ends within the fuel and
places the subtree as required. -/
theorem computeBlockPlacement_ok (layoutType : LayoutType) (fuel : Nat) :
    ∀ n g, IsTree g fuel n →
      ∃ g1, computeBlockPlacement layoutType fuel n g = some g1 ∧
        PlacementOK layoutType fuel g n g1 := by
  induction fuel with
  | zero =>
    intro n g ht
    cases ht.1
  | succ fuel ih =>
    intro n g ht
    obtain ⟨hfit, hnot, hnd⟩ := isTree_children g fuel n ht
    obtain ⟨g1, rc, cc, hrun, t1, t2, t3, t4, t5, t6⟩ :=
      placeChildren_spec layoutType fuel ih (g n).tree_edge g 1 0 hfit hnd
    have hch2 : ∀ c ∈ (g n).tree_edge, Placed g1 c ∧ Separated layoutType g1 c :=
      fun c hc => ⟨(t3 c hc).1, (t3 c hc).2.2⟩
    have hplaced : ∃ g3,
        (match decide (layoutType ≠ LayoutType.Wide), (g n).tree_edge with
          | true, [l, r] =>
            placeTwo layoutType fuel g1 n l r (decide ((g n).tree_edge.length = 1)) cc
          | _, _ => placeRow fuel g1 n (g n).tree_edge (decide ((g n).tree_edge.length = 1)) cc)
          = some g3 ∧
        PlacementOK layoutType (fuel + 1) g n
          (Function.update g3 n { g3 n with row := 0, row_count := rc }) := by
      split
      · rename_i l r hd hcs
        have hlt : layoutType ≠ LayoutType.Wide := by simpa using hd
        obtain ⟨g4, h4, ok⟩ := placeTwo_ok layoutType fuel g g1 n l r rc cc hlt ht hcs t1 t2 t3
          t4 t5
        have hsc : decide ((g n).tree_edge.length = 1) = false := by
          rw [hcs]; rfl
        rw [hsc, h4]
        exact ⟨_, rfl, ok⟩
      · rename_i hdef
        have hnt : ¬ Tucked layoutType g n := by
          rintro ⟨hlt, l, r, hcs, _⟩
          exact hdef l r (by simpa using hlt) hcs
        exact placeRow_ok layoutType fuel g g1 n rc cc ht t1 t2 hch2 t4 t5 t6 hnt
    obtain ⟨g3, h3, ok⟩ := hplaced
    unfold computeBlockPlacement
    simp only [hrun, h3]
    exact ⟨_, rfl, ok⟩

/-- C6. After `computeBlockPlacement(n)` on a tree, under each layout type,
the call returns, `n.row = 0`, `n.col_count >= 2`, `n.row_count >= 1`, and
every node `d` of the subtree of `n` (`n` included) has `0 <= d.col`,
`d.col + 2 <= n.col_count` and `0 <= d.row < n.row_count`. -/
theorem computeBlockPlacement_bounds (layoutType : LayoutType) (fuel n : Nat) (g : Grid)
    (ht : IsTree g fuel n) :
    ∃ g1, computeBlockPlacement layoutType fuel n g = some g1 ∧
      (g1 n).row = 0 ∧ 2 ≤ (g1 n).col_count ∧ 1 ≤ (g1 n).row_count ∧
      ∀ d, InSubtree g n d →
        0 ≤ (g1 d).col ∧ (g1 d).col + 2 ≤ (g1 n).col_count ∧
        0 ≤ (g1 d).row ∧ (g1 d).row < (g1 n).row_count := by
  obtain ⟨g1, hrun, hte, _, ⟨h1, h2, h3, h4⟩, _, _⟩ :=
    computeBlockPlacement_ok layoutType fuel n g ht
  refine ⟨g1, hrun, h1, h2, h3, fun d hd => h4 d ?_⟩
  rw [inSubtree_congr g g1 hte]
  exact hd

/-- Witness of C6: the tree `1 -> [2, 3]`, `3 -> [4, 5, 6]` under Narrow. -/
theorem computeBlockPlacement_bounds_witness :
    IsTree sampleTree 3 1 ∧
    ∃ g1, computeBlockPlacement LayoutType.Narrow 3 1 sampleTree = some g1 ∧
      (g1 1).row = 0 ∧ 2 ≤ (g1 1).col_count ∧ 1 ≤ (g1 1).row_count ∧
      ∀ d, InSubtree sampleTree 1 d →
        0 ≤ (g1 d).col ∧ (g1 d).col + 2 ≤ (g1 1).col_count ∧
        0 ≤ (g1 d).row ∧ (g1 d).row < (g1 1).row_count :=
  ⟨by decide, computeBlockPlacement_bounds LayoutType.Narrow 3 1 sampleTree (by decide)⟩

theorem pairwise_either {α : Type} (R : α → α → Prop) (l : List α) (h : l.Pairwise R)
    (a b : α) (ha : a ∈ l) (hb : b ∈ l) (hab : a ≠ b) : R a b ∨ R b a := by
  have h2 : l.Pairwise (fun x y => R x y ∨ R y x) := h.imp (fun hxy => Or.inl hxy)
  exact h2.forall (fun x y hxy => hxy.symm) ha hb hab

/-- C7 as stated fails: under Narrow, in the tree `1 -> [2, 3]`,
`3 -> [4, 5, 6]`, the leaf 2 is tucked into column 0 next to its sibling 3 in
column 2, while node 4 of the subtree of 3 is in column 0 as well: the column
ranges of the subtrees of the two children of node 1 overlap. -/
theorem tucked_leaf_overlaps_sibling_subtree :
    IsTree sampleTree 3 1 ∧
    ∃ g1, computeBlockPlacement LayoutType.Narrow 3 1 sampleTree = some g1 ∧
      2 ∈ (sampleTree 1).tree_edge ∧ 3 ∈ (sampleTree 1).tree_edge ∧
      (g1 2).col = 0 ∧ (g1 3).col = 2 ∧ (g1 4).col = 0 ∧ InSubtree g1 3 4 ∧
      ¬ (ColsBefore g1 2 3 ∨ ColsBefore g1 3 2) := by
  refine ⟨by decide, ?_⟩
  have hv : (computeBlockPlacement LayoutType.Narrow 3 1 sampleTree).map
      (fun g1 => ((g1 2).col, (g1 3).col, (g1 4).col, (g1 3).tree_edge))
        = some (0, 2, 0, [4, 5, 6]) := by decide
  cases hrun : computeBlockPlacement LayoutType.Narrow 3 1 sampleTree with
  | none => rw [hrun] at hv; cases hv
  | some g1 =>
    rw [hrun] at hv
    simp only [Option.map_some', Option.some.injEq, Prod.mk.injEq] at hv
    obtain ⟨c2, c3, c4, te⟩ := hv
    have h34 : InSubtree g1 3 4 := by
      apply Relation.ReflTransGen.single
      show 4 ∈ (g1 3).tree_edge
      rw [te]
      decide
    refine ⟨g1, rfl, by decide, by decide, c2, c3, c4, h34, ?_⟩
    rintro (h | h)
    · have := h 2 4 Relation.ReflTransGen.refl h34
      omega
    · have := h 4 2 h34 Relation.ReflTransGen.refl
      omega

/-- C7, amended. After `computeBlockPlacement(n)` on a tree, under each layout
type, at every node `p` of the subtree: if `p` is not laid out by the leaf
rule (layout type Narrow or Medium, exactly two tree children, exactly one of
them a leaf), then for any two distinct tree children of `p` the column range
of one child's subtree ends before the column range of the other child's
subtree begins; if `p` is laid out by the leaf rule, its two children are on
the same row and exactly two columns apart. -/
theorem computeBlockPlacement_siblings (layoutType : LayoutType) (fuel n : Nat) (g : Grid)
    (ht : IsTree g fuel n) :
    ∃ g1, computeBlockPlacement layoutType fuel n g = some g1 ∧
      ∀ p, InSubtree g n p →
        (¬ Tucked layoutType g p → ∀ c1 c2, c1 ∈ (g p).tree_edge → c2 ∈ (g p).tree_edge →
          c1 ≠ c2 → ColsBefore g1 c1 c2 ∨ ColsBefore g1 c2 c1) ∧
        (Tucked layoutType g p → ∀ l r, (g p).tree_edge = [l, r] →
          (g1 l).col + 2 = (g1 r).col ∧ (g1 l).row = (g1 r).row) := by
  obtain ⟨g1, hrun, hte, _, _, _, hs⟩ := computeBlockPlacement_ok layoutType fuel n g ht
  refine ⟨g1, hrun, fun p hp => ?_⟩
  rw [← inSubtree_congr g g1 hte] at hp
  obtain ⟨a1, a2⟩ := hs p hp
  rw [tucked_congr layoutType g g1 hte, hte p] at a1 a2
  exact ⟨fun hnt c1 c2 h1 h2 hne => pairwise_either _ _ (a1 hnt) c1 c2 h1 h2 hne, a2⟩

/-- Witness of C7 amended: the tree `1 -> [2, 3]`, `3 -> [4, 5, 6]` under
Narrow. -/
theorem computeBlockPlacement_siblings_witness :
    IsTree sampleTree 3 1 ∧
    ∃ g1, computeBlockPlacement LayoutType.Narrow 3 1 sampleTree = some g1 ∧
      ∀ p, InSubtree sampleTree 1 p →
        (¬ Tucked LayoutType.Narrow sampleTree p →
          ∀ c1 c2, c1 ∈ (sampleTree p).tree_edge → c2 ∈ (sampleTree p).tree_edge →
            c1 ≠ c2 → ColsBefore g1 c1 c2 ∨ ColsBefore g1 c2 c1) ∧
        (Tucked LayoutType.Narrow sampleTree p → ∀ l r, (sampleTree p).tree_edge = [l, r] →
          (g1 l).col + 2 = (g1 r).col ∧ (g1 l).row = (g1 r).row) :=
  ⟨by decide, computeBlockPlacement_siblings LayoutType.Narrow 3 1 sampleTree (by decide)⟩

/-! ## From `topoSort` to `computeBlockPlacement`: the spanning tree is a tree -/

theorem fits_mono (g : Grid) (f f1 n : Nat) (h : fits g f n = true) (hle : f ≤ f1) :
    fits g f1 n = true := by
  induction f generalizing f1 n with
  | zero => cases h
  | succ f ih =>
    cases f1 with
    | zero => omega
    | succ f1 =>
      simp only [fits, List.all_eq_true] at h ⊢
      exact fun c hc => ih f1 c (h c hc) (by omega)

theorem subtree_mono (g : Grid) (f f1 n : Nat) (h : fits g f n = true) (hle : f ≤ f1) :
    subtree g f1 n = subtree g f n := by
  induction f generalizing f1 n with
  | zero => cases h
  | succ f ih =>
    cases f1 with
    | zero => omega
    | succ f1 =>
      simp only [fits, List.all_eq_true] at h
      simp only [subtree]
      congr 1
      exact List.flatMap_congr (fun c hc => ih f1 c (h c hc) (by omega))

theorem isTree_mono (g : Grid) (f f1 n : Nat) (h : IsTree g f n) (hle : f ≤ f1) :
    IsTree g f1 n :=
  ⟨fits_mono g f f1 n h.1 hle, by rw [subtree_mono g f f1 n h.1 hle]; exact h.2⟩

theorem inSubtree_index_le (g : Grid) (order : List Nat)
    (hidx : ∀ p c, c ∈ (g p).tree_edge → order.indexOf p < order.indexOf c) (a b : Nat)
    (h : InSubtree g a b) : order.indexOf a ≤ order.indexOf b := by
  induction h with
  | refl => exact le_refl _
  | tail _ h2 ih => exact le_trans ih (le_of_lt (hidx _ _ h2))

/-- With one parent per node, two ancestors of a node are in line. -/
theorem inSubtree_comparable (g : Grid)
    (huniq : ∀ c p p1, c ∈ (g p).tree_edge → c ∈ (g p1).tree_edge → p = p1) (a b d : Nat)
    (ha : InSubtree g a d) (hb : InSubtree g b d) : InSubtree g a b ∨ InSubtree g b a := by
  induction ha with
  | refl => exact Or.inr hb
  | tail hap hpd ih =>
    rcases Relation.ReflTransGen.cases_tail hb with h | ⟨p1, hbp1, hp1d⟩
    · rw [← h]
      exact Or.inl (Relation.ReflTransGen.tail hap hpd)
    · have := huniq _ _ _ hpd hp1d
      subst this
      exact ih hbp1

/-- A forest given by an order in which parents come first, with one parent
per node and no child listed twice, is a tree below each of its nodes. -/
theorem isTree_of_order (g : Grid) (order : List Nat)
    (huniq : ∀ c p p1, c ∈ (g p).tree_edge → c ∈ (g p1).tree_edge → p = p1)
    (htend : ∀ p, (g p).tree_edge.Nodup)
    (hidx : ∀ p c, c ∈ (g p).tree_edge →
      c ∈ order ∧ order.indexOf p < order.indexOf c) :
    ∀ m n, n ∈ order → order.length - order.indexOf n ≤ m → IsTree g m n := by
  have hidx2 : ∀ p c, c ∈ (g p).tree_edge → order.indexOf p < order.indexOf c :=
    fun p c h => (hidx p c h).2
  intro m
  induction m with
  | zero =>
    intro n hn hle
    have := List.indexOf_lt_length.2 hn
    omega
  | succ m ih =>
    intro n hn hle
    have hch : ∀ c ∈ (g n).tree_edge, IsTree g m c := by
      intro c hc
      obtain ⟨h1, h2⟩ := hidx n c hc
      exact ih c h1 (by omega)
    refine ⟨?_, ?_⟩
    · simp only [fits, List.all_eq_true]
      exact fun c hc => (hch c hc).1
    · simp only [subtree, List.nodup_cons, List.nodup_flatMap]
      refine ⟨?_, fun c hc => (hch c hc).2, ?_⟩
      · intro hmem
        obtain ⟨c, hc, hnc⟩ := List.mem_flatMap.1 hmem
        rw [mem_subtree_iff g m c n (hch c hc).1] at hnc
        have h1 := inSubtree_index_le g order hidx2 c n hnc
        have h2 := hidx2 n c hc
        omega
      · refine (htend n).pairwise_of_forall_ne ?_
        intro c1 hc1 c2 hc2 hne d hd1 hd2
        rw [mem_subtree_iff g m c1 d (hch c1 hc1).1] at hd1
        rw [mem_subtree_iff g m c2 d (hch c2 hc2).1] at hd2
        have key : ∀ x y, x ∈ (g n).tree_edge → y ∈ (g n).tree_edge → x ≠ y →
            ¬ InSubtree g x y := by
          intro x y hx hy hxy hin
          rcases Relation.ReflTransGen.cases_tail hin with h | ⟨p, hxp, hpy⟩
          · exact hxy h.symm
          · have := huniq _ _ _ hpy hy
            subst this
            have h1 := inSubtree_index_le g order hidx2 x p hxp
            have h2 := hidx2 p x hx
            omega
        rcases inSubtree_comparable g huniq c1 c2 d hd1 hd2 with h | h
        · exact key c1 c2 hc1 hc2 hne h
        · exact key c2 c1 hc2 hc1 (fun e => hne e.symm) h

theorem SameCoords.refl (g : Grid) : SameCoords g g := fun _ => ⟨rfl, rfl, rfl, rfl, rfl⟩

theorem SameCoords.trans {g g1 g2 : Grid} (h1 : SameCoords g g1) (h2 : SameCoords g1 g2) :
    SameCoords g g2 := by
  intro k
  obtain ⟨a1, a2, a3, a4, a5⟩ := h1 k
  obtain ⟨b1, b2, b3, b4, b5⟩ := h2 k
  exact ⟨b1.trans a1, b2.trans a2, b3.trans a3, b4.trans a4, b5.trans a5⟩

theorem sameCoords_update_incoming (g : Grid) (k : Nat) (inc : List Nat) :
    SameCoords g (Function.update g k { g k with incoming := inc }) := by
  intro j
  rw [Function.update_apply]
  split_ifs with h
  · subst h; exact ⟨rfl, rfl, rfl, rfl, rfl⟩
  · exact ⟨rfl, rfl, rfl, rfl, rfl⟩

theorem sameCoords_update_tree (g : Grid) (k : Nat) (te : List Nat) :
    SameCoords g (Function.update g k { g k with tree_edge := te }) := by
  intro j
  rw [Function.update_apply]
  split_ifs with h
  · subst h; exact ⟨rfl, rfl, rfl, rfl, rfl⟩
  · exact ⟨rfl, rfl, rfl, rfl, rfl⟩

theorem populateIncoming_sameCoords (blocks : Blocks) (g : Grid) :
    SameCoords g (populateIncoming blocks g) := by
  unfold populateIncoming
  have inner : ∀ (es : List GraphEdge) (k : Nat) (g : Grid),
      SameCoords g (es.foldl (pushIncoming k) g) := by
    intro es k
    induction es with
    | nil => intro g; exact SameCoords.refl g
    | cons e es ih =>
      intro g
      rw [List.foldl_cons]
      exact (sameCoords_update_incoming g e.target _).trans (ih _)
  induction blocks generalizing g with
  | nil => exact SameCoords.refl g
  | cons kb blocks ih =>
    rw [List.foldl_cons]
    exact (inner kb.2.edges kb.1 g).trans (ih _)

theorem visitEdge_sameCoords (blocks : Blocks) (src : Nat) (s : TopoState) (e : GraphEdge) :
    SameCoords s.grid (visitEdge blocks src s e).grid := by
  unfold visitEdge
  simp only
  split_ifs
  · exact SameCoords.refl _
  · exact SameCoords.refl _
  · exact (sameCoords_update_incoming _ _ _).trans (sameCoords_update_tree _ _ _)
  · exact sameCoords_update_incoming _ _ _

theorem visitEdges_sameCoords (blocks : Blocks) (src : Nat) (es : List GraphEdge)
    (s : TopoState) : SameCoords s.grid (es.foldl (visitEdge blocks src) s).grid := by
  induction es generalizing s with
  | nil => exact SameCoords.refl _
  | cons e es ih =>
    rw [List.foldl_cons]
    exact (visitEdge_sameCoords blocks src s e).trans (ih _)

theorem drain_sameCoords (blocks : Blocks) (fuel : Nat) (s s1 : TopoState)
    (h : drain blocks fuel s = some s1) : SameCoords s.grid s1.grid := by
  induction fuel generalizing s with
  | zero =>
    unfold drain at h
    cases hq : s.queue with
    | nil =>
      rw [hq] at h
      simp only [Option.some.injEq] at h
      rw [← h]; exact SameCoords.refl _
    | cons q rest => rw [hq] at h; cases h
  | succ fuel ih =>
    unfold drain at h
    cases hq : s.queue with
    | nil =>
      rw [hq] at h
      simp only [Option.some.injEq] at h
      rw [← h]; exact SameCoords.refl _
    | cons q rest =>
      rw [hq] at h
      simp only at h
      have h1 := visitEdges_sameCoords blocks (blockAt blocks q).entry (blockAt blocks q).edges
        { s with queue := rest, block_order := s.block_order ++ [(blockAt blocks q).entry] }
      exact h1.trans (ih _ h)

theorem adoptBest_sameCoords (s : TopoState) (b : Best) :
    SameCoords s.grid (adoptBest s b).grid := by
  unfold adoptBest
  split_ifs
  · exact (sameCoords_update_incoming _ _ _).trans (sameCoords_update_tree _ _ _)
  · exact SameCoords.refl _

theorem mainLoop_sameCoords (blocks : Blocks) (fuel : Nat) (s s1 : TopoState)
    (h : mainLoop blocks fuel s = some s1) : SameCoords s.grid s1.grid := by
  induction fuel generalizing s with
  | zero => cases h
  | succ fuel ih =>
    unfold mainLoop at h
    cases hd : drain blocks (s.queue.length + unvisitedCount blocks s.visited)
        { s with changed := false } with
    | none => rw [hd] at h; cases h
    | some s2 =>
      rw [hd] at h
      simp only at h
      have h1 : SameCoords s.grid s2.grid :=
        drain_sameCoords blocks _ { s with changed := false } s2 hd
      have h2 := adoptBest_sameCoords s2 (scanBlocks blocks s2)
      split_ifs at h
      · exact (h1.trans h2).trans (ih _ h)
      · simp only [Option.some.injEq] at h
        rw [← h]
        exact h1.trans h2

theorem initGrid_apply (blocks : Blocks) (k : Nat) :
    initGrid blocks k = if k ∈ keysOf blocks then { GridBlock.fresh with id := k }
      else GridBlock.fresh := by
  unfold initGrid keysOf
  have key : ∀ (l : Blocks) (g : Grid),
      (l.foldl (fun g kb => Function.update g kb.1 { GridBlock.fresh with id := kb.1 }) g) k
        = if k ∈ l.map Prod.fst then { GridBlock.fresh with id := k } else g k := by
    intro l
    induction l with
    | nil => intro g; rfl
    | cons kb l ih =>
      intro g
      rw [List.foldl_cons, ih]
      by_cases h1 : k ∈ l.map Prod.fst
      · simp only [List.map_cons, List.mem_cons, h1, or_true, if_true]
      · by_cases h2 : k = kb.1
        · subst h2
          simp only [List.map_cons, List.mem_cons, h1, if_false, true_or, if_true,
            Function.update_same]
        · simp only [List.map_cons, List.mem_cons, h1, if_false, h2, false_or,
            Function.update_noteq h2]
  exact key blocks _

/-- Function `topoSort` returns; its final state satisfies the loop invariant
with an empty queue, and it changes no identifier, position or span. -/
theorem topoSort_final (blocks : Blocks) (grid : Grid) (gridKeys : List Nat) (entry : Nat)
    (hw : WellFormed blocks) (hin : entry ∈ keysOf blocks)
    (hg : ∀ k, (grid k).tree_edge = []) :
    ∃ s, topoSort blocks grid gridKeys entry
        = some { order := s.block_order, blocks := blocks, grid := s.grid,
                 gridKeys := populateKeys blocks gridKeys } ∧
      TopoInv blocks entry s ∧ s.queue = [] ∧ SameCoords grid s.grid := by
  obtain ⟨s, hs, hinv, hq⟩ := mainLoop_inv blocks hw entry
    (unvisitedCount blocks [entry] + 2) (topoInit blocks grid entry)
    (topoInit_inv blocks grid entry hin hg) (by
      show unvisitedCount blocks [entry] + 1 ≤ unvisitedCount blocks [entry] + 2
      omega)
  refine ⟨s, ?_, hinv, hq, ?_⟩
  · unfold topoSort
    simp only
    rw [ensureKey_of_mem blocks entry hin, hs]
  · exact (populateIncoming_sameCoords blocks grid).trans
      (mainLoop_sameCoords blocks _ _ s hs)

/-- The tree read off the final state of `topoSort`. -/
theorem TopoInv.tree_facts {blocks : Blocks} {entry : Nat} {s : TopoState}
    (h : TopoInv blocks entry s) (hq : s.queue = []) :
    entry ∈ s.block_order ∧
    (∀ c p p1, c ∈ (s.grid p).tree_edge → c ∈ (s.grid p1).tree_edge → p = p1) ∧
    (∀ p, (s.grid p).tree_edge.Nodup) ∧
    (∀ c ∈ s.block_order, c ≠ entry → ∃ p, c ∈ (s.grid p).tree_edge) := by
  have hseq : s.seq = s.block_order := by
    unfold TopoState.seq
    rw [hq, List.append_nil]
  have hnd := h.nodup
  have hperm := h.perm
  have hedge := h.edge
  rw [hseq] at hnd hperm hedge
  have hnd2 : (entry :: treeChildren s.grid s.block_order).Nodup := hperm.nodup_iff.2 hnd
  rw [List.nodup_cons] at hnd2
  obtain ⟨_, htc⟩ := hnd2
  unfold treeChildren at htc
  rw [List.nodup_flatMap] at htc
  refine ⟨hperm.mem_iff.1 (List.mem_cons_self _ _), ?_, ?_, ?_⟩
  · intro c p p1 hp hp1
    by_contra hpp
    have hdis := htc.2.forall (fun a b hab => hab.symm) (hedge p c hp).1 (hedge p1 c hp1).1 hpp
    exact hdis hp hp1
  · intro p
    by_cases hp : p ∈ s.block_order
    · exact htc.1 p hp
    · have : (s.grid p).tree_edge = [] := by
        rw [List.eq_nil_iff_forall_not_mem]
        intro x hx
        exact hp (hedge p x hx).1
      rw [this]
      exact List.nodup_nil
  · intro c hc hne
    have hc2 : c ∈ entry :: treeChildren s.grid s.block_order := hperm.mem_iff.2 hc
    rcases List.mem_cons.1 hc2 with h1 | h1
    · exact absurd h1 hne
    · unfold treeChildren at h1
      obtain ⟨p, _, hcp⟩ := List.mem_flatMap.1 h1
      exact ⟨p, hcp⟩

/-- The nodes of the order are the nodes of the tree below the entry. -/
theorem TopoInv.order_iff_inSubtree {blocks : Blocks} {entry : Nat} {s : TopoState}
    (h : TopoInv blocks entry s) (hq : s.queue = []) (x : Nat) :
    x ∈ s.block_order ↔ InSubtree s.grid entry x := by
  have hseq : s.seq = s.block_order := by
    unfold TopoState.seq
    rw [hq, List.append_nil]
  have hedge := h.edge
  rw [hseq] at hedge
  obtain ⟨he, _, _, hpar⟩ := h.tree_facts hq
  constructor
  · intro hx
    have key : ∀ m y, y ∈ s.block_order → s.block_order.indexOf y ≤ m →
        InSubtree s.grid entry y := by
      intro m
      induction m with
      | zero =>
        intro y hy hle
        by_cases hye : y = entry
        · rw [hye]; exact Relation.ReflTransGen.refl
        · obtain ⟨p, hp⟩ := hpar y hy hye
          have := (hedge p y hp).2.2.2
          omega
      | succ m ih =>
        intro y hy hle
        by_cases hye : y = entry
        · rw [hye]; exact Relation.ReflTransGen.refl
        · obtain ⟨p, hp⟩ := hpar y hy hye
          obtain ⟨a1, _, _, a4⟩ := hedge p y hp
          exact Relation.ReflTransGen.tail (ih p a1 (by omega)) hp
    exact key _ x hx (le_refl _)
  · intro hx
    induction hx with
    | refl => exact he
    | tail _ h2 _ => exact (hedge _ _ h2).2.1

theorem populateKeys_length (blocks : Blocks) (pre : List Nat) :
    pre.length ≤ (populateKeys blocks pre).length := by
  unfold populateKeys
  have inner : ∀ (es : List GraphEdge) (ks : List Nat),
      ks.length ≤ (es.foldl (fun ks e => if e.target ∈ ks then ks else ks ++ [e.target])
        ks).length := by
    intro es
    induction es with
    | nil => intro ks; exact le_refl _
    | cons e es ih =>
      intro ks
      rw [List.foldl_cons]
      refine le_trans ?_ (ih _)
      split_ifs
      · exact le_refl _
      · simp
  induction blocks generalizing pre with
  | nil => exact le_refl _
  | cons kb blocks ih =>
    rw [List.foldl_cons]
    exact le_trans (inner kb.2.edges pre) (ih _)

theorem initGrid_coords (blocks : Blocks) (k : Nat) :
    (initGrid blocks k).row = 0 ∧ (initGrid blocks k).col = 0 := by
  rw [initGrid_apply]
  split_ifs <;> exact ⟨rfl, rfl⟩

/-- The grid stage of `CalculateLayout` returns on every well-formed node map
whose entry is a key, and leaves the spanning tree placed. -/
theorem gridStage_ok (layoutType : LayoutType) (blocks : Blocks) (entry : Nat)
    (hw : WellFormed blocks) (hin : entry ∈ keysOf blocks) :
    ∃ r, gridStage layoutType blocks entry = some r ∧
      GridStageOK layoutType blocks entry r := by
  obtain ⟨s, hts, hinv, hq, hsame⟩ := topoSort_final blocks (initGrid blocks) (keysOf blocks)
    entry hw hin (initGrid_tree_edge blocks)
  have hseq : s.seq = s.block_order := by
    unfold TopoState.seq
    rw [hq, List.append_nil]
  have hnd := hinv.nodup
  have hkeys := hinv.keys
  have hreach := hinv.reach
  have hedge := hinv.edge
  rw [hseq] at hnd hkeys hreach hedge
  obtain ⟨he, huniq, htend, _⟩ := hinv.tree_facts hq
  have htree0 : IsTree s.grid s.block_order.length entry :=
    isTree_of_order s.grid s.block_order huniq htend
      (fun p c hc => ⟨(hedge p c hc).2.1, (hedge p c hc).2.2.2⟩) _ entry he (by omega)
  -- the fuel of the placement is enough
  have hlen : s.block_order.length ≤ (populateKeys blocks (keysOf blocks)).length :=
    le_trans (List.Subperm.length_le (hnd.subperm hkeys)) (populateKeys_length blocks _)
  generalize hks : (if entry ∈ populateKeys blocks (keysOf blocks)
      then populateKeys blocks (keysOf blocks)
      else populateKeys blocks (keysOf blocks) ++ [entry]) = ks
  have hlen2 : s.block_order.length ≤ ks.length + 1 := by
    rw [← hks]
    split_ifs
    · omega
    · rw [List.length_append]; omega
  have htree1 := isTree_mono s.grid _ (ks.length + 1) entry htree0 hlen2
  obtain ⟨g1, hrun, hte, hframe, hpl, _, hsep⟩ :=
    computeBlockPlacement_ok layoutType (ks.length + 1) entry s.grid htree1
  refine ⟨{ order := s.block_order, blocks := blocks, grid := g1, gridKeys := ks }, ?_, ?_⟩
  · unfold gridStage
    rw [hts]
    simp only
    rw [hks, hrun]
  · have hiff : ∀ x, x ∈ s.block_order ↔ InSubtree g1 entry x := by
      intro x
      rw [inSubtree_congr s.grid g1 hte]
      exact hinv.order_iff_inSubtree hq x
    refine ⟨rfl, hnd, hkeys, hreach, hiff, ?_, ?_, hpl, hsep, ?_⟩
    · exact isTree_congr s.grid g1 hte _ entry htree0
    · intro p c hc
      rw [hte p] at hc
      exact (hedge p c hc).2.2.1
    · intro k hk
      have hns : k ∉ subtree s.grid (ks.length + 1) entry := by
        rw [mem_subtree_iff s.grid _ entry k htree1.1, ← hinv.order_iff_inSubtree hq k]
        exact hk
      show (g1 k).row = 0 ∧ (g1 k).col = 0
      rw [hframe k hns]
      obtain ⟨_, h2, h3, _⟩ := hsame k
      rw [h2, h3]
      exact initGrid_coords blocks k

/-! ## `CalculateLayout`: nodes that are not reachable from the entry -/

theorem routeAll_frame (blocks : Blocks) (g : Grid) (edge_valid : Matrix) (order : List Nat)
    (m m1 : EdgeMap) (t t1 : Lanes)
    (h : routeAll blocks g edge_valid order m t = some (m1, t1)) (k : Nat) (hk : k ∉ order) :
    m1 k = m k := by
  induction order generalizing m t with
  | nil =>
    simp only [routeAll, Option.some.injEq, Prod.mk.injEq] at h
    rw [← h.1]
  | cons blockId rest ih =>
    unfold routeAll at h
    cases hr : routeEdges g edge_valid (g blockId) (blockAt blocks blockId).edges t with
    | none => rw [hr] at h; cases h
    | some p =>
      obtain ⟨ges, t2⟩ := p
      rw [hr] at h
      simp only at h
      rw [List.mem_cons, not_or] at hk
      rw [ih _ t2 h hk.2]
      split_ifs
      · rfl
      · exact Function.update_noteq hk.1 _ _

theorem initEdges_fresh (blocks : Blocks) (k : Nat) :
    ∀ ge ∈ initEdges blocks k, ge = GridEdge.fresh := by
  unfold initEdges
  have key : ∀ (l : Blocks) (m : EdgeMap), (∀ ge ∈ m k, ge = GridEdge.fresh) →
      ∀ ge ∈ (l.foldl (fun (m : EdgeMap) (kb : Nat × GraphBlock) =>
        Function.update m kb.1 (List.replicate kb.2.edges.length GridEdge.fresh)) m) k,
        ge = GridEdge.fresh := by
    intro l
    induction l with
    | nil => intro m hm; exact hm
    | cons kb l ih =>
      intro m hm
      rw [List.foldl_cons]
      apply ih
      intro ge hge
      rw [Function.update_apply] at hge
      split_ifs at hge
      · exact (List.mem_replicate.1 hge).2
      · exact hm ge hge
  exact key blocks _ (fun ge hge => absurd hge (List.not_mem_nil ge))

theorem blockAt_cons (a : Nat) (c : GraphBlock) (xs : Blocks) (k : Nat) :
    blockAt ((a, c) :: xs) k = if k = a then c else blockAt xs k := by
  unfold blockAt
  simp only [List.lookup]
  by_cases h : k = a
  · subst h; simp
  · have : (k == a) = false := by simpa using h
    simp only [this, h, if_false]

theorem blockAt_nil (k : Nat) : blockAt [] k = GraphBlock.fresh := rfl

theorem lookup_append_fresh (bs : Blocks) (d k : Nat) :
    blockAt (bs ++ [(d, GraphBlock.fresh)]) k = blockAt bs k := by
  induction bs with
  | nil =>
    rw [List.nil_append, blockAt_cons, blockAt_nil]
    split_ifs <;> rfl
  | cons x xs ih =>
    obtain ⟨a, b⟩ := x
    rw [List.cons_append, blockAt_cons, blockAt_cons, ih]

theorem blockAt_ensureKey (bs : Blocks) (d k : Nat) :
    blockAt (ensureKey bs d) k = blockAt bs k := by
  unfold ensureKey
  split_ifs
  · rfl
  · exact lookup_append_fresh bs d k

theorem blockAt_setBlock_ne (bs : Blocks) (j k : Nat) (b : GraphBlock) (h : k ≠ j) :
    blockAt (setBlock bs j b) k = blockAt bs k := by
  induction bs with
  | nil => rfl
  | cons x xs ih =>
    obtain ⟨a, c⟩ := x
    unfold setBlock at ih ⊢
    rw [List.map_cons]
    by_cases h2 : a = j
    · rw [if_pos h2, blockAt_cons, blockAt_cons, ih]
      have : ¬ k = a := fun e => h (e.trans h2)
      rw [if_neg this, if_neg this]
    · rw [if_neg h2, blockAt_cons, blockAt_cons, ih]

theorem compileEdges_other (cfg : LayoutConfig) (geo : Geometry) (j k : Nat)
    (ges : List GridEdge) (bs : Blocks) (index : Nat) (h : k ≠ j) :
    blockAt (compileEdges cfg geo j ges bs index) k = blockAt bs k := by
  induction ges generalizing bs index with
  | nil => rfl
  | cons ge ges ih =>
    unfold compileEdges
    cases hp : ge.points with
    | nil => simp only; exact ih bs index
    | cons p0 ps =>
      simp only
      rw [ih, blockAt_setBlock_ne _ _ _ _ h, blockAt_ensureKey]

theorem compileEdges_unrouted (cfg : LayoutConfig) (geo : Geometry) (k : Nat)
    (ges : List GridEdge) (bs : Blocks) (index : Nat) (h : ∀ ge ∈ ges, ge.points = []) :
    compileEdges cfg geo k ges bs index = bs := by
  induction ges generalizing bs index with
  | nil => rfl
  | cons ge ges ih =>
    unfold compileEdges
    rw [h ge (List.mem_cons_self _ _)]
    simp only
    exact ih bs index (fun x hx => h x (List.mem_cons_of_mem _ hx))

theorem compileAll_unrouted (cfg : LayoutConfig) (geo : Geometry) (edges : EdgeMap) (k : Nat)
    (block : GraphBlock) (hent : block.entry = k) (hun : ∀ ge ∈ edges k, ge.points = [])
    (l bs : Blocks) (hb : blockAt bs k = block) :
    blockAt (l.foldl
      (fun bs kb => compileEdges cfg geo kb.1 (edges (blockAt bs kb.1).entry) bs 0) bs) k
      = block := by
  induction l generalizing bs with
  | nil => exact hb
  | cons kb l ih =>
    rw [List.foldl_cons]
    apply ih
    by_cases h : kb.1 = k
    · rw [h, hb, hent, compileEdges_unrouted cfg geo k _ bs 0 hun]
      exact hb
    · rw [compileEdges_other cfg geo kb.1 k _ bs 0 (fun e => h e.symm)]
      exact hb

theorem blockAt_map (blocks : Blocks) (f : Nat → GraphBlock → GraphBlock) (k : Nat)
    (hk : k ∈ keysOf blocks) :
    blockAt (blocks.map (fun kb => (kb.1, f kb.1 kb.2))) k = f k (blockAt blocks k) := by
  induction blocks with
  | nil => cases hk
  | cons x xs ih =>
    obtain ⟨a, b⟩ := x
    rw [List.map_cons, blockAt_cons, blockAt_cons]
    by_cases h : k = a
    · rw [if_pos h, if_pos h, h]
    · rw [if_neg h, if_neg h]
      apply ih
      unfold keysOf at hk ⊢
      rcases List.mem_cons.1 hk with h1 | h1
      · exact absurd h1 h
      · exact h1

theorem stray_not_reachable : ¬ Reachable strayMap 1 2 := by
  intro h
  rcases Relation.ReflTransGen.cases_head h with h1 | ⟨c, ⟨_, e, he, _⟩, _⟩
  · cases h1
  · have : (blockAt strayMap 1).edges = [] := by decide
    rw [this] at he
    cases he

/-- C4 as stated fails: in the node map with node 1 (entry, no edge) and node
2 (one edge to node 1), node 2 is not reachable from the entry and starts at
`x = 100`, `y = 100`; `CalculateLayout` moves it to `x = 20`, `y = 30`, the
position of grid cell (0, 0). Its polyline `[(7, 7)]` is left as it was. -/
theorem unreachable_node_is_moved :
    ¬ Reachable strayMap 1 2 ∧
    (blockAt strayMap 2).x = 100 ∧ (blockAt strayMap 2).y = 100 ∧
    ∀ layoutType : LayoutType,
      CalculateLayout sampleConfig layoutType strayMap 1
        = some
            { blocks :=
                [(1, { x := 25, y := 30, width := 20, height := 10, entry := 1, edges := [] }),
                 (2, { x := 20, y := 30, width := 30, height := 30, entry := 2,
                       edges := [{ target := 1, polyline := [(7, 7)] }] })],
              width := 70, height := 80 } := by
  refine ⟨stray_not_reachable, by decide, by decide, fun layoutType => ?_⟩
  cases layoutType <;> decide

theorem placeNode_origin (cfg : LayoutConfig) (geo : Geometry) (g : Grid) (k : Nat)
    (block : GraphBlock) (hrow : (g k).row = 0) (hcol : (g k).col = 0) :
    placeNode cfg geo g k block = placeNode cfg geo (fun _ => GridBlock.fresh) k block := by
  unfold placeNode
  simp only [hrow, hcol]
  rfl

/-- C4, amended. On a well-formed node map whose entry is a key, for every
node `k` of the map that is not reachable from the entry, whenever
`CalculateLayout` returns: the edges of `k` (targets and polylines), its
width, height and `entry` are left exactly as they were; its `x` and `y` are
overwritten with the position the geometry compiler gives to a node of its
size at grid row 0, column 0. -/
theorem unreachable_node_output (cfg : LayoutConfig) (layoutType : LayoutType)
    (blocks : Blocks) (entry k : Nat) (hw : WellFormed blocks) (hin : entry ∈ keysOf blocks)
    (hk : k ∈ keysOf blocks) (hun : ¬ Reachable blocks entry k) (res : LayoutResult)
    (hres : CalculateLayout cfg layoutType blocks entry = some res) :
    ∃ r edges t,
      gridStage layoutType blocks entry = some r ∧ routeStage r entry = some (edges, t) ∧
      blockAt res.blocks k
        = placeNode cfg
            (geometry cfg blocks r.grid t (r.grid entry).row_count (r.grid entry).col_count)
            (fun _ => GridBlock.fresh) k (blockAt blocks k) ∧
      (blockAt res.blocks k).edges = (blockAt blocks k).edges ∧
      (blockAt res.blocks k).width = (blockAt blocks k).width ∧
      (blockAt res.blocks k).height = (blockAt blocks k).height ∧
      (blockAt res.blocks k).entry = (blockAt blocks k).entry := by
  obtain ⟨r, hr, ok⟩ := gridStage_ok layoutType blocks entry hw hin
  unfold CalculateLayout at hres
  rw [hr] at hres
  simp only at hres
  cases hroute : routeStage r entry with
  | none => rw [hroute] at hres; cases hres
  | some p =>
    obtain ⟨edges, t⟩ := p
    rw [hroute] at hres
    simp only [Option.some.injEq] at hres
    have hko : k ∉ r.order := fun h => hun (ok.order_reach k h)
    obtain ⟨hrow, hcol⟩ := ok.outside k hko
    -- the routed edges of `k` are the empty slots made before routing
    have hedges : ∀ ge ∈ edges k, ge.points = [] := by
      intro ge hge
      unfold routeStage at hroute
      rw [routeAll_frame _ _ _ _ _ _ _ _ hroute k hko] at hge
      rw [initEdges_fresh r.blocks k ge hge]
      rfl
    have hb := ok.blocks_eq
    rw [hb] at hres
    have hent : (blockAt blocks k).entry = k := blockAt_entry blocks hw k hk
    have hplaced := blockAt_map blocks (fun j b => placeNode cfg
      (geometry cfg blocks r.grid t (r.grid entry).row_count (r.grid entry).col_count)
      r.grid j b) k hk
    have hfinal := compileAll_unrouted cfg
      (geometry cfg blocks r.grid t (r.grid entry).row_count (r.grid entry).col_count)
      edges k _ (show (placeNode cfg
        (geometry cfg blocks r.grid t (r.grid entry).row_count (r.grid entry).col_count)
        r.grid k (blockAt blocks k)).entry = k from hent) hedges
      (blocks.map (fun kb => (kb.1, placeNode cfg
        (geometry cfg blocks r.grid t (r.grid entry).row_count (r.grid entry).col_count)
        r.grid kb.1 kb.2))) _ hplaced
    have hres2 : blockAt res.blocks k = placeNode cfg
        (geometry cfg blocks r.grid t (r.grid entry).row_count (r.grid entry).col_count)
        (fun _ => GridBlock.fresh) k (blockAt blocks k) := by
      rw [← hres]
      simp only
      rw [hfinal, placeNode_origin cfg _ r.grid k _ hrow hcol]
    refine ⟨r, edges, t, hr, hroute, hres2, ?_, ?_, ?_, ?_⟩ <;> rw [hres2] <;> rfl

/-- Witness of C4 amended: node 2 of the two-node map above. -/
theorem unreachable_node_output_witness :
    WellFormed strayMap ∧ 1 ∈ keysOf strayMap ∧ 2 ∈ keysOf strayMap ∧
    ¬ Reachable strayMap 1 2 ∧
    CalculateLayout sampleConfig LayoutType.Medium strayMap 1
      = some
          { blocks :=
              [(1, { x := 25, y := 30, width := 20, height := 10, entry := 1, edges := [] }),
               (2, { x := 20, y := 30, width := 30, height := 30, entry := 2,
                     edges := [{ target := 1, polyline := [(7, 7)] }] })],
            width := 70, height := 80 } ∧
    ∃ r edges t,
      gridStage LayoutType.Medium strayMap 1 = some r ∧ routeStage r 1 = some (edges, t) ∧
      blockAt
          [(1, { x := 25, y := 30, width := 20, height := 10, entry := 1, edges := [] }),
           (2, { x := 20, y := 30, width := 30, height := 30, entry := 2,
                 edges := [{ target := 1, polyline := [(7, 7)] }] })] 2
        = placeNode sampleConfig
            (geometry sampleConfig strayMap r.grid t (r.grid 1).row_count (r.grid 1).col_count)
            (fun _ => GridBlock.fresh) 2 (blockAt strayMap 2) ∧
      (blockAt
          [(1, { x := 25, y := 30, width := 20, height := 10, entry := 1, edges := [] }),
           (2, { x := 20, y := 30, width := 30, height := 30, entry := 2,
                 edges := [{ target := 1, polyline := [(7, 7)] }] })] 2).edges
        = (blockAt strayMap 2).edges ∧
      (blockAt
          [(1, { x := 25, y := 30, width := 20, height := 10, entry := 1, edges := [] }),
           (2, { x := 20, y := 30, width := 30, height := 30, entry := 2,
                 edges := [{ target := 1, polyline := [(7, 7)] }] })] 2).width
        = (blockAt strayMap 2).width ∧
      (blockAt
          [(1, { x := 25, y := 30, width := 20, height := 10, entry := 1, edges := [] }),
           (2, { x := 20, y := 30, width := 30, height := 30, entry := 2,
                 edges := [{ target := 1, polyline := [(7, 7)] }] })] 2).height
        = (blockAt strayMap 2).height ∧
      (blockAt
          [(1, { x := 25, y := 30, width := 20, height := 10, entry := 1, edges := [] }),
           (2, { x := 20, y := 30, width := 30, height := 30, entry := 2,
                 edges := [{ target := 1, polyline := [(7, 7)] }] })] 2).entry
        = (blockAt strayMap 2).entry :=
  ⟨by decide, by decide, by decide, stray_not_reachable, by decide,
   unreachable_node_output sampleConfig LayoutType.Medium strayMap 1 2 (by decide) (by decide)
     (by decide) stray_not_reachable
     { blocks :=
         [(1, { x := 25, y := 30, width := 20, height := 10, entry := 1, edges := [] }),
          (2, { x := 20, y := 30, width := 30, height := 30, entry := 2,
                edges := [{ target := 1, polyline := [(7, 7)] }] })],
       width := 70, height := 80 }
     (by decide)⟩

/-! ## `routeEdge`: the column of the vertical segment -/

theorem checkColumn_spec (edge_valid : Matrix) (min_row max_row column : Int)
    (h : checkColumn edge_valid min_row max_row column = true) :
    0 ≤ column ∧ column < edge_valid.ncols ∧
    ∀ r, min_row ≤ r → r < max_row → edge_valid.cell r column = true := by
  unfold checkColumn at h
  by_cases hc : column < 0 ∨ column ≥ edge_valid.ncols
  · rw [if_pos hc] at h
    cases h
  · rw [if_neg hc, List.all_eq_true] at h
    refine ⟨by omega, by omega, fun r h1 h2 => h r ?_⟩
    rw [mem_intRange]
    omega

theorem probeColumn_spec (check : Int → Bool) (c0 : Int) (fuel : Nat) (ofs col : Int)
    (h : probeColumn check c0 fuel ofs = some col) : check col = true := by
  induction fuel generalizing ofs with
  | zero => cases h
  | succ fuel ih =>
    unfold probeColumn at h
    by_cases h1 : check (c0 - ofs) = true
    · rw [if_pos h1] at h
      cases h
      exact h1
    · rw [if_neg h1] at h
      by_cases h2 : check (c0 + ofs) = true
      · rw [if_pos h2] at h
        cases h
        exact h2
      · rw [if_neg h2] at h
        exact ih _ h

theorem chooseColumn_valid (edge_valid : Matrix) (start end_ : GridBlock)
    (min_row max_row col : Int) (hne : min_row ≠ max_row)
    (h : chooseColumn edge_valid start end_ min_row max_row = some col) :
    checkColumn edge_valid min_row max_row col = true := by
  unfold chooseColumn at h
  simp only [if_pos hne] at h
  by_cases h1 : checkColumn edge_valid min_row max_row (start.col + 1) = true
  · simp only [h1, Bool.not_true, Bool.false_eq_true, if_false, Option.some.injEq] at h
    rw [← h]
    exact h1
  · simp only [h1, Bool.not_false, if_true] at h
    by_cases h2 : checkColumn edge_valid min_row max_row (end_.col + 1) = true
    · rw [if_pos h2] at h
      cases h
      exact h2
    · rw [if_neg h2] at h
      exact probeColumn_spec _ _ _ _ _ h

/-- What `routeEdge` returns, in terms of the column it chose. -/
theorem routeEdge_eq (t : Lanes) (edge_valid : Matrix) (start end_ : GridBlock)
    (e : GridEdge) (t1 : Lanes) (h : routeEdge t edge_valid start end_ = some (e, t1)) :
    ∃ col : Int,
      chooseColumn edge_valid start end_
        (if end_.row < start.row + 1 then end_.row else start.row + 1)
        (if end_.row < start.row + 1 then start.row + 1 else end_.row) = some col ∧
      (e, t1) = routeFinish end_ (routeToEnd end_ col (routeToRow start end_ col
        (if end_.row < start.row + 1 then end_.row else start.row + 1)
        (if end_.row < start.row + 1 then start.row + 1 else end_.row) (stubIndex t start)
        (routeToColumn start col (routeStart t start end_)))) := by
  unfold routeEdge at h
  simp only at h
  cases hc : chooseColumn edge_valid start end_
      (if end_.row < start.row + 1 then end_.row else start.row + 1)
      (if end_.row < start.row + 1 then start.row + 1 else end_.row) with
  | none => rw [hc] at h; cases h
  | some col =>
    rw [hc] at h
    exact ⟨col, rfl, (Option.some.inj h).symm⟩

/-- C11. Whenever `routeEdge` returns for an edge whose target row differs
from `start.row + 1`, its path has a vertical segment, from the waypoint
`(start.row + 1, col)` to the next waypoint `(end.row, col)`, and the column
`col` of that segment is a column of the grid in which no cell is
node-occupied in any row `r` with
`min(end.row, start.row + 1) <= r < max(end.row, start.row + 1)`:
`edge_valid` is true at `(r, col)`. -/
theorem routeEdge_column_free (t : Lanes) (edge_valid : Matrix) (start end_ : GridBlock)
    (e : GridEdge) (t1 : Lanes) (h : routeEdge t edge_valid start end_ = some (e, t1))
    (hrow : end_.row ≠ start.row + 1) :
    ∃ col pre post,
      cellsOf e.points = pre ++ (start.row + 1, col) :: (end_.row, col) :: post ∧
      0 ≤ col ∧ col < edge_valid.ncols ∧
      ∀ r, min end_.row (start.row + 1) ≤ r → r < max end_.row (start.row + 1) →
        edge_valid.cell r col = true := by
  obtain ⟨col, hc, he⟩ := routeEdge_eq t edge_valid start end_ e t1 h
  have he1 : e = (routeFinish end_ (routeToEnd end_ col (routeToRow start end_ col
        (if end_.row < start.row + 1 then end_.row else start.row + 1)
        (if end_.row < start.row + 1 then start.row + 1 else end_.row) (stubIndex t start)
        (routeToColumn start col (routeStart t start end_))))).1 := by rw [← he]
  have hcells : cellsOf e.points =
        [(start.row + 1, start.col + 1)]
          ++ (if col ≠ start.col + 1 then [(start.row + 1, col)] else [])
          ++ (if end_.row ≠ start.row + 1 then [(end_.row, col)] else [])
          ++ (if col ≠ end_.col + 1 then [(end_.row, end_.col + 1)] else []) := by
    rw [he1, (routeFinish_cells _ _).1, (routeToEnd_cells _ _ _).1,
      (routeToRow_cells _ _ _ _ _ _ _).1, (routeToColumn_cells _ _ _).1,
      (routeStart_cells _ _ _).1]
  have hne : (if end_.row < start.row + 1 then end_.row else start.row + 1)
      ≠ (if end_.row < start.row + 1 then start.row + 1 else end_.row) := by
    split_ifs <;> omega
  obtain ⟨c1, c2, c3⟩ := checkColumn_spec _ _ _ _ (chooseColumn_valid _ _ _ _ _ _ hne hc)
  rw [if_pos hrow] at hcells
  refine ⟨col, if col ≠ start.col + 1 then [(start.row + 1, start.col + 1)] else [],
    if col ≠ end_.col + 1 then [(end_.row, end_.col + 1)] else [], ?_, c1, c2, ?_⟩
  · rw [hcells]
    by_cases h1 : col ≠ start.col + 1
    · simp only [if_pos h1, List.singleton_append, List.cons_append, List.nil_append]
    · have h2 : col = start.col + 1 := by omega
      subst h2
      simp only [ne_eq, not_true_eq_false, if_false, List.append_nil, List.nil_append,
        List.singleton_append, List.cons_append]
  · intro r hr1 hr2
    apply c3 r
    · split_ifs <;> omega
    · split_ifs <;> omega

/-- Witness of C11: the back edge from the block at row 1, column 0 to the
block at row 0, column 0, both blocks marked in the occupancy matrix: column 1
is occupied in rows 0 and 1, the probe finds column 0. -/
theorem routeEdge_column_free_witness :
    ∃ e t1,
      routeEdge noLanes (nodeCells sampleGrid [1, 2] 3) (sampleGrid 2) (sampleGrid 1)
        = some (e, t1) ∧
      cellsOf e.points = [(2, 1), (2, 0), (0, 0), (0, 1)] ∧
      ∃ col pre post,
        cellsOf e.points
          = pre ++ ((sampleGrid 2).row + 1, col) :: ((sampleGrid 1).row, col) :: post ∧
        0 ≤ col ∧ col < (nodeCells sampleGrid [1, 2] 3).ncols ∧
        ∀ r, min (sampleGrid 1).row ((sampleGrid 2).row + 1) ≤ r →
          r < max (sampleGrid 1).row ((sampleGrid 2).row + 1) →
          (nodeCells sampleGrid [1, 2] 3).cell r col = true :=
  ⟨_, _, rfl, rfl,
    routeEdge_column_free noLanes (nodeCells sampleGrid [1, 2] 3) (sampleGrid 2) (sampleGrid 1)
      _ _ rfl (by decide)⟩

/-! ## The routing loop always returns -/

theorem nodeCells_fold (g : Grid) (keys : List Nat) (m0 : Matrix) :
    (keys.foldl
      (fun (m : Matrix) (k : Nat) =>
        { m with cell := fun r c =>
            if r = (g k).row ∧ c = (g k).col + 1 then false else m.cell r c }) m0).ncols
      = m0.ncols ∧
    ∀ r c, (keys.foldl
      (fun (m : Matrix) (k : Nat) =>
        { m with cell := fun r c =>
            if r = (g k).row ∧ c = (g k).col + 1 then false else m.cell r c }) m0).cell r c
      = (m0.cell r c && keys.all (fun k => !decide (r = (g k).row ∧ c = (g k).col + 1))) := by
  induction keys generalizing m0 with
  | nil => simp
  | cons k ks ih =>
    rw [List.foldl_cons]
    obtain ⟨h1, h2⟩ := ih { m0 with cell := fun r c =>
            if r = (g k).row ∧ c = (g k).col + 1 then false else m0.cell r c }
    refine ⟨h1, fun r c => ?_⟩
    rw [h2, List.all_cons]
    by_cases hc : r = (g k).row ∧ c = (g k).col + 1
    · simp [hc]
    · simp [hc]

theorem nodeCells_ncols (g : Grid) (keys : List Nat) (ncols : Int) :
    (nodeCells g keys ncols).ncols = ncols :=
  (nodeCells_fold g keys _).1

theorem nodeCells_cell (g : Grid) (keys : List Nat) (ncols : Int) (r c : Int) :
    (nodeCells g keys ncols).cell r c
      = keys.all (fun k => !decide (r = (g k).row ∧ c = (g k).col + 1)) := by
  unfold nodeCells
  rw [(nodeCells_fold g keys _).2]
  simp

/-- No grid block has a negative column: column 0 is free in every row. -/
theorem nodeCells_column_zero (g : Grid) (keys : List Nat) (ncols : Int)
    (hcol : ∀ k, 0 ≤ (g k).col) (r : Int) : (nodeCells g keys ncols).cell r 0 = true := by
  rw [nodeCells_cell, List.all_eq_true]
  intro k _
  have := hcol k
  simp only [Bool.not_eq_true', decide_eq_false_iff_not, not_and]
  intro _
  omega

theorem checkColumn_zero (edge_valid : Matrix) (min_row max_row : Int)
    (hn : 0 < edge_valid.ncols) (h0 : ∀ r, edge_valid.cell r 0 = true) :
    checkColumn edge_valid min_row max_row 0 = true := by
  unfold checkColumn
  rw [if_neg (by omega), List.all_eq_true]
  intro r _
  exact h0 r

/-- The probe started at column `c0 >= 0` ends once it reaches column 0: at
most `c0 - ofs + 1` passes of the loop from offset `ofs` on. -/
theorem probeColumn_total (check : Int → Bool) (c0 : Int) (h0 : check 0 = true)
    (fuel : Nat) (ofs : Int) (hofs : ofs ≤ c0) (hfuel : c0 - ofs < fuel) :
    ∃ col, probeColumn check c0 fuel ofs = some col := by
  induction fuel generalizing ofs with
  | zero => omega
  | succ fuel ih =>
    unfold probeColumn
    by_cases h1 : check (c0 - ofs) = true
    · rw [if_pos h1]
      exact ⟨_, rfl⟩
    · rw [if_neg h1]
      by_cases h2 : check (c0 + ofs) = true
      · rw [if_pos h2]
        exact ⟨_, rfl⟩
      · rw [if_neg h2]
        have hne : ofs ≠ c0 := by
          intro h
          apply h1
          rw [h, sub_self]
          exact h0
        exact ih (ofs + 1) (by omega) (by omega)

theorem probeColumn_fuel (check : Int → Bool) (c0 : Int) (fuel fuel1 : Nat) (ofs col : Int)
    (h : probeColumn check c0 fuel ofs = some col) (hle : fuel ≤ fuel1) :
    probeColumn check c0 fuel1 ofs = some col := by
  induction fuel generalizing ofs fuel1 with
  | zero => cases h
  | succ fuel ih =>
    obtain ⟨f, rfl⟩ : ∃ f, fuel1 = f + 1 := ⟨fuel1 - 1, by omega⟩
    unfold probeColumn at h ⊢
    by_cases h1 : check (c0 - ofs) = true
    · rw [if_pos h1] at h ⊢
      exact h
    · rw [if_neg h1] at h ⊢
      by_cases h2 : check (c0 + ofs) = true
      · rw [if_pos h2] at h ⊢
        exact h
      · rw [if_neg h2] at h ⊢
        exact ih f (ofs + 1) h (by omega)

theorem chooseColumn_total (edge_valid : Matrix) (start end_ : GridBlock)
    (min_row max_row : Int) (hn : 0 < edge_valid.ncols)
    (h0 : ∀ r, edge_valid.cell r 0 = true) (hs : 0 ≤ start.col) :
    ∃ col, chooseColumn edge_valid start end_ min_row max_row = some col := by
  unfold chooseColumn
  simp only
  split_ifs
  · exact ⟨_, rfl⟩
  · obtain ⟨col, hcol⟩ := probeColumn_total (checkColumn edge_valid min_row max_row)
      (start.col + 1) (checkColumn_zero edge_valid min_row max_row hn h0)
      ((start.col + 1).toNat + 1) 0 (by omega) (by omega)
    exact ⟨col, probeColumn_fuel _ _ _ _ _ _ hcol (by omega)⟩
  · exact ⟨_, rfl⟩
  · exact ⟨_, rfl⟩

theorem routeEdge_total (t : Lanes) (edge_valid : Matrix) (start end_ : GridBlock)
    (hn : 0 < edge_valid.ncols) (h0 : ∀ r, edge_valid.cell r 0 = true)
    (hs : 0 ≤ start.col) :
    ∃ e t1, routeEdge t edge_valid start end_ = some (e, t1) := by
  obtain ⟨col, hcol⟩ := chooseColumn_total edge_valid start end_
    (if end_.row < start.row + 1 then end_.row else start.row + 1)
    (if end_.row < start.row + 1 then start.row + 1 else end_.row) hn h0 hs
  unfold routeEdge
  simp only [hcol]
  exact ⟨_, _, rfl⟩

theorem routeEdges_total (g : Grid) (edge_valid : Matrix) (start : GridBlock)
    (hn : 0 < edge_valid.ncols) (h0 : ∀ r, edge_valid.cell r 0 = true)
    (hs : 0 ≤ start.col) (es : List GraphEdge) (t : Lanes) :
    ∃ ges t1, routeEdges g edge_valid start es t = some (ges, t1) := by
  induction es generalizing t with
  | nil => exact ⟨_, _, rfl⟩
  | cons e es ih =>
    obtain ⟨ge, t1, h1⟩ := routeEdge_total t edge_valid start (g e.target) hn h0 hs
    obtain ⟨ges, t2, h2⟩ := ih t1
    unfold routeEdges
    simp only [h1, h2]
    exact ⟨_, _, rfl⟩

theorem routeAll_total (blocks : Blocks) (g : Grid) (edge_valid : Matrix)
    (hn : 0 < edge_valid.ncols) (h0 : ∀ r, edge_valid.cell r 0 = true)
    (hcol : ∀ k, 0 ≤ (g k).col) (order : List Nat) (m : EdgeMap) (t : Lanes) :
    ∃ m1 t1, routeAll blocks g edge_valid order m t = some (m1, t1) := by
  induction order generalizing m t with
  | nil => exact ⟨_, _, rfl⟩
  | cons blockId rest ih =>
    obtain ⟨ges, t1, h1⟩ := routeEdges_total g edge_valid (g blockId) hn h0 (hcol blockId)
      (blockAt blocks blockId).edges t
    unfold routeAll
    simp only [h1]
    exact ih _ _

/-- After the grid stage no grid block has a negative column. -/
theorem GridStageOK.col_nonneg {layoutType : LayoutType} {blocks : Blocks} {entry : Nat}
    {r : TopoResult} (ok : GridStageOK layoutType blocks entry r) (k : Nat) :
    0 ≤ (r.grid k).col := by
  by_cases hk : k ∈ r.order
  · exact (ok.placed.2.2.2 k ((ok.order_tree k).1 hk)).1
  · rw [(ok.outside k hk).2]

theorem routeStage_total (layoutType : LayoutType) (blocks : Blocks) (entry : Nat)
    (r : TopoResult) (ok : GridStageOK layoutType blocks entry r) :
    ∃ edges t, routeStage r entry = some (edges, t) := by
  unfold routeStage
  apply routeAll_total
  · rw [nodeCells_ncols]
    have := ok.placed.2.1
    omega
  · exact nodeCells_column_zero _ _ _ ok.col_nonneg
  · exact ok.col_nonneg

theorem CalculateLayout_eq (cfg : LayoutConfig) (layoutType : LayoutType)
    (blocks : Blocks) (entry : Nat) (r : TopoResult) (edges : EdgeMap) (t : Lanes)
    (hr : gridStage layoutType blocks entry = some r)
    (hroute : routeStage r entry = some (edges, t)) :
    CalculateLayout cfg layoutType blocks entry = some (compileStage cfg r entry edges t) := by
  unfold CalculateLayout
  simp only [hr, hroute]
  rfl

/-- On a well-formed node map whose entry is a key, `CalculateLayout` returns. -/
theorem CalculateLayout_total (cfg : LayoutConfig) (layoutType : LayoutType)
    (blocks : Blocks) (entry : Nat) (hw : WellFormed blocks) (hin : entry ∈ keysOf blocks) :
    ∃ r edges t, gridStage layoutType blocks entry = some r ∧
      GridStageOK layoutType blocks entry r ∧
      routeStage r entry = some (edges, t) ∧
      CalculateLayout cfg layoutType blocks entry
        = some (compileStage cfg r entry edges t) := by
  obtain ⟨r, hr, ok⟩ := gridStage_ok layoutType blocks entry hw hin
  obtain ⟨edges, t, hroute⟩ := routeStage_total layoutType blocks entry r ok
  exact ⟨r, edges, t, hr, ok, hroute,
    CalculateLayout_eq cfg layoutType blocks entry r edges t hr hroute⟩

/-- C19. On a well-formed node map (no key twice, every block stored under its
own `entry`) whose entry is a key, the outward column probe of `routeEdge`
ends for every routed edge of `CalculateLayout`: the grid stage and the
routing loop return, and so does `CalculateLayout`; column 0 of the occupancy
matrix is a column of the grid and is marked node-occupied in no row; and for
every `routeEdge` call of the routing loop and every row span, the probe
started at offset 0 finds a column within `start.col + 2` passes of its loop,
that is after `ofs` was increased at most `start.col + 1` times. -/
theorem column_probe_terminates (cfg : LayoutConfig) (layoutType : LayoutType)
    (blocks : Blocks) (entry : Nat) (hw : WellFormed blocks) (hin : entry ∈ keysOf blocks) :
    ∃ r edges t res,
      gridStage layoutType blocks entry = some r ∧
      routeStage r entry = some (edges, t) ∧
      CalculateLayout cfg layoutType blocks entry = some res ∧
      0 < (nodeCells r.grid r.gridKeys ((r.grid entry).col_count + 1)).ncols ∧
      (∀ row, (nodeCells r.grid r.gridKeys ((r.grid entry).col_count + 1)).cell row 0 = true) ∧
      ∀ job ∈ routeJobs r.blocks r.grid r.order, ∀ min_row max_row : Int,
        0 ≤ job.1.col ∧
        ∃ col, probeColumn
          (checkColumn (nodeCells r.grid r.gridKeys ((r.grid entry).col_count + 1))
            min_row max_row)
          (job.1.col + 1) ((job.1.col + 1).toNat + 1) 0 = some col := by
  obtain ⟨r, edges, t, hr, ok, hroute, hres⟩ :=
    CalculateLayout_total cfg layoutType blocks entry hw hin
  have hn : 0 < (nodeCells r.grid r.gridKeys ((r.grid entry).col_count + 1)).ncols := by
    rw [nodeCells_ncols]
    have := ok.placed.2.1
    omega
  have h0 := nodeCells_column_zero r.grid r.gridKeys ((r.grid entry).col_count + 1)
    ok.col_nonneg
  refine ⟨r, edges, t, _, hr, hroute, hres, hn, h0, ?_⟩
  intro job hjob min_row max_row
  unfold routeJobs at hjob
  rw [List.mem_flatMap] at hjob
  obtain ⟨blockId, _, hj⟩ := hjob
  obtain ⟨e, _, rfl⟩ := List.exists_of_mem_map hj
  have hc : 0 ≤ (r.grid blockId).col := ok.col_nonneg blockId
  refine ⟨hc, ?_⟩
  exact probeColumn_total _ _ (checkColumn_zero _ min_row max_row hn h0) _ 0
    (by show (0 : Int) ≤ (r.grid blockId).col + 1; omega)
    (by show (r.grid blockId).col + 1 - 0 < (((r.grid blockId).col + 1).toNat + 1 : Nat); omega)

/-- Witness of C19: the diamond `1 -> 2, 1 -> 3, 2 -> 4, 3 -> 4`, entry 1. -/
theorem column_probe_terminates_witness :
    WellFormed diamondMap ∧ 1 ∈ keysOf diamondMap ∧
    ∃ r edges t res,
      gridStage LayoutType.Medium diamondMap 1 = some r ∧
      routeStage r 1 = some (edges, t) ∧
      CalculateLayout sampleConfig LayoutType.Medium diamondMap 1 = some res ∧
      0 < (nodeCells r.grid r.gridKeys ((r.grid 1).col_count + 1)).ncols ∧
      (∀ row, (nodeCells r.grid r.gridKeys ((r.grid 1).col_count + 1)).cell row 0 = true) ∧
      ∀ job ∈ routeJobs r.blocks r.grid r.order, ∀ min_row max_row : Int,
        0 ≤ job.1.col ∧
        ∃ col, probeColumn
          (checkColumn (nodeCells r.grid r.gridKeys ((r.grid 1).col_count + 1))
            min_row max_row)
          (job.1.col + 1) ((job.1.col + 1).toNat + 1) 0 = some col :=
  ⟨by decide, by decide,
    column_probe_terminates sampleConfig LayoutType.Medium diamondMap 1 (by decide) (by decide)⟩

/-! ## The geometry compiler: what the polyline loop stores -/

theorem polylineOf_congr (cfg : LayoutConfig) (geo : Geometry) (b1 b2 : GraphBlock)
    (hy : b1.y = b2.y) (hh : b1.height = b2.height) (ge : GridEdge) (p0 : Point)
    (ps : List Point) (ty : Int) :
    polylineOf cfg geo b1 ge p0 ps ty = polylineOf cfg geo b2 ge p0 ps ty := by
  unfold polylineOf
  rw [hy, hh]

theorem edgePolyline_congr (cfg : LayoutConfig) (geo : Geometry) (b1 b2 : GraphBlock)
    (hy : b1.y = b2.y) (hh : b1.height = b2.height) (ty1 ty2 : Nat → Int)
    (hty : ∀ d, ty1 d = ty2 d) (ge : GridEdge) :
    edgePolyline cfg geo b1 ty1 ge = edgePolyline cfg geo b2 ty2 ge := by
  unfold edgePolyline
  cases ge.points with
  | nil => rfl
  | cons p0 ps =>
    simp only
    rw [hty, polylineOf_congr cfg geo b1 b2 hy hh]

theorem paintEdges_congr (cfg : LayoutConfig) (geo : Geometry) (b1 b2 : GraphBlock)
    (hy : b1.y = b2.y) (hh : b1.height = b2.height) (ty1 ty2 : Nat → Int)
    (hty : ∀ d, ty1 d = ty2 d) (ges : List GridEdge) (es : List GraphEdge) (index : Nat) :
    paintEdges cfg geo b1 ty1 ges es index = paintEdges cfg geo b2 ty2 ges es index := by
  induction ges generalizing es index with
  | nil => rfl
  | cons ge ges ih =>
    unfold paintEdges
    cases hp : ge.points with
    | nil => simp only; exact ih es index
    | cons p0 ps =>
      simp only
      rw [edgePolyline_congr cfg geo b1 b2 hy hh ty1 ty2 hty, ih]

theorem keysOf_setBlock (bs : Blocks) (k : Nat) (b : GraphBlock) :
    keysOf (setBlock bs k b) = keysOf bs := by
  unfold keysOf setBlock
  rw [List.map_map]
  apply List.map_congr_left
  intro kb _
  show (if kb.1 = k then (kb.1, b) else kb).1 = kb.1
  split_ifs <;> rfl

theorem mem_keysOf_ensureKey (bs : Blocks) (d k : Nat) (h : k ∈ keysOf bs) :
    k ∈ keysOf (ensureKey bs d) := by
  unfold ensureKey
  split_ifs
  · exact h
  · unfold keysOf at h ⊢
    rw [List.map_append]
    exact List.mem_append_left _ h

theorem blockAt_setBlock_self (bs : Blocks) (k : Nat) (b : GraphBlock)
    (h : k ∈ keysOf bs) : blockAt (setBlock bs k b) k = b := by
  induction bs with
  | nil => cases h
  | cons x xs ih =>
    obtain ⟨a, c⟩ := x
    unfold setBlock at ih ⊢
    rw [List.map_cons]
    by_cases h2 : a = k
    · have : (if (a, c).1 = k then ((a, c).1, b) else (a, c)) = (a, b) := by
        simp [h2]
      rw [this, blockAt_cons, if_pos h2.symm]
    · have : (if (a, c).1 = k then ((a, c).1, b) else (a, c)) = (a, c) := by
        simp [h2]
      rw [this, blockAt_cons, if_neg (fun e => h2 e.symm)]
      apply ih
      unfold keysOf at h ⊢
      rcases List.mem_cons.1 h with h1 | h1
      · exact absurd h1.symm h2
      · exact h1

theorem compileEdges_keys (cfg : LayoutConfig) (geo : Geometry) (j k : Nat)
    (ges : List GridEdge) (bs : Blocks) (index : Nat) (h : k ∈ keysOf bs) :
    k ∈ keysOf (compileEdges cfg geo j ges bs index) := by
  induction ges generalizing bs index with
  | nil => exact h
  | cons ge ges ih =>
    unfold compileEdges
    cases hp : ge.points with
    | nil => simp only; exact ih bs index h
    | cons p0 ps =>
      simp only
      apply ih
      rw [keysOf_setBlock]
      exact mem_keysOf_ensureKey _ _ _ h

/-- The polyline loop, run for the node stored under key `k`, rewrites the
edges of that node as `paintEdges` says and nothing else of it. -/
theorem compileEdges_spec (cfg : LayoutConfig) (geo : Geometry) (k : Nat)
    (ges : List GridEdge) (bs : Blocks) (index : Nat) (hk : k ∈ keysOf bs) :
    blockAt (compileEdges cfg geo k ges bs index) k
      = { blockAt bs k with
          edges := paintEdges cfg geo (blockAt bs k) (fun d => (blockAt bs d).y) ges
            (blockAt bs k).edges index } := by
  induction ges generalizing bs index with
  | nil => rfl
  | cons ge ges ih =>
    unfold compileEdges paintEdges
    cases hp : ge.points with
    | nil => simp only; exact ih bs index hk
    | cons p0 ps =>
      simp only
      have hk1 : k ∈ keysOf (ensureKey bs ge.dest) := mem_keysOf_ensureKey _ _ _ hk
      rw [ih _ _ (by rw [keysOf_setBlock]; exact hk1), blockAt_setBlock_self _ _ _ hk1]
      have hy : ∀ d, (blockAt (setBlock (ensureKey bs ge.dest) k
          { blockAt bs k with
            edges := setPolyline (blockAt bs k).edges index
              (polylineOf cfg geo (blockAt bs k) ge p0 ps
                (blockAt (ensureKey bs ge.dest) ge.dest).y) }) d).y = (blockAt bs d).y := by
        intro d
        by_cases hd : d = k
        · rw [hd, blockAt_setBlock_self _ _ _ hk1]
        · rw [blockAt_setBlock_ne _ _ _ _ hd, blockAt_ensureKey]
      have he : edgePolyline cfg geo (blockAt bs k) (fun d => (blockAt bs d).y) ge
          = polylineOf cfg geo (blockAt bs k) ge p0 ps
              (blockAt (ensureKey bs ge.dest) ge.dest).y := by
        unfold edgePolyline
        rw [hp, blockAt_ensureKey]
      rw [he]
      refine congrArg (fun es => ({ blockAt bs k with edges := es } : GraphBlock)) ?_
      exact paintEdges_congr cfg geo _ _ (by rfl) (by rfl) _ _ hy ges _ _

/-- The polyline loop changes no field of any node other than `edges`. -/
theorem compileEdges_fields (cfg : LayoutConfig) (geo : Geometry) (k : Nat)
    (ges : List GridEdge) (bs : Blocks) (index : Nat) (hk : k ∈ keysOf bs) (d : Nat) :
    (blockAt (compileEdges cfg geo k ges bs index) d).x = (blockAt bs d).x ∧
    (blockAt (compileEdges cfg geo k ges bs index) d).y = (blockAt bs d).y ∧
    (blockAt (compileEdges cfg geo k ges bs index) d).width = (blockAt bs d).width ∧
    (blockAt (compileEdges cfg geo k ges bs index) d).height = (blockAt bs d).height ∧
    (blockAt (compileEdges cfg geo k ges bs index) d).entry = (blockAt bs d).entry := by
  by_cases hd : d = k
  · rw [hd, compileEdges_spec cfg geo k ges bs index hk]
    exact ⟨rfl, rfl, rfl, rfl, rfl⟩
  · rw [compileEdges_other cfg geo k d ges bs index hd]
    exact ⟨rfl, rfl, rfl, rfl, rfl⟩

theorem compileAll_frame (cfg : LayoutConfig) (geo : Geometry) (edges : EdgeMap) (k : Nat)
    (l bs : Blocks) (hk : k ∉ keysOf l) :
    blockAt (l.foldl
      (fun bs kb => compileEdges cfg geo kb.1 (edges (blockAt bs kb.1).entry) bs 0) bs) k
      = blockAt bs k := by
  induction l generalizing bs with
  | nil => rfl
  | cons kb l ih =>
    unfold keysOf at hk ih
    rw [List.map_cons, List.mem_cons, not_or] at hk
    rw [List.foldl_cons, ih _ hk.2, compileEdges_other cfg geo kb.1 k _ bs 0 hk.1]

/-- The whole polyline loop: the node stored under a key `k` that the loop
visits once ends with the edges `paintEdges` gives for its routed edges. -/
theorem compileAll_at (cfg : LayoutConfig) (geo : Geometry) (edges : EdgeMap) (k : Nat)
    (l bs : Blocks) (hnd : (keysOf l).Nodup) (hk : k ∈ keysOf l)
    (hkeys : ∀ j ∈ keysOf l, j ∈ keysOf bs) (hent : (blockAt bs k).entry = k) :
    blockAt (l.foldl
      (fun bs kb => compileEdges cfg geo kb.1 (edges (blockAt bs kb.1).entry) bs 0) bs) k
      = { blockAt bs k with
          edges := paintEdges cfg geo (blockAt bs k) (fun d => (blockAt bs d).y) (edges k)
            (blockAt bs k).edges 0 } := by
  induction l generalizing bs with
  | nil => cases hk
  | cons kb l ih =>
    have hnd0 := hnd
    unfold keysOf at hnd hk hkeys ih
    rw [List.map_cons, List.nodup_cons] at hnd
    rw [List.foldl_cons]
    have hkb : kb.1 ∈ keysOf bs := hkeys kb.1 (by rw [List.map_cons]; exact List.mem_cons_self _ _)
    by_cases h : k = kb.1
    · rw [compileAll_frame cfg geo edges k l _ (by rw [h]; exact hnd.1), ← h, hent,
        compileEdges_spec cfg geo k _ bs 0 (by rw [h]; exact hkb)]
    · have hkl : k ∈ List.map Prod.fst l := by
        rw [List.map_cons] at hk
        rcases List.mem_cons.1 hk with h1 | h1
        · exact absurd h1 h
        · exact h1
      have hf := compileEdges_fields cfg geo kb.1 (edges (blockAt bs kb.1).entry) bs 0 hkb
      rw [ih _ hnd.2 hkl
        (fun j hj => compileEdges_keys cfg geo kb.1 j _ bs 0
          (hkeys j (by rw [List.map_cons]; exact List.mem_cons_of_mem _ hj)))
        (by rw [(hf k).2.2.2.2]; exact hent),
        compileEdges_other cfg geo kb.1 k _ bs 0 h]
      rw [paintEdges_congr cfg geo (blockAt bs k) (blockAt bs k) rfl rfl _
        (fun d => (blockAt bs d).y) (fun d => (hf d).2.1)]

theorem setPolyline_append (pre : List GraphEdge) (e : GraphEdge) (post : List GraphEdge)
    (pts : List Pixel) :
    setPolyline (pre ++ e :: post) pre.length pts = pre ++ { e with polyline := pts } :: post := by
  induction pre with
  | nil => rfl
  | cons x xs ih =>
    rw [List.cons_append, List.length_cons]
    unfold setPolyline
    rw [ih]
    rfl

/-- When every routed edge has waypoints, the loop stores one polyline per
edge, in order. -/
theorem paintEdges_routed (cfg : LayoutConfig) (geo : Geometry) (block : GraphBlock)
    (ty : Nat → Int) (ges : List GridEdge) (hne : ∀ ge ∈ ges, ge.points ≠ [])
    (pre mid : List GraphEdge) (hlen : mid.length = ges.length) :
    paintEdges cfg geo block ty ges (pre ++ mid) pre.length
      = pre ++ List.zipWith
          (fun (e : GraphEdge) (ge : GridEdge) =>
            { e with polyline := edgePolyline cfg geo block ty ge }) mid ges := by
  induction ges generalizing pre mid with
  | nil =>
    cases mid with
    | nil => simp [paintEdges]
    | cons _ _ => simp at hlen
  | cons ge ges ih =>
    cases mid with
    | nil => simp at hlen
    | cons e mid =>
      unfold paintEdges
      cases hp : ge.points with
      | nil => exact absurd hp (hne ge (List.mem_cons_self _ _))
      | cons p0 ps =>
        simp only
        rw [setPolyline_append]
        have h1 := ih (fun x hx => hne x (List.mem_cons_of_mem _ hx))
          (pre ++ [{ e with polyline := edgePolyline cfg geo block ty ge }]) mid
          (by simpa using hlen)
        rw [List.length_append, List.length_singleton, List.append_assoc,
          List.singleton_append] at h1
        rw [h1, List.zipWith_cons_cons, List.append_assoc, List.singleton_append]

/-! ## The routing loop: which `routeEdge` call made which routed edge -/

/-- The routed edges of one node, edge by edge: each is what a `routeEdge`
call from the node to the grid block of the edge's target returned. -/
theorem routeEdges_forall (g : Grid) (edge_valid : Matrix) (start : GridBlock)
    (es : List GraphEdge) (t t1 : Lanes) (ges : List GridEdge)
    (h : routeEdges g edge_valid start es t = some (ges, t1)) :
    List.Forall₂
      (fun (e : GraphEdge) (ge : GridEdge) =>
        ∃ ta tb, routeEdge ta edge_valid start (g e.target) = some (ge, tb)) es ges := by
  induction es generalizing t t1 ges with
  | nil =>
    simp only [routeEdges, Option.some.injEq, Prod.mk.injEq] at h
    rw [← h.1]
    exact List.Forall₂.nil
  | cons e es ih =>
    unfold routeEdges at h
    cases h1 : routeEdge t edge_valid start (g e.target) with
    | none => rw [h1] at h; cases h
    | some p =>
      obtain ⟨ge, t2⟩ := p
      rw [h1] at h
      simp only at h
      cases h2 : routeEdges g edge_valid start es t2 with
      | none => rw [h2] at h; cases h
      | some q =>
        obtain ⟨ges2, t3⟩ := q
        rw [h2] at h
        simp only [Option.some.injEq, Prod.mk.injEq] at h
        rw [← h.1]
        exact List.Forall₂.cons ⟨t, t2, h1⟩ (ih t2 t3 ges2 h2)

theorem foldl_update_at {β : Type} (f : Nat × GraphBlock → β) (l : Blocks) (m : Nat → β)
    (hnd : (keysOf l).Nodup) (kb : Nat × GraphBlock) (h : kb ∈ l) :
    (l.foldl (fun (m : Nat → β) (kb : Nat × GraphBlock) => Function.update m kb.1 (f kb)) m) kb.1
      = f kb := by
  induction l generalizing m with
  | nil => cases h
  | cons x xs ih =>
    unfold keysOf at hnd ih
    rw [List.map_cons, List.nodup_cons] at hnd
    rw [List.foldl_cons]
    rcases List.mem_cons.1 h with h1 | h1
    · subst h1
      have key : ∀ (l : Blocks) (m : Nat → β), kb.1 ∉ List.map Prod.fst l →
          (l.foldl (fun (m : Nat → β) (kb : Nat × GraphBlock) =>
            Function.update m kb.1 (f kb)) m) kb.1 = m kb.1 := by
        intro l
        induction l with
        | nil => intro m _; rfl
        | cons y ys ih2 =>
          intro m hy
          rw [List.map_cons, List.mem_cons, not_or] at hy
          rw [List.foldl_cons, ih2 _ hy.2, Function.update_noteq hy.1]
      rw [key xs _ hnd.1, Function.update_same]
    · exact ih _ hnd.2 h1

theorem initEdges_at (blocks : Blocks) (hnd : (keysOf blocks).Nodup) (k : Nat)
    (hk : k ∈ keysOf blocks) :
    initEdges blocks k = List.replicate (blockAt blocks k).edges.length GridEdge.fresh := by
  unfold keysOf at hk
  obtain ⟨kb, hkb, rfl⟩ := List.mem_map.1 hk
  unfold initEdges
  rw [foldl_update_at (fun kb => List.replicate kb.2.edges.length GridEdge.fresh) blocks _ hnd
    kb hkb, blockAt_of_mem blocks hnd kb hkb]

/-- The routed edges of a node of the order are those of the pass of the
routing loop for that node. -/
theorem routeAll_at (blocks : Blocks) (g : Grid) (edge_valid : Matrix) (order : List Nat)
    (m m1 : EdgeMap) (t t1 : Lanes)
    (h : routeAll blocks g edge_valid order m t = some (m1, t1)) (hnd : order.Nodup)
    (k : Nat) (hk : k ∈ order) (hm : (blockAt blocks k).edges = [] → m k = []) :
    ∃ ta tb, routeEdges g edge_valid (g k) (blockAt blocks k).edges ta = some (m1 k, tb) := by
  induction order generalizing m t with
  | nil => cases hk
  | cons blockId rest ih =>
    rw [List.nodup_cons] at hnd
    unfold routeAll at h
    cases hr : routeEdges g edge_valid (g blockId) (blockAt blocks blockId).edges t with
    | none => rw [hr] at h; cases h
    | some p =>
      obtain ⟨ges, t2⟩ := p
      rw [hr] at h
      simp only at h
      by_cases hkb : k = blockId
      · subst hkb
        have hfr := routeAll_frame blocks g edge_valid rest _ m1 t2 t1 h k hnd.1
        refine ⟨t, t2, ?_⟩
        rw [hr, hfr]
        by_cases hg : ges = []
        · rw [if_pos hg, hg]
          have hlen := (routeEdges_forall g edge_valid (g k) _ t t2 ges hr).length_eq
          rw [hg, List.length_nil, List.length_eq_zero] at hlen
          rw [hm hlen]
        · rw [if_neg hg, Function.update_same]
      · have hkr : k ∈ rest := by
          rcases List.mem_cons.1 hk with h1 | h1
          · exact absurd h1 hkb
          · exact h1
        refine ih _ t2 h hnd.2 hkr ?_
        intro he
        split_ifs
        · exact hm he
        · rw [Function.update_noteq hkb]
          exact hm he

/-- After the routing stage, every edge of a node of the order has its routed
edge, made by a `routeEdge` call from the node to the grid block of the target. -/
theorem routeStage_at (layoutType : LayoutType) (blocks : Blocks) (entry : Nat)
    (hw : WellFormed blocks) (r : TopoResult) (ok : GridStageOK layoutType blocks entry r)
    (edges : EdgeMap) (t : Lanes) (hroute : routeStage r entry = some (edges, t))
    (k : Nat) (hk : k ∈ r.order) :
    List.Forall₂
      (fun (e : GraphEdge) (ge : GridEdge) =>
        ∃ ta tb, routeEdge ta
          (nodeCells r.grid r.gridKeys ((r.grid entry).col_count + 1)) (r.grid k)
          (r.grid e.target) = some (ge, tb)) (blockAt blocks k).edges (edges k) := by
  unfold routeStage at hroute
  obtain ⟨ta, tb, h⟩ := routeAll_at r.blocks r.grid _ r.order _ edges _ t hroute ok.order_nodup
    k hk (by
      intro he
      rw [initEdges_at r.blocks (by rw [ok.blocks_eq]; exact hw.1) k
        (by rw [ok.blocks_eq]; exact ok.order_keys k hk), he]
      rfl)
  have := routeEdges_forall _ _ _ _ _ _ _ h
  rw [ok.blocks_eq] at this
  exact this

/-! ## The placement never touches the `id` of a grid block -/

theorem id_update_move (g : Grid) (n : Nat) (col row : Int) (k : Nat) :
    (Function.update g n ((g n).move col row) k).id = (g k).id := by
  rw [Function.update_apply]
  split_ifs with h
  · rw [h]; rfl
  · rfl

theorem forEdges_id (step : Grid → Nat → Option Grid)
    (hstep : ∀ g e g1, step g e = some g1 → ∀ k, (g1 k).id = (g k).id)
    (es : List Nat) (g g1 : Grid) (h : forEdges step es g = some g1) (k : Nat) :
    (g1 k).id = (g k).id := by
  induction es generalizing g with
  | nil =>
    simp only [forEdges, Option.some.injEq] at h
    rw [h]
  | cons e es ih =>
    unfold forEdges at h
    cases hs : step g e with
    | none => rw [hs] at h; cases h
    | some g2 =>
      rw [hs] at h
      rw [ih g2 h, hstep g e g2 hs k]

theorem adjustGraphLayout_id (fuel : Nat) (g : Grid) (n : Nat) (col row : Int) (g1 : Grid)
    (h : adjustGraphLayout fuel g n col row = some g1) (k : Nat) : (g1 k).id = (g k).id := by
  induction fuel generalizing g n g1 k with
  | zero => cases h
  | succ fuel ih =>
    unfold adjustGraphLayout at h
    simp only at h
    rw [forEdges_id _ (fun g2 e g3 hs k => ih g2 e g3 hs k) _ _ _ h k, id_update_move]

theorem sideBySide_id (fuel : Nat) (cs : List Nat) (g : Grid) (col : Int) (g1 : Grid)
    (c1 : Int) (h : sideBySide fuel cs g col = some (g1, c1)) (k : Nat) :
    (g1 k).id = (g k).id := by
  induction cs generalizing g col with
  | nil =>
    simp only [sideBySide, Option.some.injEq, Prod.mk.injEq] at h
    rw [← h.1]
  | cons c cs ih =>
    rw [sideBySide_cons] at h
    cases ha : adjustGraphLayout fuel g c col 1 with
    | none => rw [ha] at h; cases h
    | some g2 =>
      rw [ha] at h
      rw [ih g2 _ h, adjustGraphLayout_id fuel g c col 1 g2 ha k]

theorem placeChildren_id (place : Nat → Grid → Option Grid)
    (hplace : ∀ n g g1, place n g = some g1 → ∀ k, (g1 k).id = (g k).id)
    (cs : List Nat) (g : Grid) (rc cc : Int) (g1 : Grid) (rc1 cc1 : Int)
    (h : placeChildren place cs g rc cc = some (g1, rc1, cc1)) (k : Nat) :
    (g1 k).id = (g k).id := by
  induction cs generalizing g rc cc with
  | nil =>
    simp only [placeChildren, Option.some.injEq, Prod.mk.injEq] at h
    rw [← h.1]
  | cons c cs ih =>
    rw [placeChildren_cons] at h
    cases hp : place c g with
    | none => rw [hp] at h; cases h
    | some g2 =>
      rw [hp] at h
      rw [ih g2 _ _ h, hplace c g g2 hp k]

theorem id_update_same (g : Grid) (n : Nat) (b : GridBlock) (hb : b.id = (g n).id) (k : Nat) :
    (Function.update g n b k).id = (g k).id := by
  rw [Function.update_apply]
  split_ifs with h
  · rw [h]; exact hb
  · rfl

theorem finishTwo_id (layoutType : LayoutType) (g : Grid) (n l r : Nat) (sc : Bool)
    (cc col : Int) (k : Nat) :
    (finishTwo layoutType g n l r sc cc col k).id = (g k).id := by
  unfold finishTwo
  simp only
  split_ifs
  all_goals
    refine (id_update_same _ _ _ ?_ k).trans ?_
    · rfl
    · refine id_update_same _ _ _ ?_ k
      rfl

theorem placeTwo_id (layoutType : LayoutType) (fuel : Nat) (g : Grid) (n l r : Nat)
    (sc : Bool) (cc : Int) (g1 : Grid)
    (h : placeTwo layoutType fuel g n l r sc cc = some g1) (k : Nat) :
    (g1 k).id = (g k).id := by
  unfold placeTwo at h
  split_ifs at h
  · simp only at h
    cases h1 : adjustGraphLayout fuel (Function.update g l { g l with col := (g r).col - 2 }) r
        (if (Function.update g l { g l with col := (g r).col - 2 } l).col < 0
          then - (Function.update g l { g l with col := (g r).col - 2 } l).col else 0) 1 with
    | none => rw [h1] at h; cases h
    | some g2 =>
      rw [h1] at h
      simp only at h
      cases h2 : adjustGraphLayout fuel g2 l
          (if (Function.update g l { g l with col := (g r).col - 2 } l).col < 0
            then - (Function.update g l { g l with col := (g r).col - 2 } l).col else 0) 1 with
      | none => rw [h2] at h; cases h
      | some g3 =>
        rw [h2] at h
        simp only [Option.some.injEq] at h
        rw [← h, finishTwo_id, adjustGraphLayout_id _ _ _ _ _ _ h2 k,
          adjustGraphLayout_id _ _ _ _ _ _ h1 k]
        refine id_update_same _ _ _ ?_ k
        rfl
  · cases h1 : adjustGraphLayout fuel g l 0 1 with
    | none => rw [h1] at h; cases h
    | some g2 =>
      rw [h1] at h
      simp only at h
      cases h2 : adjustGraphLayout fuel g2 r ((g2 l).col + 2) 1 with
      | none => rw [h2] at h; cases h
      | some g3 =>
        rw [h2] at h
        simp only [Option.some.injEq] at h
        rw [← h, finishTwo_id, adjustGraphLayout_id _ _ _ _ _ _ h2 k,
          adjustGraphLayout_id _ _ _ _ _ _ h1 k]
  · cases h1 : adjustGraphLayout fuel g l 0 1 with
    | none => rw [h1] at h; cases h
    | some g2 =>
      rw [h1] at h
      simp only at h
      cases h2 : adjustGraphLayout fuel g2 r (g2 l).col_count 1 with
      | none => rw [h2] at h; cases h
      | some g3 =>
        rw [h2] at h
        simp only [Option.some.injEq] at h
        rw [← h, finishTwo_id, adjustGraphLayout_id _ _ _ _ _ _ h2 k,
          adjustGraphLayout_id _ _ _ _ _ _ h1 k]

theorem placeRow_id (fuel : Nat) (g : Grid) (n : Nat) (cs : List Nat) (sc : Bool) (cc : Int)
    (g1 : Grid) (h : placeRow fuel g n cs sc cc = some g1) (k : Nat) :
    (g1 k).id = (g k).id := by
  unfold placeRow at h
  cases hs : sideBySide fuel cs g 0 with
  | none => rw [hs] at h; cases h
  | some p =>
    obtain ⟨g2, col⟩ := p
    rw [hs] at h
    simp only at h
    split_ifs at h
    all_goals
      simp only [Option.some.injEq] at h
      rw [← h, ← sideBySide_id fuel cs g 0 g2 col hs k]
      refine id_update_same _ _ _ ?_ k
      rfl

theorem computeBlockPlacement_id (layoutType : LayoutType) (fuel : Nat) (n : Nat) (g g1 : Grid)
    (h : computeBlockPlacement layoutType fuel n g = some g1) (k : Nat) :
    (g1 k).id = (g k).id := by
  induction fuel generalizing n g g1 k with
  | zero => cases h
  | succ fuel ih =>
    unfold computeBlockPlacement at h
    simp only at h
    cases hc : placeChildren (computeBlockPlacement layoutType fuel) (g n).tree_edge g 1 0 with
    | none => rw [hc] at h; cases h
    | some p =>
      obtain ⟨g2, rc, cc⟩ := p
      rw [hc] at h
      simp only at h
      have h2 := placeChildren_id _ (fun n g g1 hp k => ih n g g1 hp k) _ _ _ _ _ _ _ hc k
      split at h
      · cases h
      · rename_i g3 hplaced
        simp only [Option.some.injEq] at h
        rw [← h, ← h2]
        refine (id_update_same _ _ _ ?_ k).trans ?_
        · rfl
        split at hplaced
        · exact placeTwo_id _ _ _ _ _ _ _ _ _ hplaced k
        · exact placeRow_id _ _ _ _ _ _ _ hplaced k

/-- After the grid stage the grid block of a key carries that key as `id`,
every other grid block the number 0. -/
theorem gridStage_id (layoutType : LayoutType) (blocks : Blocks) (entry : Nat)
    (hw : WellFormed blocks) (hin : entry ∈ keysOf blocks) (r : TopoResult)
    (hr : gridStage layoutType blocks entry = some r) (k : Nat) :
    (r.grid k).id = if k ∈ keysOf blocks then k else 0 := by
  obtain ⟨s, hs, _, _, hsame⟩ := topoSort_final blocks (initGrid blocks) (keysOf blocks) entry
    hw hin (initGrid_tree_edge blocks)
  unfold gridStage at hr
  rw [hs] at hr
  simp only at hr
  split at hr
  · cases hr
  · rename_i g hg
    simp only [Option.some.injEq] at hr
    rw [← hr]
    show (g k).id = _
    rw [computeBlockPlacement_id _ _ _ _ _ hg k, (hsame k).1, initGrid_apply]
    split_ifs <;> rfl

/-! ## What `CalculateLayout` stores for every node -/

theorem keysOf_placedBlocks (cfg : LayoutConfig) (r : TopoResult) (entry : Nat) (t : Lanes) :
    keysOf (placedBlocks cfg r entry t) = keysOf r.blocks := by
  unfold placedBlocks keysOf
  rw [List.map_map]
  rfl

theorem blockAt_placedBlocks (cfg : LayoutConfig) (r : TopoResult) (entry : Nat) (t : Lanes)
    (k : Nat) (hk : k ∈ keysOf r.blocks) :
    blockAt (placedBlocks cfg r entry t) k
      = placeNode cfg (stageGeometry cfg r entry t) r.grid k (blockAt r.blocks k) :=
  blockAt_map r.blocks (fun j b => placeNode cfg (stageGeometry cfg r entry t) r.grid j b) k hk

theorem blockAt_not_key (blocks : Blocks) (k : Nat) (hk : k ∉ keysOf blocks) :
    blockAt blocks k = GraphBlock.fresh := by
  induction blocks with
  | nil => rfl
  | cons x xs ih =>
    obtain ⟨a, c⟩ := x
    unfold keysOf at hk ih
    rw [List.map_cons, List.mem_cons, not_or] at hk
    rw [blockAt_cons, if_neg hk.1]
    exact ih hk.2

/-- A node of the map after `CalculateLayout`: the node at its pixel position,
its edges as the polyline loop leaves them. -/
theorem compileStage_block (cfg : LayoutConfig) (r : TopoResult) (entry : Nat)
    (edges : EdgeMap) (t : Lanes) (hw : WellFormed r.blocks) (k : Nat)
    (hk : k ∈ keysOf r.blocks) :
    blockAt (compileStage cfg r entry edges t).blocks k
      = { blockAt (placedBlocks cfg r entry t) k with
          edges := paintEdges cfg (stageGeometry cfg r entry t)
            (blockAt (placedBlocks cfg r entry t) k)
            (fun d => (blockAt (placedBlocks cfg r entry t) d).y) (edges k)
            (blockAt (placedBlocks cfg r entry t) k).edges 0 } := by
  have hkeys := keysOf_placedBlocks cfg r entry t
  exact compileAll_at cfg (stageGeometry cfg r entry t) edges k (placedBlocks cfg r entry t)
    (placedBlocks cfg r entry t) (by rw [hkeys]; exact hw.1) (by rw [hkeys]; exact hk)
    (fun j hj => hj)
    (by rw [blockAt_placedBlocks cfg r entry t k hk]; exact blockAt_entry r.blocks hw k hk)

/-- A key that is not in the node map has no edges after `CalculateLayout`. -/
theorem compileStage_not_key (cfg : LayoutConfig) (r : TopoResult) (entry : Nat)
    (edges : EdgeMap) (t : Lanes) (k : Nat) (hk : k ∉ keysOf r.blocks) :
    blockAt (compileStage cfg r entry edges t).blocks k = GraphBlock.fresh := by
  have h := compileAll_frame cfg (stageGeometry cfg r entry t) edges k
    (placedBlocks cfg r entry t) (placedBlocks cfg r entry t)
    (by rw [keysOf_placedBlocks]; exact hk)
  exact h.trans (blockAt_not_key _ k (by rw [keysOf_placedBlocks]; exact hk))

theorem forall2_right {α β : Type} {R : α → β → Prop} {l1 : List α} {l2 : List β}
    (h : List.Forall₂ R l1 l2) : ∀ b ∈ l2, ∃ a ∈ l1, R a b := by
  induction h with
  | nil => intro b hb; cases hb
  | cons hab _ ih =>
    intro b hb
    rcases List.mem_cons.1 hb with h1 | h1
    · subst h1
      exact ⟨_, List.mem_cons_self _ _, hab⟩
    · obtain ⟨a, ha, hr⟩ := ih b h1
      exact ⟨a, List.mem_cons_of_mem _ ha, hr⟩

theorem routeEdge_points_ne (t : Lanes) (edge_valid : Matrix) (start end_ : GridBlock)
    (e : GridEdge) (t1 : Lanes) (h : routeEdge t edge_valid start end_ = some (e, t1)) :
    e.points ≠ [] := by
  obtain ⟨_, col, _, hc⟩ := routeEdge_cells t edge_valid start end_ e t1 h
  intro hp
  rw [hp] at hc
  simp [cellsOf] at hc

/-- The edges of a node of the order after `CalculateLayout`: every edge
carries the polyline compiled from its routed edge. -/
theorem compileStage_routed (cfg : LayoutConfig) (layoutType : LayoutType) (blocks : Blocks)
    (entry : Nat) (hw : WellFormed blocks) (r : TopoResult)
    (ok : GridStageOK layoutType blocks entry r) (edges : EdgeMap) (t : Lanes)
    (hroute : routeStage r entry = some (edges, t)) (k : Nat) (hk : k ∈ r.order) :
    (blockAt (compileStage cfg r entry edges t).blocks k).edges
      = List.zipWith
          (fun (e : GraphEdge) (ge : GridEdge) =>
            { e with polyline := (edgePolyline cfg (stageGeometry cfg r entry t)
                (blockAt (placedBlocks cfg r entry t) k)
                (fun d => (blockAt (placedBlocks cfg r entry t) d).y) ge) })
          (blockAt blocks k).edges (edges k) := by
  have hb := ok.blocks_eq
  have hkk : k ∈ keysOf r.blocks := by rw [hb]; exact ok.order_keys k hk
  have hfa := routeStage_at layoutType blocks entry hw r ok edges t hroute k hk
  rw [compileStage_block cfg r entry edges t (by rw [hb]; exact hw) k hkk]
  show paintEdges cfg _ _ _ (edges k) (blockAt (placedBlocks cfg r entry t) k).edges 0 = _
  have hpe : (blockAt (placedBlocks cfg r entry t) k).edges = (blockAt blocks k).edges := by
    rw [blockAt_placedBlocks cfg r entry t k hkk, hb]
    rfl
  rw [hpe]
  have hne : ∀ ge ∈ edges k, ge.points ≠ [] := by
    intro ge hge
    obtain ⟨e, _, ta, tb, hre⟩ := forall2_right hfa ge hge
    exact routeEdge_points_ne _ _ _ _ _ _ hre
  have := paintEdges_routed cfg (stageGeometry cfg r entry t)
    (blockAt (placedBlocks cfg r entry t) k)
    (fun d => (blockAt (placedBlocks cfg r entry t) d).y) (edges k) hne []
    (blockAt blocks k).edges hfa.length_eq
  simpa using this

theorem forall2_zipWith {α β γ : Type} {R : α → β → Prop} {l1 : List α} {l2 : List β}
    (h : List.Forall₂ R l1 l2) (f : α → β → γ) (P : α → γ → Prop)
    (hP : ∀ a b, R a b → P a (f a b)) : List.Forall₂ P l1 (List.zipWith f l1 l2) := by
  induction h with
  | nil => exact List.Forall₂.nil
  | cons hab _ ih => exact List.Forall₂.cons (hP _ _ hab) ih

theorem paintEdges_unrouted (cfg : LayoutConfig) (geo : Geometry) (block : GraphBlock)
    (ty : Nat → Int) (ges : List GridEdge) (h : ∀ ge ∈ ges, ge.points = [])
    (es : List GraphEdge) (index : Nat) :
    paintEdges cfg geo block ty ges es index = es := by
  induction ges with
  | nil => rfl
  | cons ge ges ih =>
    unfold paintEdges
    rw [h ge (List.mem_cons_self _ _)]
    exact ih (fun x hx => h x (List.mem_cons_of_mem _ hx))

/-- The edges of a node that is not in the order are left as they were. -/
theorem compileStage_unrouted (cfg : LayoutConfig) (layoutType : LayoutType) (blocks : Blocks)
    (entry : Nat) (hw : WellFormed blocks) (r : TopoResult)
    (ok : GridStageOK layoutType blocks entry r) (edges : EdgeMap) (t : Lanes)
    (hroute : routeStage r entry = some (edges, t)) (k : Nat) (hk : k ∉ r.order) :
    (blockAt (compileStage cfg r entry edges t).blocks k).edges = (blockAt blocks k).edges := by
  have hb := ok.blocks_eq
  by_cases hkk : k ∈ keysOf r.blocks
  · rw [compileStage_block cfg r entry edges t (by rw [hb]; exact hw) k hkk]
    show paintEdges cfg _ _ _ (edges k) (blockAt (placedBlocks cfg r entry t) k).edges 0 = _
    rw [paintEdges_unrouted, blockAt_placedBlocks cfg r entry t k hkk, hb]
    · rfl
    · intro ge hge
      unfold routeStage at hroute
      rw [routeAll_frame _ _ _ _ _ _ _ _ hroute k hk] at hge
      rw [initEdges_fresh r.blocks k ge hge]
      rfl
  · rw [compileStage_not_key cfg r entry edges t k hkk, ← hb, blockAt_not_key _ k hkk]

theorem tracePoints_chain (cfg : LayoutConfig) (geo : Geometry) (pts : List Point)
    (start_col : Int) (last_pt : Pixel) :
    List.Chain (fun a b : Pixel => a.1 = b.1 ∨ a.2 = b.2) last_pt
      (tracePoints cfg geo pts start_col last_pt) := by
  induction pts generalizing start_col last_pt with
  | nil => exact List.Chain.nil
  | cons p ps ih =>
    unfold tracePoints
    simp only
    refine List.Chain.cons ?_ (ih _ _)
    split_ifs
    · exact Or.inl rfl
    · exact Or.inr rfl

theorem polylineOf_orthogonal (cfg : LayoutConfig) (geo : Geometry) (block : GraphBlock)
    (ge : GridEdge) (p0 : Point) (ps : List Point) (ty : Int) :
    Orthogonal (polylineOf cfg geo block ge p0 ps ty) := by
  unfold Orthogonal polylineOf
  simp only
  rw [List.chain'_append]
  refine ⟨tracePoints_chain cfg geo _ _ _, List.chain'_singleton _, ?_⟩
  intro x hx y hy
  simp only [List.head?_cons, Option.mem_def, Option.some.injEq] at hy
  rw [← hy]
  rw [Option.mem_def] at hx
  left
  rw [hx]
  rfl

theorem polylineOf_ne_nil (cfg : LayoutConfig) (geo : Geometry) (block : GraphBlock)
    (ge : GridEdge) (p0 : Point) (ps : List Point) (ty : Int) :
    polylineOf cfg geo block ge p0 ps ty ≠ [] := by
  unfold polylineOf
  simp

/-- C17. On a well-formed node map whose entry is a key, `CalculateLayout`
returns, and every polyline it stores is orthogonal, whatever the layout type
and the margins: every edge of every node of the order ends with a stored,
non-empty polyline in which any two consecutive points have equal x or equal
y (and keeps its target); the edges of all other nodes are not written. -/
theorem stored_polylines_orthogonal (cfg : LayoutConfig) (layoutType : LayoutType)
    (blocks : Blocks) (entry : Nat) (hw : WellFormed blocks) (hin : entry ∈ keysOf blocks) :
    ∃ r res,
      gridStage layoutType blocks entry = some r ∧
      CalculateLayout cfg layoutType blocks entry = some res ∧
      (∀ k ∈ r.order,
        List.Forall₂
          (fun (e0 e : GraphEdge) =>
            e.target = e0.target ∧ e.polyline ≠ [] ∧ Orthogonal e.polyline)
          (blockAt blocks k).edges (blockAt res.blocks k).edges) ∧
      (∀ k, k ∉ r.order → (blockAt res.blocks k).edges = (blockAt blocks k).edges) := by
  obtain ⟨r, edges, t, hr, ok, hroute, hres⟩ :=
    CalculateLayout_total cfg layoutType blocks entry hw hin
  refine ⟨r, _, hr, hres, ?_, ?_⟩
  · intro k hk
    rw [compileStage_routed cfg layoutType blocks entry hw r ok edges t hroute k hk]
    refine forall2_zipWith (routeStage_at layoutType blocks entry hw r ok edges t hroute k hk)
      _ _ ?_
    rintro e0 ge ⟨ta, tb, hre⟩
    refine ⟨rfl, ?_, ?_⟩
    · dsimp only
      unfold edgePolyline
      cases hp : ge.points with
      | nil => exact absurd hp (routeEdge_points_ne _ _ _ _ _ _ hre)
      | cons p0 ps => exact polylineOf_ne_nil _ _ _ _ _ _ _
    · dsimp only
      unfold edgePolyline
      cases hp : ge.points with
      | nil => exact List.chain'_nil
      | cons p0 ps => exact polylineOf_orthogonal _ _ _ _ _ _ _
  · intro k hk
    exact compileStage_unrouted cfg layoutType blocks entry hw r ok edges t hroute k hk

/-- Witness of C17: the diamond `1 -> 2, 1 -> 3, 2 -> 4, 3 -> 4`, entry 1,
under Medium with margins 10 and 10. -/
theorem stored_polylines_orthogonal_witness :
    WellFormed diamondMap ∧ 1 ∈ keysOf diamondMap ∧
    ∃ r res,
      gridStage LayoutType.Medium diamondMap 1 = some r ∧
      CalculateLayout sampleConfig LayoutType.Medium diamondMap 1 = some res ∧
      (∀ k ∈ r.order,
        List.Forall₂
          (fun (e0 e : GraphEdge) =>
            e.target = e0.target ∧ e.polyline ≠ [] ∧ Orthogonal e.polyline)
          (blockAt diamondMap k).edges (blockAt res.blocks k).edges) ∧
      (∀ k, k ∉ r.order → (blockAt res.blocks k).edges = (blockAt diamondMap k).edges) :=
  ⟨by decide, by decide,
    stored_polylines_orthogonal sampleConfig LayoutType.Medium diamondMap 1 (by decide)
      (by decide)⟩

/-! ## Where a stored polyline starts and ends -/

theorem polylineOf_head (cfg : LayoutConfig) (geo : Geometry) (block : GraphBlock)
    (ge : GridEdge) (p0 : Point) (ps : List Point) (ty : Int) :
    (polylineOf cfg geo block ge p0 ps ty).head?
      = some (geo.col_edge_x p0.col + cfg.block_horizontal_margin * (ge.start_index : Int)
          + Int.tdiv cfg.block_horizontal_margin 2, block.y + block.height) := by
  unfold polylineOf
  simp

theorem polylineOf_getLast (cfg : LayoutConfig) (geo : Geometry) (block : GraphBlock)
    (ge : GridEdge) (p0 : Point) (ps : List Point) (ty : Int) :
    (polylineOf cfg geo block ge p0 ps ty).getLast?.map Prod.snd = some (ty - 1) := by
  unfold polylineOf
  simp only
  rw [List.getLast?_concat]
  rfl

theorem routeEdge_first (t : Lanes) (edge_valid : Matrix) (start end_ : GridBlock)
    (e : GridEdge) (t1 : Lanes) (h : routeEdge t edge_valid start end_ = some (e, t1)) :
    ∃ p0 ps, e.points = p0 :: ps ∧ p0.row = start.row + 1 ∧ p0.col = start.col + 1 := by
  obtain ⟨_, col, _, hc⟩ := routeEdge_cells t edge_valid start end_ e t1 h
  cases hp : e.points with
  | nil =>
    rw [hp] at hc
    simp [cellsOf] at hc
  | cons p0 ps =>
    rw [hp] at hc
    simp only [cellsOf, List.map_cons, List.singleton_append, List.cons_append,
      List.cons.injEq, Prod.mk.injEq] at hc
    exact ⟨p0, ps, rfl, hc.1.1, hc.1.2⟩

/-- The polyline loop moves no node: position and size after `CalculateLayout`
are those of the loop at lines 220-236. -/
theorem compileStage_position (cfg : LayoutConfig) (r : TopoResult) (entry : Nat)
    (edges : EdgeMap) (t : Lanes) (hw : WellFormed r.blocks) (k : Nat) :
    (blockAt (compileStage cfg r entry edges t).blocks k).y
      = (blockAt (placedBlocks cfg r entry t) k).y ∧
    (blockAt (compileStage cfg r entry edges t).blocks k).height
      = (blockAt (placedBlocks cfg r entry t) k).height ∧
    (blockAt (compileStage cfg r entry edges t).blocks k).x
      = (blockAt (placedBlocks cfg r entry t) k).x ∧
    (blockAt (compileStage cfg r entry edges t).blocks k).width
      = (blockAt (placedBlocks cfg r entry t) k).width := by
  by_cases hk : k ∈ keysOf r.blocks
  · rw [compileStage_block cfg r entry edges t hw k hk]
    exact ⟨rfl, rfl, rfl, rfl⟩
  · rw [compileStage_not_key cfg r entry edges t k hk,
      blockAt_not_key _ k (by rw [keysOf_placedBlocks]; exact hk)]
    exact ⟨rfl, rfl, rfl, rfl⟩

theorem zipWith_polyline (P : GridEdge → List Pixel) (es : List GraphEdge)
    (ges : List GridEdge) :
    List.zipWith (fun (e : GraphEdge) (ge : GridEdge) => { e with polyline := P ge }) es ges
      = List.zipWith (fun (e : GraphEdge) (p : List Pixel) => { e with polyline := p }) es
          (ges.map P) := by
  induction es generalizing ges with
  | nil => simp
  | cons e es ih =>
    cases ges with
    | nil => simp
    | cons ge ges => simp [ih]

/-- C16 as stated fails: node 1 (20 wide, 10 high) with two edges to node 2,
entry 1, margins 10 and 10, under each layout type. After `CalculateLayout`
node 1 is at `x = 30`, `y = 30`, so its bottom-centre is `(40, 40)`; the two
polylines start at `(35, 40)` and `(45, 40)`, the pixels of the lanes 0 and 1
of the band below the node. -/
theorem polyline_starts_off_centre :
    Reachable twinEdgeMap 1 1 ∧
    ∀ layoutType : LayoutType,
      ∃ res, CalculateLayout sampleConfig layoutType twinEdgeMap 1 = some res ∧
        (blockAt res.blocks 1).x = 30 ∧ (blockAt res.blocks 1).y = 30 ∧
        (blockAt res.blocks 1).width = 20 ∧ (blockAt res.blocks 1).height = 10 ∧
        (blockAt res.blocks 1).edges
          = [{ target := 2, polyline := [(35, 40), (35, 45), (35, 49)] },
             { target := 2, polyline := [(45, 40), (45, 45), (45, 49)] }] ∧
        ((35 : Int), (40 : Int)) ≠ (30 + Int.tdiv 20 2, 30 + 10) := by
  refine ⟨Relation.ReflTransGen.refl, fun layoutType => ?_⟩
  have hw : WellFormed twinEdgeMap := by decide
  obtain ⟨r, edges, t, hr, ok, hroute, hres⟩ :=
    CalculateLayout_total sampleConfig layoutType twinEdgeMap 1 hw (by decide)
  have h1 : ((gridStage layoutType twinEdgeMap 1).bind (fun r =>
      (routeStage r 1).map (fun p =>
        (p.1 1).map (fun ge => edgePolyline sampleConfig (stageGeometry sampleConfig r 1 p.2)
          (blockAt (placedBlocks sampleConfig r 1 p.2) 1)
          (fun d => (blockAt (placedBlocks sampleConfig r 1 p.2) d).y) ge))))
      = some [[(35, 40), (35, 45), (35, 49)], [(45, 40), (45, 45), (45, 49)]] := by
    cases layoutType <;> decide
  have h2 : ((gridStage layoutType twinEdgeMap 1).bind (fun r =>
      (routeStage r 1).map (fun p =>
        (r.order, (blockAt (placedBlocks sampleConfig r 1 p.2) 1).x,
          (blockAt (placedBlocks sampleConfig r 1 p.2) 1).y,
          (blockAt (placedBlocks sampleConfig r 1 p.2) 1).width,
          (blockAt (placedBlocks sampleConfig r 1 p.2) 1).height))))
      = some ([1, 2], 30, 30, 20, 10) := by
    cases layoutType <;> decide
  rw [hr] at h1 h2
  simp only [Option.some_bind, hroute, Option.map_some', Option.some.injEq,
    Prod.mk.injEq] at h1 h2
  obtain ⟨ho, hx, hy, hwd, hh⟩ := h2
  have hwr : WellFormed r.blocks := by rw [ok.blocks_eq]; exact hw
  have hpos := compileStage_position sampleConfig r 1 edges t hwr 1
  refine ⟨_, hres, by rw [hpos.2.2.1]; exact hx, by rw [hpos.1]; exact hy,
    by rw [hpos.2.2.2]; exact hwd, by rw [hpos.2.1]; exact hh, ?_, by decide⟩
  rw [compileStage_routed sampleConfig layoutType twinEdgeMap 1 hw r ok edges t hroute 1
    (by rw [ho]; decide), zipWith_polyline, h1]
  rfl

/-! ## Running the layout twice -/

/-- C18 (evaluation at the failing input). Node map with the single node 1 and
one edge `1 -> 2`, node 2 absent, entry 1, margins 10 and 10, under each
layout type. The first call stores a polyline that ends at `(45, -1)` and adds
the key 0 to the map, at `x = 0`, `y = 0`. The second call, on the map as the
first call left it, places node 0 at `x = 45`, `y = 30` and stores a polyline
that ends at `(45, 29)`: neither the coordinates nor the polyline are those of
the first call. -/
theorem second_layout_differs_on_dangling_edge :
    ∀ layoutType : LayoutType,
      CalculateLayout sampleConfig layoutType danglingMap 1
        = some { blocks := danglingMapAfter, width := 80, height := 70 } ∧
      (blockAt danglingMapAfter 0).x = 0 ∧ (blockAt danglingMapAfter 0).y = 0 ∧
      (blockAt danglingMapAfter 1).edges
        = [{ target := 2,
             polyline := [(45, 40), (45, 45), (25, 45), (25, 25), (45, 25), (45, -1)] }] ∧
      ∃ res, CalculateLayout sampleConfig layoutType danglingMapAfter 1 = some res ∧
        (blockAt res.blocks 0).x = 45 ∧ (blockAt res.blocks 0).y = 30 ∧
        (blockAt res.blocks 1).edges
          = [{ target := 2,
               polyline := [(45, 40), (45, 45), (25, 45), (25, 25), (45, 25), (45, 29)] }] := by
  intro layoutType
  refine ⟨by cases layoutType <;> decide, by decide, by decide, by decide, ?_⟩
  have hw : WellFormed danglingMapAfter := by decide
  obtain ⟨r, edges, t, hr, ok, hroute, hres⟩ :=
    CalculateLayout_total sampleConfig layoutType danglingMapAfter 1 hw (by decide)
  have h1 : ((gridStage layoutType danglingMapAfter 1).bind (fun r =>
      (routeStage r 1).map (fun p =>
        (p.1 1).map (fun ge => edgePolyline sampleConfig (stageGeometry sampleConfig r 1 p.2)
          (blockAt (placedBlocks sampleConfig r 1 p.2) 1)
          (fun d => (blockAt (placedBlocks sampleConfig r 1 p.2) d).y) ge))))
      = some [[(45, 40), (45, 45), (25, 45), (25, 25), (45, 25), (45, 29)]] := by
    cases layoutType <;> decide
  have h2 : ((gridStage layoutType danglingMapAfter 1).bind (fun r =>
      (routeStage r 1).map (fun p =>
        (r.order, (blockAt (placedBlocks sampleConfig r 1 p.2) 0).x,
          (blockAt (placedBlocks sampleConfig r 1 p.2) 0).y))))
      = some ([1], 45, 30) := by
    cases layoutType <;> decide
  rw [hr] at h1 h2
  simp only [Option.some_bind, hroute, Option.map_some', Option.some.injEq,
    Prod.mk.injEq] at h1 h2
  obtain ⟨ho, hx, hy⟩ := h2
  have hwr : WellFormed r.blocks := by rw [ok.blocks_eq]; exact hw
  have hpos := compileStage_position sampleConfig r 1 edges t hwr 0
  refine ⟨_, hres, by rw [hpos.2.2.1]; exact hx, by rw [hpos.1]; exact hy, ?_⟩
  rw [compileStage_routed sampleConfig layoutType danglingMapAfter 1 hw r ok edges t hroute 1
    (by rw [ho]; decide), zipWith_polyline, h1]
  rfl

/-! ## `routeEdge`, step by step: waypoints, lanes and lane tables -/

theorem patchIndex_snoc (init : List Point) (last : Point) (rest : List Point) (index : Nat) :
    patchIndex (init ++ last :: rest) init.length index
      = init ++ { last with index := index } :: rest := by
  induction init with
  | nil => rfl
  | cons x xs ih =>
    rw [List.cons_append, List.length_cons]
    unfold patchIndex
    rw [ih]
    rfl

theorem addPoint_snoc (e : GridEdge) (init : List Point) (last : Point)
    (hp : e.points = init ++ [last]) (row col : Int) (index : Nat) :
    (e.addPoint row col index).points
      = init ++ [{ last with index := index }, ⟨row, col, 0⟩] ∧
    (e.addPoint row col index).start_index = e.start_index := by
  unfold GridEdge.addPoint
  simp only [hp]
  have hlen : 1 < (init ++ [last] ++ [(⟨row, col, 0⟩ : Point)]).length := by
    simp
  rw [if_pos hlen]
  have h2 : (init ++ [last] ++ [(⟨row, col, 0⟩ : Point)]).length - 2 = init.length := by
    simp
  rw [h2, List.append_assoc, List.singleton_append, patchIndex_snoc]
  refine ⟨?_, ?_⟩ <;> first | rfl | trivial

theorem routeStart_spec (t : Lanes) (start end_ : GridBlock) :
    (routeStart t start end_).edge.points = [] ++ [⟨start.row + 1, start.col + 1, 0⟩] ∧
    (routeStart t start end_).edge.start_index = stubIndex t start ∧
    (routeStart t start end_).lanes.horiz_edges = t.horiz_edges ∧
    (routeStart t start end_).lanes.vert_edges
      = markEdge t.vert_edges (start.row + 1) (start.col + 1) (stubIndex t start) true ∧
    (routeStart t start end_).horiz = false :=
  ⟨rfl, rfl, rfl, rfl, rfl⟩

theorem routeToColumn_pos (start : GridBlock) (col : Int) (r : Route)
    (hc : col ≠ start.col + 1) (init : List Point) (last : Point)
    (hp : r.edge.points = init ++ [last]) :
    (routeToColumn start col r).edge.points
      = init ++ [{ last with index := (findHorizEdgeIndex r.lanes.horiz_edges (start.row + 1)
            (if col < start.col + 1 then col else start.col + 1)
            (if col < start.col + 1 then start.col + 1 else col)).1 },
          ⟨start.row + 1, col, 0⟩] ∧
    (routeToColumn start col r).edge.start_index = r.edge.start_index ∧
    (routeToColumn start col r).lanes.horiz_edges
      = (findHorizEdgeIndex r.lanes.horiz_edges (start.row + 1)
            (if col < start.col + 1 then col else start.col + 1)
            (if col < start.col + 1 then start.col + 1 else col)).2 ∧
    (routeToColumn start col r).lanes.vert_edges = r.lanes.vert_edges ∧
    (routeToColumn start col r).horiz = true := by
  unfold routeToColumn
  rw [if_pos hc]
  simp only
  refine ⟨(addPoint_snoc r.edge init last hp _ _ _).1,
    (addPoint_snoc r.edge init last hp _ _ _).2, ?_, ?_, ?_⟩ <;> first | rfl | trivial

theorem routeToColumn_neg (start : GridBlock) (col : Int) (r : Route)
    (hc : ¬ col ≠ start.col + 1) : routeToColumn start col r = r := by
  unfold routeToColumn
  rw [if_neg hc]

theorem routeToRow_pos (start end_ : GridBlock) (col min_row max_row : Int) (i : Nat)
    (r : Route) (hr : end_.row ≠ start.row + 1) (init : List Point) (last : Point)
    (hp : r.edge.points = init ++ [last]) :
    (routeToRow start end_ col min_row max_row i r).edge.points
      = init ++ [{ last with index := (findVertEdgeIndex
            (if col = start.col + 1 then
              markEdge r.lanes.vert_edges (start.row + 1) (start.col + 1) i false
             else r.lanes.vert_edges) col min_row max_row).1 },
          ⟨end_.row, col, 0⟩] ∧
    (routeToRow start end_ col min_row max_row i r).edge.start_index
      = (if col = start.col + 1 then (findVertEdgeIndex
            (if col = start.col + 1 then
              markEdge r.lanes.vert_edges (start.row + 1) (start.col + 1) i false
             else r.lanes.vert_edges) col min_row max_row).1
         else r.edge.start_index) ∧
    (routeToRow start end_ col min_row max_row i r).lanes.horiz_edges = r.lanes.horiz_edges ∧
    (routeToRow start end_ col min_row max_row i r).lanes.vert_edges
      = (findVertEdgeIndex
            (if col = start.col + 1 then
              markEdge r.lanes.vert_edges (start.row + 1) (start.col + 1) i false
             else r.lanes.vert_edges) col min_row max_row).2 ∧
    (routeToRow start end_ col min_row max_row i r).horiz = false := by
  unfold routeToRow
  rw [if_pos hr]
  simp only
  by_cases hcol : col = start.col + 1
  · simp only [if_pos hcol]
    refine ⟨?_, ?_, ?_, ?_, ?_⟩
    · exact (addPoint_snoc _ init last (by exact hp) _ _ _).1
    · exact (addPoint_snoc _ init last (by exact hp) _ _ _).2
    all_goals first | rfl | trivial
  · simp only [if_neg hcol]
    refine ⟨(addPoint_snoc _ init last hp _ _ _).1, (addPoint_snoc _ init last hp _ _ _).2,
      ?_, ?_, ?_⟩ <;> first | rfl | trivial

theorem routeToRow_neg (start end_ : GridBlock) (col min_row max_row : Int) (i : Nat)
    (r : Route) (hr : ¬ end_.row ≠ start.row + 1) :
    routeToRow start end_ col min_row max_row i r = r := by
  unfold routeToRow
  rw [if_neg hr]

theorem routeToEnd_pos (end_ : GridBlock) (col : Int) (r : Route)
    (hc : col ≠ end_.col + 1) (init : List Point) (last : Point)
    (hp : r.edge.points = init ++ [last]) :
    (routeToEnd end_ col r).edge.points
      = init ++ [{ last with index := (findHorizEdgeIndex r.lanes.horiz_edges end_.row
            (if col < end_.col + 1 then col else end_.col + 1)
            (if col < end_.col + 1 then end_.col + 1 else col)).1 },
          ⟨end_.row, end_.col + 1, 0⟩] ∧
    (routeToEnd end_ col r).edge.start_index = r.edge.start_index ∧
    (routeToEnd end_ col r).lanes.horiz_edges
      = (findHorizEdgeIndex r.lanes.horiz_edges end_.row
            (if col < end_.col + 1 then col else end_.col + 1)
            (if col < end_.col + 1 then end_.col + 1 else col)).2 ∧
    (routeToEnd end_ col r).lanes.vert_edges = r.lanes.vert_edges ∧
    (routeToEnd end_ col r).horiz = true := by
  unfold routeToEnd
  rw [if_pos hc]
  simp only
  refine ⟨(addPoint_snoc r.edge init last hp _ _ _).1,
    (addPoint_snoc r.edge init last hp _ _ _).2, ?_, ?_, ?_⟩ <;> first | rfl | trivial

theorem routeToEnd_neg (end_ : GridBlock) (col : Int) (r : Route)
    (hc : ¬ col ≠ end_.col + 1) : routeToEnd end_ col r = r := by
  unfold routeToEnd
  rw [if_neg hc]

theorem routeFinish_pos (end_ : GridBlock) (r : Route) (hh : r.horiz = true)
    (init : List Point) (last : Point) (hp : r.edge.points = init ++ [last]) :
    (routeFinish end_ r).1.points
      = init ++ [{ last with index :=
          (findVertEdgeIndex r.lanes.vert_edges (end_.col + 1) end_.row end_.row).1 }] ∧
    (routeFinish end_ r).1.start_index = r.edge.start_index ∧
    (routeFinish end_ r).2.horiz_edges = r.lanes.horiz_edges ∧
    (routeFinish end_ r).2.vert_edges
      = (findVertEdgeIndex r.lanes.vert_edges (end_.col + 1) end_.row end_.row).2 := by
  unfold routeFinish
  rw [if_pos hh]
  simp only
  refine ⟨?_, ?_, ?_, ?_⟩
  rotate_left
  · first | rfl | trivial
  · first | rfl | trivial
  · first | rfl | trivial
  rw [hp]
  have : (init ++ [last]).length - 1 = init.length := by simp
  rw [this, patchIndex_snoc]

theorem routeFinish_neg (end_ : GridBlock) (r : Route) (hh : r.horiz = false) :
    routeFinish end_ r = (r.edge, r.lanes) := by
  unfold routeFinish
  rw [hh]
  rfl
theorem routeToColumn_spec (start : GridBlock) (col : Int) (r : Route)
    (init : List Point) (last : Point) (hp : r.edge.points = init ++ [last]) :
    (routeToColumn start col r).edge.points
      = (if col ≠ start.col + 1 then
          init ++ [{ last with index := (findHorizEdgeIndex r.lanes.horiz_edges (start.row + 1)
            (if col < start.col + 1 then col else start.col + 1)
            (if col < start.col + 1 then start.col + 1 else col)).1 }]
         else init)
        ++ [if col ≠ start.col + 1 then ⟨start.row + 1, col, 0⟩ else last] ∧
    (routeToColumn start col r).edge.start_index = r.edge.start_index ∧
    (routeToColumn start col r).lanes.horiz_edges
      = (if col ≠ start.col + 1 then
          (findHorizEdgeIndex r.lanes.horiz_edges (start.row + 1)
            (if col < start.col + 1 then col else start.col + 1)
            (if col < start.col + 1 then start.col + 1 else col)).2
         else r.lanes.horiz_edges) ∧
    (routeToColumn start col r).lanes.vert_edges = r.lanes.vert_edges ∧
    (routeToColumn start col r).horiz = (if col ≠ start.col + 1 then true else r.horiz) := by
  by_cases hc : col ≠ start.col + 1
  · obtain ⟨a, b, c, d, e⟩ := routeToColumn_pos start col r hc init last hp
    refine ⟨?_, b, ?_, d, ?_⟩
    · rw [a, if_pos hc, if_pos hc, List.append_assoc]
      rfl
    · rw [c, if_pos hc]
    · rw [e, if_pos hc]
  · rw [routeToColumn_neg start col r hc]
    refine ⟨?_, rfl, ?_, rfl, ?_⟩
    · rw [hp, if_neg hc, if_neg hc]
    · rw [if_neg hc]
    · rw [if_neg hc]

theorem routeToRow_spec (start end_ : GridBlock) (col min_row max_row : Int) (i : Nat)
    (r : Route) (init : List Point) (last : Point) (hp : r.edge.points = init ++ [last]) :
    (routeToRow start end_ col min_row max_row i r).edge.points
      = (if end_.row ≠ start.row + 1 then
          init ++ [{ last with index := (findVertEdgeIndex
            (if col = start.col + 1 then
              markEdge r.lanes.vert_edges (start.row + 1) (start.col + 1) i false
             else r.lanes.vert_edges) col min_row max_row).1 }]
         else init)
        ++ [if end_.row ≠ start.row + 1 then ⟨end_.row, col, 0⟩ else last] ∧
    (routeToRow start end_ col min_row max_row i r).edge.start_index
      = (if end_.row ≠ start.row + 1 ∧ col = start.col + 1 then (findVertEdgeIndex
            (if col = start.col + 1 then
              markEdge r.lanes.vert_edges (start.row + 1) (start.col + 1) i false
             else r.lanes.vert_edges) col min_row max_row).1
         else r.edge.start_index) ∧
    (routeToRow start end_ col min_row max_row i r).lanes.horiz_edges = r.lanes.horiz_edges ∧
    (routeToRow start end_ col min_row max_row i r).lanes.vert_edges
      = (if end_.row ≠ start.row + 1 then
          (findVertEdgeIndex
            (if col = start.col + 1 then
              markEdge r.lanes.vert_edges (start.row + 1) (start.col + 1) i false
             else r.lanes.vert_edges) col min_row max_row).2
         else r.lanes.vert_edges) ∧
    (routeToRow start end_ col min_row max_row i r).horiz
      = (if end_.row ≠ start.row + 1 then false else r.horiz) := by
  by_cases hr : end_.row ≠ start.row + 1
  · obtain ⟨a, b, c, d, e⟩ := routeToRow_pos start end_ col min_row max_row i r hr init last hp
    refine ⟨?_, ?_, c, ?_, ?_⟩
    · rw [a, if_pos hr, if_pos hr, List.append_assoc]
      rfl
    · rw [b]
      by_cases hcol : col = start.col + 1
      · simp only [if_pos hcol, if_pos (And.intro hr hcol)]
      · simp only [if_neg hcol, if_neg (fun h : end_.row ≠ start.row + 1 ∧ col = start.col + 1 => hcol h.2)]
    · rw [d, if_pos hr]
    · rw [e, if_pos hr]
  · rw [routeToRow_neg start end_ col min_row max_row i r hr]
    refine ⟨?_, ?_, rfl, ?_, ?_⟩
    · rw [hp, if_neg hr, if_neg hr]
    · rw [if_neg (fun h => hr h.1)]
    · rw [if_neg hr]
    · rw [if_neg hr]

theorem routeToEnd_spec (end_ : GridBlock) (col : Int) (r : Route)
    (init : List Point) (last : Point) (hp : r.edge.points = init ++ [last]) :
    (routeToEnd end_ col r).edge.points
      = (if col ≠ end_.col + 1 then
          init ++ [{ last with index := (findHorizEdgeIndex r.lanes.horiz_edges end_.row
            (if col < end_.col + 1 then col else end_.col + 1)
            (if col < end_.col + 1 then end_.col + 1 else col)).1 }]
         else init)
        ++ [if col ≠ end_.col + 1 then ⟨end_.row, end_.col + 1, 0⟩ else last] ∧
    (routeToEnd end_ col r).edge.start_index = r.edge.start_index ∧
    (routeToEnd end_ col r).lanes.horiz_edges
      = (if col ≠ end_.col + 1 then
          (findHorizEdgeIndex r.lanes.horiz_edges end_.row
            (if col < end_.col + 1 then col else end_.col + 1)
            (if col < end_.col + 1 then end_.col + 1 else col)).2
         else r.lanes.horiz_edges) ∧
    (routeToEnd end_ col r).lanes.vert_edges = r.lanes.vert_edges ∧
    (routeToEnd end_ col r).horiz = (if col ≠ end_.col + 1 then true else r.horiz) := by
  by_cases hc : col ≠ end_.col + 1
  · obtain ⟨a, b, c, d, e⟩ := routeToEnd_pos end_ col r hc init last hp
    refine ⟨?_, b, ?_, d, ?_⟩
    · rw [a, if_pos hc, if_pos hc, List.append_assoc]
      rfl
    · rw [c, if_pos hc]
    · rw [e, if_pos hc]
  · rw [routeToEnd_neg end_ col r hc]
    refine ⟨?_, rfl, ?_, rfl, ?_⟩
    · rw [hp, if_neg hc, if_neg hc]
    · rw [if_neg hc]
    · rw [if_neg hc]

theorem routeFinish_spec (end_ : GridBlock) (r : Route)
    (init : List Point) (last : Point) (hp : r.edge.points = init ++ [last]) :
    (routeFinish end_ r).1.points
      = init ++ [if r.horiz = true then
          { last with index :=
            (findVertEdgeIndex r.lanes.vert_edges (end_.col + 1) end_.row end_.row).1 }
         else last] ∧
    (routeFinish end_ r).1.start_index = r.edge.start_index ∧
    (routeFinish end_ r).2.horiz_edges = r.lanes.horiz_edges ∧
    (routeFinish end_ r).2.vert_edges
      = (if r.horiz = true then
          (findVertEdgeIndex r.lanes.vert_edges (end_.col + 1) end_.row end_.row).2
         else r.lanes.vert_edges) := by
  by_cases hh : r.horiz = true
  · obtain ⟨a, b, c, d⟩ := routeFinish_pos end_ r hh init last hp
    refine ⟨?_, b, c, ?_⟩
    · rw [a, if_pos hh]
    · rw [d, if_pos hh]
  · have hf : r.horiz = false := by simpa using hh
    rw [routeFinish_neg end_ r hf]
    refine ⟨?_, rfl, rfl, ?_⟩
    · rw [if_neg hh]
      exact hp
    · rw [if_neg hh]

theorem findHoriz_marked (edges : EdgesVector) (row lo hi : Int) (r c : Int) (k : Nat) :
    isEdgeMarked (findHorizEdgeIndex edges row lo hi).2 r c k
      = if (r = row ∧ lo ≤ c ∧ c ≤ hi) ∧ k = (findHorizEdgeIndex edges row lo hi).1 then true
        else isEdgeMarked edges r c k := by
  unfold findHorizEdgeIndex
  rw [(findEdgeIndex_spec edges _).2.2 r c k]
  have hm : (r, c) ∈ (intRange lo hi).map (fun c => (row, c)) ↔ r = row ∧ lo ≤ c ∧ c ≤ hi := by
    rw [List.mem_map]
    constructor
    · rintro ⟨x, hx, hxe⟩
      rw [mem_intRange] at hx
      cases hxe
      exact ⟨rfl, hx.1, hx.2⟩
    · rintro ⟨rfl, h1, h2⟩
      exact ⟨c, (mem_intRange _ _ _).2 ⟨h1, h2⟩, rfl⟩
  simp only [hm]

theorem findHoriz_free (edges : EdgesVector) (row lo hi : Int) (c : Int)
    (h1 : lo ≤ c) (h2 : c ≤ hi) :
    isEdgeMarked edges row c (findHorizEdgeIndex edges row lo hi).1 = false := by
  unfold findHorizEdgeIndex
  exact (findEdgeIndex_spec edges _).1 (row, c)
    (List.mem_map.2 ⟨c, (mem_intRange _ _ _).2 ⟨h1, h2⟩, rfl⟩)

theorem findVert_marked (edges : EdgesVector) (col lo hi : Int) (r c : Int) (k : Nat) :
    isEdgeMarked (findVertEdgeIndex edges col lo hi).2 r c k
      = if (c = col ∧ lo ≤ r ∧ r ≤ hi) ∧ k = (findVertEdgeIndex edges col lo hi).1 then true
        else isEdgeMarked edges r c k := by
  unfold findVertEdgeIndex
  rw [(findEdgeIndex_spec edges _).2.2 r c k]
  have hm : (r, c) ∈ (intRange lo hi).map (fun r => (r, col)) ↔ c = col ∧ lo ≤ r ∧ r ≤ hi := by
    rw [List.mem_map]
    constructor
    · rintro ⟨x, hx, hxe⟩
      rw [mem_intRange] at hx
      cases hxe
      exact ⟨rfl, hx.1, hx.2⟩
    · rintro ⟨rfl, h1, h2⟩
      exact ⟨r, (mem_intRange _ _ _).2 ⟨h1, h2⟩, rfl⟩
  simp only [hm]

theorem findVert_free (edges : EdgesVector) (col lo hi : Int) (r : Int)
    (h1 : lo ≤ r) (h2 : r ≤ hi) :
    isEdgeMarked edges r col (findVertEdgeIndex edges col lo hi).1 = false := by
  unfold findVertEdgeIndex
  exact (findEdgeIndex_spec edges _).1 (r, col)
    (List.mem_map.2 ⟨r, (mem_intRange _ _ _).2 ⟨h1, h2⟩, rfl⟩)
theorem findHoriz_keeps (edges : EdgesVector) (row lo hi : Int) (r c : Int) (k : Nat)
    (h : isEdgeMarked edges r c k = true) :
    isEdgeMarked (findHorizEdgeIndex edges row lo hi).2 r c k = true :=
  findEdgeIndex_mono edges _ r c k h

theorem findVert_keeps (edges : EdgesVector) (col lo hi : Int) (r c : Int) (k : Nat)
    (h : isEdgeMarked edges r c k = true) :
    isEdgeMarked (findVertEdgeIndex edges col lo hi).2 r c k = true :=
  findEdgeIndex_mono edges _ r c k h

theorem findHoriz_on (edges : EdgesVector) (row lo hi : Int) (c : Int)
    (h1 : lo ≤ c) (h2 : c ≤ hi) :
    isEdgeMarked (findHorizEdgeIndex edges row lo hi).2 row c
      (findHorizEdgeIndex edges row lo hi).1 = true := by
  rw [findHoriz_marked, if_pos ⟨⟨rfl, h1, h2⟩, rfl⟩]

theorem findVert_on (edges : EdgesVector) (col lo hi : Int) (r : Int)
    (h1 : lo ≤ r) (h2 : r ≤ hi) :
    isEdgeMarked (findVertEdgeIndex edges col lo hi).2 r col
      (findVertEdgeIndex edges col lo hi).1 = true := by
  rw [findVert_marked, if_pos ⟨⟨rfl, h1, h2⟩, rfl⟩]

/-- The table in which `routeEdge` looks for the lane of its vertical segment
holds every mark of the table it started from. -/
theorem stub_cleared_keeps (t : Lanes) (start : GridBlock) (col : Int) (r c : Int) (k : Nat)
    (h : isEdgeMarked t.vert_edges r c k = true) :
    isEdgeMarked
      (if col = start.col + 1 then
        markEdge (markEdge t.vert_edges (start.row + 1) (start.col + 1) (stubIndex t start) true)
          (start.row + 1) (start.col + 1) (stubIndex t start) false
       else markEdge t.vert_edges (start.row + 1) (start.col + 1) (stubIndex t start) true)
      r c k = true := by
  have hfree := stubIndex_free t start
  split_ifs
  · rw [isEdgeMarked_markEdge, isEdgeMarked_markEdge]
    by_cases hx : r = start.row + 1 ∧ c = start.col + 1 ∧ k = stubIndex t start
    · obtain ⟨rfl, rfl, rfl⟩ := hx
      rw [hfree] at h
      cases h
    · rw [if_neg hx, if_neg hx]
      exact h
  · rw [isEdgeMarked_markEdge]
    split_ifs
    · rfl
    · exact h

/-- The waypoints, the lanes and the reservations of one `routeEdge` call, in
terms of the column `col` of its vertical segment and the lanes `h1` (first
horizontal segment), `v` (vertical segment), `h2` (second horizontal segment)
and `w` (incoming stub) that the first-fit searches returned. -/
theorem routeEdge_lanes (t : Lanes) (edge_valid : Matrix) (start end_ : GridBlock)
    (ge : GridEdge) (t1 : Lanes) (h : routeEdge t edge_valid start end_ = some (ge, t1)) :
    ∃ (col : Int) (h1 v h2 w : Nat),
      (end_.row = start.row + 1 → col = start.col + 1) ∧
      ge.points =
        [⟨start.row + 1, start.col + 1,
            if col ≠ start.col + 1 then h1 else if end_.row ≠ start.row + 1 then v
            else if col ≠ end_.col + 1 then h2 else 0⟩]
          ++ (if col ≠ start.col + 1 then [⟨start.row + 1, col, v⟩] else [])
          ++ (if end_.row ≠ start.row + 1 then
                [⟨end_.row, col, if col ≠ end_.col + 1 then h2 else 0⟩] else [])
          ++ (if col ≠ end_.col + 1 then [⟨end_.row, end_.col + 1, w⟩] else []) ∧
      ge.start_index
        = (if end_.row ≠ start.row + 1 ∧ col = start.col + 1 then v else stubIndex t start) ∧
      Reserved t t1 false (start.row + 1) (start.col + 1) ge.start_index ∧
      (col ≠ start.col + 1 → ∀ c, min col (start.col + 1) ≤ c → c ≤ max col (start.col + 1) →
        Reserved t t1 true (start.row + 1) c h1) ∧
      (end_.row ≠ start.row + 1 →
        ∀ r, min end_.row (start.row + 1) ≤ r → r ≤ max end_.row (start.row + 1) →
          Reserved t t1 false r col v) ∧
      (col ≠ end_.col + 1 → ∀ c, min col (end_.col + 1) ≤ c → c ≤ max col (end_.col + 1) →
        Reserved t t1 true end_.row c h2) ∧
      (col ≠ end_.col + 1 → Reserved t t1 false end_.row (end_.col + 1) w) := by
  obtain ⟨col, hc, he⟩ := routeEdge_eq t edge_valid start end_ ge t1 h
  have hcol : end_.row = start.row + 1 → col = start.col + 1 := by
    intro hr
    refine chooseColumn_same_row edge_valid start end_ _ _ col ?_ hc
    rw [hr]
  obtain ⟨p0, s0, hz0, v0, f0⟩ := routeStart_spec t start end_
  obtain ⟨p1, s1, hz1, v1, f1⟩ := routeToColumn_spec start col _ _ _ p0
  obtain ⟨p2, s2, hz2, v2, f2⟩ := routeToRow_spec start end_ col
    (if end_.row < start.row + 1 then end_.row else start.row + 1)
    (if end_.row < start.row + 1 then start.row + 1 else end_.row) (stubIndex t start) _ _ _ p1
  obtain ⟨p3, s3, hz3, v3, f3⟩ := routeToEnd_spec end_ col _ _ _ p2
  obtain ⟨p4, s4, hz4, v4⟩ := routeFinish_spec end_ _ _ _ p3
  rw [← he] at p4 s4 hz4 v4
  simp only at p4 s4 hz4 v4
  rw [f3, f2, f1, f0] at p4 v4
  rw [v3, v2, v1, v0] at p4 v4
  rw [hz2, hz1, hz0] at p4 hz3
  rw [hz3] at hz4
  rw [s3, s2, s1, s0, v1, v0] at s4
  clear p0 s0 hz0 v0 f0 p1 s1 hz1 v1 f1 p2 s2 hz2 v2 f2 p3 s3 hz3 v3 f3 he hc h
  have hflag : (if col ≠ end_.col + 1 then true
      else if end_.row ≠ start.row + 1 then false else if col ≠ start.col + 1 then true else false)
      = decide (col ≠ end_.col + 1) := by
    by_cases c3 : col ≠ end_.col + 1
    · simp only [if_pos c3, decide_eq_true c3]
    · by_cases c2 : end_.row ≠ start.row + 1
      · simp only [if_neg c3, if_pos c2, decide_eq_false c3]
      · have c1 : ¬ col ≠ start.col + 1 := by
          intro hh
          exact hh (hcol (by omega))
        simp only [if_neg c3, if_neg c2, if_neg c1, decide_eq_false c3]
  rw [hflag] at p4 v4
  simp only [decide_eq_true_eq] at p4 v4
  refine ⟨col,
    (findHorizEdgeIndex t.horiz_edges (start.row + 1)
      (if col < start.col + 1 then col else start.col + 1)
      (if col < start.col + 1 then start.col + 1 else col)).1,
    (findVertEdgeIndex
      (if col = start.col + 1 then
        markEdge (markEdge t.vert_edges (start.row + 1) (start.col + 1) (stubIndex t start) true)
          (start.row + 1) (start.col + 1) (stubIndex t start) false
       else markEdge t.vert_edges (start.row + 1) (start.col + 1) (stubIndex t start) true)
      col (if end_.row < start.row + 1 then end_.row else start.row + 1)
      (if end_.row < start.row + 1 then start.row + 1 else end_.row)).1,
    (findHorizEdgeIndex
      (if col ≠ start.col + 1 then
        (findHorizEdgeIndex t.horiz_edges (start.row + 1)
          (if col < start.col + 1 then col else start.col + 1)
          (if col < start.col + 1 then start.col + 1 else col)).2
       else t.horiz_edges)
      end_.row (if col < end_.col + 1 then col else end_.col + 1)
      (if col < end_.col + 1 then end_.col + 1 else col)).1,
    (findVertEdgeIndex
      (if end_.row ≠ start.row + 1 then
        (findVertEdgeIndex
          (if col = start.col + 1 then
            markEdge
              (markEdge t.vert_edges (start.row + 1) (start.col + 1) (stubIndex t start) true)
              (start.row + 1) (start.col + 1) (stubIndex t start) false
           else markEdge t.vert_edges (start.row + 1) (start.col + 1) (stubIndex t start) true)
          col (if end_.row < start.row + 1 then end_.row else start.row + 1)
          (if end_.row < start.row + 1 then start.row + 1 else end_.row)).2
       else markEdge t.vert_edges (start.row + 1) (start.col + 1) (stubIndex t start) true)
      (end_.col + 1) end_.row end_.row).1,
    hcol, ?_, s4, ?_⟩
  · -- the waypoints
    rw [p4]
    by_cases c1 : col ≠ start.col + 1 <;> by_cases c2 : end_.row ≠ start.row + 1 <;>
      by_cases c3 : col ≠ end_.col + 1
    all_goals
      first
      | (exfalso; exact c1 (hcol (by omega)))
      | simp only [c1, c2, c3, if_true, if_false, not_true_eq_false, not_false_eq_true, ne_eq,
          List.nil_append, List.append_nil, List.singleton_append, List.cons_append]
  -- the lanes of the four segments, then the outgoing stub
  have r2 : col ≠ start.col + 1 → ∀ c, min col (start.col + 1) ≤ c →
      c ≤ max col (start.col + 1) → Reserved t t1 true (start.row + 1) c
        (findHorizEdgeIndex t.horiz_edges (start.row + 1)
          (if col < start.col + 1 then col else start.col + 1)
          (if col < start.col + 1 then start.col + 1 else col)).1 := by
    intro c1 c hlo hhi
    have hl : (if col < start.col + 1 then col else start.col + 1) ≤ c := by
      split_ifs <;> omega
    have hu : c ≤ (if col < start.col + 1 then start.col + 1 else col) := by
      split_ifs <;> omega
    refine ⟨findHoriz_free _ _ _ _ c hl hu, ?_⟩
    show isEdgeMarked t1.horiz_edges _ _ _ = true
    rw [hz4]
    by_cases c3 : col ≠ end_.col + 1
    · rw [if_pos c3]
      apply findHoriz_keeps
      rw [if_pos c1]
      exact findHoriz_on _ _ _ _ c hl hu
    · rw [if_neg c3, if_pos c1]
      exact findHoriz_on _ _ _ _ c hl hu
  have r3 : end_.row ≠ start.row + 1 →
      ∀ r, min end_.row (start.row + 1) ≤ r → r ≤ max end_.row (start.row + 1) →
        Reserved t t1 false r col
          (findVertEdgeIndex
            (if col = start.col + 1 then
              markEdge
                (markEdge t.vert_edges (start.row + 1) (start.col + 1) (stubIndex t start) true)
                (start.row + 1) (start.col + 1) (stubIndex t start) false
             else markEdge t.vert_edges (start.row + 1) (start.col + 1) (stubIndex t start) true)
            col (if end_.row < start.row + 1 then end_.row else start.row + 1)
            (if end_.row < start.row + 1 then start.row + 1 else end_.row)).1 := by
    intro c2 r hlo hhi
    have hl : (if end_.row < start.row + 1 then end_.row else start.row + 1) ≤ r := by
      split_ifs <;> omega
    have hu : r ≤ (if end_.row < start.row + 1 then start.row + 1 else end_.row) := by
      split_ifs <;> omega
    constructor
    · show isEdgeMarked t.vert_edges _ _ _ = false
      have hfree := findVert_free
        (if col = start.col + 1 then
          markEdge
            (markEdge t.vert_edges (start.row + 1) (start.col + 1) (stubIndex t start) true)
            (start.row + 1) (start.col + 1) (stubIndex t start) false
         else markEdge t.vert_edges (start.row + 1) (start.col + 1) (stubIndex t start) true)
        col _ _ r hl hu
      rw [Bool.eq_false_iff]
      intro hm
      rw [stub_cleared_keeps t start col r col _ hm] at hfree
      cases hfree
    · show isEdgeMarked t1.vert_edges _ _ _ = true
      rw [v4]
      by_cases c3 : col ≠ end_.col + 1
      · rw [if_pos c3]
        apply findVert_keeps
        rw [if_pos c2]
        exact findVert_on _ _ _ _ r hl hu
      · rw [if_neg c3, if_pos c2]
        exact findVert_on _ _ _ _ r hl hu
  refine ⟨?_, r2, r3, ?_, ?_⟩
  · -- the outgoing stub
    rw [s4]
    by_cases hx : end_.row ≠ start.row + 1 ∧ col = start.col + 1
    · rw [if_pos hx]
      have key : ∀ x : Int, x = start.col + 1 → ∀ k,
          Reserved t t1 false (start.row + 1) x k →
          Reserved t t1 false (start.row + 1) (start.col + 1) k := by
        intro x hx k hk
        subst hx
        exact hk
      have hr3 := r3 hx.1 (start.row + 1) (by omega) (by omega)
      exact key col hx.2 _ hr3
    · rw [if_neg hx]
      refine ⟨stubIndex_free t start, ?_⟩
      show isEdgeMarked t1.vert_edges _ _ _ = true
      have m0 : isEdgeMarked
          (markEdge t.vert_edges (start.row + 1) (start.col + 1) (stubIndex t start) true)
          (start.row + 1) (start.col + 1) (stubIndex t start) = true := by
        rw [isEdgeMarked_markEdge, if_pos ⟨rfl, rfl, rfl⟩]
      have m2 : isEdgeMarked
          (if end_.row ≠ start.row + 1 then
            (findVertEdgeIndex
              (if col = start.col + 1 then
                markEdge
                  (markEdge t.vert_edges (start.row + 1) (start.col + 1) (stubIndex t start) true)
                  (start.row + 1) (start.col + 1) (stubIndex t start) false
               else
                markEdge t.vert_edges (start.row + 1) (start.col + 1) (stubIndex t start) true)
              col (if end_.row < start.row + 1 then end_.row else start.row + 1)
              (if end_.row < start.row + 1 then start.row + 1 else end_.row)).2
           else markEdge t.vert_edges (start.row + 1) (start.col + 1) (stubIndex t start) true)
          (start.row + 1) (start.col + 1) (stubIndex t start) = true := by
        by_cases c2 : end_.row ≠ start.row + 1
        · have hcs : ¬ col = start.col + 1 := fun hh => hx ⟨c2, hh⟩
          rw [if_pos c2, if_neg hcs]
          exact findVert_keeps _ _ _ _ _ _ _ m0
        · rw [if_neg c2]
          exact m0
      rw [v4]
      by_cases c3 : col ≠ end_.col + 1
      · rw [if_pos c3]
        exact findVert_keeps _ _ _ _ _ _ _ m2
      · rw [if_neg c3]
        exact m2
  · -- the second horizontal segment
    intro c3 c hlo hhi
    have hl : (if col < end_.col + 1 then col else end_.col + 1) ≤ c := by
      split_ifs <;> omega
    have hu : c ≤ (if col < end_.col + 1 then end_.col + 1 else col) := by
      split_ifs <;> omega
    constructor
    · show isEdgeMarked t.horiz_edges _ _ _ = false
      have hfree := findHoriz_free
        (if col ≠ start.col + 1 then
          (findHorizEdgeIndex t.horiz_edges (start.row + 1)
            (if col < start.col + 1 then col else start.col + 1)
            (if col < start.col + 1 then start.col + 1 else col)).2
         else t.horiz_edges) end_.row _ _ c hl hu
      rw [Bool.eq_false_iff]
      intro hm
      have hk : ∀ k, isEdgeMarked t.horiz_edges end_.row c k = true → isEdgeMarked
          (if col ≠ start.col + 1 then
            (findHorizEdgeIndex t.horiz_edges (start.row + 1)
              (if col < start.col + 1 then col else start.col + 1)
              (if col < start.col + 1 then start.col + 1 else col)).2
           else t.horiz_edges) end_.row c k = true := by
        intro k hmk
        by_cases c1 : col ≠ start.col + 1
        · rw [if_pos c1]
          exact findHoriz_keeps _ _ _ _ _ _ _ hmk
        · rw [if_neg c1]
          exact hmk
      rw [hk _ hm] at hfree
      cases hfree
    · show isEdgeMarked t1.horiz_edges _ _ _ = true
      rw [hz4, if_pos c3]
      exact findHoriz_on _ _ _ _ c hl hu
  · -- the incoming stub
    intro c3
    constructor
    · show isEdgeMarked t.vert_edges _ _ _ = false
      have hfree := findVert_free
        (if end_.row ≠ start.row + 1 then
          (findVertEdgeIndex
            (if col = start.col + 1 then
              markEdge
                (markEdge t.vert_edges (start.row + 1) (start.col + 1) (stubIndex t start) true)
                (start.row + 1) (start.col + 1) (stubIndex t start) false
             else
              markEdge t.vert_edges (start.row + 1) (start.col + 1) (stubIndex t start) true)
            col (if end_.row < start.row + 1 then end_.row else start.row + 1)
            (if end_.row < start.row + 1 then start.row + 1 else end_.row)).2
         else markEdge t.vert_edges (start.row + 1) (start.col + 1) (stubIndex t start) true)
        (end_.col + 1) end_.row end_.row end_.row le_rfl le_rfl
      rw [Bool.eq_false_iff]
      intro hm
      have hk : ∀ k, isEdgeMarked t.vert_edges end_.row (end_.col + 1) k = true → isEdgeMarked
          (if end_.row ≠ start.row + 1 then
            (findVertEdgeIndex
              (if col = start.col + 1 then
                markEdge
                  (markEdge t.vert_edges (start.row + 1) (start.col + 1) (stubIndex t start)
                    true)
                  (start.row + 1) (start.col + 1) (stubIndex t start) false
               else
                markEdge t.vert_edges (start.row + 1) (start.col + 1) (stubIndex t start)
                  true)
              col (if end_.row < start.row + 1 then end_.row else start.row + 1)
              (if end_.row < start.row + 1 then start.row + 1 else end_.row)).2
           else
            markEdge t.vert_edges (start.row + 1) (start.col + 1) (stubIndex t start) true)
          end_.row (end_.col + 1) k = true := by
        intro k hmk
        by_cases c2 : end_.row ≠ start.row + 1
        · rw [if_pos c2]
          exact findVert_keeps _ _ _ _ _ _ _ (stub_cleared_keeps t start col _ _ _ hmk)
        · rw [if_neg c2, isEdgeMarked_markEdge]
          split_ifs
          · rfl
          · exact hmk
      rw [hk _ hm] at hfree
      cases hfree
    · show isEdgeMarked t1.vert_edges _ _ _ = true
      rw [v4, if_pos c3]
      exact findVert_on _ _ _ _ _ le_rfl le_rfl

theorem routeEdge_drawn (cfg : LayoutConfig) (geo : Geometry) (block : GraphBlock)
    (ty : Nat → Int) (t : Lanes) (edge_valid : Matrix) (start end_ : GridBlock)
    (ge : GridEdge) (t1 : Lanes) (h : routeEdge t edge_valid start end_ = some (ge, t1)) :
    Drawn cfg geo t t1 ge (edgePolyline cfg geo block ty ge) := by
  obtain ⟨col, h1, v, h2, w, hcol, hp, hs, rs, r1, r2, r3, r4⟩ :=
    routeEdge_lanes t edge_valid start end_ ge t1 h
  by_cases c1 : col ≠ start.col + 1 <;> by_cases c2 : end_.row ≠ start.row + 1 <;>
    by_cases c3 : col ≠ end_.col + 1
  all_goals
    first
    | (exfalso; exact c1 (hcol (by omega)))
    | skip
  all_goals
    have c1s : (start.col + 1 = col) = (col = start.col + 1) := propext eq_comm
    try (have hc1 : col = start.col + 1 := by omega
         subst hc1)
  all_goals
    simp only [c1, c2, c3, if_true, if_false, not_true_eq_false, not_false_eq_true, ne_eq,
      List.nil_append, List.append_nil, List.singleton_append, List.cons_append,
      true_and, false_and, and_true, and_false, forall_true_left] at hp hs r1 r2 r3 r4
    unfold Drawn edgePolyline
    rw [hp]
    simp only [polylineOf, tracePoints, c1s, c1, c3, if_true, if_false, ne_eq,
      not_true_eq_false, not_false_eq_true, List.cons_append, List.nil_append,
      List.getLast?_cons_cons, List.getLast?_singleton, Option.getD_some]
    rw [hs] at rs ⊢
  all_goals
    refine ⟨rfl, ⟨_, rfl, rs, rfl, rfl⟩, ?_, ?_⟩
  all_goals
    intro k p q hk hq
    rcases k with _ | _ | _ | _ | k
    all_goals
      simp only [List.getElem?_cons_zero, List.getElem?_cons_succ, List.getElem?_nil,
        Option.some.injEq, reduceCtorEq, zero_add, List.length_cons, List.length_nil,
        List.length_singleton] at hk hq ⊢
    all_goals
      try subst hk
      try subst hq
      dsimp only
  all_goals
    first
    | (refine ⟨fun hrow => ?_, fun hcl => ?_⟩ <;>
        first
        | (exfalso; omega)
        | exact ⟨fun c hlo hhi => r1 c (by omega) (by omega), rfl, rfl⟩
        | exact ⟨fun c hlo hhi => r3 c (by omega) (by omega), rfl, rfl⟩
        | exact ⟨fun r hlo hhi => r2 r (by omega) (by omega), rfl, rfl⟩
        | exact ⟨fun c hlo hhi => by rw [hrow]; exact r3 c (by omega) (by omega), rfl, rfl⟩)
    | (intro hlen hrow
       first
       | (exfalso; omega)
       | exact ⟨r4, rfl, rfl⟩)

/-! ## The routing loop, call by call -/

theorem drawn_holds (cfg : LayoutConfig) (geo : Geometry) (ta tb : Lanes) (ge : GridEdge)
    (px : List Pixel) (hd : Drawn cfg geo ta tb ge px) (o : Bool) (row col : Int) (n : Nat)
    (h : Holds ge o row col n) : Reserved ta tb o row col n := by
  obtain ⟨_, ⟨p0, hp0, hr0, _⟩, hseg, hlast⟩ := hd
  rcases h with ⟨ho, p, hp, rfl, rfl, rfl⟩ | ⟨k, p, q, hp, hq, rfl, hh⟩ | ⟨ho, k, p, q, hp, hq, hl, hrow, rfl, rfl, rfl⟩
  · rw [hp0] at hp
    cases hp
    rw [ho]
    exact hr0
  · rcases hh with ⟨ho, hrow, rfl, h1, h2⟩ | ⟨ho, hcol, rfl, h1, h2⟩
    · rw [ho]
      exact ((hseg k p q hp hq).1 hrow).1 col h1 h2
    · rw [ho]
      exact ((hseg k p q hp hq).2 hcol).1 row h1 h2
  · rw [ho]
    exact (hlast k p q hp hq hl hrow).1

theorem routeEdge_holds (t : Lanes) (edge_valid : Matrix) (start end_ : GridBlock)
    (ge : GridEdge) (t1 : Lanes) (h : routeEdge t edge_valid start end_ = some (ge, t1))
    (o : Bool) (row col : Int) (n : Nat) (hh : Holds ge o row col n) :
    Reserved t t1 o row col n :=
  drawn_holds ⟨0, 0⟩ ⟨fun _ => 0, fun _ => 0, fun _ => 0, fun _ => 0, fun _ => 0, fun _ => 0, 0, 0⟩
    t t1 ge _
    (routeEdge_drawn _ _ ⟨0, 0, 0, 0, 0, []⟩ (fun _ => 0) t edge_valid start end_ ge t1 h)
    o row col n hh

theorem holds_outgoing (ge : GridEdge) (p0 : Point) (ps : List Point)
    (hp : ge.points = p0 :: ps) (r c : Int) (n : Nat) (hr : r = p0.row) (hc : c = p0.col)
    (hn : n = ge.start_index) : Holds ge false r c n := by
  left
  refine ⟨rfl, p0, ?_, hr, hc, hn⟩
  rw [hp]
  rfl

theorem holds_horizontal (ge : GridEdge) (pre : List Point) (p q : Point) (post : List Point)
    (hp : ge.points = pre ++ p :: q :: post) (hrow : p.row = q.row) (r c : Int) (n : Nat)
    (hr : r = p.row) (h1 : min p.col q.col ≤ c) (h2 : c ≤ max p.col q.col) (hn : n = p.index) :
    Holds ge true r c n := by
  right; left
  refine ⟨pre.length, p, q, ?_, ?_, hn, Or.inl ⟨rfl, hrow, hr, h1, h2⟩⟩
  · rw [hp, List.getElem?_append_right (le_refl _), Nat.sub_self, List.getElem?_cons_zero]
  · rw [hp, List.getElem?_append_right (Nat.le_succ _), Nat.succ_sub (le_refl _), Nat.sub_self,
      List.getElem?_cons_succ, List.getElem?_cons_zero]

theorem holds_vertical (ge : GridEdge) (pre : List Point) (p q : Point) (post : List Point)
    (hp : ge.points = pre ++ p :: q :: post) (hcol : p.col = q.col) (r c : Int) (n : Nat)
    (hc : c = p.col) (h1 : min p.row q.row ≤ r) (h2 : r ≤ max p.row q.row) (hn : n = p.index) :
    Holds ge false r c n := by
  right; left
  refine ⟨pre.length, p, q, ?_, ?_, hn, Or.inr ⟨rfl, hcol, hc, h1, h2⟩⟩
  · rw [hp, List.getElem?_append_right (le_refl _), Nat.sub_self, List.getElem?_cons_zero]
  · rw [hp, List.getElem?_append_right (Nat.le_succ _), Nat.succ_sub (le_refl _), Nat.sub_self,
      List.getElem?_cons_succ, List.getElem?_cons_zero]

theorem holds_incoming (ge : GridEdge) (pre : List Point) (p q : Point)
    (hp : ge.points = pre ++ [p, q]) (hrow : p.row = q.row) (r c : Int) (n : Nat)
    (hr : r = q.row) (hc : c = q.col) (hn : n = q.index) : Holds ge false r c n := by
  right; right
  refine ⟨rfl, pre.length, p, q, ?_, ?_, ?_, hrow, hr, hc, hn⟩
  · rw [hp, List.getElem?_append_right (le_refl _), Nat.sub_self, List.getElem?_cons_zero]
  · rw [hp, List.getElem?_append_right (Nat.le_succ _), Nat.succ_sub (le_refl _), Nat.sub_self,
      List.getElem?_cons_succ, List.getElem?_cons_zero]
  · rw [hp, List.length_append]
    rfl

theorem findHoriz_only (edges : EdgesVector) (row lo hi : Int) (r c : Int) (k : Nat)
    (h : isEdgeMarked (findHorizEdgeIndex edges row lo hi).2 r c k = true) :
    ((r = row ∧ lo ≤ c ∧ c ≤ hi) ∧ k = (findHorizEdgeIndex edges row lo hi).1) ∨
    isEdgeMarked edges r c k = true := by
  rw [findHoriz_marked] at h
  by_cases hx : (r = row ∧ lo ≤ c ∧ c ≤ hi) ∧ k = (findHorizEdgeIndex edges row lo hi).1
  · left; exact hx
  · rw [if_neg hx] at h
    right; exact h

theorem findVert_only (edges : EdgesVector) (col lo hi : Int) (r c : Int) (k : Nat)
    (h : isEdgeMarked (findVertEdgeIndex edges col lo hi).2 r c k = true) :
    ((c = col ∧ lo ≤ r ∧ r ≤ hi) ∧ k = (findVertEdgeIndex edges col lo hi).1) ∨
    isEdgeMarked edges r c k = true := by
  rw [findVert_marked] at h
  by_cases hx : (c = col ∧ lo ≤ r ∧ r ≤ hi) ∧ k = (findVertEdgeIndex edges col lo hi).1
  · left; exact hx
  · rw [if_neg hx] at h
    right; exact h

theorem markEdge_only_true (edges : EdgesVector) (row col : Int) (index : Nat) (r c : Int)
    (k : Nat) (h : isEdgeMarked (markEdge edges row col index true) r c k = true) :
    (r = row ∧ c = col ∧ k = index) ∨ isEdgeMarked edges r c k = true := by
  rw [isEdgeMarked_markEdge] at h
  by_cases hx : r = row ∧ c = col ∧ k = index
  · left; exact hx
  · rw [if_neg hx] at h
    right; exact h

theorem markEdge_only_false (edges : EdgesVector) (row col : Int) (index : Nat) (r c : Int)
    (k : Nat) (h : isEdgeMarked (markEdge edges row col index false) r c k = true) :
    ¬ (r = row ∧ c = col ∧ k = index) ∧ isEdgeMarked edges r c k = true := by
  rw [isEdgeMarked_markEdge] at h
  by_cases hx : r = row ∧ c = col ∧ k = index
  · rw [if_pos hx] at h
    cases h
  · rw [if_neg hx] at h
    exact ⟨hx, h⟩

theorem span_lo (a b : Int) : (if a < b then a else b) = min a b := by
  split_ifs <;> omega

theorem span_hi (a b : Int) : (if a < b then b else a) = max a b := by
  split_ifs <;> omega

/-- The waypoints of one `routeEdge` call and all the marks of the lane tables
after it: a mark of the tables after the call that was not there before is the
lane of one of the segments or stubs of the routed edge. -/
theorem routeEdge_marks (t : Lanes) (edge_valid : Matrix) (start end_ : GridBlock)
    (ge : GridEdge) (t1 : Lanes) (h : routeEdge t edge_valid start end_ = some (ge, t1)) :
    ∃ (col : Int) (h1 v h2 w : Nat),
      (end_.row = start.row + 1 → col = start.col + 1) ∧
      ge.points =
        [⟨start.row + 1, start.col + 1,
            if col ≠ start.col + 1 then h1 else if end_.row ≠ start.row + 1 then v
            else if col ≠ end_.col + 1 then h2 else 0⟩]
          ++ (if col ≠ start.col + 1 then [⟨start.row + 1, col, v⟩] else [])
          ++ (if end_.row ≠ start.row + 1 then
                [⟨end_.row, col, if col ≠ end_.col + 1 then h2 else 0⟩] else [])
          ++ (if col ≠ end_.col + 1 then [⟨end_.row, end_.col + 1, w⟩] else []) ∧
      ge.start_index
        = (if end_.row ≠ start.row + 1 ∧ col = start.col + 1 then v else stubIndex t start) ∧
      (∀ (r c : Int) (n : Nat), isEdgeMarked t1.horiz_edges r c n = true →
        (col ≠ end_.col + 1 ∧ r = end_.row ∧ min col (end_.col + 1) ≤ c ∧
          c ≤ max col (end_.col + 1) ∧ n = h2) ∨
        (col ≠ start.col + 1 ∧ r = start.row + 1 ∧ min col (start.col + 1) ≤ c ∧
          c ≤ max col (start.col + 1) ∧ n = h1) ∨
        isEdgeMarked t.horiz_edges r c n = true) ∧
      (∀ (r c : Int) (n : Nat), isEdgeMarked t1.vert_edges r c n = true →
        (col ≠ end_.col + 1 ∧ r = end_.row ∧ c = end_.col + 1 ∧ n = w) ∨
        (end_.row ≠ start.row + 1 ∧ c = col ∧ min end_.row (start.row + 1) ≤ r ∧
          r ≤ max end_.row (start.row + 1) ∧ n = v) ∨
        (¬ (end_.row ≠ start.row + 1 ∧ col = start.col + 1) ∧ r = start.row + 1 ∧
          c = start.col + 1 ∧ n = stubIndex t start) ∨
        isEdgeMarked t.vert_edges r c n = true) := by
  obtain ⟨col, hc, he⟩ := routeEdge_eq t edge_valid start end_ ge t1 h
  have hcol : end_.row = start.row + 1 → col = start.col + 1 := by
    intro hr
    refine chooseColumn_same_row edge_valid start end_ _ _ col ?_ hc
    rw [hr]
  obtain ⟨p0, s0, hz0, v0, f0⟩ := routeStart_spec t start end_
  obtain ⟨p1, s1, hz1, v1, f1⟩ := routeToColumn_spec start col _ _ _ p0
  obtain ⟨p2, s2, hz2, v2, f2⟩ := routeToRow_spec start end_ col
    (if end_.row < start.row + 1 then end_.row else start.row + 1)
    (if end_.row < start.row + 1 then start.row + 1 else end_.row) (stubIndex t start) _ _ _ p1
  obtain ⟨p3, s3, hz3, v3, f3⟩ := routeToEnd_spec end_ col _ _ _ p2
  obtain ⟨p4, s4, hz4, v4⟩ := routeFinish_spec end_ _ _ _ p3
  rw [← he] at p4 s4 hz4 v4
  simp only at p4 s4 hz4 v4
  rw [f3, f2, f1, f0] at p4 v4
  rw [v3, v2, v1, v0] at p4 v4
  rw [hz2, hz1, hz0] at p4 hz3
  rw [hz3] at hz4
  rw [s3, s2, s1, s0, v1, v0] at s4
  clear p0 s0 hz0 v0 f0 p1 s1 hz1 v1 f1 p2 s2 hz2 v2 f2 p3 s3 hz3 v3 f3 he hc h
  have hflag : (if col ≠ end_.col + 1 then true
      else if end_.row ≠ start.row + 1 then false else if col ≠ start.col + 1 then true else false)
      = decide (col ≠ end_.col + 1) := by
    by_cases c3 : col ≠ end_.col + 1
    · simp only [if_pos c3, decide_eq_true c3]
    · by_cases c2 : end_.row ≠ start.row + 1
      · simp only [if_neg c3, if_pos c2, decide_eq_false c3]
      · have c1 : ¬ col ≠ start.col + 1 := by
          intro hh
          exact hh (hcol (by omega))
        simp only [if_neg c3, if_neg c2, if_neg c1, decide_eq_false c3]
  rw [hflag] at p4 v4
  simp only [decide_eq_true_eq] at p4 v4
  refine ⟨col,
    (findHorizEdgeIndex t.horiz_edges (start.row + 1)
      (if col < start.col + 1 then col else start.col + 1)
      (if col < start.col + 1 then start.col + 1 else col)).1,
    (findVertEdgeIndex
      (if col = start.col + 1 then
        markEdge (markEdge t.vert_edges (start.row + 1) (start.col + 1) (stubIndex t start) true)
          (start.row + 1) (start.col + 1) (stubIndex t start) false
       else markEdge t.vert_edges (start.row + 1) (start.col + 1) (stubIndex t start) true)
      col (if end_.row < start.row + 1 then end_.row else start.row + 1)
      (if end_.row < start.row + 1 then start.row + 1 else end_.row)).1,
    (findHorizEdgeIndex
      (if col ≠ start.col + 1 then
        (findHorizEdgeIndex t.horiz_edges (start.row + 1)
          (if col < start.col + 1 then col else start.col + 1)
          (if col < start.col + 1 then start.col + 1 else col)).2
       else t.horiz_edges)
      end_.row (if col < end_.col + 1 then col else end_.col + 1)
      (if col < end_.col + 1 then end_.col + 1 else col)).1,
    (findVertEdgeIndex
      (if end_.row ≠ start.row + 1 then
        (findVertEdgeIndex
          (if col = start.col + 1 then
            markEdge
              (markEdge t.vert_edges (start.row + 1) (start.col + 1) (stubIndex t start) true)
              (start.row + 1) (start.col + 1) (stubIndex t start) false
           else markEdge t.vert_edges (start.row + 1) (start.col + 1) (stubIndex t start) true)
          col (if end_.row < start.row + 1 then end_.row else start.row + 1)
          (if end_.row < start.row + 1 then start.row + 1 else end_.row)).2
       else markEdge t.vert_edges (start.row + 1) (start.col + 1) (stubIndex t start) true)
      (end_.col + 1) end_.row end_.row).1,
    hcol, ?_, s4, ?_, ?_⟩
  · -- the waypoints
    rw [p4]
    by_cases c1 : col ≠ start.col + 1 <;> by_cases c2 : end_.row ≠ start.row + 1 <;>
      by_cases c3 : col ≠ end_.col + 1
    all_goals
      first
      | (exfalso; exact c1 (hcol (by omega)))
      | simp only [c1, c2, c3, if_true, if_false, not_true_eq_false, not_false_eq_true, ne_eq,
          List.nil_append, List.append_nil, List.singleton_append, List.cons_append]
  · -- the marks of `horiz_edges`
    intro r c n hm
    rw [hz4] at hm
    have first : ∀ (hm : isEdgeMarked
        (if col ≠ start.col + 1 then
          (findHorizEdgeIndex t.horiz_edges (start.row + 1)
            (if col < start.col + 1 then col else start.col + 1)
            (if col < start.col + 1 then start.col + 1 else col)).2
         else t.horiz_edges) r c n = true),
        (col ≠ start.col + 1 ∧ r = start.row + 1 ∧ min col (start.col + 1) ≤ c ∧
          c ≤ max col (start.col + 1) ∧
            n = (findHorizEdgeIndex t.horiz_edges (start.row + 1)
              (if col < start.col + 1 then col else start.col + 1)
              (if col < start.col + 1 then start.col + 1 else col)).1) ∨
        isEdgeMarked t.horiz_edges r c n = true := by
      intro hm
      by_cases c1 : col ≠ start.col + 1
      · rw [if_pos c1] at hm
        rcases findHoriz_only _ _ _ _ _ _ _ hm with hb | hb
        · left
          refine ⟨c1, hb.1.1, ?_, ?_, hb.2⟩
          · rw [← span_lo]; exact hb.1.2.1
          · rw [← span_hi]; exact hb.1.2.2
        · right; exact hb
      · rw [if_neg c1] at hm
        right; exact hm
    by_cases c3 : col ≠ end_.col + 1
    · rw [if_pos c3] at hm
      rcases findHoriz_only _ _ _ _ _ _ _ hm with ha | ha
      · left
        refine ⟨c3, ha.1.1, ?_, ?_, ha.2⟩
        · rw [← span_lo]; exact ha.1.2.1
        · rw [← span_hi]; exact ha.1.2.2
      · right
        exact first ha
    · rw [if_neg c3] at hm
      right
      exact first hm
  · -- the marks of `vert_edges`
    intro r c n hm
    rw [v4] at hm
    have stub : ∀ (hm : isEdgeMarked
        (if end_.row ≠ start.row + 1 then
          (findVertEdgeIndex
            (if col = start.col + 1 then
              markEdge
                (markEdge t.vert_edges (start.row + 1) (start.col + 1) (stubIndex t start) true)
                (start.row + 1) (start.col + 1) (stubIndex t start) false
             else markEdge t.vert_edges (start.row + 1) (start.col + 1) (stubIndex t start) true)
            col (if end_.row < start.row + 1 then end_.row else start.row + 1)
            (if end_.row < start.row + 1 then start.row + 1 else end_.row)).2
         else markEdge t.vert_edges (start.row + 1) (start.col + 1) (stubIndex t start) true)
        r c n = true),
        (end_.row ≠ start.row + 1 ∧ c = col ∧ min end_.row (start.row + 1) ≤ r ∧
          r ≤ max end_.row (start.row + 1) ∧
            n = (findVertEdgeIndex
              (if col = start.col + 1 then
                markEdge
                  (markEdge t.vert_edges (start.row + 1) (start.col + 1) (stubIndex t start) true)
                  (start.row + 1) (start.col + 1) (stubIndex t start) false
               else
                markEdge t.vert_edges (start.row + 1) (start.col + 1) (stubIndex t start) true)
              col (if end_.row < start.row + 1 then end_.row else start.row + 1)
              (if end_.row < start.row + 1 then start.row + 1 else end_.row)).1) ∨
        (¬ (end_.row ≠ start.row + 1 ∧ col = start.col + 1) ∧ r = start.row + 1 ∧
          c = start.col + 1 ∧ n = stubIndex t start) ∨
        isEdgeMarked t.vert_edges r c n = true := by
      intro hm
      by_cases c2 : end_.row ≠ start.row + 1
      · rw [if_pos c2] at hm
        rcases findVert_only _ _ _ _ _ _ _ hm with hb | hb
        · left
          refine ⟨c2, hb.1.1, ?_, ?_, hb.2⟩
          · rw [← span_lo]; exact hb.1.2.1
          · rw [← span_hi]; exact hb.1.2.2
        · right
          by_cases hcs : col = start.col + 1
          · rw [if_pos hcs] at hb
            obtain ⟨hx, hb1⟩ := markEdge_only_false _ _ _ _ _ _ _ hb
            rcases markEdge_only_true _ _ _ _ _ _ _ hb1 with hy | hy
            · exact absurd hy hx
            · right; exact hy
          · rw [if_neg hcs] at hb
            rcases markEdge_only_true _ _ _ _ _ _ _ hb with hy | hy
            · left
              exact ⟨fun hh => hcs hh.2, hy⟩
            · right; exact hy
      · rw [if_neg c2] at hm
        right
        rcases markEdge_only_true _ _ _ _ _ _ _ hm with hy | hy
        · left
          exact ⟨fun hh => c2 hh.1, hy⟩
        · right; exact hy
    by_cases c3 : col ≠ end_.col + 1
    · rw [if_pos c3] at hm
      rcases findVert_only _ _ _ _ _ _ _ hm with ha | ha
      · left
        exact ⟨c3, by omega, ha.1.1, ha.2⟩
      · right
        exact stub ha
    · rw [if_neg c3] at hm
      right
      exact stub hm

/-- A lane that a `routeEdge` call reserved is held by the routed edge that the
call returned. -/
theorem routeEdge_only (t : Lanes) (edge_valid : Matrix) (start end_ : GridBlock)
    (ge : GridEdge) (t1 : Lanes) (h : routeEdge t edge_valid start end_ = some (ge, t1))
    (o : Bool) (r c : Int) (n : Nat) (hres : Reserved t t1 o r c n) : Holds ge o r c n := by
  obtain ⟨col, h1, v, h2, w, hcol, hp, hs, hH, hV⟩ :=
    routeEdge_marks t edge_valid start end_ ge t1 h
  obtain ⟨hm0, hm1⟩ := hres
  unfold Lanes.marked at hm0 hm1
  by_cases c1 : col ≠ start.col + 1 <;> by_cases c2 : end_.row ≠ start.row + 1 <;>
    by_cases c3 : col ≠ end_.col + 1
  all_goals
    first
    | (exfalso; exact c1 (hcol (by omega)))
    | skip
  all_goals
    simp only [c1, c2, c3, if_true, if_false, not_true_eq_false, not_false_eq_true, ne_eq,
      List.nil_append, List.append_nil, List.singleton_append, List.cons_append,
      true_and, false_and, and_true, and_false] at hp hs
    cases o
  all_goals
    simp only [if_true, if_false, Bool.false_eq_true] at hm0 hm1
  -- first horizontal segment, vertical segment, second horizontal segment
  · rcases hV r c n hm1 with ⟨_, e1, e2, e3⟩ | ⟨_, e1, e2, e3, e4⟩ | ⟨_, e1, e2, e3⟩ | hh
    · exact holds_incoming ge [_, _] _ _ hp rfl r c n e1 e2 e3
    · exact holds_vertical ge [_] _ _ [_] hp rfl r c n e1 (by dsimp only; omega)
        (by dsimp only; omega) e4
    · exact holds_outgoing ge _ _ hp r c n e1 e2 (e3.trans hs.symm)
    · rw [hm0] at hh; cases hh
  · rcases hH r c n hm1 with ⟨_, e1, e2, e3, e4⟩ | ⟨_, e1, e2, e3, e4⟩ | hh
    · exact holds_horizontal ge [_, _] _ _ [] hp rfl r c n e1 (by dsimp only; omega)
        (by dsimp only; omega) e4
    · exact holds_horizontal ge [] _ _ [_, _] hp rfl r c n e1 (by dsimp only; omega)
        (by dsimp only; omega) e4
    · rw [hm0] at hh; cases hh
  -- first horizontal segment, vertical segment
  · rcases hV r c n hm1 with ⟨c3n, _⟩ | ⟨_, e1, e2, e3, e4⟩ | ⟨_, e1, e2, e3⟩ | hh
    · exact absurd c3n c3
    · exact holds_vertical ge [_] _ _ [] hp rfl r c n e1 (by dsimp only; omega)
        (by dsimp only; omega) e4
    · exact holds_outgoing ge _ _ hp r c n e1 e2 (e3.trans hs.symm)
    · rw [hm0] at hh; cases hh
  · rcases hH r c n hm1 with ⟨c3n, _⟩ | ⟨_, e1, e2, e3, e4⟩ | hh
    · exact absurd c3n c3
    · exact holds_horizontal ge [] _ _ [_] hp rfl r c n e1 (by dsimp only; omega)
        (by dsimp only; omega) e4
    · rw [hm0] at hh; cases hh
  -- vertical segment, second horizontal segment
  · have hc1 : col = start.col + 1 := by omega
    rcases hV r c n hm1 with ⟨_, e1, e2, e3⟩ | ⟨_, e1, e2, e3, e4⟩ | ⟨hx, _⟩ | hh
    · exact holds_incoming ge [_] _ _ hp rfl r c n e1 e2 e3
    · exact holds_vertical ge [] _ _ [_] hp (by dsimp only; omega) r c n
        (by dsimp only; omega) (by dsimp only; omega) (by dsimp only; omega) e4
    · exact absurd ⟨c2, hc1⟩ hx
    · rw [hm0] at hh; cases hh
  · rcases hH r c n hm1 with ⟨_, e1, e2, e3, e4⟩ | ⟨c1n, _⟩ | hh
    · exact holds_horizontal ge [_] _ _ [] hp rfl r c n e1 (by dsimp only; omega)
        (by dsimp only; omega) e4
    · exact absurd c1n c1
    · rw [hm0] at hh; cases hh
  -- vertical segment
  · have hc1 : col = start.col + 1 := by omega
    rcases hV r c n hm1 with ⟨c3n, _⟩ | ⟨_, e1, e2, e3, e4⟩ | ⟨hx, _⟩ | hh
    · exact absurd c3n c3
    · exact holds_vertical ge [] _ _ [] hp (by dsimp only; omega) r c n
        (by dsimp only; omega) (by dsimp only; omega) (by dsimp only; omega) e4
    · exact absurd ⟨c2, hc1⟩ hx
    · rw [hm0] at hh; cases hh
  · rcases hH r c n hm1 with ⟨c3n, _⟩ | ⟨c1n, _⟩ | hh
    · exact absurd c3n c3
    · exact absurd c1n c1
    · rw [hm0] at hh; cases hh
  -- second horizontal segment
  · rcases hV r c n hm1 with ⟨_, e1, e2, e3⟩ | ⟨c2n, _⟩ | ⟨_, e1, e2, e3⟩ | hh
    · exact holds_incoming ge [] _ _ hp (by dsimp only; omega) r c n e1 e2 e3
    · exact absurd c2n c2
    · exact holds_outgoing ge _ _ hp r c n e1 e2 (e3.trans hs.symm)
    · rw [hm0] at hh; cases hh
  · rcases hH r c n hm1 with ⟨_, e1, e2, e3, e4⟩ | ⟨c1n, _⟩ | hh
    · exact holds_horizontal ge [] _ _ [] hp (by dsimp only; omega) r c n
        (by dsimp only; omega) (by dsimp only; omega) (by dsimp only; omega) e4
    · exact absurd c1n c1
    · rw [hm0] at hh; cases hh
  -- no segment
  · rcases hV r c n hm1 with ⟨c3n, _⟩ | ⟨c2n, _⟩ | ⟨_, e1, e2, e3⟩ | hh
    · exact absurd c3n c3
    · exact absurd c2n c2
    · exact holds_outgoing ge _ _ hp r c n e1 e2 (e3.trans hs.symm)
    · rw [hm0] at hh; cases hh
  · rcases hH r c n hm1 with ⟨c3n, _⟩ | ⟨c1n, _⟩ | hh
    · exact absurd c3n c3
    · exact absurd c1n c1
    · rw [hm0] at hh; cases hh

theorem takeWhile_ne_cons (b k : Nat) (rest : List Nat) (h : b ≠ k) :
    (b :: rest).takeWhile (fun x => decide (x ≠ k))
      = b :: rest.takeWhile (fun x => decide (x ≠ k)) := by
  rw [List.takeWhile_cons, if_pos (decide_eq_true h)]

theorem takeWhile_ne_self (k : Nat) (rest : List Nat) :
    (k :: rest).takeWhile (fun x => decide (x ≠ k)) = [] := by
  rw [List.takeWhile_cons, if_neg]
  simp

theorem takeWhile_order (order : List Nat) (k k1 : Nat) (hk : k ∈ order) (hk1 : k1 ∈ order)
    (hne : k ≠ k1) :
    (∃ mid, order.takeWhile (fun x => decide (x ≠ k1))
        = order.takeWhile (fun x => decide (x ≠ k)) ++ k :: mid) ∨
    (∃ mid, order.takeWhile (fun x => decide (x ≠ k))
        = order.takeWhile (fun x => decide (x ≠ k1)) ++ k1 :: mid) := by
  induction order with
  | nil => cases hk
  | cons b rest ih =>
    by_cases hb : b = k
    · subst hb
      left
      refine ⟨rest.takeWhile (fun x => decide (x ≠ k1)), ?_⟩
      rw [takeWhile_ne_self, takeWhile_ne_cons _ _ _ hne]
      rfl
    · by_cases hb1 : b = k1
      · subst hb1
        right
        refine ⟨rest.takeWhile (fun x => decide (x ≠ k)), ?_⟩
        rw [takeWhile_ne_self, takeWhile_ne_cons _ _ _ hb]
        rfl
      · have h1 : k ∈ rest := by
          rcases List.mem_cons.1 hk with h | h
          · exact absurd h.symm hb
          · exact h
        have h2 : k1 ∈ rest := by
          rcases List.mem_cons.1 hk1 with h | h
          · exact absurd h.symm hb1
          · exact h
        rw [takeWhile_ne_cons _ _ _ hb, takeWhile_ne_cons _ _ _ hb1]
        rcases ih h1 h2 with ⟨mid, hm⟩ | ⟨mid, hm⟩
        · left
          exact ⟨mid, by rw [hm]; rfl⟩
        · right
          exact ⟨mid, by rw [hm]; rfl⟩

theorem routeEdges_call (g : Grid) (edge_valid : Matrix) (start : GridBlock)
    (es : List GraphEdge) (t t1 : Lanes) (ges : List GridEdge)
    (h : routeEdges g edge_valid start es t = some (ges, t1)) (i : Nat) (e0 : GraphEdge)
    (hi : es[i]? = some e0) :
    ∃ ta ge tb,
      routeSeq edge_valid ((es.take i).map (fun e => (start, g e.target))) t = some ta ∧
      routeEdge ta edge_valid start (g e0.target) = some (ge, tb) ∧
      routeSeq edge_valid ((es.take (i + 1)).map (fun e => (start, g e.target))) t = some tb ∧
      ges[i]? = some ge ∧
      routeSeq edge_valid ((es.drop (i + 1)).map (fun e => (start, g e.target))) tb = some t1 := by
  induction es generalizing t ges i with
  | nil => simp at hi
  | cons e es ih =>
    unfold routeEdges at h
    cases h1 : routeEdge t edge_valid start (g e.target) with
    | none => rw [h1] at h; cases h
    | some p =>
      obtain ⟨ge, t2⟩ := p
      rw [h1] at h
      simp only at h
      cases h2 : routeEdges g edge_valid start es t2 with
      | none => rw [h2] at h; cases h
      | some q =>
        obtain ⟨ges2, t3⟩ := q
        rw [h2] at h
        simp only [Option.some.injEq, Prod.mk.injEq] at h
        obtain ⟨hg, ht⟩ := h
        subst hg ht
        cases i with
        | zero =>
          simp only [List.getElem?_cons_zero, Option.some.injEq] at hi
          subst hi
          refine ⟨t, ge, t2, rfl, h1, ?_, List.getElem?_cons_zero, ?_⟩
          · rw [Nat.zero_add, List.take_succ_cons, List.take_zero, List.map_cons, routeSeq_cons]
            simp only
            rw [h1]
            rfl
          · rw [Nat.zero_add, List.drop_succ_cons, List.drop_zero]
            exact routeEdges_routeSeq g edge_valid start es t2 t3 ges2 h2
        | succ j =>
          rw [List.getElem?_cons_succ] at hi
          obtain ⟨ta, ge1, tb, ha, hr, hb, hg, hd⟩ := ih t2 ges2 h2 j hi
          refine ⟨ta, ge1, tb, ?_, hr, ?_, ?_, ?_⟩
          · rw [List.take_succ_cons, List.map_cons, routeSeq_cons]
            simp only
            rw [h1]
            exact ha
          · rw [List.take_succ_cons, List.map_cons, routeSeq_cons]
            simp only
            rw [h1]
            exact hb
          · rw [List.getElem?_cons_succ]
            exact hg
          · rw [List.drop_succ_cons]
            exact hd

theorem routeJobs_cons (blocks : Blocks) (g : Grid) (b : Nat) (rest : List Nat) :
    routeJobs blocks g (b :: rest)
      = (blockAt blocks b).edges.map (fun e => (g b, g e.target)) ++ routeJobs blocks g rest := by
  unfold routeJobs
  rw [List.flatMap_cons]

theorem routeJobs_append (blocks : Blocks) (g : Grid) (xs ys : List Nat) :
    routeJobs blocks g (xs ++ ys) = routeJobs blocks g xs ++ routeJobs blocks g ys := by
  unfold routeJobs
  rw [List.flatMap_append]

/-- The pass of the routing loop for a node of the order: the lane tables at
its start are those left by the calls for the nodes before it, and the routed
edges stored for the node are those of this pass. -/
theorem routeAll_call (blocks : Blocks) (g : Grid) (edge_valid : Matrix) (order : List Nat)
    (m m1 : EdgeMap) (t t1 : Lanes)
    (h : routeAll blocks g edge_valid order m t = some (m1, t1)) (hnd : order.Nodup)
    (k : Nat) (hk : k ∈ order) (hm : (blockAt blocks k).edges = [] → m k = []) :
    ∃ ta tb,
      routeSeq edge_valid
        (routeJobs blocks g (order.takeWhile (fun x => decide (x ≠ k)))) t = some ta ∧
      routeEdges g edge_valid (g k) (blockAt blocks k).edges ta = some (m1 k, tb) ∧
      (∀ o r c n, tb.marked o r c n = true → t1.marked o r c n = true) := by
  induction order generalizing m t with
  | nil => cases hk
  | cons blockId rest ih =>
    rw [List.nodup_cons] at hnd
    unfold routeAll at h
    cases hr : routeEdges g edge_valid (g blockId) (blockAt blocks blockId).edges t with
    | none => rw [hr] at h; cases h
    | some p =>
      obtain ⟨ges, t2⟩ := p
      rw [hr] at h
      simp only at h
      by_cases hkb : k = blockId
      · subst hkb
        have hfr := routeAll_frame blocks g edge_valid rest _ m1 t2 t1 h k hnd.1
        refine ⟨t, t2, ?_, ?_, ?_⟩
        · rw [takeWhile_ne_self]
          rfl
        · rw [hr, hfr]
          by_cases hg : ges = []
          · rw [if_pos hg, hg]
            have hlen := (routeEdges_forall g edge_valid (g k) _ t t2 ges hr).length_eq
            rw [hg, List.length_nil, List.length_eq_zero] at hlen
            rw [hm hlen]
          · rw [if_neg hg, Function.update_same]
        · intro o r c n hmk
          exact routeSeq_mono edge_valid _ t2 t1
            (routeAll_routeSeq blocks g edge_valid rest _ m1 t2 t1 h) o r c n hmk
      · have hkr : k ∈ rest := by
          rcases List.mem_cons.1 hk with h1 | h1
          · exact absurd h1 hkb
          · exact h1
        obtain ⟨ta, tb, h1, h2, h3⟩ := ih _ t2 h hnd.2 hkr (by
          intro he
          split_ifs
          · exact hm he
          · rw [Function.update_noteq hkb]
            exact hm he)
        refine ⟨ta, tb, ?_, h2, h3⟩
        rw [takeWhile_ne_cons _ _ _ (fun hh => hkb hh.symm), routeJobs_cons]
        exact routeSeq_append_intro edge_valid _ _ t t2 ta
          (routeEdges_routeSeq g edge_valid (g blockId) _ t t2 ges hr) h1

/-- The call of the routing loop for edge number `i` of a node `k` of the
order: the lane tables before it are those left by the calls listed by
`jobsBefore`, the routed edge it returns is the one stored at position `i` for
the node, and every mark of the tables after it is still there when the loop
ends. -/
theorem routeStage_call (layoutType : LayoutType) (blocks : Blocks) (entry : Nat)
    (hw : WellFormed blocks) (r : TopoResult) (ok : GridStageOK layoutType blocks entry r)
    (edges : EdgeMap) (t : Lanes) (hroute : routeStage r entry = some (edges, t))
    (k : Nat) (hk : k ∈ r.order) (i : Nat) (e0 : GraphEdge)
    (hi : (blockAt blocks k).edges[i]? = some e0) :
    ∃ ta ge tb,
      routeSeq (nodeCells r.grid r.gridKeys ((r.grid entry).col_count + 1))
        (jobsBefore blocks r.grid r.order k i) noLanes = some ta ∧
      routeEdge ta (nodeCells r.grid r.gridKeys ((r.grid entry).col_count + 1))
        (r.grid k) (r.grid e0.target) = some (ge, tb) ∧
      routeSeq (nodeCells r.grid r.gridKeys ((r.grid entry).col_count + 1))
        (jobsBefore blocks r.grid r.order k (i + 1)) noLanes = some tb ∧
      (edges k)[i]? = some ge ∧
      (∀ o row col n, tb.marked o row col n = true → t.marked o row col n = true) := by
  unfold routeStage at hroute
  obtain ⟨t0, t1, h0, h1, h2⟩ := routeAll_call r.blocks r.grid _ r.order _ edges _ t hroute
    ok.order_nodup k hk (by
      intro he
      rw [initEdges_at r.blocks (by rw [ok.blocks_eq]; exact hw.1) k
        (by rw [ok.blocks_eq]; exact ok.order_keys k hk), he]
      rfl)
  rw [ok.blocks_eq] at h0 h1
  obtain ⟨ta, ge, tb, ha, hr, hb, hg, hd⟩ := routeEdges_call _ _ _ _ _ _ _ h1 i e0 hi
  refine ⟨ta, ge, tb, ?_, hr, ?_, hg, ?_⟩
  · exact routeSeq_append_intro _ _ _ _ t0 ta h0 ha
  · exact routeSeq_append_intro _ _ _ _ t0 tb h0 hb
  · intro o row col n hmk
    exact h2 o row col n (routeSeq_mono _ _ tb t1 hd o row col n hmk)

theorem routeSeq_initial (edge_valid : Matrix) (xs ys : List (GridBlock × GridBlock))
    (t t1 t2 : Lanes) (h1 : routeSeq edge_valid xs t = some t1)
    (h2 : routeSeq edge_valid ys t = some t2) (hp : xs <+: ys)
    (o : Bool) (r c : Int) (n : Nat) (hm : t1.marked o r c n = true) :
    t2.marked o r c n = true := by
  obtain ⟨zs, rfl⟩ := hp
  obtain ⟨t3, h3, h4⟩ := routeSeq_append edge_valid xs zs t t2 h2
  rw [h1] at h3
  cases h3
  exact routeSeq_mono edge_valid zs t1 t2 h4 o r c n hm

theorem jobsBefore_initial (blocks : Blocks) (g : Grid) (order : List Nat) (k k1 i i1 : Nat)
    (hk : k ∈ order) (hk1 : k1 ∈ order) :
    (k = k1 ∧ i = i1) ∨
    jobsBefore blocks g order k (i + 1) <+: jobsBefore blocks g order k1 i1 ∨
    jobsBefore blocks g order k1 (i1 + 1) <+: jobsBefore blocks g order k i := by
  have step : ∀ (a a1 j j1 : Nat) (mid : List Nat),
      order.takeWhile (fun x => decide (x ≠ a1))
        = order.takeWhile (fun x => decide (x ≠ a)) ++ a :: mid →
      jobsBefore blocks g order a j <+: jobsBefore blocks g order a1 j1 := by
    intro a a1 j j1 mid hm
    unfold jobsBefore
    rw [hm, routeJobs_append, routeJobs_cons, List.append_assoc, List.append_assoc]
    refine (List.prefix_append_right_inj _).2 ?_
    have hp : (blockAt blocks a).edges.take j <+: (blockAt blocks a).edges :=
      ⟨_, List.take_append_drop j _⟩
    exact (hp.map _).trans (List.prefix_append _ _)
  by_cases hkk : k = k1
  · subst hkk
    rcases Nat.lt_trichotomy i i1 with h | h | h
    · right; left
      unfold jobsBefore
      exact (List.prefix_append_right_inj _).2 ((List.take_prefix_take_left _ h).map _)
    · left; exact ⟨rfl, h⟩
    · right; right
      unfold jobsBefore
      exact (List.prefix_append_right_inj _).2 ((List.take_prefix_take_left _ h).map _)
  · rcases takeWhile_order order k k1 hk hk1 hkk with ⟨mid, hm⟩ | ⟨mid, hm⟩
    · right; left
      exact step k k1 _ _ mid hm
    · right; right
      exact step k1 k _ _ mid hm

theorem calls_exclusive (edge_valid : Matrix) (blocks : Blocks) (g : Grid) (order : List Nat)
    (t0 : Lanes) (k k1 i i1 : Nat) (hk : k ∈ order) (hk1 : k1 ∈ order)
    (hne : ¬ (k = k1 ∧ i = i1)) (ta tb ta1 tb1 : Lanes)
    (ha : routeSeq edge_valid (jobsBefore blocks g order k i) t0 = some ta)
    (hb : routeSeq edge_valid (jobsBefore blocks g order k (i + 1)) t0 = some tb)
    (ha1 : routeSeq edge_valid (jobsBefore blocks g order k1 i1) t0 = some ta1)
    (hb1 : routeSeq edge_valid (jobsBefore blocks g order k1 (i1 + 1)) t0 = some tb1)
    (o : Bool) (r c : Int) (n : Nat) (h : Reserved ta tb o r c n) :
    ¬ Reserved ta1 tb1 o r c n := by
  intro h1
  rcases jobsBefore_initial blocks g order k k1 i i1 hk hk1 with he | hp | hp
  · exact hne he
  · have := routeSeq_initial edge_valid _ _ t0 tb ta1 hb ha1 hp o r c n h.2
    rw [h1.1] at this
    cases this
  · have := routeSeq_initial edge_valid _ _ t0 tb1 ta hb1 ha hp o r c n h1.2
    rw [h.1] at this
    cases this

theorem holds_points_ne (ge : GridEdge) (o : Bool) (row col : Int) (n : Nat)
    (h : Holds ge o row col n) : ge.points ≠ [] := by
  intro hp
  unfold Holds at h
  rw [hp] at h
  simp at h

theorem getElem?_zipWith_some {α β γ : Type} (f : α → β → γ) (l1 : List α) (l2 : List β)
    (i : Nat) (a : α) (b : β) (h1 : l1[i]? = some a) (h2 : l2[i]? = some b) :
    (List.zipWith f l1 l2)[i]? = some (f a b) := by
  rw [List.getElem?_zipWith, h1, h2]

/-- Two routed edges stored by the routing stage that hold the same lane of
the same table in the same cell are the same stored edge. -/
theorem stage_exclusive (layoutType : LayoutType) (blocks : Blocks) (entry : Nat)
    (hw : WellFormed blocks) (r : TopoResult) (ok : GridStageOK layoutType blocks entry r)
    (edges : EdgeMap) (t : Lanes) (hroute : routeStage r entry = some (edges, t))
    (k k1 i i1 : Nat) (ea eb : GridEdge) (ha : (edges k)[i]? = some ea)
    (hb : (edges k1)[i1]? = some eb) (o : Bool) (row col : Int) (n : Nat)
    (hea : Holds ea o row col n) (heb : Holds eb o row col n) : k = k1 ∧ i = i1 := by
  have inorder : ∀ (a j : Nat) (e : GridEdge), (edges a)[j]? = some e → e.points ≠ [] →
      a ∈ r.order := by
    intro a j e he hp
    by_contra hno
    have hroute2 := hroute
    unfold routeStage at hroute2
    have hfr := routeAll_frame _ _ _ _ _ _ _ _ hroute2 a hno
    rw [hfr] at he
    have := initEdges_fresh r.blocks a e (List.getElem?_mem he)
    rw [this] at hp
    exact hp rfl
  have hk := inorder k i ea ha (holds_points_ne ea o row col n hea)
  have hk1 := inorder k1 i1 eb hb (holds_points_ne eb o row col n heb)
  have call : ∀ (a j : Nat) (e : GridEdge), a ∈ r.order → (edges a)[j]? = some e →
      ∃ e0 ta tb,
        routeSeq (nodeCells r.grid r.gridKeys ((r.grid entry).col_count + 1))
          (jobsBefore blocks r.grid r.order a j) noLanes = some ta ∧
        routeEdge ta (nodeCells r.grid r.gridKeys ((r.grid entry).col_count + 1))
          (r.grid a) (r.grid e0) = some (e, tb) ∧
        routeSeq (nodeCells r.grid r.gridKeys ((r.grid entry).col_count + 1))
          (jobsBefore blocks r.grid r.order a (j + 1)) noLanes = some tb := by
    intro a j e hka he
    have hlen := (routeStage_at layoutType blocks entry hw r ok edges t hroute a hka).length_eq
    have hj : j < (blockAt blocks a).edges.length := by
      rw [hlen]
      exact (List.getElem?_eq_some_iff.1 he).1
    obtain ⟨ta, ge, tb, h1, h2, h3, h4, _⟩ := routeStage_call layoutType blocks entry hw r ok
      edges t hroute a hka j _ (List.getElem?_eq_getElem hj)
    rw [he] at h4
    cases h4
    exact ⟨_, ta, tb, h1, h2, h3⟩
  obtain ⟨_, ta, tb, a1, a2, a3⟩ := call k i ea hk ha
  obtain ⟨_, ta1, tb1, b1, b2, b3⟩ := call k1 i1 eb hk1 hb
  by_contra hne
  exact calls_exclusive _ blocks r.grid r.order noLanes k k1 i i1 hk hk1 hne ta tb ta1 tb1
    a1 a3 b1 b3 o row col n (routeEdge_holds _ _ _ _ _ _ a2 o row col n hea)
    (routeEdge_holds _ _ _ _ _ _ b2 o row col n heb)

/-! ## No two routed edges hold the same lane -/

/-- C8. On a well-formed node map whose entry is a key, the routing stage of
`CalculateLayout` returns the routed edges `edges` and the lane tables `t` that
the layout is compiled from, and no two distinct routed edges hold the same
lane. For edge number `i` of a node `k` of the order, the routed edge stored
at `edges k` position `i` is the one returned by the `routeEdge` call that the
loop makes from the lane tables `ta` left by all the calls before it
(`jobsBefore`, starting from empty tables), `tb` being the tables after the
call. The lanes that this stored edge holds (its outgoing stub, each of its
segments in every cell of the span, its incoming stub) are exactly the lanes
that the call reserved: those unmarked in `ta` and marked in `tb`; they are
still marked when the loop ends; and the call removes no mark that was
present in `ta` (the only mark `routeEdge` clears is its own initial stub).
And if two stored routed edges hold the same lane index of the same
orientation at the same cell, they are the same edge: same node and same
position. -/
theorem lanes_exclusive (cfg : LayoutConfig) (layoutType : LayoutType)
    (blocks : Blocks) (entry : Nat) (hw : WellFormed blocks) (hin : entry ∈ keysOf blocks) :
    ∃ r edges t,
      gridStage layoutType blocks entry = some r ∧
      routeStage r entry = some (edges, t) ∧
      CalculateLayout cfg layoutType blocks entry = some (compileStage cfg r entry edges t) ∧
      routeSeq (nodeCells r.grid r.gridKeys ((r.grid entry).col_count + 1))
        (routeJobs blocks r.grid r.order) noLanes = some t ∧
      (∀ k ∈ r.order,
        (edges k).length = (blockAt blocks k).edges.length ∧
        ∀ (i : Nat) (e0 : GraphEdge), (blockAt blocks k).edges[i]? = some e0 →
          ∃ ta ge tb,
            routeSeq (nodeCells r.grid r.gridKeys ((r.grid entry).col_count + 1))
              (jobsBefore blocks r.grid r.order k i) noLanes = some ta ∧
            routeEdge ta (nodeCells r.grid r.gridKeys ((r.grid entry).col_count + 1))
              (r.grid k) (r.grid e0.target) = some (ge, tb) ∧
            routeSeq (nodeCells r.grid r.gridKeys ((r.grid entry).col_count + 1))
              (jobsBefore blocks r.grid r.order k (i + 1)) noLanes = some tb ∧
            (edges k)[i]? = some ge ∧
            (∀ (o : Bool) (row col : Int) (n : Nat),
              Holds ge o row col n ↔ Reserved ta tb o row col n) ∧
            (∀ (o : Bool) (row col : Int) (n : Nat),
              Reserved ta tb o row col n → t.marked o row col n = true) ∧
            (∀ (o : Bool) (row col : Int) (n : Nat),
              ta.marked o row col n = true → tb.marked o row col n = true)) ∧
      (∀ (k k1 i i1 : Nat) (ea eb : GridEdge),
        (edges k)[i]? = some ea → (edges k1)[i1]? = some eb →
        ∀ (o : Bool) (row col : Int) (n : Nat),
          Holds ea o row col n → Holds eb o row col n → k = k1 ∧ i = i1) := by
  obtain ⟨r, edges, t, hr, ok, hroute, hres⟩ :=
    CalculateLayout_total cfg layoutType blocks entry hw hin
  refine ⟨r, edges, t, hr, hroute, hres, ?_, ?_, ?_⟩
  · have h := routeAll_routeSeq r.blocks r.grid _ r.order _ edges _ t hroute
    rw [ok.blocks_eq] at h
    exact h
  · intro k hk
    refine ⟨(routeStage_at layoutType blocks entry hw r ok edges t hroute k hk).length_eq.symm,
      ?_⟩
    intro i e0 hi
    obtain ⟨ta, ge, tb, h1, h2, h3, h4, h5⟩ := routeStage_call layoutType blocks entry hw r ok
      edges t hroute k hk i e0 hi
    refine ⟨ta, ge, tb, h1, h2, h3, h4, ?_, ?_, ?_⟩
    · intro o row col n
      exact ⟨routeEdge_holds _ _ _ _ _ _ h2 o row col n,
        routeEdge_only _ _ _ _ _ _ h2 o row col n⟩
    · intro o row col n hres
      exact h5 o row col n hres.2
    · intro o row col n hm
      exact routeEdge_mono _ _ _ _ _ _ h2 o row col n hm
  · intro k k1 i i1 ea eb ha hb o row col n hea heb
    exact stage_exclusive layoutType blocks entry hw r ok edges t hroute k k1 i i1 ea eb ha hb
      o row col n hea heb

/-- Witness of C8: the diamond `1 -> 2, 1 -> 3, 2 -> 4, 3 -> 4`, entry 1, under
Medium with margins 10 and 10; the two edges that leave node 1 cross the cell
below it in opposite directions. -/
theorem lanes_exclusive_witness :
    WellFormed diamondMap ∧ 1 ∈ keysOf diamondMap ∧
    ∃ r edges t,
      gridStage LayoutType.Medium diamondMap 1 = some r ∧
      routeStage r 1 = some (edges, t) ∧
      CalculateLayout sampleConfig LayoutType.Medium diamondMap 1
        = some (compileStage sampleConfig r 1 edges t) ∧
      routeSeq (nodeCells r.grid r.gridKeys ((r.grid 1).col_count + 1))
        (routeJobs diamondMap r.grid r.order) noLanes = some t ∧
      (∀ k ∈ r.order,
        (edges k).length = (blockAt diamondMap k).edges.length ∧
        ∀ (i : Nat) (e0 : GraphEdge), (blockAt diamondMap k).edges[i]? = some e0 →
          ∃ ta ge tb,
            routeSeq (nodeCells r.grid r.gridKeys ((r.grid 1).col_count + 1))
              (jobsBefore diamondMap r.grid r.order k i) noLanes = some ta ∧
            routeEdge ta (nodeCells r.grid r.gridKeys ((r.grid 1).col_count + 1))
              (r.grid k) (r.grid e0.target) = some (ge, tb) ∧
            routeSeq (nodeCells r.grid r.gridKeys ((r.grid 1).col_count + 1))
              (jobsBefore diamondMap r.grid r.order k (i + 1)) noLanes = some tb ∧
            (edges k)[i]? = some ge ∧
            (∀ (o : Bool) (row col : Int) (n : Nat),
              Holds ge o row col n ↔ Reserved ta tb o row col n) ∧
            (∀ (o : Bool) (row col : Int) (n : Nat),
              Reserved ta tb o row col n → t.marked o row col n = true) ∧
            (∀ (o : Bool) (row col : Int) (n : Nat),
              ta.marked o row col n = true → tb.marked o row col n = true)) ∧
      (∀ (k k1 i i1 : Nat) (ea eb : GridEdge),
        (edges k)[i]? = some ea → (edges k1)[i1]? = some eb →
        ∀ (o : Bool) (row col : Int) (n : Nat),
          Holds ea o row col n → Holds eb o row col n → k = k1 ∧ i = i1) :=
  ⟨by decide, by decide,
    lanes_exclusive sampleConfig LayoutType.Medium diamondMap 1 (by decide) (by decide)⟩

theorem holds_stub (t : Lanes) (edge_valid : Matrix) (start end_ : GridBlock)
    (ge : GridEdge) (t1 : Lanes) (h : routeEdge t edge_valid start end_ = some (ge, t1)) :
    Holds ge false (start.row + 1) (start.col + 1) ge.start_index := by
  obtain ⟨p0, ps, hp, hrow, hcol⟩ := routeEdge_first _ _ _ _ _ _ h
  left
  refine ⟨rfl, p0, ?_, hrow.symm, hcol.symm, rfl⟩
  rw [hp]
  rfl

/-- C16, amended. On a well-formed node map whose entry is a key,
`CalculateLayout` returns. For edge number `i` of a node `k` of the order, let
`ge` be the routed edge stored for it, which is what the `routeEdge` call of
the routing loop returned from the lane tables `ta` left by all the calls
before it (`jobsBefore`, starting from empty tables). The stored polyline of
the edge starts on the bottom side of the source node,
`y = source.y + source.height`, at the x of the lane of the outgoing stub,
`col_edge_x[source.col + 1] + block_horizontal_margin * ge.start_index +
block_horizontal_margin / 2`; `ge.start_index` is a lane of the cell below the
source that was unmarked in `ta`, that the call marked, and that is still
marked when the loop ends; and, when the target is a key of the map, the last
point of the polyline has `y = destination.y - 1`. Two different edges of one
node never have the same `start_index`. -/
theorem polyline_ends (cfg : LayoutConfig) (layoutType : LayoutType)
    (blocks : Blocks) (entry : Nat) (hw : WellFormed blocks) (hin : entry ∈ keysOf blocks) :
    ∃ r edges t res,
      gridStage layoutType blocks entry = some r ∧
      routeStage r entry = some (edges, t) ∧
      CalculateLayout cfg layoutType blocks entry = some res ∧
      ∀ k ∈ r.order,
        (blockAt res.blocks k).edges.length = (blockAt blocks k).edges.length ∧
        (∀ (i : Nat) (e0 : GraphEdge), (blockAt blocks k).edges[i]? = some e0 →
          ∃ ta ge tb e,
            routeSeq (nodeCells r.grid r.gridKeys ((r.grid entry).col_count + 1))
              (jobsBefore blocks r.grid r.order k i) noLanes = some ta ∧
            routeEdge ta (nodeCells r.grid r.gridKeys ((r.grid entry).col_count + 1))
              (r.grid k) (r.grid e0.target) = some (ge, tb) ∧
            (edges k)[i]? = some ge ∧
            (blockAt res.blocks k).edges[i]? = some e ∧
            Reserved ta tb false ((r.grid k).row + 1) ((r.grid k).col + 1) ge.start_index ∧
            t.marked false ((r.grid k).row + 1) ((r.grid k).col + 1) ge.start_index = true ∧
            e.target = e0.target ∧
            e.polyline.head?
              = some ((stageGeometry cfg r entry t).col_edge_x ((r.grid k).col + 1)
                  + cfg.block_horizontal_margin * (ge.start_index : Int)
                  + Int.tdiv cfg.block_horizontal_margin 2,
                (blockAt res.blocks k).y + (blockAt res.blocks k).height) ∧
            (e0.target ∈ keysOf blocks →
              e.polyline.getLast?.map Prod.snd
                = some ((blockAt res.blocks e0.target).y - 1))) ∧
        (∀ (i i1 : Nat) (ge ge1 : GridEdge),
          (edges k)[i]? = some ge → (edges k)[i1]? = some ge1 → i ≠ i1 →
          ge.start_index ≠ ge1.start_index) := by
  obtain ⟨r, edges, t, hr, ok, hroute, hres⟩ :=
    CalculateLayout_total cfg layoutType blocks entry hw hin
  have hb := ok.blocks_eq
  have hwr : WellFormed r.blocks := by rw [hb]; exact hw
  refine ⟨r, edges, t, _, hr, hroute, hres, ?_⟩
  intro k hk
  have hlen := (routeStage_at layoutType blocks entry hw r ok edges t hroute k hk).length_eq
  have hcr := compileStage_routed cfg layoutType blocks entry hw r ok edges t hroute k hk
  refine ⟨?_, ?_, ?_⟩
  · rw [hcr, List.length_zipWith, ← hlen, Nat.min_self]
  · intro i e0 hi
    obtain ⟨ta, ge, tb, h1, hre, h3, h4, h5⟩ := routeStage_call layoutType blocks entry hw r ok
      edges t hroute k hk i e0 hi
    have hst := routeEdge_holds _ _ _ _ _ _ hre _ _ _ _ (holds_stub _ _ _ _ _ _ hre)
    have he := getElem?_zipWith_some
      (fun (e : GraphEdge) (ge : GridEdge) =>
        ({ e with polyline := (edgePolyline cfg (stageGeometry cfg r entry t)
            (blockAt (placedBlocks cfg r entry t) k)
            (fun d => (blockAt (placedBlocks cfg r entry t) d).y) ge) } : GraphEdge))
      _ _ i e0 ge hi h4
    rw [← hcr] at he
    refine ⟨ta, ge, tb, _, h1, hre, h4, he, hst, h5 _ _ _ _ hst.2, rfl, ?_, ?_⟩
    · dsimp only
      obtain ⟨p0, ps, hp, _, hcol⟩ := routeEdge_first _ _ _ _ _ _ hre
      unfold edgePolyline
      rw [hp]
      simp only
      rw [polylineOf_head, hcol, (compileStage_position cfg r entry edges t hwr k).1,
        (compileStage_position cfg r entry edges t hwr k).2.1]
    · intro hkey
      dsimp only
      obtain ⟨p0, ps, hp, _, _⟩ := routeEdge_first _ _ _ _ _ _ hre
      have hdest : ge.dest = e0.target := by
        rw [(routeEdge_cells _ _ _ _ _ _ hre).1,
          gridStage_id layoutType blocks entry hw hin r hr e0.target, if_pos hkey]
      unfold edgePolyline
      rw [hp]
      simp only
      rw [polylineOf_getLast, hdest, (compileStage_position cfg r entry edges t hwr e0.target).1]
  · intro i i1 ge ge1 hg hg1 hne heq
    have call : ∀ (j : Nat) (e : GridEdge), (edges k)[j]? = some e →
        Holds e false ((r.grid k).row + 1) ((r.grid k).col + 1) e.start_index := by
      intro j e he
      have hj : j < (blockAt blocks k).edges.length := by
        rw [hlen]
        exact (List.getElem?_eq_some_iff.1 he).1
      obtain ⟨ta, ge2, tb, _, h2, _, h4, _⟩ := routeStage_call layoutType blocks entry hw r ok
        edges t hroute k hk j _ (List.getElem?_eq_getElem hj)
      rw [he] at h4
      cases h4
      exact holds_stub _ _ _ _ _ _ h2
    have ha := call i ge hg
    have hb1 := call i1 ge1 hg1
    rw [heq] at ha
    exact hne (stage_exclusive layoutType blocks entry hw r ok edges t hroute k k i i1 ge ge1
      hg hg1 _ _ _ _ ha hb1).2

/-- Witness of C16 amended: node 1 with two edges to node 2, entry 1. -/
theorem polyline_ends_witness :
    WellFormed twinEdgeMap ∧ 1 ∈ keysOf twinEdgeMap ∧
    ∃ r edges t res,
      gridStage LayoutType.Medium twinEdgeMap 1 = some r ∧
      routeStage r 1 = some (edges, t) ∧
      CalculateLayout sampleConfig LayoutType.Medium twinEdgeMap 1 = some res ∧
      ∀ k ∈ r.order,
        (blockAt res.blocks k).edges.length = (blockAt twinEdgeMap k).edges.length ∧
        (∀ (i : Nat) (e0 : GraphEdge), (blockAt twinEdgeMap k).edges[i]? = some e0 →
          ∃ ta ge tb e,
            routeSeq (nodeCells r.grid r.gridKeys ((r.grid 1).col_count + 1))
              (jobsBefore twinEdgeMap r.grid r.order k i) noLanes = some ta ∧
            routeEdge ta (nodeCells r.grid r.gridKeys ((r.grid 1).col_count + 1))
              (r.grid k) (r.grid e0.target) = some (ge, tb) ∧
            (edges k)[i]? = some ge ∧
            (blockAt res.blocks k).edges[i]? = some e ∧
            Reserved ta tb false ((r.grid k).row + 1) ((r.grid k).col + 1) ge.start_index ∧
            t.marked false ((r.grid k).row + 1) ((r.grid k).col + 1) ge.start_index = true ∧
            e.target = e0.target ∧
            e.polyline.head?
              = some ((stageGeometry sampleConfig r 1 t).col_edge_x ((r.grid k).col + 1)
                  + sampleConfig.block_horizontal_margin * (ge.start_index : Int)
                  + Int.tdiv sampleConfig.block_horizontal_margin 2,
                (blockAt res.blocks k).y + (blockAt res.blocks k).height) ∧
            (e0.target ∈ keysOf twinEdgeMap →
              e.polyline.getLast?.map Prod.snd
                = some ((blockAt res.blocks e0.target).y - 1))) ∧
        (∀ (i i1 : Nat) (ge ge1 : GridEdge),
          (edges k)[i]? = some ge → (edges k)[i1]? = some ge1 → i ≠ i1 →
          ge.start_index ≠ ge1.start_index) :=
  ⟨by decide, by decide,
    polyline_ends sampleConfig LayoutType.Medium twinEdgeMap 1 (by decide) (by decide)⟩

/-! ## Segments are drawn on their lanes -/

/-- The left-leaf branch of the two-children rule (lines 312-317), in closed
form: the leaf `l` is put two columns left of `r`, both subtrees are moved
right by `add = max 0 (2 - c)` (with `c` the column of `r`) and one row down,
and the parent gets `col = r.col_count + add`. -/
theorem placeTwo_left_leaf (layoutType : LayoutType) (fuel : Nat) (g g1 : Grid) (n l r : Nat)
    (cc : Int) (htree : IsTree g (fuel + 1) n) (hcs : (g n).tree_edge = [l, r])
    (h1te : ∀ k, (g1 k).tree_edge = (g k).tree_edge) (hleaf : (g l).tree_edge = []) :
    placeTwo layoutType fuel g1 n l r false cc
      = some (finishTwo layoutType
          (shiftOn (subtree g fuel l) (max 0 (2 - (g1 r).col)) 1
            (shiftOn (subtree g fuel r) (max 0 (2 - (g1 r).col)) 1
              (Function.update g1 l { g1 l with col := (g1 r).col - 2 })))
          n l r false cc ((g1 r).col_count + max 0 (2 - (g1 r).col))) := by
  obtain ⟨hfit, hnot, hnd⟩ := isTree_children g fuel n htree
  have hlm : l ∈ (g n).tree_edge := by rw [hcs]; exact List.mem_cons_self _ _
  have hrm : r ∈ (g n).tree_edge := by
    rw [hcs]; exact List.mem_cons_of_mem _ (List.mem_cons_self _ _)
  have tl : IsTree g fuel l := isTree_child g fuel n l htree hlm
  have tr : IsTree g fuel r := isTree_child g fuel n r htree hrm
  rw [hcs] at hnd
  simp only [List.flatMap_cons, List.flatMap_nil, List.append_nil] at hnd
  have hdis : ∀ k, k ∈ subtree g fuel l → k ∉ subtree g fuel r :=
    fun k h1 h2 => (List.nodup_append.1 hnd).2.2 h1 h2
  have sl := self_mem_subtree g fuel l tl.1
  have sr := self_mem_subtree g fuel r tr.1
  have hlr : l ∉ subtree g fuel r := hdis l sl
  have hrl2 : r ≠ l := by
    intro h
    apply hlr
    rw [← h]; exact sr
  have hll : (g1 l).tree_edge.length = 0 := by rw [h1te l, hleaf]; rfl
  unfold placeTwo
  rw [if_pos hll]
  have hteA : ∀ k, ((Function.update g1 l { g1 l with col := (g1 r).col - 2 }) k).tree_edge
      = (g k).tree_edge := by
    intro k
    rw [← h1te k, Function.update_apply]
    split_ifs with hk
    · subst hk; rfl
    · rfl
  have hadd : (if (Function.update g1 l { g1 l with col := (g1 r).col - 2 } l).col < 0
        then - (Function.update g1 l { g1 l with col := (g1 r).col - 2 } l).col else 0)
      = max 0 (2 - (g1 r).col) := by
    rw [Function.update_same]
    show (if (g1 r).col - 2 < 0 then - ((g1 r).col - 2) else 0) = _
    split_ifs with h
    · omega
    · omega
  simp only [hadd]
  have hA1 := adjustGraphLayout_spec fuel
    (Function.update g1 l { g1 l with col := (g1 r).col - 2 }) r (max 0 (2 - (g1 r).col)) 1
    (isTree_congr g _ hteA fuel r tr)
  rw [subtree_congr g _ hteA] at hA1
  have hteB : ∀ k, (shiftOn (subtree g fuel r) (max 0 (2 - (g1 r).col)) 1
      (Function.update g1 l { g1 l with col := (g1 r).col - 2 }) k).tree_edge
        = (g k).tree_edge := fun k => by rw [shiftOn_tree_edge, hteA]
  have hA2 := adjustGraphLayout_spec fuel _ l (max 0 (2 - (g1 r).col)) 1
    (isTree_congr g _ hteB fuel l tl)
  rw [subtree_congr g _ hteB] at hA2
  simp only [hA1, hA2]
  rw [shiftOn_col_count, shiftOn_col_count, Function.update_noteq hrl2]

/-- C12. The leaf rule of `computeBlockPlacement` (lines 309-321), layout types
Narrow and Medium: for a tree node `n` with exactly two tree children `l`
(first) and `r` of which exactly one is a leaf, the call returns, and in the
grid `g1` it leaves, `l` and `r` are on the same row with
`l.col = r.col - 2` and no node of the subtree of `l` or of `r` has a negative
column. When the leaf is `l`, with `g0` the grid after the children were
placed (before the shift) and `c` the column of `r` in it, the subtree of `r`
is moved right by `max 0 (2 - c)` and `n.col_count` is `r.col_count` plus that
shift. -/
theorem leaf_rule (layoutType : LayoutType) (fuel : Nat) (g : Grid) (n l r : Nat)
    (hlt : layoutType ≠ LayoutType.Wide) (htree : IsTree g (fuel + 1) n)
    (hcs : (g n).tree_edge = [l, r])
    (hone : (g l).tree_edge = [] ↔ (g r).tree_edge ≠ []) :
    ∃ g0 rc cc g1,
      placeChildren (computeBlockPlacement layoutType fuel) (g n).tree_edge g 1 0
        = some (g0, rc, cc) ∧
      computeBlockPlacement layoutType (fuel + 1) n g = some g1 ∧
      (g1 l).row = (g1 r).row ∧ (g1 l).col = (g1 r).col - 2 ∧
      (∀ d, InSubtree g l d ∨ InSubtree g r d → 0 ≤ (g1 d).col) ∧
      ((g l).tree_edge = [] →
        (g1 r).col = (g0 r).col + max 0 (2 - (g0 r).col) ∧
        (g1 r).col_count = (g0 r).col_count ∧
        (g1 n).col_count = (g1 r).col_count + max 0 (2 - (g0 r).col)) := by
  obtain ⟨hfit, hnot, hnd⟩ := isTree_children g fuel n htree
  obtain ⟨g0, rc, cc, hrun, t1, t2, t3, t4, t5, t6⟩ :=
    placeChildren_spec layoutType fuel (computeBlockPlacement_ok layoutType fuel)
      (g n).tree_edge g 1 0 hfit hnd
  obtain ⟨g4, h4, ok⟩ := placeTwo_ok layoutType fuel g g0 n l r rc cc hlt htree hcs t1 t2 t3
    t4 t5
  have hlm : l ∈ (g n).tree_edge := by rw [hcs]; exact List.mem_cons_self _ _
  have hrm : r ∈ (g n).tree_edge := by
    rw [hcs]; exact List.mem_cons_of_mem _ (List.mem_cons_self _ _)
  have hsc : decide ((g n).tree_edge.length = 1) = false := by rw [hcs]; rfl
  have hd : decide (layoutType ≠ LayoutType.Wide) = true := decide_eq_true hlt
  have hres : computeBlockPlacement layoutType (fuel + 1) n g
      = some (Function.update g4 n { g4 n with row := 0, row_count := rc }) := by
    unfold computeBlockPlacement
    simp only [hrun, hsc]
    simp only [hcs, hd, h4]
  obtain ⟨o1, o2, o3, o4, o5⟩ := ok
  have hln : l ≠ n := by
    rintro rfl
    exact hnot (List.mem_flatMap.2 ⟨l, hlm, self_mem_subtree g fuel l (hfit l hlm)⟩)
  have hrn : r ≠ n := by
    rintro rfl
    exact hnot (List.mem_flatMap.2 ⟨r, hrm, self_mem_subtree g fuel r (hfit r hrm)⟩)
  have hsep := (o5 n Relation.ReflTransGen.refl).2
    ((tucked_congr layoutType g _ o1 n).2 ((tucked_pair layoutType g n l r hlt hcs).2 hone))
    l r (by rw [o1, hcs])
  refine ⟨g0, rc, cc, _, hrun, hres, hsep.2, by omega, ?_, ?_⟩
  · intro d hd
    have hin : InSubtree g n d := by
      rcases hd with h | h
      · exact inSubtree_child g n l d hlm h
      · exact inSubtree_child g n r d hrm h
    exact (o3.2.2.2 d ((inSubtree_congr g _ o1 n d).2 hin)).1
  · intro hleaf
    have h5 := placeTwo_left_leaf layoutType fuel g g0 n l r cc htree hcs t1 hleaf
    rw [h4] at h5
    have h6 := Option.some.inj h5
    have tr : IsTree g fuel r := isTree_child g fuel n r htree hrm
    have sr := self_mem_subtree g fuel r tr.1
    have hsl : subtree g fuel l = [l] := subtree_leaf g fuel l (hfit l hlm) hleaf
    have hrl : r ∉ subtree g fuel l := by
      rw [hsl, List.mem_singleton]
      rintro rfl
      rw [hcs] at hnd
      simp only [List.flatMap_cons, List.flatMap_nil, List.append_nil] at hnd
      exact (List.nodup_append.1 hnd).2.2 (self_mem_subtree g fuel r (hfit r hrm)) sr
    have hrl2 : r ≠ l := by
      intro h
      apply hrl
      rw [hsl, h]
      exact List.mem_singleton_self _
    have hr4 : g4 r = (g0 r).move (max 0 (2 - (g0 r).col)) 1 := by
      rw [h6, finishTwo_of_ne _ _ _ _ _ _ _ _ _ hrn, shiftOn_of_not_mem _ _ _ _ _ hrl,
        shiftOn_of_mem _ _ _ _ _ sr, Function.update_noteq hrl2]
    have hn4 := (finishTwo_self layoutType
      (shiftOn (subtree g fuel l) (max 0 (2 - (g0 r).col)) 1
        (shiftOn (subtree g fuel r) (max 0 (2 - (g0 r).col)) 1
          (Function.update g0 l { g0 l with col := (g0 r).col - 2 })))
      n l r cc ((g0 r).col_count + max 0 (2 - (g0 r).col)) hln hrn).1
    rw [← h6] at hn4
    have hcr := (t3 r hrm).1.2.1
    rw [Function.update_noteq hrn, Function.update_same, hr4]
    refine ⟨rfl, rfl, ?_⟩
    show (g4 n).col_count = (g0 r).col_count + max 0 (2 - (g0 r).col)
    rw [hn4]
    omega

/-- Witness for `leaf_rule`: node 1 of `sampleTree`, whose children are the
leaf 2 and node 3 with three children, under Narrow. -/
theorem leaf_rule_witness :
    LayoutType.Narrow ≠ LayoutType.Wide ∧ IsTree sampleTree (2 + 1) 1 ∧
    (sampleTree 1).tree_edge = [2, 3] ∧
    ((sampleTree 2).tree_edge = [] ↔ (sampleTree 3).tree_edge ≠ []) ∧
    ∃ g0 rc cc g1,
      placeChildren (computeBlockPlacement LayoutType.Narrow 2) (sampleTree 1).tree_edge
        sampleTree 1 0 = some (g0, rc, cc) ∧
      computeBlockPlacement LayoutType.Narrow (2 + 1) 1 sampleTree = some g1 ∧
      (g1 2).row = (g1 3).row ∧ (g1 2).col = (g1 3).col - 2 ∧
      (∀ d, InSubtree sampleTree 2 d ∨ InSubtree sampleTree 3 d → 0 ≤ (g1 d).col) ∧
      ((sampleTree 2).tree_edge = [] →
        (g1 3).col = (g0 3).col + max 0 (2 - (g0 3).col) ∧
        (g1 3).col_count = (g0 3).col_count ∧
        (g1 1).col_count = (g1 3).col_count + max 0 (2 - (g0 3).col)) :=
  ⟨by decide, by decide, by decide, by decide,
    leaf_rule LayoutType.Narrow 2 sampleTree 1 2 3 (by decide) (by decide) (by decide)
      (by decide)⟩

/-- The side-by-side rule of `computeBlockPlacement` (lines 333-348) in closed
form, for a node with at least one tree child that is not handled by the
two-children rule: where each subtree goes, and the column count and the
column of the node. -/
theorem computeBlockPlacement_row (layoutType : LayoutType) (fuel : Nat) (g : Grid) (n : Nat)
    (htree : IsTree g (fuel + 1) n)
    (hrule : layoutType = LayoutType.Wide ∨ (g n).tree_edge.length ≠ 2)
    (hk : (g n).tree_edge ≠ []) :
    ∃ g0 rc cc g1,
      placeChildren (computeBlockPlacement layoutType fuel) (g n).tree_edge g 1 0
        = some (g0, rc, cc) ∧
      computeBlockPlacement layoutType (fuel + 1) n g = some g1 ∧
      (∀ pre c post, (g n).tree_edge = pre ++ c :: post → ∀ d, InSubtree g c d →
        g1 d = (g0 d).move ((pre.map (fun x => (g0 x).col_count)).sum) 1 ∧
        (pre.map (fun x => (g0 x).col_count)).sum ≤ (g1 d).col ∧
        (g1 d).col + 2 ≤ (pre.map (fun x => (g0 x).col_count)).sum + (g0 c).col_count) ∧
      (∀ c ∈ (g n).tree_edge,
        (g1 c).row = (g1 n).row + 1 ∧ (g1 c).col_count = (g0 c).col_count) ∧
      (g1 n).row = 0 ∧
      (g1 n).col_count = ((g n).tree_edge.map (fun x => (g1 x).col_count)).sum ∧
      (∀ c, (g n).tree_edge = [c] → (g1 n).col = (g1 c).col) ∧
      ((g n).tree_edge.length ≠ 1 → (g1 n).col = Int.tdiv ((g1 n).col_count - 2) 2) := by
  obtain ⟨hfit, hnot, hnd⟩ := isTree_children g fuel n htree
  obtain ⟨g0, rc, cc, hrun, t1, t2, t3, t4, t5, t6⟩ :=
    placeChildren_spec layoutType fuel (computeBlockPlacement_ok layoutType fuel)
      (g n).tree_edge g 1 0 hfit hnd
  have hsub : (g n).tree_edge.flatMap (subtree g0 fuel)
      = (g n).tree_edge.flatMap (subtree g fuel) :=
    List.flatMap_congr (fun x _ => subtree_congr g g0 t1 fuel x)
  obtain ⟨g2, hrun2, s1, s2, s3⟩ := sideBySide_spec fuel (g n).tree_edge g0 0
    (fun c hc => by rw [fits_congr g g0 t1]; exact hfit c hc) (by rw [hsub]; exact hnd)
  have hcc2 : ∀ c ∈ (g n).tree_edge, 2 ≤ (g0 c).col_count := fun c hc => (t3 c hc).1.2.1
  have hsum : 2 ≤ 0 + ((g n).tree_edge.map (fun c => (g0 c).col_count)).sum := by
    cases hcs : (g n).tree_edge with
    | nil => exact absurd hcs hk
    | cons c cs =>
      have h1 := hcc2 c (by rw [hcs]; exact List.mem_cons_self _ _)
      have h2 := sum_col_count_nonneg g0 cs
        (fun x hx => hcc2 x (by rw [hcs]; exact List.mem_cons_of_mem _ hx))
      rw [List.map_cons, List.sum_cons]
      omega
  have hrow : placeRow fuel g0 n (g n).tree_edge (decide ((g n).tree_edge.length = 1)) cc
      = some (Function.update g2 n
          { g2 n with
            col := (if decide ((g n).tree_edge.length = 1) then cc
              else Int.tdiv (0 + ((g n).tree_edge.map (fun c => (g0 c).col_count)).sum - 2) 2),
            col_count := 0 + ((g n).tree_edge.map (fun c => (g0 c).col_count)).sum }) := by
    unfold placeRow
    simp only [hrun2]
    rw [if_pos hsum]
  have hres : computeBlockPlacement layoutType (fuel + 1) n g
      = some (Function.update
          (Function.update g2 n
            { g2 n with
              col := (if decide ((g n).tree_edge.length = 1) then cc
                else Int.tdiv (0 + ((g n).tree_edge.map (fun c => (g0 c).col_count)).sum - 2) 2),
              col_count := 0 + ((g n).tree_edge.map (fun c => (g0 c).col_count)).sum })
          n
          { (Function.update g2 n
            { g2 n with
              col := (if decide ((g n).tree_edge.length = 1) then cc
                else Int.tdiv (0 + ((g n).tree_edge.map (fun c => (g0 c).col_count)).sum - 2) 2),
              col_count := 0 + ((g n).tree_edge.map (fun c => (g0 c).col_count)).sum }) n with
            row := 0, row_count := rc }) := by
    unfold computeBlockPlacement
    simp only [hrun]
    have hno : ∀ l r, decide (layoutType ≠ LayoutType.Wide) = true →
        (g n).tree_edge = [l, r] → False := by
      intro l r hd hcs
      rcases hrule with h | h
      · rw [h] at hd
        simp at hd
      · exact h (by rw [hcs]; rfl)
    split
    · rename_i heq
      split at heq
      · rename_i l r hd hcs
        exact (hno l r hd hcs).elim
      · rw [hrow] at heq
        cases heq
    · rename_i g3 heq
      split at heq
      · rename_i l r hd hcs
        exact (hno l r hd hcs).elim
      · rw [hrow] at heq
        cases heq
        rfl
  have hmove : ∀ pre c post, (g n).tree_edge = pre ++ c :: post → ∀ d, InSubtree g c d →
      d ≠ n ∧ g2 d = (g0 d).move ((pre.map (fun x => (g0 x).col_count)).sum) 1 := by
    intro pre c post hs d hd
    have hc : c ∈ (g n).tree_edge := by
      rw [hs]; exact List.mem_append_right _ (List.mem_cons_self _ _)
    have hd1 : d ∈ subtree g fuel c := (mem_subtree_iff g fuel c d (hfit c hc)).2 hd
    have hdn : d ≠ n := by
      rintro rfl
      exact hnot (List.mem_flatMap.2 ⟨c, hc, hd1⟩)
    refine ⟨hdn, ?_⟩
    have := s3 pre c post hs d (by rw [subtree_congr g g0 t1]; exact hd1)
    rw [this, zero_add]
  have hchild : ∀ c ∈ (g n).tree_edge, c ≠ n ∧ ∃ off, g2 c = (g0 c).move off 1 := by
    intro c hc
    obtain ⟨pre, post, hs⟩ := List.append_of_mem hc
    obtain ⟨h1, h2⟩ := hmove pre c post hs c Relation.ReflTransGen.refl
    exact ⟨h1, _, h2⟩
  refine ⟨g0, rc, cc, _, hrun, hres, ?_, ?_, ?_, ?_, ?_, ?_⟩
  · intro pre c post hs d hd
    obtain ⟨hdn, h2⟩ := hmove pre c post hs d hd
    have hc : c ∈ (g n).tree_edge := by
      rw [hs]; exact List.mem_append_right _ (List.mem_cons_self _ _)
    have hb := (t3 c hc).1.2.2.2 d ((inSubtree_congr g g0 t1 c d).2 hd)
    rw [Function.update_noteq hdn, Function.update_noteq hdn, h2]
    refine ⟨rfl, ?_, ?_⟩
    · show _ ≤ (g0 d).col + _
      omega
    · show (g0 d).col + _ + 2 ≤ _
      omega
  · intro c hc
    obtain ⟨hcn, off, h2⟩ := hchild c hc
    have hr0 := (t3 c hc).1.1
    rw [Function.update_noteq hcn, Function.update_noteq hcn, h2, Function.update_same]
    refine ⟨?_, rfl⟩
    show (g0 c).row + 1 = 0 + 1
    rw [hr0]
  · rw [Function.update_same]
  · rw [Function.update_same, Function.update_same]
    show 0 + ((g n).tree_edge.map (fun c => (g0 c).col_count)).sum = _
    rw [zero_add]
    refine congrArg List.sum (List.map_congr_left ?_)
    intro c hc
    obtain ⟨hcn, off, h2⟩ := hchild c hc
    rw [Function.update_noteq hcn, Function.update_noteq hcn, h2]
    rfl
  · intro c hc
    have hcm : c ∈ (g n).tree_edge := by rw [hc]; exact List.mem_singleton_self _
    obtain ⟨hcn, h2⟩ := hmove [] c [] (by rw [hc]; rfl) c Relation.ReflTransGen.refl
    have hcc := t6 c (by rw [hc]; rfl)
    have hl1 : (g n).tree_edge.length = 1 := by rw [hc]; rfl
    rw [Function.update_same, Function.update_same, Function.update_noteq hcn,
      Function.update_noteq hcn, h2]
    simp only [hl1, decide_True, if_true]
    show cc = (g0 c).col + _
    rw [hcc]
    simp
  · intro hl1
    rw [Function.update_same, Function.update_same]
    simp only [hl1, decide_False, Bool.false_eq_true, if_false]

/-- C13. The side-by-side rule of `computeBlockPlacement` (lines 333-348): for
a tree node `n` with at least one tree child that is not handled by the
two-children rule (layout type Wide, or a number of children other than two),
the call returns; with `g0` the grid after the children were placed and `g1`
the grid it leaves, the subtree of each child `c` is moved one row down and
right by the sum of the column counts of the children before `c`, so that it
lies in the column band that starts at that sum and is `c.col_count` wide;
every child is on the row below `n`; `n.col_count` is the sum of the column
counts of all children; `n.col` is the column of the child when there is one
child and `(n.col_count - 2) / 2` otherwise. -/
theorem side_by_side_rule (layoutType : LayoutType) (fuel : Nat) (g : Grid) (n : Nat)
    (htree : IsTree g (fuel + 1) n)
    (hrule : layoutType = LayoutType.Wide ∨ (g n).tree_edge.length ≠ 2)
    (hk : (g n).tree_edge ≠ []) :
    ∃ g0 rc cc g1,
      placeChildren (computeBlockPlacement layoutType fuel) (g n).tree_edge g 1 0
        = some (g0, rc, cc) ∧
      computeBlockPlacement layoutType (fuel + 1) n g = some g1 ∧
      (∀ pre c post, (g n).tree_edge = pre ++ c :: post → ∀ d, InSubtree g c d →
        g1 d = (g0 d).move ((pre.map (fun x => (g0 x).col_count)).sum) 1 ∧
        (pre.map (fun x => (g0 x).col_count)).sum ≤ (g1 d).col ∧
        (g1 d).col + 2 ≤ (pre.map (fun x => (g0 x).col_count)).sum + (g0 c).col_count) ∧
      (∀ c ∈ (g n).tree_edge,
        (g1 c).row = (g1 n).row + 1 ∧ (g1 c).col_count = (g0 c).col_count) ∧
      (g1 n).row = 0 ∧
      (g1 n).col_count = ((g n).tree_edge.map (fun x => (g1 x).col_count)).sum ∧
      (∀ c, (g n).tree_edge = [c] → (g1 n).col = (g1 c).col) ∧
      ((g n).tree_edge.length ≠ 1 → (g1 n).col = Int.tdiv ((g1 n).col_count - 2) 2) :=
  computeBlockPlacement_row layoutType fuel g n htree hrule hk

/-- Witness for `side_by_side_rule`: node 1 of `fanTree` with its three leaf
children, under Wide; and the fan-out `1 -> 2, 1 -> 3, 1 -> 4` laid out from
node 1 under each layout type puts nodes 2, 3, 4 at columns 0, 2, 4 on row 1
and node 1 at column 2 on row 0. -/
theorem side_by_side_rule_witness :
    IsTree fanTree (1 + 1) 1 ∧
    (LayoutType.Wide = LayoutType.Wide ∨ (fanTree 1).tree_edge.length ≠ 2) ∧
    (fanTree 1).tree_edge ≠ [] ∧
    (gridStage LayoutType.Narrow fanMap 1).map (fun r => cellsAt r.grid [1, 2, 3, 4])
      = some [(0, 2), (1, 0), (1, 2), (1, 4)] ∧
    (gridStage LayoutType.Medium fanMap 1).map (fun r => cellsAt r.grid [1, 2, 3, 4])
      = some [(0, 2), (1, 0), (1, 2), (1, 4)] ∧
    (gridStage LayoutType.Wide fanMap 1).map (fun r => cellsAt r.grid [1, 2, 3, 4])
      = some [(0, 2), (1, 0), (1, 2), (1, 4)] ∧
    ∃ g0 rc cc g1,
      placeChildren (computeBlockPlacement LayoutType.Wide 1) (fanTree 1).tree_edge fanTree 1 0
        = some (g0, rc, cc) ∧
      computeBlockPlacement LayoutType.Wide (1 + 1) 1 fanTree = some g1 ∧
      (∀ pre c post, (fanTree 1).tree_edge = pre ++ c :: post → ∀ d, InSubtree fanTree c d →
        g1 d = (g0 d).move ((pre.map (fun x => (g0 x).col_count)).sum) 1 ∧
        (pre.map (fun x => (g0 x).col_count)).sum ≤ (g1 d).col ∧
        (g1 d).col + 2 ≤ (pre.map (fun x => (g0 x).col_count)).sum + (g0 c).col_count) ∧
      (∀ c ∈ (fanTree 1).tree_edge,
        (g1 c).row = (g1 1).row + 1 ∧ (g1 c).col_count = (g0 c).col_count) ∧
      (g1 1).row = 0 ∧
      (g1 1).col_count = ((fanTree 1).tree_edge.map (fun x => (g1 x).col_count)).sum ∧
      (∀ c, (fanTree 1).tree_edge = [c] → (g1 1).col = (g1 c).col) ∧
      ((fanTree 1).tree_edge.length ≠ 1 → (g1 1).col = Int.tdiv ((g1 1).col_count - 2) 2) :=
  ⟨by decide, by decide, by decide, by decide, by decide, by decide,
    side_by_side_rule LayoutType.Wide 1 fanTree 1 (by decide) (by decide) (by decide)⟩

/-- C14, as stated, fails. On the diamond `1 -> 2, 1 -> 3, 2 -> 4, 3 -> 4` laid
out from node 1 under Medium, nodes 2 and 3 do get the same row, but node 4 is
not at the midpoint of their columns: node 2 is at column 0, node 3 at column
2, and node 4 at column 2, the column of node 3, while the midpoint is 1. -/
theorem diamond_join_not_at_midpoint :
    ∃ r, gridStage LayoutType.Medium diamondMap 1 = some r ∧
      (r.grid 2).row = (r.grid 3).row ∧
      (r.grid 2).col = 0 ∧ (r.grid 3).col = 2 ∧ (r.grid 4).col = 2 ∧
      (r.grid 4).col ≠ Int.tdiv ((r.grid 2).col + (r.grid 3).col) 2 := by
  decide

/-- C14, amended. On the diamond `1 -> 2, 1 -> 3, 2 -> 4, 3 -> 4` laid out from
node 1 under Medium, node 4 is the tree child of node 3 alone (node 2 has no
tree child); nodes 2 and 3 are on row 1, two columns apart; node 4 is on row 2
in the column of node 3; and it is node 1, on row 0, whose column is the
midpoint of the columns of nodes 2 and 3. -/
theorem diamond_medium_layout :
    ∃ r, gridStage LayoutType.Medium diamondMap 1 = some r ∧
      (r.grid 1).tree_edge = [2, 3] ∧ (r.grid 2).tree_edge = [] ∧
      (r.grid 3).tree_edge = [4] ∧
      cellsAt r.grid [1, 2, 3, 4] = [(0, 1), (1, 0), (1, 2), (2, 2)] ∧
      (r.grid 2).row = (r.grid 3).row ∧
      (r.grid 4).col = (r.grid 3).col ∧
      (r.grid 1).col = Int.tdiv ((r.grid 2).col + (r.grid 3).col) 2 := by
  decide

theorem pushIncoming_incoming (src : Nat) (es : List GraphEdge) (g : Grid) (c : Nat) :
    ((es.foldl (pushIncoming src) g) c).incoming
      = (g c).incoming ++ (es.filter (fun e => decide (e.target = c))).map (fun _ => src) := by
  induction es generalizing g with
  | nil => simp
  | cons e es ih =>
    rw [List.foldl_cons, ih]
    unfold pushIncoming
    by_cases h : e.target = c
    · subst h
      rw [Function.update_same, List.filter_cons_of_pos (by simp)]
      simp
    · rw [Function.update_noteq (Ne.symm h), List.filter_cons_of_neg (by simpa using h)]

/-- The incoming list of `c` after the loop at lines 23-28: the sources of the
edges into `c`, appended to what was there. -/
theorem populateIncoming_incoming (blocks : Blocks) (g : Grid) (c : Nat) :
    ((populateIncoming blocks g) c).incoming = (g c).incoming ++ sourcesOf blocks c := by
  unfold populateIncoming sourcesOf
  induction blocks generalizing g with
  | nil => simp
  | cons kb blocks ih =>
    rw [List.foldl_cons, ih, pushIncoming_incoming, List.flatMap_cons, List.append_assoc]

theorem visitEdge_incoming (blocks : Blocks) (src : Nat) (s : TopoState) (e : GraphEdge)
    (c : Nat) (hc : c ≠ e.target) :
    ((visitEdge blocks src s e).grid c).incoming = (s.grid c).incoming := by
  have hup : ∀ inc, (Function.update s.grid e.target
      { s.grid e.target with incoming := inc }) c = s.grid c :=
    fun inc => Function.update_noteq hc _ _
  unfold visitEdge
  simp only
  by_cases h1 : e.target ∈ s.visited
  · rw [if_pos h1]
  · rw [if_neg h1]
    by_cases h2 : (!hasKey blocks e.target) = true
    · rw [if_pos h2]
    · rw [if_neg h2]
      by_cases h3 : (s.grid e.target).incoming.length = 1
      · rw [if_pos h3]
        simp only
        by_cases h4 : c = src
        · subst h4
          rw [Function.update_same]
          simp only
          rw [hup]
        · rw [Function.update_noteq h4, hup]
      · rw [if_neg h3]
        simp only
        rw [hup]

/-- One pass of the body of the edge loop when every unvisited key has one
incoming entry: the target, if a key, is visited afterwards. -/
theorem visitEdge_one (blocks : Blocks) (src : Nat) (s : TopoState) (e : GraphEdge)
    (h : OneIncoming blocks s) :
    OneIncoming blocks (visitEdge blocks src s e) ∧
    (∀ x ∈ s.visited, x ∈ (visitEdge blocks src s e).visited) ∧
    (e.target ∈ keysOf blocks → e.target ∈ (visitEdge blocks src s e).visited) := by
  have hinc := visitEdge_incoming blocks src s e
  by_cases h1 : e.target ∈ s.visited
  · have hs : visitEdge blocks src s e = s := by
      unfold visitEdge
      simp only
      rw [if_pos h1]
    rw [hs]
    exact ⟨h, fun x hx => hx, fun _ => h1⟩
  · by_cases h2 : e.target ∈ keysOf blocks
    · have h3 := h e.target h2 h1
      have hv : (visitEdge blocks src s e).visited = e.target :: s.visited := by
        unfold visitEdge
        simp only
        rw [if_neg h1, if_neg (by simpa using (hasKey_iff blocks e.target).2 h2), if_pos h3]
      refine ⟨?_, ?_, ?_⟩
      · intro c hck hcv
        rw [hv, List.mem_cons, not_or] at hcv
        rw [hinc c hcv.1]
        exact h c hck hcv.2
      · intro x hx
        rw [hv]
        exact List.mem_cons_of_mem _ hx
      · intro _
        rw [hv]
        exact List.mem_cons_self _ _
    · have hs : visitEdge blocks src s e = s := by
        unfold visitEdge
        simp only
        rw [if_neg h1, if_pos (by simpa using fun hk => h2 ((hasKey_iff blocks e.target).1 hk))]
      rw [hs]
      exact ⟨h, fun x hx => hx, fun hk => absurd hk h2⟩

theorem visitEdges_order (blocks : Blocks) (src : Nat) (es : List GraphEdge) (s : TopoState) :
    (es.foldl (visitEdge blocks src) s).block_order = s.block_order := by
  induction es generalizing s with
  | nil => rfl
  | cons e es ih =>
    rw [List.foldl_cons, ih]
    exact (visitEdge_spec blocks src s e).1

theorem visitEdges_one (blocks : Blocks) (src : Nat) (es : List GraphEdge) (s : TopoState)
    (h : OneIncoming blocks s) :
    OneIncoming blocks (es.foldl (visitEdge blocks src) s) ∧
    (∀ x ∈ s.visited, x ∈ (es.foldl (visitEdge blocks src) s).visited) ∧
    (∀ e ∈ es, e.target ∈ keysOf blocks →
      e.target ∈ (es.foldl (visitEdge blocks src) s).visited) := by
  induction es generalizing s with
  | nil => exact ⟨h, fun x hx => hx, fun e he => by cases he⟩
  | cons e es ih =>
    rw [List.foldl_cons]
    obtain ⟨a1, a2, a3⟩ := visitEdge_one blocks src s e h
    obtain ⟨b1, b2, b3⟩ := ih (visitEdge blocks src s e) a1
    refine ⟨b1, fun x hx => b2 x (a2 x hx), ?_⟩
    intro e1 he1 hk
    rcases List.mem_cons.1 he1 with rfl | he1
    · exact b2 _ (a3 hk)
    · exact b3 e1 he1 hk

/-- The loop that empties the queue, when every unvisited key has one incoming
entry: afterwards every edge of an ordered node that leads to a key leads to a
visited node. -/
theorem drain_one (blocks : Blocks) (hw : WellFormed blocks) (entry : Nat) (fuel : Nat)
    (s s1 : TopoState) (hrun : drain blocks fuel s = some s1)
    (hinv : TopoInv blocks entry s) (h1 : OneIncoming blocks s) (h2 : EdgesMet blocks s) :
    OneIncoming blocks s1 ∧ EdgesMet blocks s1 := by
  induction fuel generalizing s with
  | zero =>
    unfold drain at hrun
    cases hq : s.queue with
    | nil =>
      rw [hq] at hrun
      simp only [Option.some.injEq] at hrun
      rw [← hrun]
      exact ⟨h1, h2⟩
    | cons q rest =>
      rw [hq] at hrun
      cases hrun
  | succ fuel ih =>
    unfold drain at hrun
    cases hq : s.queue with
    | nil =>
      rw [hq] at hrun
      simp only [Option.some.injEq] at hrun
      rw [← hrun]
      exact ⟨h1, h2⟩
    | cons q rest =>
      rw [hq] at hrun
      simp only at hrun
      have hqseq : q ∈ s.seq := by
        unfold TopoState.seq
        rw [hq]
        exact List.mem_append_right _ (List.mem_cons_self _ _)
      have hqk : q ∈ keysOf blocks := hinv.keys q hqseq
      have hent : (blockAt blocks q).entry = q := blockAt_entry blocks hw q hqk
      have hpop : TopoInv blocks entry
          { s with queue := rest, block_order := s.block_order ++ [(blockAt blocks q).entry] } :=
        hinv.pop q rest hq (by rw [hent]) rfl rfl (fun _ => rfl)
      have hsrc : (blockAt blocks q).entry ∈
          ({ s with queue := rest,
                    block_order := s.block_order ++ [(blockAt blocks q).entry] } : TopoState).seq := by
        unfold TopoState.seq
        exact List.mem_append_left _ (List.mem_append_right _ (List.mem_singleton_self _))
      obtain ⟨a1, _⟩ := visitEdges_inv blocks hw entry (blockAt blocks q).entry
        (blockAt blocks q).edges _ hpop hsrc (by rw [hent]; exact fun e he => he)
      obtain ⟨b1, b2, b3⟩ := visitEdges_one blocks (blockAt blocks q).entry
        (blockAt blocks q).edges
        { s with queue := rest, block_order := s.block_order ++ [(blockAt blocks q).entry] } h1
      refine ih _ hrun a1 b1 ?_
      intro p hp e he hk
      rw [visitEdges_order] at hp
      rcases List.mem_append.1 hp with hp | hp
      · exact b2 _ (h2 p hp e he hk)
      · rw [List.mem_singleton] at hp
        rw [hp, hent] at he
        exact b3 e he hk

theorem adoptBest_one (blocks : Blocks) (s : TopoState) (b : Best)
    (h1 : OneIncoming blocks s) (h2 : EdgesMet blocks s) :
    OneIncoming blocks (adoptBest s b) ∧ EdgesMet blocks (adoptBest s b) := by
  unfold adoptBest
  by_cases hb : b.best ≠ 0
  · rw [if_pos hb]
    refine ⟨?_, ?_⟩
    · intro c hck hcv
      simp only [List.mem_cons, not_or] at hcv
      have hup : ∀ inc, (Function.update s.grid b.best
          { s.grid b.best with incoming := inc }) c = s.grid c :=
        fun inc => Function.update_noteq hcv.1 _ _
      simp only
      by_cases h3 : c = b.best_parent
      · subst h3
        rw [Function.update_same]
        simp only
        rw [hup]
        exact h1 _ hck hcv.2
      · rw [Function.update_noteq h3, hup]
        exact h1 c hck hcv.2
    · intro p hp e he hk
      exact List.mem_cons_of_mem _ (h2 p hp e he hk)
  · rw [if_neg hb]
    exact ⟨h1, h2⟩

/-- The loop `while (changed)`, when every unvisited key has one incoming
entry: at the end every edge of an ordered node that leads to a key leads to a
visited node. -/
theorem mainLoop_one (blocks : Blocks) (hw : WellFormed blocks) (entry : Nat) (fuel : Nat)
    (s s1 : TopoState) (hrun : mainLoop blocks fuel s = some s1)
    (hinv : TopoInv blocks entry s) (h1 : OneIncoming blocks s) (h2 : EdgesMet blocks s) :
    OneIncoming blocks s1 ∧ EdgesMet blocks s1 := by
  induction fuel generalizing s with
  | zero =>
    unfold mainLoop at hrun
    cases hrun
  | succ fuel ih =>
    have h0 : TopoInv blocks entry { s with changed := false } :=
      hinv.same rfl rfl rfl (fun _ => rfl)
    obtain ⟨sd, d1, d2, _⟩ := drain_inv blocks hw entry
      (s.queue.length + unvisitedCount blocks s.visited) { s with changed := false } h0
      (le_refl _)
    obtain ⟨e1, e2⟩ := drain_one blocks hw entry _ _ sd d1 h0 h1 h2
    obtain ⟨f1, f2⟩ := adoptBest_one blocks sd (scanBlocks blocks sd) e1 e2
    unfold mainLoop at hrun
    rw [d1] at hrun
    simp only at hrun
    by_cases hc : (adoptBest sd (scanBlocks blocks sd)).changed = true
    · rw [if_pos hc] at hrun
      refine ih _ hrun ?_ f1 f2
      by_cases hb : (scanBlocks blocks sd).best ≠ 0
      · obtain ⟨c1, c2, c3, c4⟩ := scanBlocks_spec blocks hw sd hb
        obtain ⟨a1, a2, a3, a4, a5⟩ := adoptBest_spec sd (scanBlocks blocks sd) hb
        exact d2.add_child _ _ ((d2.visited_iff _).1 c3) c1 c2 c4 a1 a2 a3 a5
      · have hsame : adoptBest sd (scanBlocks blocks sd) = sd := by
          unfold adoptBest
          rw [if_neg hb]
        rw [hsame]
        exact d2
    · rw [if_neg hc] at hrun
      simp only [Option.some.injEq] at hrun
      rw [← hrun]
      exact ⟨f1, f2⟩

theorem length_flatMap_one {α β : Type} (l : List α) (f : α → List β) (p : α) (hp : p ∈ l)
    (hnd : l.Nodup) (h1 : (f p).length = 1) (h0 : ∀ a ∈ l, a ≠ p → f a = []) :
    (l.flatMap f).length = 1 := by
  induction l with
  | nil => cases hp
  | cons x xs ih =>
    rw [List.nodup_cons] at hnd
    rw [List.flatMap_cons, List.length_append]
    by_cases hx : x = p
    · subst hx
      have hnil : xs.flatMap f = [] := by
        rw [List.flatMap_eq_nil_iff]
        intro a ha
        exact h0 a (List.mem_cons_of_mem _ ha) (fun h => hnd.1 (h ▸ ha))
      rw [hnil, h1]
      rfl
    · rw [h0 x (List.mem_cons_self _ _) hx]
      have hp2 : p ∈ xs := by
        rcases List.mem_cons.1 hp with h | h
        · exact absurd h.symm hx
        · exact h
      rw [ih hp2 hnd.2 (fun a ha => h0 a (List.mem_cons_of_mem _ ha))]
      rfl

/-- In a chain the only node with an edge to the node at position `i + 1` is
the node at position `i`. -/
theorem chain_pred_unique (blocks : Blocks) (ns : List Nat) (hc : IsChainMap blocks ns)
    (a : Nat) (ha : a ∈ ns) (i : Nat) (hi : i + 1 < ns.length)
    (h : ns[i + 1] ∈ targetsOf blocks a) : a = ns[i] := by
  obtain ⟨_, hnd, _, _, hch⟩ := hc
  obtain ⟨j, hj, rfl⟩ := List.mem_iff_getElem.1 ha
  rw [hch j hj] at h
  rw [Option.mem_toList, Option.mem_def] at h
  obtain ⟨hj1, hj2⟩ := List.getElem?_eq_some_iff.1 h
  have := (List.Nodup.getElem_inj_iff hnd).1 hj2
  have hji : j = i := by omega
  subst hji
  rfl

/-- In a chain every node but the first is the target of exactly one edge. -/
theorem chain_sources (blocks : Blocks) (ns : List Nat) (hc : IsChainMap blocks ns)
    (i : Nat) (hi : i + 1 < ns.length) : (sourcesOf blocks ns[i + 1]).length = 1 := by
  have hc0 := hc
  obtain ⟨hw, hnd, hk1, hk2, hch⟩ := hc
  have hi0 : i < ns.length := by omega
  have hpk : ns[i] ∈ keysOf blocks := hk2 _ (List.getElem_mem hi0)
  unfold keysOf at hpk
  obtain ⟨kb, hkb, hkb1⟩ := List.mem_map.1 hpk
  have hnd2 : blocks.Nodup := List.Nodup.of_map Prod.fst hw.1
  unfold sourcesOf
  refine length_flatMap_one blocks _ kb hkb hnd2 ?_ ?_
  · rw [List.length_map]
    have ht := hch i hi0
    unfold targetsOf at ht
    rw [← hkb1, blockAt_of_mem blocks hw.1 kb hkb, List.getElem?_eq_getElem hi] at ht
    cases hes : kb.2.edges with
    | nil => rw [hes] at ht; cases ht
    | cons e es =>
      rw [hes] at ht
      simp only [List.map_cons, Option.toList_some, List.cons.injEq, List.map_eq_nil_iff] at ht
      rw [ht.2, List.filter_cons_of_pos (by simpa using ht.1)]
      rfl
  · intro a ha hne
    rw [List.map_eq_nil_iff, List.filter_eq_nil_iff]
    intro e he hte
    apply hne
    have hte2 : e.target = ns[i + 1] := by simpa using hte
    have ha1 : a.1 ∈ ns := hk1 _ (List.mem_map.2 ⟨a, ha, rfl⟩)
    have hmem : ns[i + 1] ∈ targetsOf blocks a.1 := by
      unfold targetsOf
      rw [blockAt_of_mem blocks hw.1 a ha]
      exact List.mem_map.2 ⟨e, he, hte2⟩
    have h1 := chain_pred_unique blocks ns hc0 a.1 ha1 i hi hmem
    have h2 : a.2 = kb.2 := by
      rw [← blockAt_of_mem blocks hw.1 a ha, ← blockAt_of_mem blocks hw.1 kb hkb, h1, hkb1]
    exact Prod.ext (by rw [h1, hkb1]) h2

/-- On a chain, `topoSort` enters its loop with one incoming entry at every
node but the entry. -/
theorem chain_init_one (blocks : Blocks) (entry : Nat) (rest : List Nat)
    (hc : IsChainMap blocks (entry :: rest)) :
    OneIncoming blocks (topoInit blocks (initGrid blocks) entry) := by
  intro c hck hcv
  have hcn : c ∈ entry :: rest := hc.2.2.1 c hck
  have hce : c ≠ entry := by
    intro h
    apply hcv
    rw [h]
    exact List.mem_singleton_self _
  rcases List.mem_cons.1 hcn with h | h
  · exact absurd h hce
  · obtain ⟨j, hj, hjc⟩ := List.mem_iff_getElem.1 h
    have hlen : j + 1 < (entry :: rest).length := by
      rw [List.length_cons]; omega
    have := chain_sources blocks (entry :: rest) hc j hlen
    have hcj : (entry :: rest)[j + 1] = c := by
      rw [List.getElem_cons_succ]; exact hjc
    rw [hcj] at this
    show ((populateIncoming blocks (initGrid blocks)) c).incoming.length = 1
    rw [populateIncoming_incoming, initGrid_apply]
    rw [if_pos hck]
    exact this

theorem sublist_singleton (l : List Nat) (b : Nat) (hsub : ∀ x ∈ l, x = b) (hnd : l.Nodup)
    (hb : b ∈ l) : l = [b] := by
  cases l with
  | nil => cases hb
  | cons x xs =>
    have hx := hsub x (List.mem_cons_self _ _)
    subst hx
    cases xs with
    | nil => rfl
    | cons y ys =>
      exfalso
      have hy := hsub y (List.mem_cons_of_mem _ (List.mem_cons_self _ _))
      subst hy
      rw [List.nodup_cons] at hnd
      exact hnd.1 (List.mem_cons_self _ _)

/-- The spanning tree `topoSort` builds on a chain is the chain: the only tree
child of each node is the next node, and the last node has none. -/
theorem chain_tree (blocks : Blocks) (entry : Nat) (rest : List Nat)
    (hc : IsChainMap blocks (entry :: rest)) (s : TopoState)
    (hinv : TopoInv blocks entry s) (hq : s.queue = []) (hmet : EdgesMet blocks s) :
    ∀ i (hi : i < (entry :: rest).length),
      (s.grid (entry :: rest)[i]).tree_edge = ((entry :: rest)[i + 1]?).toList := by
  have hc0 := hc
  obtain ⟨hw, hnd, hk1, hk2, hch⟩ := hc
  have hseq : s.seq = s.block_order := by
    unfold TopoState.seq
    rw [hq, List.append_nil]
  obtain ⟨he, huniq, htend, hpar⟩ := hinv.tree_facts hq
  have hedge := hinv.edge
  have hkeys := hinv.keys
  have hvis := hinv.visited_iff
  rw [hseq] at hedge hkeys
  -- every node of the chain is in the order
  have hall : ∀ i (hi : i < (entry :: rest).length), (entry :: rest)[i] ∈ s.block_order := by
    intro i
    induction i with
    | zero => intro _; exact he
    | succ i ih =>
      intro hi
      have hi0 : i < (entry :: rest).length := by omega
      have hp := ih hi0
      have ht := hch i hi0
      rw [List.getElem?_eq_getElem hi] at ht
      have hm : (entry :: rest)[i + 1] ∈ targetsOf blocks (entry :: rest)[i] := by
        rw [ht]; simp
      unfold targetsOf at hm
      obtain ⟨e, he1, he2⟩ := List.mem_map.1 hm
      have := hmet _ hp e he1 (by rw [he2]; exact hk2 _ (List.getElem_mem hi))
      rw [he2, hvis, hseq] at this
      exact this
  intro i hi
  have hsub : ∀ c ∈ (s.grid (entry :: rest)[i]).tree_edge,
      c ∈ ((entry :: rest)[i + 1]?).toList := by
    intro c hcm
    obtain ⟨e, he1, he2⟩ := (hedge _ c hcm).2.2.1
    rw [← hch i hi]
    unfold targetsOf
    exact List.mem_map.2 ⟨e, he1, he2⟩
  by_cases hi1 : i + 1 < (entry :: rest).length
  · rw [List.getElem?_eq_getElem hi1] at hsub ⊢
    simp only [Option.toList_some, List.mem_singleton] at hsub
    refine sublist_singleton _ _ hsub (htend _) ?_
    have hne : (entry :: rest)[i + 1] ≠ entry := by
      intro h
      have h0 : (entry :: rest)[i + 1] = (entry :: rest)[0] := h
      have := (List.Nodup.getElem_inj_iff hnd).1 h0
      omega
    obtain ⟨p, hp⟩ := hpar _ (hall (i + 1) hi1) hne
    obtain ⟨hp1, _, ⟨e, he1, he2⟩, _⟩ := hedge p _ hp
    have hpn : p ∈ entry :: rest := hk1 p (hkeys p hp1)
    have hm : (entry :: rest)[i + 1] ∈ targetsOf blocks p := by
      unfold targetsOf
      exact List.mem_map.2 ⟨e, he1, he2⟩
    have := chain_pred_unique blocks (entry :: rest) hc0 p hpn i hi1 hm
    rw [← this]
    exact hp
  · rw [List.getElem?_eq_none (by omega)] at hsub ⊢
    simp only [Option.toList_none, List.not_mem_nil] at hsub
    exact List.eq_nil_iff_forall_not_mem.2 hsub
/-- In a grid whose tree is the chain `l`, every node of `l` is in the subtree
of the first one. -/
theorem chain_inSubtree (g : Grid) (l : List Nat)
    (hshape : ∀ i (hi : i < l.length), (g l[i]).tree_edge = (l[i + 1]?).toList)
    (h0 : 0 < l.length) : ∀ j (hj : j < l.length), InSubtree g l[0] l[j] := by
  intro j
  induction j with
  | zero => intro _; exact Relation.ReflTransGen.refl
  | succ j ih =>
    intro hj
    have hj0 : j < l.length := by omega
    refine Relation.ReflTransGen.tail (ih hj0) ?_
    show l[j + 1] ∈ (g l[j]).tree_edge
    rw [hshape j hj0, List.getElem?_eq_getElem hj]
    simp

/-- Function `computeBlockPlacement` on a tree that is a chain: every node gets
column 0 and the node at position `i` gets row `i`. -/
theorem chain_placement (layoutType : LayoutType) (rest : List Nat) :
    ∀ (a fuel : Nat) (g : Grid), IsTree g fuel a →
      (∀ i (hi : i < (a :: rest).length),
        (g (a :: rest)[i]).tree_edge = ((a :: rest)[i + 1]?).toList) →
      ∃ g1, computeBlockPlacement layoutType fuel a g = some g1 ∧
        ∀ i (hi : i < (a :: rest).length),
          (g1 (a :: rest)[i]).row = i ∧ (g1 (a :: rest)[i]).col = 0 := by
  induction rest with
  | nil =>
    intro a fuel g ht hshape
    have hte : (g a).tree_edge = [] := by simpa using hshape 0 (by simp)
    obtain ⟨g1, hrun, _, _, hpl, hleaf, _⟩ := computeBlockPlacement_ok layoutType fuel a g ht
    refine ⟨g1, hrun, ?_⟩
    intro i hi
    have hi0 : i = 0 := by
      simp only [List.length_singleton] at hi
      omega
    subst hi0
    exact ⟨by simpa using hpl.1, (hleaf hte).1⟩
  | cons b rest ih =>
    intro a fuel g ht hshape
    cases fuel with
    | zero => cases ht.1
    | succ fuel =>
      have hte : (g a).tree_edge = [b] := by simpa using hshape 0 (by simp)
      have hbm : b ∈ (g a).tree_edge := by rw [hte]; exact List.mem_singleton_self _
      have htb : IsTree g fuel b := isTree_child g fuel a b ht hbm
      have hshape2 : ∀ i (hi : i < (b :: rest).length),
          (g (b :: rest)[i]).tree_edge = ((b :: rest)[i + 1]?).toList := by
        intro i hi
        have := hshape (i + 1) (by simp only [List.length_cons] at hi ⊢; omega)
        simpa using this
      obtain ⟨gb, hb, hrows⟩ := ih b fuel g htb hshape2
      obtain ⟨g0, rc, cc, g1, hpc, hrun, hmove, _, hrow, _, hsingle, _⟩ :=
        computeBlockPlacement_row layoutType fuel g a ht
          (Or.inr (by rw [hte]; simp)) (by rw [hte]; exact List.cons_ne_nil _ _)
      have hg0 : g0 = gb := by
        rw [hte] at hpc
        simp only [placeChildren, hb, Option.some.injEq, Prod.mk.injEq] at hpc
        exact hpc.1.symm
      subst hg0
      have hsub := chain_inSubtree g (b :: rest) hshape2 (by simp)
      have hmv : ∀ j (hj : j < (b :: rest).length),
          g1 (b :: rest)[j] = (g0 (b :: rest)[j]).move 0 1 := by
        intro j hj
        have := (hmove [] b [] (by rw [hte]; rfl) _ (hsub j hj)).1
        simpa using this
      refine ⟨g1, hrun, ?_⟩
      intro i hi
      cases i with
      | zero =>
        refine ⟨by simpa using hrow, ?_⟩
        show (g1 a).col = 0
        rw [hsingle b hte]
        have h1 := hmv 0 (by simp)
        have h2 := (hrows 0 (by simp)).2
        simp only [List.getElem_cons_zero] at h1 h2
        rw [h1]
        show (g0 b).col + 0 = 0
        rw [h2]
        rfl
      | succ j =>
        have hj : j < (b :: rest).length := by
          simp only [List.length_cons] at hi ⊢
          omega
        have h1 := hmv j hj
        obtain ⟨h2, h3⟩ := hrows j hj
        show (g1 (b :: rest)[j]).row = ((j + 1 : Nat) : Int) ∧ (g1 (b :: rest)[j]).col = 0
        rw [h1]
        refine ⟨?_, ?_⟩
        · show (g0 (b :: rest)[j]).row + 1 = _
          rw [h2]
          push_cast
          rfl
        · show (g0 (b :: rest)[j]).col + 0 = 0
          rw [h3]
          rfl

/-- C15. On every chain `n1 -> n2 -> ... -> nk` (the keys of the node map are
the `k` different nodes of the chain, the only edge of each node goes to the
next one, the last node has no edge; the blocks may be listed in any order)
laid out from `n1` under each of the three layout types, `topoSort` followed
by `computeBlockPlacement` returns, every node of the chain gets column 0 (so
all share one column), and the node at position `i`, counted from 0, gets row
`i`. -/
theorem chain_layout (layoutType : LayoutType) (blocks : Blocks) (entry : Nat)
    (rest : List Nat) (hc : IsChainMap blocks (entry :: rest)) :
    ∃ r, gridStage layoutType blocks entry = some r ∧
      ∀ i (hi : i < (entry :: rest).length),
        (r.grid (entry :: rest)[i]).row = i ∧ (r.grid (entry :: rest)[i]).col = 0 ∧
        (r.grid (entry :: rest)[i]).col = (r.grid entry).col := by
  have hc0 := hc
  obtain ⟨hw, hnd0, hk1, hk2, hch⟩ := hc
  have hin : entry ∈ keysOf blocks := hk2 entry (List.mem_cons_self _ _)
  have hinit := topoInit_inv blocks (initGrid blocks) entry hin (initGrid_tree_edge blocks)
  obtain ⟨s, hs, hinv, hq⟩ := mainLoop_inv blocks hw entry
    (unvisitedCount blocks [entry] + 2) (topoInit blocks (initGrid blocks) entry) hinit (by
      show unvisitedCount blocks [entry] + 1 ≤ unvisitedCount blocks [entry] + 2
      omega)
  obtain ⟨_, hmet⟩ := mainLoop_one blocks hw entry _ _ s hs hinit
    (chain_init_one blocks entry rest hc0) (fun p hp => by cases hp)
  have hshape := chain_tree blocks entry rest hc0 s hinv hq hmet
  have hts : topoSort blocks (initGrid blocks) (keysOf blocks) entry
      = some { order := s.block_order, blocks := blocks, grid := s.grid,
               gridKeys := populateKeys blocks (keysOf blocks) } := by
    unfold topoSort
    simp only
    rw [ensureKey_of_mem blocks entry hin, hs]
  have hseq : s.seq = s.block_order := by
    unfold TopoState.seq
    rw [hq, List.append_nil]
  have hnd := hinv.nodup
  have hkeys := hinv.keys
  have hedge := hinv.edge
  rw [hseq] at hnd hkeys hedge
  obtain ⟨he, huniq, htend, _⟩ := hinv.tree_facts hq
  have htree0 : IsTree s.grid s.block_order.length entry :=
    isTree_of_order s.grid s.block_order huniq htend
      (fun p c hc => ⟨(hedge p c hc).2.1, (hedge p c hc).2.2.2⟩) _ entry he (by omega)
  have hlen : s.block_order.length ≤ (populateKeys blocks (keysOf blocks)).length :=
    le_trans (List.Subperm.length_le (hnd.subperm hkeys)) (populateKeys_length blocks _)
  generalize hks : (if entry ∈ populateKeys blocks (keysOf blocks)
      then populateKeys blocks (keysOf blocks)
      else populateKeys blocks (keysOf blocks) ++ [entry]) = ks
  have hlen2 : s.block_order.length ≤ ks.length + 1 := by
    rw [← hks]
    split_ifs
    · omega
    · rw [List.length_append]; omega
  have htree1 := isTree_mono s.grid _ (ks.length + 1) entry htree0 hlen2
  obtain ⟨g1, hrun, hrows⟩ :=
    chain_placement layoutType rest entry (ks.length + 1) s.grid htree1 hshape
  refine ⟨{ order := s.block_order, blocks := blocks, grid := g1, gridKeys := ks }, ?_, ?_⟩
  · unfold gridStage
    rw [hts]
    simp only
    rw [hks, hrun]
  · intro i hi
    have h0 := (hrows 0 (by simp)).2
    simp only [List.getElem_cons_zero] at h0
    exact ⟨(hrows i hi).1, (hrows i hi).2, by rw [(hrows i hi).2]; exact h0.symm⟩

/-- Witness for `chain_layout`: the chain `7 -> 3 -> 0 -> 5`, the blocks
listed in another order, under Narrow; and under each layout type its four
nodes get rows 0, 1, 2, 3 in column 0. -/
theorem chain_layout_witness :
    IsChainMap chainMap (7 :: [3, 0, 5]) ∧
    (gridStage LayoutType.Narrow chainMap 7).map (fun r => cellsAt r.grid [7, 3, 0, 5])
      = some [(0, 0), (1, 0), (2, 0), (3, 0)] ∧
    (gridStage LayoutType.Medium chainMap 7).map (fun r => cellsAt r.grid [7, 3, 0, 5])
      = some [(0, 0), (1, 0), (2, 0), (3, 0)] ∧
    (gridStage LayoutType.Wide chainMap 7).map (fun r => cellsAt r.grid [7, 3, 0, 5])
      = some [(0, 0), (1, 0), (2, 0), (3, 0)] ∧
    ∃ r, gridStage LayoutType.Narrow chainMap 7 = some r ∧
      ∀ i (hi : i < (7 :: [3, 0, 5]).length),
        (r.grid (7 :: [3, 0, 5])[i]).row = i ∧ (r.grid (7 :: [3, 0, 5])[i]).col = 0 ∧
        (r.grid (7 :: [3, 0, 5])[i]).col = (r.grid 7).col :=
  ⟨by decide, by decide, by decide, by decide,
    chain_layout LayoutType.Narrow chainMap 7 [3, 0, 5] (by decide)⟩

theorem adjust_eq (fuel : Nat) (g ga : Grid) (n : Nat) (col row : Int)
    (hte : ∀ k, (ga k).tree_edge = (g k).tree_edge) (ht : IsTree g fuel n) :
    adjustGraphLayout fuel ga n col row = some (shiftOn (subtree g fuel n) col row ga) := by
  have := adjustGraphLayout_spec fuel ga n col row (isTree_congr g ga hte fuel n ht)
  rw [subtree_congr g ga hte] at this
  exact this

theorem shiftOn_row (nodes : List Nat) (col row : Int) (g : Grid) (k : Nat) :
    (shiftOn nodes col row g k).row = if k ∈ nodes then (g k).row + row else (g k).row := by
  unfold shiftOn
  split_ifs <;> rfl

theorem finishTwo_row (layoutType : LayoutType) (g : Grid) (n l r : Nat) (sc : Bool)
    (cc col : Int) (k : Nat) :
    (finishTwo layoutType g n l r sc cc col k).row = (g k).row := by
  by_cases hk : k = n
  · subst hk
    unfold finishTwo
    simp only
    split_ifs <;> simp [Function.update_same]
  · rw [finishTwo_of_ne _ _ _ _ _ _ _ _ _ hk]

theorem shiftOn_two_row (xs ys : List Nat) (c1 c2 : Int) (g : Grid) (d : Nat)
    (hdis : d ∈ xs → d ∉ ys) :
    (shiftOn ys c2 1 (shiftOn xs c1 1 g) d).row
      = if d ∈ xs ∨ d ∈ ys then (g d).row + 1 else (g d).row := by
  rw [shiftOn_row, shiftOn_row]
  by_cases h1 : d ∈ xs
  · have h2 := hdis h1
    simp only [h1, h2, if_true, if_false, true_or]
  · by_cases h2 : d ∈ ys
    · simp only [h1, h2, if_true, if_false, or_true]
    · simp only [h1, h2, if_false, or_self]

/-- Rows after the two-children rule (lines 309-332): the subtrees of both
children are moved one row down, whatever the branch; no other row changes. -/
theorem placeTwo_rows (layoutType : LayoutType) (fuel : Nat) (g g1 : Grid) (n l r : Nat)
    (sc : Bool) (cc : Int) (htree : IsTree g (fuel + 1) n) (hcs : (g n).tree_edge = [l, r])
    (h1te : ∀ k, (g1 k).tree_edge = (g k).tree_edge) (g4 : Grid)
    (h4 : placeTwo layoutType fuel g1 n l r sc cc = some g4) (d : Nat) :
    (g4 d).row = if d ∈ subtree g fuel l ∨ d ∈ subtree g fuel r then (g1 d).row + 1
      else (g1 d).row := by
  obtain ⟨hfit, hnot, hnd⟩ := isTree_children g fuel n htree
  have hlm : l ∈ (g n).tree_edge := by rw [hcs]; exact List.mem_cons_self _ _
  have hrm : r ∈ (g n).tree_edge := by
    rw [hcs]; exact List.mem_cons_of_mem _ (List.mem_cons_self _ _)
  have tl : IsTree g fuel l := isTree_child g fuel n l htree hlm
  have tr : IsTree g fuel r := isTree_child g fuel n r htree hrm
  rw [hcs] at hnd
  simp only [List.flatMap_cons, List.flatMap_nil, List.append_nil] at hnd
  have hdis : ∀ k, k ∈ subtree g fuel l → k ∉ subtree g fuel r :=
    fun k h1 h2 => (List.nodup_append.1 hnd).2.2 h1 h2
  have hdis2 : ∀ k, k ∈ subtree g fuel r → k ∉ subtree g fuel l :=
    fun k h1 h2 => hdis k h2 h1
  unfold placeTwo at h4
  by_cases hll : (g1 l).tree_edge.length = 0
  · rw [if_pos hll] at h4
    simp only at h4
    have hteA : ∀ k, ((Function.update g1 l { g1 l with col := (g1 r).col - 2 }) k).tree_edge
        = (g k).tree_edge := by
      intro k
      rw [← h1te k, Function.update_apply]
      split_ifs with hk
      · subst hk; rfl
      · rfl
    have hrowA : ∀ k, ((Function.update g1 l { g1 l with col := (g1 r).col - 2 }) k).row
        = (g1 k).row := by
      intro k
      rw [Function.update_apply]
      split_ifs with hk
      · subst hk; rfl
      · rfl
    split at h4
    · cases h4
    · rename_i g2 hA
      have e2 := (adjust_eq fuel g _ r _ 1 hteA tr).symm.trans hA
      simp only [Option.some.injEq] at e2
      have hteB : ∀ k, (g2 k).tree_edge = (g k).tree_edge := by
        intro k
        rw [← e2, shiftOn_tree_edge, hteA]
      split at h4
      · cases h4
      · rename_i g3 hB
        have e3 := (adjust_eq fuel g _ l _ 1 hteB tl).symm.trans hB
        simp only [Option.some.injEq] at e3 h4
        rw [← h4, finishTwo_row, ← e3, ← e2, shiftOn_two_row _ _ _ _ _ _ (hdis2 d), hrowA]
        simp only [or_comm]
  · rw [if_neg hll] at h4
    by_cases hrr : (g1 r).tree_edge.length = 0
    · rw [if_pos hrr] at h4
      split at h4
      · cases h4
      · rename_i g2 hA
        have e2 := (adjust_eq fuel g _ l _ 1 h1te tl).symm.trans hA
        simp only [Option.some.injEq] at e2
        have hteB : ∀ k, (g2 k).tree_edge = (g k).tree_edge := by
          intro k
          rw [← e2, shiftOn_tree_edge, h1te]
        split at h4
        · cases h4
        · rename_i g3 hB
          have e3 := (adjust_eq fuel g _ r _ 1 hteB tr).symm.trans hB
          simp only [Option.some.injEq] at e3 h4
          rw [← h4, finishTwo_row, ← e3, ← e2, shiftOn_two_row _ _ _ _ _ _ (hdis d)]
    · rw [if_neg hrr] at h4
      split at h4
      · cases h4
      · rename_i g2 hA
        have e2 := (adjust_eq fuel g _ l _ 1 h1te tl).symm.trans hA
        simp only [Option.some.injEq] at e2
        have hteB : ∀ k, (g2 k).tree_edge = (g k).tree_edge := by
          intro k
          rw [← e2, shiftOn_tree_edge, h1te]
        split at h4
        · cases h4
        · rename_i g3 hB
          have e3 := (adjust_eq fuel g _ r _ 1 hteB tr).symm.trans hB
          simp only [Option.some.injEq] at e3 h4
          rw [← h4, finishTwo_row, ← e3, ← e2, shiftOn_two_row _ _ _ _ _ _ (hdis d)]

/-- Rows after the side-by-side rule (lines 333-348): the subtree of every
child is moved one row down; no other row changes. -/
theorem placeRow_rows (fuel : Nat) (g g1 : Grid) (n : Nat) (sc : Bool) (cc : Int)
    (htree : IsTree g (fuel + 1) n)
    (h1te : ∀ k, (g1 k).tree_edge = (g k).tree_edge) (g3 : Grid)
    (h3 : placeRow fuel g1 n (g n).tree_edge sc cc = some g3) (d : Nat) :
    (g3 d).row = if d ∈ (g n).tree_edge.flatMap (subtree g fuel) then (g1 d).row + 1
      else (g1 d).row := by
  obtain ⟨hfit, hnot, hnd⟩ := isTree_children g fuel n htree
  have hsub : (g n).tree_edge.flatMap (subtree g1 fuel)
      = (g n).tree_edge.flatMap (subtree g fuel) :=
    List.flatMap_congr (fun x _ => subtree_congr g g1 h1te fuel x)
  obtain ⟨g2, hrun2, s1, s2, s3⟩ := sideBySide_spec fuel (g n).tree_edge g1 0
    (fun c hc => by rw [fits_congr g g1 h1te]; exact hfit c hc) (by rw [hsub]; exact hnd)
  rw [hsub] at s2
  have hg2 : (g2 d).row = if d ∈ (g n).tree_edge.flatMap (subtree g fuel) then (g1 d).row + 1
      else (g1 d).row := by
    by_cases hd : d ∈ (g n).tree_edge.flatMap (subtree g fuel)
    · rw [if_pos hd]
      obtain ⟨c, hc, hdc⟩ := List.mem_flatMap.1 hd
      obtain ⟨pre, post, hs⟩ := List.append_of_mem hc
      rw [s3 pre c post hs d (by rw [subtree_congr g g1 h1te]; exact hdc)]
      rfl
    · rw [if_neg hd, s2 d hd]
  unfold placeRow at h3
  rw [hrun2] at h3
  simp only at h3
  have key : ∀ gb : GridBlock, gb.row = (g2 n).row →
      (Function.update g2 n gb d).row = (g2 d).row := by
    intro gb hgb
    rw [Function.update_apply]
    split_ifs with hk
    · rw [hgb, hk]
    · rfl
  have hrow : (g3 d).row = (g2 d).row := by
    split_ifs at h3 <;>
    · simp only [Option.some.injEq] at h3
      rw [← h3]
      exact key _ rfl
  rw [hrow, hg2]
/-- Being levelled only reads the rows and the `tree_edge` lists of the
subtree, and survives a move of the whole subtree by some rows. -/
theorem Levelled.shifted {g g1 : Grid} {n : Nat} (h : Levelled g n) (dr : Int)
    (hte : ∀ k, (g1 k).tree_edge = (g k).tree_edge)
    (hrow : ∀ d, InSubtree g n d → (g1 d).row = (g d).row + dr) : Levelled g1 n := by
  intro p hp c hc
  rw [inSubtree_congr g g1 hte] at hp
  rw [hte p] at hc
  have hcn : InSubtree g n c := Relation.ReflTransGen.tail hp hc
  rw [hrow p hp, hrow c hcn, h p hp c hc]
  omega

theorem Levelled.child {g : Grid} {n c : Nat} (h : Levelled g n) (hc : c ∈ (g n).tree_edge) :
    Levelled g c :=
  fun p hp => h p (inSubtree_child g n c p hc hp)

/-- In a levelled subtree every node but the root is on a later row than the
root. -/
theorem Levelled.row_lt {g : Grid} {n d : Nat} (h : Levelled g n) (hd : InSubtree g n d) :
    d = n ∨ (g n).row < (g d).row := by
  induction hd with
  | refl => exact Or.inl rfl
  | tail hnp hpd ih =>
    have := h _ hnp _ hpd
    rcases ih with h1 | h1
    · subst h1
      exact Or.inr (by omega)
    · exact Or.inr (by omega)

/-- The loop that places the children leaves every child levelled, when each
recursive call does. -/
theorem placeChildren_levelled (layoutType : LayoutType) (fuel : Nat)
    (ih : ∀ c g gc, IsTree g fuel c → computeBlockPlacement layoutType fuel c g = some gc →
      Levelled gc c)
    (cs : List Nat) (g : Grid) (rc0 cc0 : Int)
    (hfit : ∀ c ∈ cs, fits g fuel c = true) (hnd : (cs.flatMap (subtree g fuel)).Nodup)
    (g0 : Grid) (rc cc : Int)
    (h : placeChildren (computeBlockPlacement layoutType fuel) cs g rc0 cc0 = some (g0, rc, cc)) :
    ∀ c ∈ cs, Levelled g0 c := by
  induction cs generalizing g rc0 cc0 with
  | nil => intro c hc; cases hc
  | cons c cs ihc =>
    rw [List.flatMap_cons] at hnd
    obtain ⟨hndc, hndr, hdis⟩ := List.nodup_append.1 hnd
    have hfc := hfit c (List.mem_cons_self _ _)
    obtain ⟨gc, hrun, f1, f2, _⟩ := computeBlockPlacement_ok layoutType fuel c g ⟨hfc, hndc⟩
    rw [placeChildren_cons, hrun] at h
    simp only at h
    have hsub : cs.flatMap (subtree gc fuel) = cs.flatMap (subtree g fuel) :=
      List.flatMap_congr (fun x _ => subtree_congr g gc f1 fuel x)
    have hfit2 : ∀ x ∈ cs, fits gc fuel x = true := fun x hx => by
      rw [fits_congr g gc f1]; exact hfit x (List.mem_cons_of_mem _ hx)
    obtain ⟨g0a, rca, cca, hruna, t1, t2, _⟩ :=
      placeChildren_spec layoutType fuel (computeBlockPlacement_ok layoutType fuel) cs gc
        (max ((gc c).row_count + 1) rc0) (gc c).col hfit2 (by rw [hsub]; exact hndr)
    rw [hruna] at h
    simp only [Option.some.injEq, Prod.mk.injEq] at h
    obtain ⟨h0, h1, h2⟩ := h
    subst h0
    subst h1
    subst h2
    intro x hx
    rcases List.mem_cons.1 hx with rfl | hx
    · have hl := ih x g gc ⟨hfc, hndc⟩ hrun
      refine hl.shifted 0 t1 ?_
      intro d hd
      rw [inSubtree_congr g gc f1, ← mem_subtree_iff g fuel x d hfc] at hd
      rw [t2 d (by rw [hsub]; exact fun hm => hdis hd hm)]
      omega
    · exact ihc gc _ _ hfit2 (by rw [hsub]; exact hndr) hruna x hx

/-- Function `computeBlockPlacement` on a tree leaves every tree child on the
row after the row of its parent. -/
theorem computeBlockPlacement_levelled (layoutType : LayoutType) (fuel : Nat) :
    ∀ n g g1, IsTree g fuel n → computeBlockPlacement layoutType fuel n g = some g1 →
      Levelled g1 n := by
  induction fuel with
  | zero =>
    intro n g g1 ht
    cases ht.1
  | succ fuel ih =>
    intro n g g1 ht h
    obtain ⟨hfit, hnot, hnd⟩ := isTree_children g fuel n ht
    obtain ⟨g0, rc, cc, hrun, t1, t2, t3, t4, t5, t6⟩ :=
      placeChildren_spec layoutType fuel (computeBlockPlacement_ok layoutType fuel)
        (g n).tree_edge g 1 0 hfit hnd
    have hlev0 := placeChildren_levelled layoutType fuel ih (g n).tree_edge g 1 0 hfit hnd
      g0 rc cc hrun
    obtain ⟨g1a, hruna, hte, _⟩ := computeBlockPlacement_ok layoutType (fuel + 1) n g ht
    rw [h] at hruna
    simp only [Option.some.injEq] at hruna
    subst hruna
    -- the rows after the rule that places the children
    have hrows : ∃ g3, g1 = Function.update g3 n { g3 n with row := 0, row_count := rc } ∧
        ∀ d, (g3 d).row = if d ∈ (g n).tree_edge.flatMap (subtree g fuel) then (g0 d).row + 1
          else (g0 d).row := by
      unfold computeBlockPlacement at h
      simp only [hrun] at h
      split at h
      · cases h
      · rename_i g3 heq
        simp only [Option.some.injEq] at h
        refine ⟨g3, h.symm, ?_⟩
        split at heq
        · rename_i l r hd hcs
          intro d
          rw [placeTwo_rows layoutType fuel g g0 n l r _ cc ht hcs t1 g3 heq d, hcs]
          simp only [List.flatMap_cons, List.flatMap_nil, List.append_nil, List.mem_append]
        · exact placeRow_rows fuel g g0 n _ cc ht t1 g3 heq
    obtain ⟨g3, hg1, hrows⟩ := hrows
    have hrow1 : ∀ d, d ∈ (g n).tree_edge.flatMap (subtree g fuel) →
        (g1 d).row = (g0 d).row + 1 := by
      intro d hd
      have hdn : d ≠ n := fun e => hnot (e ▸ hd)
      rw [hg1, Function.update_noteq hdn, hrows d, if_pos hd]
    have hn0 : (g1 n).row = 0 := by
      rw [hg1, Function.update_same]
    intro p hp c hc
    rw [inSubtree_congr g g1 hte] at hp
    rw [hte p] at hc
    rcases inSubtree_cases g n p hp with rfl | ⟨c0, hc0, hp0⟩
    · have hcm : c ∈ (g p).tree_edge.flatMap (subtree g fuel) :=
        List.mem_flatMap.2 ⟨c, hc, self_mem_subtree g fuel c (hfit c hc)⟩
      rw [hrow1 c hcm, hn0, (t3 c hc).1.1]
    · have hpm : p ∈ (g n).tree_edge.flatMap (subtree g fuel) :=
        List.mem_flatMap.2 ⟨c0, hc0, (mem_subtree_iff g fuel c0 p (hfit c0 hc0)).2 hp0⟩
      have hcm : c ∈ (g n).tree_edge.flatMap (subtree g fuel) :=
        List.mem_flatMap.2 ⟨c0, hc0, (mem_subtree_iff g fuel c0 c (hfit c0 hc0)).2
          (Relation.ReflTransGen.tail hp0 hc)⟩
      rw [hrow1 c hcm, hrow1 p hpm]
      have := hlev0 c0 hc0 p ((inSubtree_congr g g0 t1 c0 p).2 hp0) c (by rw [t1 p]; exact hc)
      omega

/-- Under the leaf rule the only nodes of the two child subtrees that share a
row are the two children themselves. -/
theorem tuck_pair (g : Grid) (x y a b : Nat) (hx : (g x).tree_edge = [])
    (hy : Levelled g y) (hrow : (g x).row = (g y).row) (ha : InSubtree g x a)
    (hb : InSubtree g y b) (hab : (g a).row = (g b).row) : a = x ∧ b = y := by
  have hax : a = x := by
    rcases inSubtree_cases g x a ha with h | ⟨c, hc, _⟩
    · exact h
    · rw [hx] at hc
      cases hc
  subst hax
  refine ⟨rfl, ?_⟩
  rcases hy.row_lt hb with h | h
  · exact h
  · omega

/-- In a placed tree no two nodes share a cell: two different nodes on the
same row are at least two columns apart. -/
theorem no_overlap (layoutType : LayoutType) :
    ∀ fuel n g, IsTree g fuel n → Separated layoutType g n → Levelled g n →
      ∀ a b, InSubtree g n a → InSubtree g n b → a ≠ b → (g a).row = (g b).row →
        (g a).col + 2 ≤ (g b).col ∨ (g b).col + 2 ≤ (g a).col := by
  intro fuel
  induction fuel with
  | zero =>
    intro n g ht
    cases ht.1
  | succ fuel ih =>
    intro n g ht hs hl a b ha hb hab hrow
    rcases inSubtree_cases g n a ha with rfl | ⟨ca, hca, ha1⟩
    · rcases hl.row_lt hb with h | h
      · exact absurd h.symm hab
      · omega
    · rcases inSubtree_cases g n b hb with rfl | ⟨cb, hcb, hb1⟩
      · rcases hl.row_lt ha with h | h
        · exact absurd h hab
        · omega
      · by_cases hcc : ca = cb
        · subst hcc
          exact ih ca g (isTree_child g fuel n ca ht hca)
            (fun p hp => hs p (inSubtree_child g n ca p hca hp)) (hl.child hca)
            a b ha1 hb1 hab hrow
        · obtain ⟨h1, h2⟩ := hs n Relation.ReflTransGen.refl
          by_cases htk : Tucked layoutType g n
          · obtain ⟨_, l, r, hcs, hiff⟩ := htk
            have htk2 : Tucked layoutType g n := ⟨‹_›, l, r, hcs, hiff⟩
            obtain ⟨hcol, hrw⟩ := h2 htk2 l r hcs
            have hlm : l ∈ (g n).tree_edge := by rw [hcs]; exact List.mem_cons_self _ _
            have hrm : r ∈ (g n).tree_edge := by
              rw [hcs]; exact List.mem_cons_of_mem _ (List.mem_cons_self _ _)
            rw [hcs] at hca hcb
            simp only [List.mem_cons, List.mem_singleton, List.not_mem_nil, or_false] at hca hcb
            by_cases hleaf : (g l).tree_edge = []
            · rcases hca with rfl | rfl
              · rcases hcb with rfl | rfl
                · exact absurd rfl hcc
                · obtain ⟨e1, e2⟩ := tuck_pair g ca cb a b hleaf (hl.child hrm) hrw ha1 hb1 hrow
                  subst e1; subst e2
                  exact Or.inl (by omega)
              · rcases hcb with rfl | rfl
                · obtain ⟨e1, e2⟩ := tuck_pair g cb ca b a hleaf (hl.child hrm) hrw hb1 ha1
                    hrow.symm
                  subst e1; subst e2
                  exact Or.inr (by omega)
                · exact absurd rfl hcc
            · have hleafr : (g r).tree_edge = [] := by
                by_contra hne
                exact hleaf (hiff.2 hne)
              rcases hca with rfl | rfl
              · rcases hcb with rfl | rfl
                · exact absurd rfl hcc
                · obtain ⟨e1, e2⟩ := tuck_pair g cb ca b a hleafr (hl.child hlm) hrw.symm hb1 ha1
                    hrow.symm
                  subst e1; subst e2
                  exact Or.inl (by omega)
              · rcases hcb with rfl | rfl
                · obtain ⟨e1, e2⟩ := tuck_pair g ca cb a b hleafr (hl.child hlm) hrw.symm ha1 hb1
                    hrow
                  subst e1; subst e2
                  exact Or.inr (by omega)
                · exact absurd rfl hcc
          · rcases pairwise_either (ColsBefore g) _ (h1 htk) ca cb hca hcb hcc with h | h
            · exact Or.inl (h a b ha1 hb1)
            · exact Or.inr (h b a hb1 ha1)

/-- The grid stage of `CalculateLayout`, step by step: the final state `s` of
the loop of `topoSort`, the tree it leaves, and the grid `computeBlockPlacement`
makes of it. -/
theorem gridStage_open (layoutType : LayoutType) (blocks : Blocks) (entry : Nat)
    (hw : WellFormed blocks) (hin : entry ∈ keysOf blocks) :
    ∃ s fuel r,
      mainLoop blocks (unvisitedCount blocks [entry] + 2)
        (topoInit blocks (initGrid blocks) entry) = some s ∧
      TopoInv blocks entry s ∧ s.queue = [] ∧
      IsTree s.grid fuel entry ∧
      computeBlockPlacement layoutType fuel entry s.grid = some r.grid ∧
      gridStage layoutType blocks entry = some r ∧
      r.order = s.block_order ∧
      GridStageOK layoutType blocks entry r := by
  have hinit := topoInit_inv blocks (initGrid blocks) entry hin (initGrid_tree_edge blocks)
  obtain ⟨s, hs, hinv, hq⟩ := mainLoop_inv blocks hw entry
    (unvisitedCount blocks [entry] + 2) (topoInit blocks (initGrid blocks) entry) hinit (by
      show unvisitedCount blocks [entry] + 1 ≤ unvisitedCount blocks [entry] + 2
      omega)
  have hts : topoSort blocks (initGrid blocks) (keysOf blocks) entry
      = some { order := s.block_order, blocks := blocks, grid := s.grid,
               gridKeys := populateKeys blocks (keysOf blocks) } := by
    unfold topoSort
    simp only
    rw [ensureKey_of_mem blocks entry hin, hs]
  have hseq : s.seq = s.block_order := by
    unfold TopoState.seq
    rw [hq, List.append_nil]
  have hnd := hinv.nodup
  have hkeys := hinv.keys
  have hedge := hinv.edge
  rw [hseq] at hnd hkeys hedge
  obtain ⟨he, huniq, htend, _⟩ := hinv.tree_facts hq
  have htree0 : IsTree s.grid s.block_order.length entry :=
    isTree_of_order s.grid s.block_order huniq htend
      (fun p c hc => ⟨(hedge p c hc).2.1, (hedge p c hc).2.2.2⟩) _ entry he (by omega)
  have hlen : s.block_order.length ≤ (populateKeys blocks (keysOf blocks)).length :=
    le_trans (List.Subperm.length_le (hnd.subperm hkeys)) (populateKeys_length blocks _)
  generalize hks : (if entry ∈ populateKeys blocks (keysOf blocks)
      then populateKeys blocks (keysOf blocks)
      else populateKeys blocks (keysOf blocks) ++ [entry]) = ks
  have hlen2 : s.block_order.length ≤ ks.length + 1 := by
    rw [← hks]
    split_ifs
    · omega
    · rw [List.length_append]; omega
  have htree1 := isTree_mono s.grid _ (ks.length + 1) entry htree0 hlen2
  obtain ⟨g1, hrun, _⟩ :=
    computeBlockPlacement_ok layoutType (ks.length + 1) entry s.grid htree1
  have hgs : gridStage layoutType blocks entry
      = some { order := s.block_order, blocks := blocks, grid := g1, gridKeys := ks } := by
    unfold gridStage
    rw [hts]
    simp only
    rw [hks, hrun]
  obtain ⟨r, hr, hok⟩ := gridStage_ok layoutType blocks entry hw hin
  rw [hgs] at hr
  simp only [Option.some.injEq] at hr
  subst hr
  exact ⟨s, ks.length + 1, _, hs, hinv, hq, htree1, hrun, hgs, rfl, hok⟩

/-- C21. On a well-formed node map whose entry is a key, after `topoSort` and
`computeBlockPlacement(entry)`, under each layout type, no two distinct nodes
of the spanning tree (the nodes of the returned order) occupy overlapping grid
cells: if they have the same row, their columns differ by at least 2. -/
theorem tree_nodes_do_not_overlap (layoutType : LayoutType) (blocks : Blocks) (entry : Nat)
    (hw : WellFormed blocks) (hin : entry ∈ keysOf blocks) :
    ∃ r, gridStage layoutType blocks entry = some r ∧
      ∀ a ∈ r.order, ∀ b ∈ r.order, a ≠ b → (r.grid a).row = (r.grid b).row →
        (r.grid a).col + 2 ≤ (r.grid b).col ∨ (r.grid b).col + 2 ≤ (r.grid a).col := by
  obtain ⟨s, fuel, r, _, _, _, htree, hrun, hgs, _, hok⟩ :=
    gridStage_open layoutType blocks entry hw hin
  have hlev := computeBlockPlacement_levelled layoutType fuel entry s.grid r.grid htree hrun
  refine ⟨r, hgs, ?_⟩
  intro a ha b hb hab hrow
  exact no_overlap layoutType _ entry r.grid hok.tree hok.separated hlev a b
    ((hok.order_tree a).1 ha) ((hok.order_tree b).1 hb) hab hrow

/-- Witness for `tree_nodes_do_not_overlap`: the diamond laid out from node 1
under Narrow. -/
theorem tree_nodes_do_not_overlap_witness :
    WellFormed diamondMap ∧ 1 ∈ keysOf diamondMap ∧
    ∃ r, gridStage LayoutType.Narrow diamondMap 1 = some r ∧
      ∀ a ∈ r.order, ∀ b ∈ r.order, a ≠ b → (r.grid a).row = (r.grid b).row →
        (r.grid a).col + 2 ≤ (r.grid b).col ∨ (r.grid b).col + 2 ≤ (r.grid a).col :=
  ⟨by decide, by decide,
    tree_nodes_do_not_overlap LayoutType.Narrow diamondMap 1 (by decide) (by decide)⟩

theorem nodup_other (l : List Nat) (a : Nat) (hnd : l.Nodup) (ha : a ∈ l)
    (hlen : l.length ≠ 1) : ∃ b ∈ l, b ≠ a := by
  cases l with
  | nil => cases ha
  | cons x xs =>
    cases xs with
    | nil => exact absurd rfl hlen
    | cons y ys =>
      by_cases hx : x = a
      · refine ⟨y, List.mem_cons_of_mem _ (List.mem_cons_self _ _), ?_⟩
        rw [List.nodup_cons] at hnd
        intro hy
        exact hnd.1 (by rw [hx, ← hy]; exact List.mem_cons_self _ _)
      · exact ⟨x, List.mem_cons_self _ _, hx⟩

theorem mem_removeFromVec (vec : List Nat) (elem x : Nat) :
    x ∈ removeFromVec vec elem ↔ x ∈ vec ∧ x ≠ elem := by
  unfold removeFromVec
  simp

/-- When the pending list is empty the node whose edges are examined does not
matter. -/
theorem KahnInv.idle {blocks : Blocks} {entry : Nat} {s : TopoState} {src : Nat}
    (h : KahnInv blocks entry s src []) (src1 : Nat) : KahnInv blocks entry s src1 [] := by
  refine ⟨?_, h.inc_nodup, h.inc_ne, h.before⟩
  intro v hv hvv p
  rw [h.inc v hv hvv p]
  simp

/-- One pass of the body of the edge loop keeps the invariant of the first
run of the queue loop. -/
theorem kahn_visitEdge (blocks : Blocks) (hw : WellFormed blocks) (entry src : Nat)
    (s : TopoState) (e : GraphEdge) (pend : List Nat)
    (hkeys : ∀ p v, v ∈ targetsOf blocks p → v ∈ keysOf blocks)
    (hinv : TopoInv blocks entry s) (hsrc : src ∈ s.block_order)
    (he : e.target ∈ targetsOf blocks src) (hpend : e.target ∉ pend)
    (hk : KahnInv blocks entry s src (e.target :: pend)) :
    KahnInv blocks entry (visitEdge blocks src s e) src pend := by
  have hkey : e.target ∈ keysOf blocks := hkeys src e.target he
  have hpendv : ∀ v, v ≠ e.target → ∀ p,
      ((p = src ∧ v ∈ e.target :: pend) ↔ (p = src ∧ v ∈ pend)) := by
    intro v hv p
    simp [hv]
  by_cases h1 : e.target ∈ s.visited
  · have hs : visitEdge blocks src s e = s := by
      unfold visitEdge
      simp only
      rw [if_pos h1]
    rw [hs]
    refine ⟨?_, hk.inc_nodup, hk.inc_ne, hk.before⟩
    intro v hv hvv p
    have hne : v ≠ e.target := fun h => hvv (h ▸ h1)
    rw [hk.inc v hv hvv p, hpendv v hne p]
  · have hnk : ¬ ((!hasKey blocks e.target) = true) := by
      simpa using (hasKey_iff blocks e.target).2 hkey
    have hinc := visitEdge_incoming blocks src s e
    have hord := (visitEdge_spec blocks src s e).1
    have hsrcinc : src ∈ (s.grid e.target).incoming :=
      (hk.inc e.target hkey h1 src).2 ⟨he, Or.inr ⟨rfl, List.mem_cons_self _ _⟩⟩
    by_cases h3 : (s.grid e.target).incoming.length = 1
    · -- the target is adopted
      have hv : (visitEdge blocks src s e).visited = e.target :: s.visited := by
        unfold visitEdge
        simp only
        rw [if_neg h1, if_neg hnk, if_pos h3]
      have hq : (visitEdge blocks src s e).queue = s.queue ++ [e.target] := by
        unfold visitEdge
        simp only
        rw [if_neg h1, if_neg hnk, if_pos h3, blockAt_entry blocks hw e.target hkey]
      have hseq : (visitEdge blocks src s e).seq = s.seq ++ [e.target] := by
        unfold TopoState.seq
        rw [hord, hq, List.append_assoc]
      have htseq : e.target ∉ s.seq := fun hm => h1 ((hinv.visited_iff _).2 hm)
      have hone : (s.grid e.target).incoming = [src] := by
        obtain ⟨x, hx⟩ := List.length_eq_one.1 h3
        rw [hx] at hsrcinc ⊢
        rw [List.mem_singleton] at hsrcinc
        rw [hsrcinc]
      refine ⟨?_, ?_, ?_, ?_⟩
      · intro v hvk hvv p
        rw [hv, List.mem_cons, not_or] at hvv
        rw [hinc v hvv.1, hord, hk.inc v hvk hvv.2 p, hpendv v hvv.1 p]
      · intro v hvk hvv
        rw [hv, List.mem_cons, not_or] at hvv
        rw [hinc v hvv.1]
        exact hk.inc_nodup v hvk hvv.2
      · intro v hvk hvv hp
        rw [hv, List.mem_cons, not_or] at hvv
        rw [hinc v hvv.1]
        exact hk.inc_ne v hvk hvv.2 hp
      · intro v hvs hve p hp
        rw [hseq, List.mem_append, List.mem_singleton] at hvs
        rw [hord, hseq]
        rcases hvs with hvs | hvs
        · obtain ⟨b1, b2⟩ := hk.before v hvs hve p hp
          have hps : p ∈ s.seq := by
            unfold TopoState.seq
            exact List.mem_append_left _ b1
          refine ⟨b1, ?_⟩
          rw [List.indexOf_append_of_mem hps, List.indexOf_append_of_mem hvs]
          exact b2
        · subst hvs
          have hpo : p ∈ s.block_order := by
            by_contra hno
            have hpi := (hk.inc e.target hkey h1 p).2 ⟨hp, Or.inl hno⟩
            rw [hone, List.mem_singleton] at hpi
            exact hno (hpi ▸ hsrc)
          have hps : p ∈ s.seq := by
            unfold TopoState.seq
            exact List.mem_append_left _ hpo
          refine ⟨hpo, ?_⟩
          rw [List.indexOf_append_of_mem hps, List.indexOf_append_of_not_mem htseq]
          have := List.indexOf_lt_length.2 hps
          simp only [List.indexOf_cons_self, add_zero]
          exact this
    · -- the entry of `src` is removed from the incoming list of the target
      have hv : (visitEdge blocks src s e).visited = s.visited := by
        unfold visitEdge
        simp only
        rw [if_neg h1, if_neg hnk, if_neg h3]
      have hq : (visitEdge blocks src s e).queue = s.queue := by
        unfold visitEdge
        simp only
        rw [if_neg h1, if_neg hnk, if_neg h3]
      have hseq : (visitEdge blocks src s e).seq = s.seq := by
        unfold TopoState.seq
        rw [hord, hq]
      have hti : ((visitEdge blocks src s e).grid e.target).incoming
          = removeFromVec (s.grid e.target).incoming src := by
        unfold visitEdge
        simp only
        rw [if_neg h1, if_neg hnk, if_neg h3]
        simp only [Function.update_same]
      refine ⟨?_, ?_, ?_, ?_⟩
      · intro v hvk hvv p
        rw [hv] at hvv
        rw [hord]
        by_cases hvt : v = e.target
        · subst hvt
          rw [hti, mem_removeFromVec, hk.inc _ hvk hvv p]
          constructor
          · rintro ⟨⟨a1, a2⟩, a3⟩
            rcases a2 with a2 | a2
            · exact ⟨a1, Or.inl a2⟩
            · exact absurd a2.1 a3
          · rintro ⟨a1, a2⟩
            rcases a2 with a2 | a2
            · exact ⟨⟨a1, Or.inl a2⟩, fun h => a2 (h ▸ hsrc)⟩
            · exact absurd a2.2 hpend
        · rw [hinc v hvt, hk.inc v hvk hvv p, hpendv v hvt p]
      · intro v hvk hvv
        rw [hv] at hvv
        by_cases hvt : v = e.target
        · subst hvt
          rw [hti]
          unfold removeFromVec
          exact (hk.inc_nodup _ hvk hvv).filter _
        · rw [hinc v hvt]
          exact hk.inc_nodup v hvk hvv
      · intro v hvk hvv hp
        rw [hv] at hvv
        by_cases hvt : v = e.target
        · subst hvt
          rw [hti]
          obtain ⟨b, hb1, hb2⟩ := nodup_other _ src (hk.inc_nodup _ hvk hvv) hsrcinc h3
          exact List.ne_nil_of_mem ((mem_removeFromVec _ _ _).2 ⟨hb1, hb2⟩)
        · rw [hinc v hvt]
          exact hk.inc_ne v hvk hvv hp
      · intro v hvs hve p hp
        rw [hseq] at hvs ⊢
        rw [hord]
        exact hk.before v hvs hve p hp
theorem mem_targetsOf_key (blocks : Blocks) (p v : Nat) (h : v ∈ targetsOf blocks p) :
    p ∈ keysOf blocks := by
  by_contra hp
  unfold targetsOf at h
  rw [blockAt_not_key blocks p hp] at h
  cases h

theorem kahn_visitEdges (blocks : Blocks) (hw : WellFormed blocks) (entry src : Nat)
    (hkeys : ∀ p v, v ∈ targetsOf blocks p → v ∈ keysOf blocks)
    (es : List GraphEdge) (s : TopoState)
    (hinv : TopoInv blocks entry s) (hsrc : src ∈ s.block_order)
    (hes : ∀ e ∈ es, e ∈ (blockAt blocks src).edges)
    (hnd : (es.map GraphEdge.target).Nodup)
    (hk : KahnInv blocks entry s src (es.map GraphEdge.target)) :
    KahnInv blocks entry (es.foldl (visitEdge blocks src) s) src [] := by
  induction es generalizing s with
  | nil => exact hk
  | cons e es ih =>
    rw [List.foldl_cons]
    rw [List.map_cons, List.nodup_cons] at hnd
    have hsseq : src ∈ s.seq := by
      unfold TopoState.seq
      exact List.mem_append_left _ hsrc
    have hem := hes e (List.mem_cons_self _ _)
    obtain ⟨a1, _⟩ := visitEdge_inv blocks hw entry src s e hinv hsseq hem
    have he : e.target ∈ targetsOf blocks src := by
      unfold targetsOf
      exact List.mem_map.2 ⟨e, hem, rfl⟩
    have hk1 := kahn_visitEdge blocks hw entry src s e (es.map GraphEdge.target) hkeys hinv
      hsrc he hnd.1 hk
    refine ih _ a1 ?_ (fun x hx => hes x (List.mem_cons_of_mem _ hx)) hnd.2 hk1
    rw [(visitEdge_spec blocks src s e).1]
    exact hsrc

/-- Taking the front of the queue into the order: its edges become the
pending ones. -/
theorem kahn_pop (blocks : Blocks) (entry : Nat) (s : TopoState) (q : Nat) (rest : List Nat)
    (src : Nat) (hq : s.queue = q :: rest) (hinv : TopoInv blocks entry s)
    (hk : KahnInv blocks entry s src []) :
    KahnInv blocks entry { s with queue := rest, block_order := s.block_order ++ [q] } q
      (targetsOf blocks q) := by
  have hnd := hinv.nodup
  unfold TopoState.seq at hnd
  rw [hq] at hnd
  have hqo : q ∉ s.block_order := by
    intro hm
    exact (List.nodup_append.1 hnd).2.2 hm (List.mem_cons_self _ _)
  have hseq : ({ s with queue := rest, block_order := s.block_order ++ [q] } : TopoState).seq
      = s.seq := by
    unfold TopoState.seq
    simp only
    rw [hq, List.append_assoc, List.singleton_append]
  refine ⟨?_, hk.inc_nodup, hk.inc_ne, ?_⟩
  · intro v hv hvv p
    rw [hk.inc v hv hvv p]
    simp only [List.not_mem_nil, and_false, or_false, List.mem_append, List.mem_singleton,
      not_or]
    constructor
    · rintro ⟨a1, a2⟩
      refine ⟨a1, ?_⟩
      by_cases hpq : p = q
      · exact Or.inr ⟨hpq, hpq ▸ a1⟩
      · exact Or.inl ⟨a2, hpq⟩
    · rintro ⟨a1, a2⟩
      refine ⟨a1, ?_⟩
      rcases a2 with a2 | a2
      · exact a2.1
      · rw [a2.1]
        exact hqo
  · intro v hvs hve p hp
    rw [hseq] at hvs ⊢
    obtain ⟨b1, b2⟩ := hk.before v hvs hve p hp
    exact ⟨List.mem_append_left _ b1, b2⟩

/-- The queue loop keeps the invariant of its first run. -/
theorem kahn_drain (blocks : Blocks) (hw : WellFormed blocks) (entry : Nat)
    (hkeys : ∀ p v, v ∈ targetsOf blocks p → v ∈ keysOf blocks)
    (hnodup : ∀ p, (targetsOf blocks p).Nodup)
    (fuel : Nat) (s s1 : TopoState) (src : Nat) (hrun : drain blocks fuel s = some s1)
    (hinv : TopoInv blocks entry s) (hk : KahnInv blocks entry s src []) :
    KahnInv blocks entry s1 src [] := by
  induction fuel generalizing s src with
  | zero =>
    unfold drain at hrun
    cases hq : s.queue with
    | nil =>
      rw [hq] at hrun
      simp only [Option.some.injEq] at hrun
      rw [← hrun]
      exact hk
    | cons q rest =>
      rw [hq] at hrun
      cases hrun
  | succ fuel ih =>
    unfold drain at hrun
    cases hq : s.queue with
    | nil =>
      rw [hq] at hrun
      simp only [Option.some.injEq] at hrun
      rw [← hrun]
      exact hk
    | cons q rest =>
      rw [hq] at hrun
      simp only at hrun
      have hqseq : q ∈ s.seq := by
        unfold TopoState.seq
        rw [hq]
        exact List.mem_append_right _ (List.mem_cons_self _ _)
      have hqk : q ∈ keysOf blocks := hinv.keys q hqseq
      have hent : (blockAt blocks q).entry = q := blockAt_entry blocks hw q hqk
      rw [hent] at hrun
      have hpop : TopoInv blocks entry
          { s with queue := rest, block_order := s.block_order ++ [q] } :=
        hinv.pop q rest hq rfl rfl rfl (fun _ => rfl)
      have hsrc : q ∈ TopoState.seq
          { s with queue := rest, block_order := s.block_order ++ [q] } := by
        unfold TopoState.seq
        exact List.mem_append_left _ (List.mem_append_right _ (List.mem_singleton_self _))
      obtain ⟨a1, _⟩ := visitEdges_inv blocks hw entry q (blockAt blocks q).edges _ hpop hsrc
        (fun e he => he)
      have hk1 := kahn_pop blocks entry s q rest src hq hinv hk
      have hk2 := kahn_visitEdges blocks hw entry q hkeys (blockAt blocks q).edges _ hpop
        (List.mem_append_right _ (List.mem_singleton_self _)) (fun e he => he) (hnodup q) hk1
      exact (ih _ q hrun a1 hk2).idle src

theorem mem_sourcesOf (blocks : Blocks) (hw : WellFormed blocks) (v p : Nat) :
    p ∈ sourcesOf blocks v ↔ v ∈ targetsOf blocks p := by
  unfold sourcesOf targetsOf
  simp only [List.mem_flatMap, List.mem_map, List.mem_filter, decide_eq_true_eq]
  constructor
  · rintro ⟨kb, hkb, e, ⟨he1, he2⟩, hp⟩
    rw [← hp, blockAt_of_mem blocks hw.1 kb hkb]
    exact ⟨e, he1, he2⟩
  · rintro ⟨e, he1, he2⟩
    have hpk : p ∈ keysOf blocks := by
      by_contra hp
      rw [blockAt_not_key blocks p hp] at he1
      cases he1
    unfold keysOf at hpk
    obtain ⟨kb, hkb, hkb1⟩ := List.mem_map.1 hpk
    refine ⟨kb, hkb, e, ⟨?_, he2⟩, hkb1⟩
    rw [← blockAt_of_mem blocks hw.1 kb hkb, hkb1]
    exact he1

theorem nodup_const_filter (es : List GraphEdge) (v k : Nat)
    (hnd : (es.map GraphEdge.target).Nodup) :
    ((es.filter (fun e => decide (e.target = v))).map (fun _ => k)).Nodup := by
  induction es with
  | nil => exact List.nodup_nil
  | cons e es ih =>
    rw [List.map_cons, List.nodup_cons] at hnd
    by_cases h : e.target = v
    · rw [List.filter_cons_of_pos (by simpa using h)]
      have hnil : es.filter (fun e => decide (e.target = v)) = [] := by
        rw [List.filter_eq_nil_iff]
        intro x hx hxv
        apply hnd.1
        rw [h]
        exact List.mem_map.2 ⟨x, hx, by simpa using hxv⟩
      rw [hnil]
      exact List.nodup_singleton _
    · rw [List.filter_cons_of_neg (by simpa using h)]
      exact ih hnd.2

theorem sourcesOf_nodup (blocks : Blocks) (hw : WellFormed blocks)
    (hnodup : ∀ kb ∈ blocks, (kb.2.edges.map GraphEdge.target).Nodup) (v : Nat) :
    (sourcesOf blocks v).Nodup := by
  unfold sourcesOf
  have key : ∀ l : Blocks, (l.map Prod.fst).Nodup →
      (∀ kb ∈ l, (kb.2.edges.map GraphEdge.target).Nodup) →
      (l.flatMap (fun kb => (kb.2.edges.filter (fun e => decide (e.target = v))).map
        (fun _ => kb.1))).Nodup := by
    intro l
    induction l with
    | nil => intro _ _; exact List.nodup_nil
    | cons kb l ih =>
      intro h1 h2
      rw [List.map_cons, List.nodup_cons] at h1
      rw [List.flatMap_cons]
      refine List.Nodup.append (nodup_const_filter _ v kb.1 (h2 kb (List.mem_cons_self _ _)))
        (ih h1.2 (fun x hx => h2 x (List.mem_cons_of_mem _ hx))) ?_
      intro x hx1 hx2
      rw [List.mem_map] at hx1
      obtain ⟨_, _, rfl⟩ := hx1
      rw [List.mem_flatMap] at hx2
      obtain ⟨kb2, hkb2, hx2⟩ := hx2
      rw [List.mem_map] at hx2
      obtain ⟨_, _, hx3⟩ := hx2
      apply h1.1
      rw [← hx3]
      exact List.mem_map.2 ⟨kb2, hkb2, rfl⟩
  exact key blocks hw.1 hnodup

/-- The invariant holds when the queue loop is entered for the first time. -/
theorem kahn_init (blocks : Blocks) (hw : WellFormed blocks) (entry src : Nat)
    (hnodup : ∀ kb ∈ blocks, (kb.2.edges.map GraphEdge.target).Nodup) :
    KahnInv blocks entry { topoInit blocks (initGrid blocks) entry with changed := false }
      src [] := by
  have hinc : ∀ v, ((populateIncoming blocks (initGrid blocks)) v).incoming
      = sourcesOf blocks v := by
    intro v
    rw [populateIncoming_incoming, initGrid_apply]
    split_ifs <;> rfl
  refine ⟨?_, ?_, ?_, ?_⟩
  · intro v _ _ p
    show p ∈ ((populateIncoming blocks (initGrid blocks)) v).incoming ↔ _
    rw [hinc, mem_sourcesOf blocks hw]
    show _ ↔ v ∈ targetsOf blocks p ∧ (p ∉ ([] : List Nat) ∨ _)
    simp
  · intro v _ _
    show ((populateIncoming blocks (initGrid blocks)) v).incoming.Nodup
    rw [hinc]
    exact sourcesOf_nodup blocks hw hnodup v
  · intro v _ _ hp
    obtain ⟨p, hp⟩ := hp
    show ((populateIncoming blocks (initGrid blocks)) v).incoming ≠ []
    rw [hinc]
    exact List.ne_nil_of_mem ((mem_sourcesOf blocks hw v p).2 hp)
  · intro v hv hve
    have : v ∈ [entry] := hv
    rw [List.mem_singleton] at this
    exact absurd this hve

/-- Induction along the edges of a node map without cycle: a property holds
for every key if it holds for a key whenever it holds for the sources of all
edges into it. -/
theorem acyclic_induction (blocks : Blocks) (hacyc : Acyclic blocks) (P : Nat → Prop)
    (h : ∀ v ∈ keysOf blocks, (∀ p ∈ keysOf blocks, EdgeTo blocks p v → P p) → P v) :
    ∀ v ∈ keysOf blocks, P v := by
  haveI : IsTrans {k // k ∈ keysOf blocks}
      (fun a b => Relation.TransGen (EdgeTo blocks) a.1 b.1) :=
    ⟨fun a b c hab hbc => Relation.TransGen.trans hab hbc⟩
  haveI : IsIrrefl {k // k ∈ keysOf blocks}
      (fun a b => Relation.TransGen (EdgeTo blocks) a.1 b.1) :=
    ⟨fun a ha => hacyc a.1 ha⟩
  have wf : WellFounded (fun (a b : {k // k ∈ keysOf blocks}) =>
      Relation.TransGen (EdgeTo blocks) a.1 b.1) :=
    Finite.wellFounded_of_trans_of_irrefl _
  intro v hv
  have key : ∀ a : {k // k ∈ keysOf blocks}, P a.1 := fun a =>
    wf.induction a (fun x ih => h x.1 x.2
      (fun p hp hpe => ih ⟨p, hp⟩ (Relation.TransGen.single hpe)))
  exact key ⟨v, hv⟩

/-- When the queue of the first run is empty, every key has been visited, if
the map has no cycle and every key is reachable from the entry. -/
theorem kahn_all_visited (blocks : Blocks) (entry : Nat) (s : TopoState) (src : Nat)
    (hacyc : Acyclic blocks) (hreach : ∀ k ∈ keysOf blocks, Reachable blocks entry k)
    (hinv : TopoInv blocks entry s) (hq : s.queue = []) (hk : KahnInv blocks entry s src []) :
    ∀ k ∈ keysOf blocks, k ∈ s.visited := by
  have hseq : s.seq = s.block_order := by
    unfold TopoState.seq
    rw [hq, List.append_nil]
  have hent : entry ∈ s.visited := by
    rw [hinv.visited_iff, hseq]
    exact (hinv.tree_facts hq).1
  refine acyclic_induction blocks hacyc (fun v => v ∈ s.visited) ?_
  intro v hv ih
  by_contra hvv
  have hve : v ≠ entry := fun h => hvv (h ▸ hent)
  have hpred : ∃ p, v ∈ targetsOf blocks p := by
    rcases Relation.ReflTransGen.cases_tail (hreach v hv) with h | ⟨p, _, hpv⟩
    · exact absurd h hve
    · obtain ⟨_, e, he1, he2⟩ := hpv
      exact ⟨p, List.mem_map.2 ⟨e, he1, he2⟩⟩
  have hne := hk.inc_ne v hv hvv hpred
  obtain ⟨p, hp⟩ := List.exists_mem_of_ne_nil _ hne
  obtain ⟨hp1, hp2⟩ := (hk.inc v hv hvv p).1 hp
  simp only [List.not_mem_nil, and_false, or_false] at hp2
  have hpk := mem_targetsOf_key blocks p v hp1
  have hedge : EdgeTo blocks p v := by
    refine ⟨(hasKey_iff blocks v).2 hv, ?_⟩
    unfold targetsOf at hp1
    obtain ⟨e, he1, he2⟩ := List.mem_map.1 hp1
    exact ⟨e, he1, he2⟩
  have : p ∈ s.visited := ih p hpk hedge
  rw [hinv.visited_iff, hseq] at this
  exact hp2 this

/-- With every key visited the fallback scan selects nothing. -/
theorem scan_all_visited (blocks : Blocks) (s : TopoState)
    (hall : ∀ k ∈ keysOf blocks, k ∈ s.visited) :
    scanBlocks blocks s = { best := 0, best_edges := 0, best_parent := 0 } := by
  have hedge : ∀ src b e, scanEdge blocks s src b e = b := by
    intro src b e
    unfold scanEdge
    simp only
    by_cases h1 : e.target ∈ s.visited
    · rw [if_pos h1]
    · rw [if_neg h1]
      have h2 : (!hasKey blocks e.target) = true := by
        have : ¬ hasKey blocks e.target = true :=
          fun hk => h1 (hall _ ((hasKey_iff blocks e.target).1 hk))
        simpa using this
      rw [if_pos h2]
  have hedges : ∀ src (es : List GraphEdge) b, es.foldl (scanEdge blocks s src) b = b := by
    intro src es
    induction es with
    | nil => intro b; rfl
    | cons e es ih => intro b; rw [List.foldl_cons, hedge, ih]
  have key : ∀ (l : Blocks) (b : Best),
      l.foldl
        (fun b kb =>
          if kb.2.entry ∈ s.visited then kb.2.edges.foldl (scanEdge blocks s kb.2.entry) b
          else b) b = b := by
    intro l
    induction l with
    | nil => intro b; rfl
    | cons kb l ih =>
      intro b
      rw [List.foldl_cons]
      have hstep : (if kb.2.entry ∈ s.visited
          then kb.2.edges.foldl (scanEdge blocks s kb.2.entry) b else b) = b := by
        split_ifs
        · exact hedges _ _ _
        · rfl
      rw [hstep]
      exact ih b
  unfold scanBlocks
  exact key blocks _
theorem drain_nil (blocks : Blocks) (fuel : Nat) (s : TopoState) (hq : s.queue = []) :
    drain blocks fuel s = some s := by
  unfold drain
  rw [hq]

/-- When the first run of the queue loop has visited every key, the loop
`while (changed)` ends without the fallback scan selecting a node: the order
and the grid are those of the first run. -/
theorem mainLoop_settled (blocks : Blocks) (fuel : Nat) (s s1 : TopoState)
    (hd : drain blocks (s.queue.length + unvisitedCount blocks s.visited)
      { s with changed := false } = some s1)
    (hq : s1.queue = []) (hall : ∀ k ∈ keysOf blocks, k ∈ s1.visited) :
    ∃ s2, mainLoop blocks (fuel + 2) s = some s2 ∧ s2.block_order = s1.block_order ∧
      s2.grid = s1.grid := by
  have had : ∀ s3 : TopoState, (∀ k ∈ keysOf blocks, k ∈ s3.visited) →
      adoptBest s3 (scanBlocks blocks s3) = s3 := by
    intro s3 h3
    rw [scan_all_visited blocks s3 h3]
    unfold adoptBest
    rw [if_neg (by simp)]
  unfold mainLoop
  rw [hd]
  simp only
  rw [had s1 hall]
  by_cases hc : s1.changed = true
  · rw [if_pos hc]
    unfold mainLoop
    rw [drain_nil blocks _ { s1 with changed := false } hq]
    simp only
    rw [had { s1 with changed := false } hall]
    simp only [Bool.false_eq_true, if_false]
    exact ⟨_, rfl, rfl, rfl⟩
  · rw [if_neg hc]
    exact ⟨s1, rfl, rfl, rfl⟩

/-- A node map whose edges all go from a lower to a higher rank has no
cycle. -/
theorem acyclic_of_rank (blocks : Blocks) (hw : WellFormed blocks) (rank : Nat → Nat)
    (h : ∀ kb ∈ blocks, ∀ e ∈ kb.2.edges, rank kb.1 < rank e.target) : Acyclic blocks := by
  have hstep : ∀ u v, EdgeTo blocks u v → rank u < rank v := by
    rintro u v ⟨_, e, he1, he2⟩
    have huk : u ∈ keysOf blocks := by
      by_contra hu
      rw [blockAt_not_key blocks u hu] at he1
      cases he1
    unfold keysOf at huk
    obtain ⟨kb, hkb, rfl⟩ := List.mem_map.1 huk
    rw [blockAt_of_mem blocks hw.1 kb hkb] at he1
    rw [← he2]
    exact h kb hkb e he1
  have htrans : ∀ u v, Relation.TransGen (EdgeTo blocks) u v → rank u < rank v := by
    intro u v huv
    induction huv with
    | single h1 => exact hstep _ _ h1
    | tail _ h2 ih => exact lt_trans ih (hstep _ _ h2)
  intro v hv
  exact lt_irrefl _ (htrans v v hv)

/-- C23. On a well-formed node map whose entry is a key, that has no cycle, in
which every key is reachable from the entry, every edge target is a key and no
node has two edges to the same target: the first run of the queue loop of
`topoSort` visits every key, so the fallback scan that follows selects no node
(`best` stays 0) and `topoSort` returns the order and the grid of that first
run; the order holds every key and is a topological order: for every edge
`u -> v`, `u` comes before `v`. -/
theorem topoSort_topological (blocks : Blocks) (entry : Nat)
    (hw : WellFormed blocks) (hin : entry ∈ keysOf blocks) (hacyc : Acyclic blocks)
    (hreach : ∀ k ∈ keysOf blocks, Reachable blocks entry k)
    (hkeys : ∀ kb ∈ blocks, ∀ e ∈ kb.2.edges, e.target ∈ keysOf blocks)
    (hnodup : ∀ kb ∈ blocks, (kb.2.edges.map GraphEdge.target).Nodup) :
    ∃ s1 tr,
      afterFirstDrain blocks entry = some s1 ∧
      (∀ k ∈ keysOf blocks, k ∈ s1.visited) ∧
      (scanBlocks blocks s1).best = 0 ∧
      topoSort blocks (initGrid blocks) (keysOf blocks) entry = some tr ∧
      tr.order = s1.block_order ∧ tr.grid = s1.grid ∧
      (∀ k ∈ keysOf blocks, k ∈ tr.order) ∧
      ∀ u v, EdgeTo blocks u v →
        u ∈ tr.order ∧ v ∈ tr.order ∧ tr.order.indexOf u < tr.order.indexOf v := by
  have hkeys2 : ∀ p v, v ∈ targetsOf blocks p → v ∈ keysOf blocks := by
    intro p v hv
    have hpk := mem_targetsOf_key blocks p v hv
    unfold keysOf at hpk
    obtain ⟨kb, hkb, rfl⟩ := List.mem_map.1 hpk
    unfold targetsOf at hv
    rw [blockAt_of_mem blocks hw.1 kb hkb] at hv
    obtain ⟨e, he1, he2⟩ := List.mem_map.1 hv
    rw [← he2]
    exact hkeys kb hkb e he1
  have hnodup2 : ∀ p, (targetsOf blocks p).Nodup := by
    intro p
    unfold targetsOf
    by_cases hp : p ∈ keysOf blocks
    · unfold keysOf at hp
      obtain ⟨kb, hkb, rfl⟩ := List.mem_map.1 hp
      rw [blockAt_of_mem blocks hw.1 kb hkb]
      exact hnodup kb hkb
    · rw [blockAt_not_key blocks p hp]
      exact List.nodup_nil
  have hinit := topoInit_inv blocks (initGrid blocks) entry hin (initGrid_tree_edge blocks)
  have h0 : TopoInv blocks entry
      { topoInit blocks (initGrid blocks) entry with changed := false } :=
    hinit.same rfl rfl rfl (fun _ => rfl)
  obtain ⟨s1, d1, d2, d3, _⟩ := drain_inv blocks hw entry
    ((topoInit blocks (initGrid blocks) entry).queue.length
      + unvisitedCount blocks (topoInit blocks (initGrid blocks) entry).visited)
    { topoInit blocks (initGrid blocks) entry with changed := false } h0 (le_refl _)
  have hk := kahn_drain blocks hw entry hkeys2 hnodup2 _ _ s1 entry d1 h0
    (kahn_init blocks hw entry entry hnodup)
  have hall := kahn_all_visited blocks entry s1 entry hacyc hreach d2 d3 hk
  obtain ⟨s2, m1, m2, m3⟩ := mainLoop_settled blocks (unvisitedCount blocks [entry])
    (topoInit blocks (initGrid blocks) entry) s1 d1 d3 hall
  have hseq : s1.seq = s1.block_order := by
    unfold TopoState.seq
    rw [d3, List.append_nil]
  have hord : ∀ k ∈ keysOf blocks, k ∈ s1.block_order := by
    intro k hk1
    rw [← hseq, ← d2.visited_iff]
    exact hall k hk1
  refine ⟨s1, ⟨s2.block_order, blocks, s2.grid, populateKeys blocks (keysOf blocks)⟩,
    d1, hall, ?_, ?_, m2, m3, ?_, ?_⟩
  · rw [scan_all_visited blocks s1 hall]
  · unfold topoSort
    simp only
    rw [ensureKey_of_mem blocks entry hin, m1]
  · intro k hk1
    show k ∈ s2.block_order
    rw [m2]
    exact hord k hk1
  · intro u v huv
    show u ∈ s2.block_order ∧ v ∈ s2.block_order ∧
      s2.block_order.indexOf u < s2.block_order.indexOf v
    rw [m2]
    have huv0 := huv
    obtain ⟨hvk, e, he1, he2⟩ := huv
    have hvk2 : v ∈ keysOf blocks := (hasKey_iff blocks v).1 hvk
    have hvt : v ∈ targetsOf blocks u := List.mem_map.2 ⟨e, he1, he2⟩
    have huk := mem_targetsOf_key blocks u v hvt
    have hve : v ≠ entry := by
      rintro rfl
      exact hacyc v (Relation.TransGen.tail' (hreach u huk) huv0)
    have hvs : v ∈ s1.seq := by rw [hseq]; exact hord v hvk2
    obtain ⟨b1, b2⟩ := hk.before v hvs hve u hvt
    rw [hseq] at b2
    exact ⟨b1, hord v hvk2, b2⟩

theorem diamond_reachable : ∀ k ∈ keysOf diamondMap, Reachable diamondMap 1 k := by
  have e12 : EdgeTo diamondMap 1 2 := by
    unfold EdgeTo
    decide
  have e13 : EdgeTo diamondMap 1 3 := by
    unfold EdgeTo
    decide
  have e24 : EdgeTo diamondMap 2 4 := by
    unfold EdgeTo
    decide
  have r1 : Reachable diamondMap 1 1 := Relation.ReflTransGen.refl
  have r2 : Reachable diamondMap 1 2 := Relation.ReflTransGen.tail r1 e12
  have r3 : Reachable diamondMap 1 3 := Relation.ReflTransGen.tail r1 e13
  have r4 : Reachable diamondMap 1 4 := Relation.ReflTransGen.tail r2 e24
  intro k hk
  have hk2 : k = 1 ∨ k = 2 ∨ k = 3 ∨ k = 4 := by
    simpa [keysOf, diamondMap, mkBlock] using hk
  rcases hk2 with rfl | rfl | rfl | rfl
  · exact r1
  · exact r2
  · exact r3
  · exact r4

/-- Witness for `topoSort_topological`: the diamond `1 -> 2, 1 -> 3, 2 -> 4,
3 -> 4` with entry 1, whose edges all go to a higher key. -/
theorem topoSort_topological_witness :
    WellFormed diamondMap ∧ 1 ∈ keysOf diamondMap ∧ Acyclic diamondMap ∧
    (∀ k ∈ keysOf diamondMap, Reachable diamondMap 1 k) ∧
    (∀ kb ∈ diamondMap, ∀ e ∈ kb.2.edges, e.target ∈ keysOf diamondMap) ∧
    (∀ kb ∈ diamondMap, (kb.2.edges.map GraphEdge.target).Nodup) ∧
    ∃ s1 tr,
      afterFirstDrain diamondMap 1 = some s1 ∧
      (∀ k ∈ keysOf diamondMap, k ∈ s1.visited) ∧
      (scanBlocks diamondMap s1).best = 0 ∧
      topoSort diamondMap (initGrid diamondMap) (keysOf diamondMap) 1 = some tr ∧
      tr.order = s1.block_order ∧ tr.grid = s1.grid ∧
      (∀ k ∈ keysOf diamondMap, k ∈ tr.order) ∧
      ∀ u v, EdgeTo diamondMap u v →
        u ∈ tr.order ∧ v ∈ tr.order ∧ tr.order.indexOf u < tr.order.indexOf v :=
  ⟨by decide, by decide, acyclic_of_rank diamondMap (by decide) (fun k => k) (by decide),
    diamond_reachable, by decide, by decide,
    topoSort_topological diamondMap 1 (by decide) (by decide)
      (acyclic_of_rank diamondMap (by decide) (fun k => k) (by decide))
      diamond_reachable (by decide) (by decide)⟩

theorem cellAccesses_inBounds (tb : Table) (cells : List (Int × Int)) (rc cc : Int)
    (h1 : tb.size rc cc = rc + 1) (h2 : tb.rowSize cc = cc + 1)
    (h : ∀ p ∈ cells, 0 ≤ p.1 ∧ p.1 ≤ rc ∧ 0 ≤ p.2 ∧ p.2 ≤ cc) :
    ∀ a ∈ cellAccesses tb cells, a.InBounds rc cc := by
  intro a ha
  unfold cellAccesses at ha
  obtain ⟨p, hp, rfl⟩ := List.mem_map.1 ha
  obtain ⟨b1, b2, b3, b4⟩ := h p hp
  refine ⟨b1, ?_, ?_⟩
  · show p.1 < tb.size rc cc
    rw [h1]
    omega
  · intro j hj
    have hj2 : j = p.2 := by
      have : some p.2 = some j := hj
      exact (Option.some.inj this).symm
    subst hj2
    show 0 ≤ p.2 ∧ p.2 < tb.rowSize cc
    rw [h2]
    omega

/-- An index into a plain vector is in bounds when it is below the size. -/
theorem vector_inBounds (tb : Table) (i rc cc : Int) (h0 : 0 ≤ i) (h1 : i < tb.size rc cc) :
    Access.InBounds { table := tb, i := i, j := none } rc cc := by
  refine ⟨h0, h1, ?_⟩
  intro j hj
  cases hj

theorem checkColumnAccesses_inBounds (edge_valid : Matrix) (min_row max_row column : Int)
    (rc cc : Int) (hn : edge_valid.ncols = cc + 1) (h0 : 0 ≤ min_row) (h1 : min_row ≤ rc)
    (h2 : max_row ≤ rc + 1) :
    ∀ a ∈ checkColumnAccesses edge_valid min_row max_row column, a.InBounds rc cc := by
  intro a ha
  unfold checkColumnAccesses at ha
  by_cases hc : column < 0
  · rw [if_pos hc] at ha
    cases ha
  · rw [if_neg hc] at ha
    rcases List.mem_cons.1 ha with rfl | ha
    · exact vector_inBounds _ _ _ _ h0 (by show min_row < rc + 1; omega)
    · by_cases hc2 : column ≥ edge_valid.ncols
      · rw [if_pos hc2] at ha
        cases ha
      · rw [if_neg hc2] at ha
        refine cellAccesses_inBounds Table.edge_valid _ rc cc rfl rfl ?_ a ha
        intro p hp
        obtain ⟨row, hrow, rfl⟩ := List.mem_map.1 hp
        rw [mem_intRange] at hrow
        simp only
        omega

theorem probeAccesses_inBounds (edge_valid : Matrix) (min_row max_row c0 : Int)
    (rc cc : Int) (hn : edge_valid.ncols = cc + 1) (h0 : 0 ≤ min_row) (h1 : min_row ≤ rc)
    (h2 : max_row ≤ rc + 1) (fuel : Nat) (ofs : Int) :
    ∀ a ∈ probeAccesses edge_valid min_row max_row c0 fuel ofs, a.InBounds rc cc := by
  induction fuel generalizing ofs with
  | zero => intro a ha; cases ha
  | succ fuel ih =>
    intro a ha
    unfold probeAccesses at ha
    rcases List.mem_append.1 ha with ha | ha
    · exact checkColumnAccesses_inBounds edge_valid min_row max_row _ rc cc hn h0 h1 h2 a ha
    · split_ifs at ha
      · cases ha
      · rcases List.mem_append.1 ha with ha | ha
        · exact checkColumnAccesses_inBounds edge_valid min_row max_row _ rc cc hn h0 h1 h2 a ha
        · cases ha
      · rcases List.mem_append.1 ha with ha | ha
        · exact checkColumnAccesses_inBounds edge_valid min_row max_row _ rc cc hn h0 h1 h2 a ha
        · exact ih _ a ha

theorem chooseColumnAccesses_inBounds (edge_valid : Matrix) (start end_ : GridBlock)
    (min_row max_row : Int) (rc cc : Int) (hn : edge_valid.ncols = cc + 1) (h0 : 0 ≤ min_row)
    (h1 : min_row ≤ rc) (h2 : max_row ≤ rc + 1) :
    ∀ a ∈ chooseColumnAccesses edge_valid start end_ min_row max_row, a.InBounds rc cc := by
  intro a ha
  unfold chooseColumnAccesses at ha
  have hck := checkColumnAccesses_inBounds edge_valid min_row max_row
  split_ifs at ha
  · rcases List.mem_append.1 ha with ha | ha
    · exact hck _ rc cc hn h0 h1 h2 a ha
    · rcases List.mem_append.1 ha with ha | ha
      · exact hck _ rc cc hn h0 h1 h2 a ha
      · cases ha
  · rcases List.mem_append.1 ha with ha | ha
    · exact hck _ rc cc hn h0 h1 h2 a ha
    · rcases List.mem_append.1 ha with ha | ha
      · exact hck _ rc cc hn h0 h1 h2 a ha
      · exact probeAccesses_inBounds edge_valid min_row max_row _ rc cc hn h0 h1 h2 _ _ a ha
  · rcases List.mem_append.1 ha with ha | ha
    · exact hck _ rc cc hn h0 h1 h2 a ha
    · cases ha
  · cases ha

/-- The column `routeEdge` chooses is a column of the grid. -/
theorem chooseColumn_range (edge_valid : Matrix) (start end_ : GridBlock)
    (min_row max_row col : Int) (cc : Int) (hn : edge_valid.ncols = cc + 1)
    (hs0 : 0 ≤ start.col) (hs1 : start.col + 1 ≤ cc)
    (h : chooseColumn edge_valid start end_ min_row max_row = some col) :
    0 ≤ col ∧ col ≤ cc := by
  by_cases hne : min_row = max_row
  · have := chooseColumn_same_row edge_valid start end_ min_row max_row col hne h
    omega
  · obtain ⟨a1, a2, _⟩ := checkColumn_spec edge_valid min_row max_row col
      (chooseColumn_valid edge_valid start end_ min_row max_row col hne h)
    omega
theorem hcells_row (row lo hi rc cc : Int) (hr0 : 0 ≤ row) (hr1 : row ≤ rc) (h0 : 0 ≤ lo)
    (h1 : hi ≤ cc) :
    ∀ p ∈ (intRange lo hi).map (fun c => (row, c)),
      0 ≤ p.1 ∧ p.1 ≤ rc ∧ 0 ≤ p.2 ∧ p.2 ≤ cc := by
  intro p hp
  obtain ⟨c, hc, rfl⟩ := List.mem_map.1 hp
  rw [mem_intRange] at hc
  simp only
  omega

theorem hcells_col (col lo hi rc cc : Int) (hc0 : 0 ≤ col) (hc1 : col ≤ cc) (h0 : 0 ≤ lo)
    (h1 : hi ≤ rc) :
    ∀ p ∈ (intRange lo hi).map (fun r => (r, col)),
      0 ≤ p.1 ∧ p.1 ≤ rc ∧ 0 ≤ p.2 ∧ p.2 ≤ cc := by
  intro p hp
  obtain ⟨r, hr, rfl⟩ := List.mem_map.1 hp
  rw [mem_intRange] at hr
  simp only
  omega

/-- Every index `routeEdge` uses is in bounds, when `start` has a row below
it and `start` and `end` lie in the grid. -/
theorem routeEdgeAccesses_inBounds (edge_valid : Matrix) (start end_ : GridBlock)
    (rc cc : Int) (hn : edge_valid.ncols = cc + 1)
    (hs : 0 ≤ start.row ∧ start.row + 1 ≤ rc ∧ 0 ≤ start.col ∧ start.col + 1 ≤ cc)
    (he : 0 ≤ end_.row ∧ end_.row ≤ rc ∧ 0 ≤ end_.col ∧ end_.col + 1 ≤ cc) :
    ∀ a ∈ routeEdgeAccesses edge_valid start end_, a.InBounds rc cc := by
  obtain ⟨s1, s2, s3, s4⟩ := hs
  obtain ⟨e1, e2, e3, e4⟩ := he
  have hmin : 0 ≤ (if end_.row < start.row + 1 then end_.row else start.row + 1) ∧
      (if end_.row < start.row + 1 then end_.row else start.row + 1) ≤ rc := by
    split_ifs <;> omega
  have hmax : (if end_.row < start.row + 1 then start.row + 1 else end_.row) ≤ rc := by
    split_ifs <;> omega
  have hstub : ∀ a ∈ cellAccesses Table.vert_edges [(start.row + 1, start.col + 1)],
      a.InBounds rc cc := by
    refine cellAccesses_inBounds Table.vert_edges _ rc cc rfl rfl ?_
    intro p hp
    rw [List.mem_singleton] at hp
    subst hp
    simp only
    omega
  have hprobe := chooseColumnAccesses_inBounds edge_valid start end_
    (if end_.row < start.row + 1 then end_.row else start.row + 1)
    (if end_.row < start.row + 1 then start.row + 1 else end_.row) rc cc hn hmin.1 hmin.2
    (by omega)
  intro a ha
  unfold routeEdgeAccesses at ha
  simp only at ha
  cases hc : chooseColumn edge_valid start end_
      (if end_.row < start.row + 1 then end_.row else start.row + 1)
      (if end_.row < start.row + 1 then start.row + 1 else end_.row) with
  | none =>
    rw [hc] at ha
    simp only [List.mem_append] at ha
    rcases ha with ha | ha
    · exact hstub a ha
    · exact hprobe a ha
  | some col =>
    rw [hc] at ha
    obtain ⟨c0, c1⟩ := chooseColumn_range edge_valid start end_ _ _ col cc hn s3 s4 hc
    simp only [List.mem_append] at ha
    rcases ha with ((((ha | ha) | ha) | ha) | ha) | ha
    · exact hstub a ha
    · exact hprobe a ha
    · split_ifs at ha
      · exact cellAccesses_inBounds Table.horiz_edges _ rc cc rfl rfl
          (hcells_row _ _ _ rc cc (by omega) (by omega) (by omega) (by omega)) a ha
      · exact cellAccesses_inBounds Table.horiz_edges _ rc cc rfl rfl
          (hcells_row _ _ _ rc cc (by omega) (by omega) (by omega) (by omega)) a ha
      · cases ha
    · by_cases hr : end_.row ≠ start.row + 1
      · rw [if_pos hr] at ha
        rcases List.mem_append.1 ha with ha | ha
        · split_ifs at ha
          · exact hstub a ha
          · cases ha
        · exact cellAccesses_inBounds Table.vert_edges _ rc cc rfl rfl
            (hcells_col _ _ _ rc cc c0 c1 hmin.1 hmax) a ha
      · rw [if_neg hr] at ha
        cases ha
    · split_ifs at ha
      · exact cellAccesses_inBounds Table.horiz_edges _ rc cc rfl rfl
          (hcells_row _ _ _ rc cc (by omega) (by omega) (by omega) (by omega)) a ha
      · exact cellAccesses_inBounds Table.horiz_edges _ rc cc rfl rfl
          (hcells_row _ _ _ rc cc (by omega) (by omega) (by omega) (by omega)) a ha
      · cases ha
    · have hfin : ∀ a ∈ cellAccesses Table.vert_edges
          ((intRange end_.row end_.row).map (fun r => (r, end_.col + 1))), a.InBounds rc cc :=
        cellAccesses_inBounds Table.vert_edges _ rc cc rfl rfl
          (hcells_col _ _ _ rc cc (by omega) (by omega) e1 e2)
      split_ifs at ha
      all_goals first
        | exact hfin a ha
        | cases ha

/-- The waypoints of a routed edge lie in the grid. -/
theorem routeEdge_points_inBounds (t : Lanes) (edge_valid : Matrix) (start end_ : GridBlock)
    (e : GridEdge) (t1 : Lanes) (rc cc : Int) (hn : edge_valid.ncols = cc + 1)
    (hs : 0 ≤ start.row ∧ start.row + 1 ≤ rc ∧ 0 ≤ start.col ∧ start.col + 1 ≤ cc)
    (he : 0 ≤ end_.row ∧ end_.row ≤ rc ∧ 0 ≤ end_.col ∧ end_.col + 1 ≤ cc)
    (h : routeEdge t edge_valid start end_ = some (e, t1)) :
    ∀ p ∈ e.points, 0 ≤ p.row ∧ p.row ≤ rc ∧ 0 ≤ p.col ∧ p.col ≤ cc := by
  obtain ⟨s1, s2, s3, s4⟩ := hs
  obtain ⟨e1, e2, e3, e4⟩ := he
  obtain ⟨col, hc, heq⟩ := routeEdge_eq t edge_valid start end_ e t1 h
  obtain ⟨c0, c1⟩ := chooseColumn_range edge_valid start end_ _ _ col cc hn s3 s4 hc
  have h1 : e = (routeFinish end_ (routeToEnd end_ col (routeToRow start end_ col
      (if end_.row < start.row + 1 then end_.row else start.row + 1)
      (if end_.row < start.row + 1 then start.row + 1 else end_.row) (stubIndex t start)
      (routeToColumn start col (routeStart t start end_))))).1 := by rw [← heq]
  have hcells : cellsOf e.points =
      [(start.row + 1, start.col + 1)]
        ++ (if col ≠ start.col + 1 then [(start.row + 1, col)] else [])
        ++ (if end_.row ≠ start.row + 1 then [(end_.row, col)] else [])
        ++ (if col ≠ end_.col + 1 then [(end_.row, end_.col + 1)] else []) := by
    rw [h1, (routeFinish_cells _ _).1, (routeToEnd_cells _ _ _).1,
      (routeToRow_cells _ _ _ _ _ _ _).1, (routeToColumn_cells _ _ _).1,
      (routeStart_cells _ _ _).1]
  intro p hp
  have hm : (p.row, p.col) ∈ cellsOf e.points := by
    unfold cellsOf
    exact List.mem_map.2 ⟨p, hp, rfl⟩
  rw [hcells] at hm
  simp only [List.mem_append, List.mem_singleton] at hm
  rcases hm with ((hm | hm) | hm) | hm
  · simp only [Prod.mk.injEq] at hm
    omega
  · split_ifs at hm
    · simp only [List.mem_singleton, Prod.mk.injEq] at hm
      omega
    · cases hm
  · split_ifs at hm
    · simp only [List.mem_singleton, Prod.mk.injEq] at hm
      omega
    · cases hm
  · split_ifs at hm
    · simp only [List.mem_singleton, Prod.mk.injEq] at hm
      omega
    · cases hm

theorem traceAccesses_inBounds (pts : List Point) (start_col : Int) (rc cc : Int)
    (h : ∀ p ∈ pts, 0 ≤ p.row ∧ p.row ≤ rc ∧ 0 ≤ p.col ∧ p.col ≤ cc) :
    ∀ a ∈ traceAccesses pts start_col, a.InBounds rc cc := by
  induction pts generalizing start_col with
  | nil => intro a ha; cases ha
  | cons p ps ih =>
    intro a ha
    obtain ⟨b1, b2, b3, b4⟩ := h p (List.mem_cons_self _ _)
    unfold traceAccesses at ha
    rcases List.mem_cons.1 ha with rfl | ha
    · split_ifs
      · exact vector_inBounds _ _ _ _ b1 (by show p.row < rc + 1; omega)
      · exact vector_inBounds _ _ _ _ b3 (by show p.col < cc + 1; omega)
    · exact ih _ (fun q hq => h q (List.mem_cons_of_mem _ hq)) a ha

theorem polylineAccesses_inBounds (edge : GridEdge) (rc cc : Int)
    (h : ∀ p ∈ edge.points, 0 ≤ p.row ∧ p.row ≤ rc ∧ 0 ≤ p.col ∧ p.col ≤ cc) :
    ∀ a ∈ polylineAccesses edge, a.InBounds rc cc := by
  intro a ha
  unfold polylineAccesses at ha
  cases hp : edge.points with
  | nil =>
    rw [hp] at ha
    cases ha
  | cons p0 ps =>
    rw [hp] at ha h
    simp only at ha
    obtain ⟨b1, b2, b3, b4⟩ := h p0 (List.mem_cons_self _ _)
    rcases List.mem_cons.1 ha with rfl | ha
    · exact vector_inBounds _ _ _ _ b3 (by show p0.col < cc + 1; omega)
    · exact traceAccesses_inBounds _ _ rc cc h a ha
/-- After the grid stage every grid block, placed or not, lies in the grid
that the entry spans, with a row below it and two columns of its own. -/
theorem GridStageOK.cell_bounds {layoutType : LayoutType} {blocks : Blocks} {entry : Nat}
    {r : TopoResult} (ok : GridStageOK layoutType blocks entry r) (k : Nat) :
    0 ≤ (r.grid k).row ∧ (r.grid k).row + 1 ≤ (r.grid entry).row_count ∧
    0 ≤ (r.grid k).col ∧ (r.grid k).col + 2 ≤ (r.grid entry).col_count := by
  obtain ⟨_, p2, p3, p4⟩ := ok.placed
  by_cases hk : k ∈ r.order
  · obtain ⟨a1, a2, a3, a4⟩ := p4 k ((ok.order_tree k).1 hk)
    omega
  · obtain ⟨a1, a2⟩ := ok.outside k hk
    omega

/-- C22. On a well-formed node map whose entry is a key (unreachable nodes and
edges to absent targets allowed), under each layout type and for all margins,
`CalculateLayout` returns and every index it and its `routeEdge` calls use into
`horiz_edges`, `vert_edges`, `edge_valid`, `col_edge_count`, `row_edge_count`,
`col_width`, `row_height`, `col_x`, `row_y`, `col_edge_x` and `row_edge_y` lies
within the bounds of the table as sized from the `row_count` and the
`col_count` of the entry. -/
theorem indexes_within_bounds (cfg : LayoutConfig) (layoutType : LayoutType)
    (blocks : Blocks) (entry : Nat) (hw : WellFormed blocks) (hin : entry ∈ keysOf blocks) :
    ∃ r res acc,
      gridStage layoutType blocks entry = some r ∧
      CalculateLayout cfg layoutType blocks entry = some res ∧
      layoutAccesses layoutType blocks entry = some acc ∧
      ∀ a ∈ acc, a.InBounds (r.grid entry).row_count (r.grid entry).col_count := by
  obtain ⟨r, edges, t, hr, ok, hroute, hres⟩ :=
    CalculateLayout_total cfg layoutType blocks entry hw hin
  have hb := ok.cell_bounds
  have hacc : layoutAccesses layoutType blocks entry
      = some
        (prepareAccesses r.grid r.gridKeys (r.grid entry).row_count ++
          routingAccesses r.blocks r.grid
            (nodeCells r.grid r.gridKeys ((r.grid entry).col_count + 1)) r.order ++
          countAccesses (r.grid entry).row_count (r.grid entry).col_count ++
          sizeAccesses r.blocks r.grid ++
          bandAccesses (r.grid entry).row_count (r.grid entry).col_count ++
          nodeAccesses r.blocks r.grid ++
          compileAccesses r.blocks edges) := by
    unfold layoutAccesses
    simp only [hr, hroute]
  refine ⟨r, _, _, hr, hres, hacc, ?_⟩
  generalize hrc : (r.grid entry).row_count = rc at hb ⊢
  generalize hcc : (r.grid entry).col_count = cc at hb ⊢
  intro a ha
  simp only [List.mem_append] at ha
  rcases ha with (((((ha | ha) | ha) | ha) | ha) | ha) | ha
  · -- lines 137-146
    unfold prepareAccesses at ha
    rcases List.mem_append.1 ha with ha | ha
    · obtain ⟨row, hrow, ha⟩ := List.mem_flatMap.1 ha
      rw [mem_intRange] at hrow
      simp only [List.mem_cons, List.mem_singleton, List.not_mem_nil, or_false] at ha
      rcases ha with rfl | rfl | rfl <;>
      exact vector_inBounds _ _ _ _ (by omega) (by simp only [Table.size]; omega)
    · obtain ⟨k, _, rfl⟩ := List.mem_map.1 ha
      obtain ⟨b1, b2, b3, b4⟩ := hb k
      refine ⟨b1, by simp only [Table.size]; omega, ?_⟩
      intro j hj
      have hj2 : j = (r.grid k).col + 1 := by
        have : some ((r.grid k).col + 1) = some j := hj
        exact (Option.some.inj this).symm
      subst hj2
      simp only [Table.rowSize]
      omega
  · -- lines 149-157
    unfold routingAccesses at ha
    obtain ⟨job, hjob, ha⟩ := List.mem_flatMap.1 ha
    unfold routeJobs at hjob
    obtain ⟨blockId, _, hjob⟩ := List.mem_flatMap.1 hjob
    obtain ⟨e, _, rfl⟩ := List.mem_map.1 hjob
    obtain ⟨b1, b2, b3, b4⟩ := hb blockId
    obtain ⟨c1, c2, c3, c4⟩ := hb e.target
    refine routeEdgeAccesses_inBounds _ _ _ rc cc ?_ ⟨b1, b2, b3, by omega⟩
      ⟨c1, by omega, c3, by omega⟩ a ha
    rw [nodeCells_ncols]
  · -- lines 164-171
    unfold countAccesses at ha
    obtain ⟨row, hrow, ha⟩ := List.mem_flatMap.1 ha
    obtain ⟨col, hcol, ha⟩ := List.mem_flatMap.1 ha
    rw [mem_intRange] at hrow hcol
    simp only [List.mem_cons, List.mem_singleton, List.not_mem_nil, or_false] at ha
    have hcell : ∀ tb : Table, tb.size rc cc = rc + 1 → tb.rowSize cc = cc + 1 →
        Access.InBounds { table := tb, i := row, j := some col } rc cc := by
      intro tb h1 h2
      exact cellAccesses_inBounds tb [(row, col)] rc cc h1 h2
        (fun p hp => by
          rw [List.mem_singleton] at hp
          subst hp
          simp only
          omega) _ (List.mem_singleton_self _)
    rcases ha with rfl | rfl | rfl | rfl
    · exact hcell _ rfl rfl
    · exact vector_inBounds _ _ _ _ (by omega) (by simp only [Table.size]; omega)
    · exact hcell _ rfl rfl
    · exact vector_inBounds _ _ _ _ (by omega) (by simp only [Table.size]; omega)
  · -- lines 177-186
    unfold sizeAccesses at ha
    obtain ⟨kb, _, ha⟩ := List.mem_flatMap.1 ha
    obtain ⟨b1, b2, b3, b4⟩ := hb kb.1
    simp only [List.mem_cons, List.mem_singleton, List.not_mem_nil, or_false] at ha
    rcases ha with rfl | rfl | rfl <;>
    exact vector_inBounds _ _ _ _ (by omega) (by simp only [Table.size]; omega)
  · -- lines 194-215
    obtain ⟨_, p2, p3, _⟩ := ok.placed
    rw [hcc] at p2
    rw [hrc] at p3
    unfold bandAccesses at ha
    simp only [List.mem_append] at ha
    rcases ha with (ha | ha) | ha
    · obtain ⟨i, hi, ha⟩ := List.mem_flatMap.1 ha
      rw [mem_intRange] at hi
      simp only [List.mem_cons, List.mem_singleton, List.not_mem_nil, or_false] at ha
      rcases ha with rfl | rfl | rfl | rfl <;>
      exact vector_inBounds _ _ _ _ (by omega) (by simp only [Table.size]; omega)
    · obtain ⟨i, hi, ha⟩ := List.mem_flatMap.1 ha
      rw [mem_intRange] at hi
      simp only [List.mem_cons, List.mem_singleton, List.not_mem_nil, or_false] at ha
      rcases ha with rfl | rfl | rfl | rfl <;>
      exact vector_inBounds _ _ _ _ (by omega) (by simp only [Table.size]; omega)
    · simp only [List.mem_cons, List.mem_singleton, List.not_mem_nil, or_false] at ha
      rcases ha with rfl | rfl | rfl | rfl <;>
      exact vector_inBounds _ _ _ _ (by omega) (by simp only [Table.size]; omega)
  · -- lines 219-236
    unfold nodeAccesses at ha
    obtain ⟨kb, _, ha⟩ := List.mem_flatMap.1 ha
    obtain ⟨b1, b2, b3, b4⟩ := hb kb.1
    simp only [List.mem_cons, List.mem_singleton, List.not_mem_nil, or_false] at ha
    rcases ha with rfl | rfl | rfl | rfl | rfl <;>
    exact vector_inBounds _ _ _ _ (by omega) (by simp only [Table.size]; omega)
  · -- lines 239-284
    unfold compileAccesses at ha
    obtain ⟨kb, hkb, ha⟩ := List.mem_flatMap.1 ha
    obtain ⟨ge, hge, ha⟩ := List.mem_flatMap.1 ha
    rw [ok.blocks_eq] at hkb
    rw [hw.2 kb hkb] at hge
    refine polylineAccesses_inBounds ge rc cc ?_ a ha
    by_cases hk : kb.1 ∈ r.order
    · have hfa := routeStage_at layoutType blocks entry hw r ok edges t hroute kb.1 hk
      obtain ⟨e, _, ta, tb, hre⟩ := forall2_right hfa ge hge
      rw [hcc] at hre
      obtain ⟨b1, b2, b3, b4⟩ := hb kb.1
      obtain ⟨c1, c2, c3, c4⟩ := hb e.target
      refine routeEdge_points_inBounds ta _ _ _ ge tb rc cc ?_ ⟨b1, b2, b3, by omega⟩
        ⟨c1, by omega, c3, by omega⟩ hre
      rw [nodeCells_ncols]
    · unfold routeStage at hroute
      rw [routeAll_frame _ _ _ _ _ _ _ _ hroute kb.1 hk] at hge
      rw [initEdges_fresh r.blocks kb.1 ge hge]
      intro p hp
      cases hp

/-- Witness for `indexes_within_bounds`: node 1 with one edge to the absent
node 2, laid out from node 1 under Narrow. -/
theorem indexes_within_bounds_witness :
    WellFormed danglingMap ∧ 1 ∈ keysOf danglingMap ∧
    ∃ r res acc,
      gridStage LayoutType.Narrow danglingMap 1 = some r ∧
      CalculateLayout sampleConfig LayoutType.Narrow danglingMap 1 = some res ∧
      layoutAccesses LayoutType.Narrow danglingMap 1 = some acc ∧
      ∀ a ∈ acc, a.InBounds (r.grid 1).row_count (r.grid 1).col_count :=
  ⟨by decide, by decide,
    indexes_within_bounds sampleConfig LayoutType.Narrow danglingMap 1 (by decide) (by decide)⟩

end GraphGridLayout
